import Mathlib

/-!
# Compiler_design: a shallow embedding of the two compilers

The repository holds two compilers for a small C-like language that emit
32-bit x86 assembly text (Intel syntax):

* `compilelab1/compilelab1.cpp`: a hand-written lexer and a single-pass
  recursive-descent compiler that emits code while parsing;
* `compilelab2/codegen.cpp` with `node.h`, `codegen.h`: a code generator
  walking an AST that an external parser builds.

Modelling conventions.

* Every line written to the output is one `Instr`; `Instr.render2` and
  `Instr.render1` give the exact text the two programs print.
* C++ `int` values are modelled by `Int`.  Signed overflow is undefined in
  C++; the counters involved (`current_offset`, `label_count`, `stackIndex`)
  only grow by 4 or by 1 per source construct.
* In compilelab2 a C++ exception is modelled by an error result; the mutable
  context and the text printed so far survive the exception, so every
  generator returns the final state next to its result.
* In compilelab1 an exception ends `compile()` before anything is printed,
  so a parser function returns either the next compiler state or the error.
  The recursive-descent functions take a recursion budget and report
  `out_of_fuel` when it is used up; the loops of the lexer get a budget that
  always suffices.
* Emitted code is run on `Machine`, a 32-bit model of the instructions the
  two compilers emit.
* The lexer is a cursor on the characters it still has to read
  (`Lexer.stream`), the parser a consumer of the tokens the lexer delivers
  (`Compiler.lookahead`); statements about whole phrases are made over these
  two sequences, and `ParsesTo` says that a parse function returns a given
  state for every recursion budget that is large enough.
-/

namespace CompilerDesign

/-! ## Emitted assembly -/

/-- Registers named in the emitted text. -/
inductive Reg where
  | eax | ebx | ecx | edx | ebp | esp
  deriving DecidableEq

/-- Condition codes of the `setCC al` lines. -/
inductive CC where
  | e | ne | l | le | g | ge
  deriving DecidableEq

/-- Labels of the emitted text.  `L_else n`, `L_end n` and `L_cond n` are the
control-flow labels `.L_else_n`, `.L_end_n`, `.L_cond_n` of compilelab2;
`L_false n` and `L_end1 n` are `_L_falsen` and `_L_endn` of compilelab1;
`named s` is a function label. -/
inductive Label where
  | L_else (n : Int)
  | L_end (n : Int)
  | L_cond (n : Int)
  | L_false (n : Int)
  | L_end1 (n : Int)
  | named (s : String)
  deriving DecidableEq

/-- Operands of the emitted instructions. -/
inductive Operand where
  /-- A register. -/
  | reg (r : Reg)
  /-- An immediate printed from a C++ `int`. -/
  | imm (v : Int)
  /-- An immediate printed from the text of a literal token (compilelab1). -/
  | lit (text : String)
  /-- The slot `DWORD PTR [ebp-offset]`, printed by compilelab2. -/
  | ebp_minus (offset : Int)
  /-- The slot `DWORD PTR [ebp<index>]` with `index` printed by
  `std::to_string`, as compilelab1 does (`index` is negative there). -/
  | ebp_rel (index : Int)
  /-- A global `DWORD PTR [name]`. -/
  | global (name : String)
  /-- The word `DWORD PTR [esp]`. -/
  | esp_top
  /-- The address `offset format_str`. -/
  | format_str
  deriving DecidableEq

/-- One line of emitted assembly. -/
inductive Instr where
  | push (src : Operand)
  | pop (dst : Reg)
  | mov (dst src : Operand)
  | add (dst : Reg) (src : Operand)
  | sub (dst : Reg) (src : Operand)
  | imul (dst : Reg) (src : Operand)
  | and_ (dst : Reg) (src : Operand)
  | or_ (dst : Reg) (src : Operand)
  | xor_ (dst : Reg) (src : Operand)
  | cmp (dst : Reg) (src : Operand)
  | neg (dst : Reg)
  | not_ (dst : Reg)
  | cdq
  | idiv (src : Reg)
  | setcc (c : CC)
  | movzx_eax_al
  | call (name : String)
  | leave
  | ret
  | jmp (target : Label)
  | je (target : Label)
  | label (l : Label)
  | global (name : String)
  deriving DecidableEq

def Reg.render : Reg → String
  | .eax => "eax" | .ebx => "ebx" | .ecx => "ecx"
  | .edx => "edx" | .ebp => "ebp" | .esp => "esp"

def CC.render : CC → String
  | .e => "sete" | .ne => "setne" | .l => "setl"
  | .le => "setle" | .g => "setg" | .ge => "setge"

def Label.render : Label → String
  | .L_else n => ".L_else_" ++ toString n
  | .L_end n => ".L_end_" ++ toString n
  | .L_cond n => ".L_cond_" ++ toString n
  | .L_false n => "_L_false" ++ toString n
  | .L_end1 n => "_L_end" ++ toString n
  | .named s => s

def Operand.render : Operand → String
  | .reg r => r.render
  | .imm v => toString v
  | .lit text => text
  | .ebp_minus offset => "DWORD PTR [ebp-" ++ toString offset ++ "]"
  | .ebp_rel index => "DWORD PTR [ebp" ++ toString index ++ "]"
  | .global name => "DWORD PTR [" ++ name ++ "]"
  | .esp_top => "DWORD PTR [esp]"
  | .format_str => "offset format_str"

/-- Text of a line without its indentation. -/
def Instr.body : Instr → String
  | .push src => "push " ++ src.render
  | .pop dst => "pop " ++ dst.render
  | .mov dst src => "mov " ++ dst.render ++ ", " ++ src.render
  | .add dst src => "add " ++ dst.render ++ ", " ++ src.render
  | .sub dst src => "sub " ++ dst.render ++ ", " ++ src.render
  | .imul dst src => "imul " ++ dst.render ++ ", " ++ src.render
  | .and_ dst src => "and " ++ dst.render ++ ", " ++ src.render
  | .or_ dst src => "or " ++ dst.render ++ ", " ++ src.render
  | .xor_ dst src => "xor " ++ dst.render ++ ", " ++ src.render
  | .cmp dst src => "cmp " ++ dst.render ++ ", " ++ src.render
  | .neg dst => "neg " ++ dst.render
  | .not_ dst => "not " ++ dst.render
  | .cdq => "cdq"
  | .idiv src => "idiv " ++ src.render
  | .setcc c => c.render ++ " al"
  | .movzx_eax_al => "movzx eax, al"
  | .call name => "call " ++ name
  | .leave => "leave"
  | .ret => "ret"
  | .jmp target => "jmp " ++ target.render
  | .je target => "je " ++ target.render
  | .label l => l.render ++ ":"
  | .global name => ".global " ++ name

/-- The line as `codegen.cpp` prints it: instructions are indented by two
blanks, labels and `.global` start the line. -/
def Instr.render2 : Instr → String
  | .label l => l.render ++ ":"
  | .global name => ".global " ++ name
  | i => "  " ++ i.body

/-- The line as `compilelab1.cpp` stores it: `emit` prefixes a tab,
`emitLabel` appends a colon. -/
def Instr.render1 : Instr → String
  | .label l => l.render ++ ":"
  | i => "\t" ++ i.body

/-! ## compilelab2: `codegen.h`, `node.h` -/

/-- A `std::map<std::string, int>`: the first pair with a key is its
binding. -/
abbrev SymbolTable := List (String × Int)

/-- The call `m.find(name)`: the value bound to `name`, if any. -/
def SymbolTable.find (m : SymbolTable) (name : String) : Option Int :=
  match m with
  | [] => none
  | (k, v) :: rest => if k = name then some v else SymbolTable.find rest name

/-- The call `m.count(name)` as a truth value. -/
def SymbolTable.count (m : SymbolTable) (name : String) : Bool :=
  (m.find name).isSome

/-- The assignment `m[name] = v`: rebinds `name` or inserts it. -/
def SymbolTable.assign : SymbolTable → String → Int → SymbolTable
  | [], name, v => [(name, v)]
  | (k, w) :: rest, name, v =>
    if k = name then (k, v) :: rest else (k, w) :: SymbolTable.assign rest name v

/-- The class `CodeGenContext` of `codegen.h`.  The two stacks are lists
whose head is the top. -/
structure CodeGenContext where
  function_table : SymbolTable
  symbol_table_stack : List SymbolTable
  current_offset : Int
  loop_labels : List (Int × Int)
  deriving DecidableEq

/-- The `std::runtime_error`s thrown by `codegen.cpp`, one constructor per
message, and `undefined_behaviour` for `top()` on an empty stack. -/
inductive CompileError where
  /-- Error: Redeclaration of variable NAME. -/
  | redeclaration (name : String)
  /-- Error: Undeclared variable NAME. -/
  | undeclared (name : String)
  /-- Error: break or continue used outside of a loop. -/
  | outside_loop
  /-- Error: LHS of assignment must be a variable. -/
  | lhs_not_variable
  /-- Error: println_int expects 1 argument. -/
  | println_arity
  /-- The call `top()` on an empty `std::stack`. -/
  | undefined_behaviour
  deriving DecidableEq

/-- What a run of the generator can touch: the context, the global
`label_count` and the text written to `std::cout`. -/
structure GenState where
  context : CodeGenContext
  label_count : Int
  out : List Instr
  deriving DecidableEq

/-- A `void` or value-returning member function that may throw: it returns
its result (or the exception) together with the state it leaves. -/
def Gen (α : Type) : Type := GenState → Except CompileError α × GenState

def Gen.pure {α : Type} (a : α) : Gen α := fun s => (.ok a, s)

def Gen.bind {α β : Type} (m : Gen α) (f : α → Gen β) : Gen β := fun s =>
  match m s with
  | (.ok a, s1) => f a s1
  | (.error e, s1) => (.error e, s1)

instance : Monad Gen where
  pure := Gen.pure
  bind := Gen.bind

/-- A `throw std::runtime_error(...)`. -/
def Gen.throw {α : Type} (e : CompileError) : Gen α := fun s => (.error e, s)

/-- One line written to `std::cout`. -/
def emit (i : Instr) : Gen Unit := fun s => (.ok (), { s with out := s.out ++ [i] })

/-- The expression `label_count++`. -/
def next_label : Gen Int := fun s => (.ok s.label_count, { s with label_count := s.label_count + 1 })

/-- An update of the context that cannot throw. -/
def modify_context (f : CodeGenContext → CodeGenContext) : Gen Unit :=
  fun s => (.ok (), { s with context := f s.context })

/-- A member function of the context that may throw, run on the state. -/
def lift_context {α : Type} (f : CodeGenContext → Except CompileError α × CodeGenContext) : Gen α :=
  fun s => ((f s.context).1, { s with context := (f s.context).2 })

def CodeGenContext.push_scope (c : CodeGenContext) : CodeGenContext :=
  { c with symbol_table_stack := [] :: c.symbol_table_stack, current_offset := 0 }

def CodeGenContext.pop_scope (c : CodeGenContext) : CodeGenContext :=
  match c.symbol_table_stack with
  | [] => c
  | _ :: rest => { c with symbol_table_stack := rest }

def CodeGenContext.add_variable (c : CodeGenContext) (name : String) :
    Except CompileError Unit × CodeGenContext :=
  match c.symbol_table_stack with
  | [] => (.error .undefined_behaviour, c)
  | top :: rest =>
    if top.count name then (.error (.redeclaration name), c)
    else
      (.ok (), { c with current_offset := c.current_offset + 4,
                        symbol_table_stack := top.assign name (c.current_offset + 4) :: rest })

def CodeGenContext.get_variable_offset (c : CodeGenContext) (name : String) :
    Except CompileError Int × CodeGenContext :=
  match c.symbol_table_stack with
  | [] => (.error .undefined_behaviour, c)
  | current_scope :: _ =>
    match current_scope.find name with
    | none => (.error (.undeclared name), c)
    | some offset => (.ok offset, c)

def CodeGenContext.get_stack_size (c : CodeGenContext) : Int :=
  Int.land (c.current_offset + 15) (Int.not 15)

def CodeGenContext.push_loop_labels (c : CodeGenContext) (continue_label break_label : Int) :
    CodeGenContext :=
  { c with loop_labels := (continue_label, break_label) :: c.loop_labels }

def CodeGenContext.pop_loop_labels (c : CodeGenContext) : CodeGenContext :=
  match c.loop_labels with
  | [] => c
  | _ :: rest => { c with loop_labels := rest }

def CodeGenContext.get_current_loop_labels (c : CodeGenContext) :
    Except CompileError (Int × Int) × CodeGenContext :=
  match c.loop_labels with
  | [] => (.error .outside_loop, c)
  | top :: _ => (.ok top, c)

/-- The `Expression` classes of `node.h`. -/
inductive Expression where
  | Integer (value : Int)
  | Identifier (name : String)
  | BinaryOperator (op : String) (lhs rhs : Expression)
  | UnaryOperator (op : String) (rhs : Expression)
  | FunctionCall (name : String) (arguments : List Expression)

/-- The `Statement` classes of `node.h`.  `else_block` and the initialiser of
a declaration are the two pointers `codegen` tests for null. -/
inductive Statement where
  | Block (statements : List Statement)
  | VariableDeclaration (declarations : List (String × Option Expression))
  | ExpressionStatement (expression : Expression)
  | ReturnStatement (expression : Expression)
  | IfStatement (condition : Expression) (then_block : Statement) (else_block : Option Statement)
  | WhileStatement (condition : Expression) (body : Statement)
  | BreakStatement
  | ContinueStatement

/-- The class `FunctionDefinition`: `params` holds the `declarations` of each
parameter node, `body` the statements of the body `Block`. -/
structure FunctionDefinition where
  type : String
  name : String
  params : List (List (String × Option Expression))
  body : List Statement

/-- The class `Program`. -/
structure Program where
  functions : List FunctionDefinition

/-! ## compilelab2: `codegen.cpp` -/

def Gen.add_variable (name : String) : Gen Unit :=
  lift_context (fun c => c.add_variable name)

def Gen.get_variable_offset (name : String) : Gen Int :=
  lift_context (fun c => c.get_variable_offset name)

def Gen.get_current_loop_labels : Gen (Int × Int) :=
  lift_context (fun c => c.get_current_loop_labels)

/-- The loop of `VariableDeclaration::preprocess`. -/
def preprocess_declarations : List (String × Option Expression) → Gen Unit
  | [] => pure ()
  | decl :: rest => do
    Gen.add_variable decl.1
    preprocess_declarations rest

mutual
/-- The virtual `preprocess`: `Block`, `VariableDeclaration`, `IfStatement`
and `WhileStatement` override it, every other node inherits the empty body of
`Node::preprocess`. -/
def Statement.preprocess : Statement → Gen Unit
  | .Block statements => preprocess_statements statements
  | .VariableDeclaration declarations => preprocess_declarations declarations
  | .IfStatement _ then_block else_block => do
    then_block.preprocess
    preprocess_else else_block
  | .WhileStatement _ body => body.preprocess
  | .ExpressionStatement _ => pure ()
  | .ReturnStatement _ => pure ()
  | .BreakStatement => pure ()
  | .ContinueStatement => pure ()
/-- The loop of `Block::preprocess`. -/
def preprocess_statements : List Statement → Gen Unit
  | [] => pure ()
  | stmt :: rest => do
    stmt.preprocess
    preprocess_statements rest
/-- The guarded call `if (else_block) else_block->preprocess(context)`. -/
def preprocess_else : Option Statement → Gen Unit
  | none => pure ()
  | some else_block => else_block.preprocess
end

/-- The chain `if (op == "-") ... else if (op == "~") ... else if (op == "!")`
of `UnaryOperator::codegen`, between `pop eax` and `push eax`. -/
def unary_operation (op : String) : Gen Unit :=
  if op = "-" then
    emit (.neg .eax)
  else if op = "~" then
    emit (.not_ .eax)
  else if op = "!" then do
    emit (.cmp .eax (.imm 0))
    emit (.setcc .e)
    emit .movzx_eax_al
  else pure ()

/-- The chain over `op` of `BinaryOperator::codegen`, between `pop ebx` and
`push eax`. -/
def binary_operation (op : String) : Gen Unit :=
  if op = "+" then emit (.add .eax (.reg .ebx))
  else if op = "-" then emit (.sub .eax (.reg .ebx))
  else if op = "*" then emit (.imul .eax (.reg .ebx))
  else if op = "/" ∨ op = "%" then do
    emit .cdq
    emit (.idiv .ebx)
    (if op = "%" then emit (.mov (.reg .eax) (.reg .edx)) else pure ())
  else if op = "&&" then do
    emit (.and_ .eax (.reg .ebx))
    emit (.cmp .eax (.imm 0))
    emit (.setcc .ne)
    emit .movzx_eax_al
  else if op = "||" then do
    emit (.or_ .eax (.reg .ebx))
    emit (.cmp .eax (.imm 0))
    emit (.setcc .ne)
    emit .movzx_eax_al
  else if op = "&" then emit (.and_ .eax (.reg .ebx))
  else if op = "|" then emit (.or_ .eax (.reg .ebx))
  else if op = "^" then emit (.xor_ .eax (.reg .ebx))
  else do
    emit (.cmp .eax (.reg .ebx))
    (if op = "==" then emit (.setcc .e)
     else if op = "!=" then emit (.setcc .ne)
     else if op = "<" then emit (.setcc .l)
     else if op = "<=" then emit (.setcc .le)
     else if op = ">" then emit (.setcc .g)
     else if op = ">=" then emit (.setcc .ge)
     else pure ())
    emit .movzx_eax_al

mutual
def Expression.codegen : Expression → Gen Unit
  | .Integer value => emit (.push (.imm value))
  | .Identifier name => do
    let offset ← Gen.get_variable_offset name
    emit (.mov (.reg .eax) (.ebp_minus offset))
    emit (.push (.reg .eax))
  | .UnaryOperator op rhs => do
    rhs.codegen
    emit (.pop .eax)
    unary_operation op
    emit (.push (.reg .eax))
  | .BinaryOperator op lhs rhs =>
    if op = "=" then
      match lhs with
      | .Identifier name => do
        let offset ← Gen.get_variable_offset name
        rhs.codegen
        emit (.pop .eax)
        emit (.mov (.ebp_minus offset) (.reg .eax))
        emit (.push (.reg .eax))
      | _ => Gen.throw .lhs_not_variable
    else do
      rhs.codegen
      lhs.codegen
      emit (.pop .eax)
      emit (.pop .ebx)
      binary_operation op
      emit (.push (.reg .eax))
  | .FunctionCall name arguments =>
    if name = "println_int" then
      match arguments with
      | [argument] => do
        argument.codegen
        emit (.push .format_str)
        emit (.call "printf")
        emit (.add .esp (.imm 8))
        emit (.push (.imm 0))
      | _ => Gen.throw .println_arity
    else do
      codegen_reversed arguments
      emit (.call name)
      (if !arguments.isEmpty then emit (.add .esp (.imm (arguments.length * 4))) else pure ())
      emit (.push (.reg .eax))
/-- The loop `for (it = arguments.rbegin(); it != arguments.rend(); ++it)`:
the last argument is generated first. -/
def codegen_reversed : List Expression → Gen Unit
  | [] => pure ()
  | argument :: rest => do
    codegen_reversed rest
    argument.codegen
end

/-- The loop of `VariableDeclaration::codegen`: only a declaration with an
initialiser emits code. -/
def codegen_declarations : List (String × Option Expression) → Gen Unit
  | [] => pure ()
  | decl :: rest => do
    match decl.2 with
    | some init => do
      let offset ← Gen.get_variable_offset decl.1
      init.codegen
      emit (.pop .eax)
      emit (.mov (.ebp_minus offset) (.reg .eax))
    | none => pure ()
    codegen_declarations rest

/-- The test `func_call && func_call->name == "println_int"` of
`ExpressionStatement::codegen`. -/
def is_void_call : Expression → Bool
  | .FunctionCall name _ => name = "println_int"
  | _ => false

mutual
def Statement.codegen : Statement → Gen Unit
  | .Block statements => codegen_statements statements
  | .VariableDeclaration declarations => codegen_declarations declarations
  | .ExpressionStatement expression => do
    expression.codegen
    (if !is_void_call expression then emit (.add .esp (.imm 4)) else pure ())
  | .ReturnStatement expression => do
    expression.codegen
    emit (.pop .eax)
    emit .leave
    emit .ret
  | .IfStatement condition then_block else_block => do
    let else_label ← next_label
    let end_label ← next_label
    condition.codegen
    emit (.pop .eax)
    emit (.cmp .eax (.imm 0))
    (if else_block.isSome then emit (.je (.L_else else_label))
     else emit (.je (.L_end end_label)))
    then_block.codegen
    codegen_else else_label end_label else_block
    emit (.label (.L_end end_label))
  | .WhileStatement condition body => do
    let cond_label ← next_label
    let end_label ← next_label
    modify_context (fun c => c.push_loop_labels cond_label end_label)
    emit (.label (.L_cond cond_label))
    condition.codegen
    emit (.pop .eax)
    emit (.cmp .eax (.imm 0))
    emit (.je (.L_end end_label))
    body.codegen
    emit (.jmp (.L_cond cond_label))
    emit (.label (.L_end end_label))
    modify_context (fun c => c.pop_loop_labels)
  | .BreakStatement => do
    let labels ← Gen.get_current_loop_labels
    emit (.jmp (.L_end labels.2))
  | .ContinueStatement => do
    let labels ← Gen.get_current_loop_labels
    emit (.jmp (.L_cond labels.1))
/-- The loop of `Block::codegen`. -/
def codegen_statements : List Statement → Gen Unit
  | [] => pure ()
  | stmt :: rest => do
    stmt.codegen
    codegen_statements rest
/-- The second `if (else_block)` of `IfStatement::codegen`. -/
def codegen_else (else_label end_label : Int) : Option Statement → Gen Unit
  | none => pure ()
  | some else_block => do
    emit (.jmp (.L_end end_label))
    emit (.label (.L_else else_label))
    else_block.codegen
end

/-- The inner loop over `param->declarations` shared by
`FunctionDefinition::preprocess` and `FunctionDefinition::codegen`; it
returns the next `param_offset`. -/
def bind_declarations (table : SymbolTable) (param_offset : Int) :
    List (String × Option Expression) → SymbolTable × Int
  | [] => (table, param_offset)
  | p_decl :: rest =>
    bind_declarations (table.assign p_decl.1 (-param_offset)) (param_offset + 4) rest

/-- The outer loop over `params`, writing into the top frame. -/
def bind_params (table : SymbolTable) (param_offset : Int) :
    List (List (String × Option Expression)) → SymbolTable × Int
  | [] => (table, param_offset)
  | param :: rest =>
    bind_params (bind_declarations table param_offset param).1
      (bind_declarations table param_offset param).2 rest

/-- The parameter loop applied to `context.symbol_table_stack.top()`. -/
def CodeGenContext.bind_params (c : CodeGenContext)
    (params : List (List (String × Option Expression))) : CodeGenContext :=
  match c.symbol_table_stack with
  | [] => c
  | top :: rest =>
    { c with symbol_table_stack := (CompilerDesign.bind_params top 8 params).1 :: rest }

def FunctionDefinition.preprocess (f : FunctionDefinition) : Gen Unit := do
  modify_context (fun c =>
    { c with function_table := c.function_table.assign f.name f.params.length })
  modify_context (fun c => c.push_scope)
  modify_context (fun c => c.bind_params f.params)
  (Statement.Block f.body).preprocess
  modify_context (fun c => c.pop_scope)

def FunctionDefinition.codegen (f : FunctionDefinition) : Gen Unit := do
  emit (.global f.name)
  emit (.label (.named f.name))
  emit (.push (.reg .ebp))
  emit (.mov (.reg .ebp) (.reg .esp))
  modify_context (fun c => c.push_scope)
  modify_context (fun c => c.bind_params f.params)
  (Statement.Block f.body).preprocess
  let stack_size ← (fun s => (.ok s.context.get_stack_size, s) : Gen Int)
  (if stack_size > 0 then emit (.sub .esp (.imm stack_size)) else pure ())
  (Statement.Block f.body).codegen
  (if f.type = "void" then do
    emit .leave
    emit .ret
   else pure ())
  modify_context (fun c => c.pop_scope)

/-- The loop of `Program::preprocess`. -/
def preprocess_functions : List FunctionDefinition → Gen Unit
  | [] => pure ()
  | func :: rest => do
    func.preprocess
    preprocess_functions rest

/-- The loop of `Program::codegen`. -/
def codegen_functions : List FunctionDefinition → Gen Unit
  | [] => pure ()
  | func :: rest => do
    func.codegen
    codegen_functions rest

def Program.preprocess (p : Program) : Gen Unit := preprocess_functions p.functions

def Program.codegen (p : Program) : Gen Unit := codegen_functions p.functions

/-- The state in which `main` starts: a fresh `CodeGenContext`, the global
`label_count` at its initialiser 0 and nothing printed by the generator. -/
def GenState.initial : GenState :=
  { context := { function_table := [], symbol_table_stack := [], current_offset := 0,
                 loop_labels := [] },
    label_count := 0, out := [] }

/-- The two calls of `main`: `program_root->preprocess(context)` and then
`program_root->codegen(context)`. -/
def compile_program (p : Program) : Gen Unit := do
  p.preprocess
  p.codegen

/-! ## The operand-stack depth counter of the balance property -/

/-- Change of the depth counter by one line: a `push` adds one word, a `pop`
removes one, `add esp, 4n` releases `n` words, every other line leaves the
depth alone. -/
def stack_effect : Instr → Int
  | .push _ => 1
  | .pop _ => -1
  | .add .esp (.imm v) => -(v / 4)
  | _ => 0

/-- Depth after running all of `code` from depth `d`. -/
def depth_after (d : Int) : List Instr → Int
  | [] => d
  | i :: rest => depth_after (d + stack_effect i) rest

/-- The depth reached after each line of `code`, started at depth `d`. -/
def simulate_depth (d : Int) : List Instr → List Int
  | [] => []
  | i :: rest => (d + stack_effect i) :: simulate_depth (d + stack_effect i) rest

/-- Code that, from any depth `d`, stays at or above `d` and ends `k` above. -/
def Pushes (k : Int) (code : List Instr) : Prop :=
  ∀ d : Int, (∀ x ∈ simulate_depth d code, d ≤ x) ∧ depth_after d code = d + k

/-- A generator that always returns normally, touches nothing but the output
and appends only lines satisfying `P`. -/
def Emits (m : Gen Unit) (P : Instr → Prop) : Prop :=
  ∀ s : GenState, ∃ code : List Instr,
    m s = (.ok (), { s with out := s.out ++ code }) ∧ ∀ i ∈ code, P i

/-- Lines that place a label or jump to one. -/
def Instr.is_control : Instr → Bool
  | .label _ => true
  | .jmp _ => true
  | .je _ => true
  | _ => false

/-- Lines of the straight-line operator sequences: no effect on the depth
counter, no label, no jump. -/
def Instr.plain (i : Instr) : Prop :=
  stack_effect i = 0 ∧ i.is_control = false

/-! ## Control-flow labels of the emitted text -/

/-- The control-flow label a line places, if it places one: `.L_else_N:`,
`.L_end_N:` or `.L_cond_N:`. -/
def Instr.control_label : Instr → Option Label
  | .label (.L_else n) => some (.L_else n)
  | .label (.L_end n) => some (.L_end n)
  | .label (.L_cond n) => some (.L_cond n)
  | _ => none

/-- The control-flow labels placed by `code`, in order of placement. -/
def placed_control_labels (code : List Instr) : List Label :=
  code.filterMap Instr.control_label

/-- The number `N` in the name of a numbered label. -/
def Label.number : Label → Int
  | .L_else n => n
  | .L_end n => n
  | .L_cond n => n
  | .L_false n => n
  | .L_end1 n => n
  | .named _ => 0

/-- The numbers of the control-flow labels placed by `code`. -/
def label_numbers (code : List Instr) : List Int :=
  (placed_control_labels code).map Label.number

/-- The control-flow labels placed by `code` carry pairwise different numbers,
all drawn from `lo ≤ N < hi`. -/
def Fresh (lo hi : Int) (code : List Instr) : Prop :=
  (label_numbers code).Nodup ∧ ∀ n ∈ label_numbers code, lo ≤ n ∧ n < hi

/-- A generator none of whose runs, normal or throwing, leaves the relation
`R` between the state it starts in and the state it leaves. -/
def Preserves (R : GenState → GenState → Prop) {α : Type} (m : Gen α) : Prop :=
  ∀ s : GenState, R s (m s).2

/-- What expression code does to the state: context and `label_count` stay,
the output grows by lines that place no label and jump nowhere. -/
def ExprStep (s s' : GenState) : Prop :=
  s'.context = s.context ∧ s'.label_count = s.label_count ∧
    ∃ code, s'.out = s.out ++ code ∧ ∀ i ∈ code, Instr.is_control i = false

/-- What statement code does to the labels: `label_count` never decreases
and the labels placed meanwhile are numbered from the values drawn
meanwhile, each number once. -/
def LabelStep (s s' : GenState) : Prop :=
  s.label_count ≤ s'.label_count ∧
    ∃ code, s'.out = s.out ++ code ∧ Fresh s.label_count s'.label_count code

/-- The search the specification words for `resolve(name)`: frames are tried
innermost-to-outermost and the first binding of `name` wins. -/
def innermost_binding : List SymbolTable → String → Option Int
  | [], _ => none
  | frame :: outer, name =>
    match frame.find name with
    | some offset => some offset
    | none => innermost_binding outer name

/-! ## The names a declaration pre-pass declares -/

mutual
/-- The names handed to `add_variable` by `preprocess`, in call order. -/
def Statement.declared_names : Statement → List String
  | .Block statements => declared_names_statements statements
  | .VariableDeclaration declarations => declarations.map Prod.fst
  | .IfStatement _ then_block else_block =>
    then_block.declared_names ++ declared_names_else else_block
  | .WhileStatement _ body => body.declared_names
  | .ExpressionStatement _ => []
  | .ReturnStatement _ => []
  | .BreakStatement => []
  | .ContinueStatement => []
/-- The names declared by the statements of a `Block`. -/
def declared_names_statements : List Statement → List String
  | [] => []
  | stmt :: rest => stmt.declared_names ++ declared_names_statements rest
/-- The names declared by an optional `else_block`. -/
def declared_names_else : Option Statement → List String
  | none => []
  | some else_block => else_block.declared_names
end

/-- A run of `add_variable` over a list of names, in order. -/
def declare_all : List String → Gen Unit
  | [] => pure ()
  | name :: rest => do
    Gen.add_variable name
    declare_all rest

/-! ## Which sub-statement is generated in which state -/

/-- The call tree of `Statement::codegen`: `Reaches st stmt path st' target`
says that the run of `stmt.codegen` started in state `st` calls
`target.codegen` in state `st'`, every earlier call having returned
normally, and that `path` lists the `(cond_label, end_label)` pairs drawn by
the `WhileStatement`s of `stmt` that enclose `target`, innermost first. -/
inductive Reaches : GenState → Statement → List (Int × Int) → GenState → Statement → Prop
  /-- The run of a statement is a call of its own `codegen`. -/
  | here (st : GenState) (stmt : Statement) : Reaches st stmt [] st stmt
  /-- The loop of `Block::codegen` reaches a statement once those before it
  returned. -/
  | block (st s1 st' : GenState) (before after : List Statement) (stmt target : Statement)
      (path : List (Int × Int))
      (hbefore : codegen_statements before st = (.ok (), s1))
      (hreach : Reaches s1 stmt path st' target) :
      Reaches st (.Block (before ++ stmt :: after)) path st' target
  /-- The run of `IfStatement::codegen` reaches `then_block` after drawing two labels,
  generating the condition and printing `pop eax`, `cmp eax, 0`, `je`. -/
  | if_then (st s1 st' : GenState) (condition : Expression) (then_block : Statement)
      (else_block : Option Statement) (target : Statement) (path : List (Int × Int))
      (hcondition : condition.codegen { st with label_count := st.label_count + 1 + 1 } =
        (.ok (), s1))
      (hreach : Reaches
        { s1 with out := s1.out ++ [.pop .eax] ++ [.cmp .eax (.imm 0)] ++
            [if else_block.isSome then .je (.L_else st.label_count)
             else .je (.L_end (st.label_count + 1))] }
        then_block path st' target) :
      Reaches st (.IfStatement condition then_block else_block) path st' target
  /-- The run of `IfStatement::codegen` reaches `else_block` after `then_block` returned
  and `jmp .L_end_N`, `.L_else_N:` were printed. -/
  | if_else (st s1 s2 st' : GenState) (condition : Expression) (then_block : Statement)
      (else_block : Statement) (target : Statement) (path : List (Int × Int))
      (hcondition : condition.codegen { st with label_count := st.label_count + 1 + 1 } =
        (.ok (), s1))
      (hthen : then_block.codegen
        { s1 with out := s1.out ++ [.pop .eax] ++ [.cmp .eax (.imm 0)] ++
            [.je (.L_else st.label_count)] } = (.ok (), s2))
      (hreach : Reaches
        { s2 with out := s2.out ++ [.jmp (.L_end (st.label_count + 1))] ++
            [.label (.L_else st.label_count)] }
        else_block path st' target) :
      Reaches st (.IfStatement condition then_block (some else_block)) path st' target
  /-- The run of `WhileStatement::codegen` reaches `body` after drawing `cond_label` and
  `end_label`, pushing them on the loop-label stack, placing `.L_cond_N:`,
  generating the condition and printing `pop eax`, `cmp eax, 0`, `je`. -/
  | while_body (st s1 st' : GenState) (condition : Expression) (body : Statement)
      (target : Statement) (path : List (Int × Int))
      (hcondition : condition.codegen
        { context := st.context.push_loop_labels st.label_count (st.label_count + 1),
          label_count := st.label_count + 1 + 1,
          out := st.out ++ [.label (.L_cond st.label_count)] } = (.ok (), s1))
      (hreach : Reaches
        { s1 with out := s1.out ++ [.pop .eax] ++ [.cmp .eax (.imm 0)] ++
            [.je (.L_end (st.label_count + 1))] }
        body path st' target) :
      Reaches st (.WhileStatement condition body)
        (path ++ [(st.label_count, st.label_count + 1)]) st' target

/-- The output only grows: what was printed stays printed. -/
def OutGrows (s s' : GenState) : Prop :=
  ∃ code, s'.out = s.out ++ code

/-! ## compilelab1: the lexer -/

/-- The enumeration `TokenType`. -/
inductive TokenType where
  | T_EOF | T_ILLEGAL
  | T_INT | T_RETURN | T_MAIN
  | T_IDENT | T_LITERAL
  | T_ASSIGN | T_SEMICOLON | T_COMMA
  | T_LPAREN | T_RPAREN | T_LBRACE | T_RBRACE
  | T_PLUS | T_MINUS | T_STAR | T_SLASH | T_PERCENT
  | T_LT | T_LE | T_GT | T_GE | T_EQ | T_NE
  | T_BIT_AND | T_BIT_OR | T_BIT_XOR | T_LOGICAL_AND
  deriving DecidableEq

/-- The struct `Token`. -/
structure Token where
  type : TokenType
  value : String
  deriving DecidableEq

/-- The C library `isspace` in the C locale. -/
def isspace (c : Char) : Bool :=
  c = ' ' || c = '\t' || c = '\n' || c = '\x0b' || c = '\x0c' || c = '\r'

/-- The C library `isalpha` in the C locale. -/
def isalpha (c : Char) : Bool :=
  ('a' ≤ c && c ≤ 'z') || ('A' ≤ c && c ≤ 'Z')

/-- The C library `isdigit`. -/
def isdigit (c : Char) : Bool :=
  '0' ≤ c && c ≤ '9'

/-- The C library `isalnum` in the C locale. -/
def isalnum (c : Char) : Bool :=
  isalpha c || isdigit c

/-- The class `Lexer`: `source` is the text as a sequence of characters, `pos`
the index of the next unread character, `currentChar` the character under
the cursor (`'\0'` once the text is exhausted). -/
structure Lexer where
  source : List Char
  pos : Nat
  currentChar : Char
  deriving DecidableEq

def Lexer.advance (lx : Lexer) : Lexer :=
  if lx.pos ≥ lx.source.length then
    { lx with currentChar := '\x00' }
  else
    { lx with currentChar := lx.source.getD lx.pos '\x00', pos := lx.pos + 1 }

/-- The constructor `Lexer(src)`: `pos = 0`, then `advance()`. -/
def Lexer.new (src : List Char) : Lexer :=
  Lexer.advance { source := src, pos := 0, currentChar := '\x00' }

def Lexer.peek (lx : Lexer) : Char :=
  if lx.pos < lx.source.length then lx.source.getD lx.pos '\x00' else '\x00'

/-- The loop `while (isspace(currentChar)) advance();`.  Every iteration but
the last moves `pos`, so `source.length + 1` iterations are always enough;
that number is the budget `getNextToken` passes. -/
def Lexer.skip_spaces : Nat → Lexer → Lexer
  | 0, lx => lx
  | budget + 1, lx =>
    if isspace lx.currentChar then Lexer.skip_spaces budget lx.advance else lx

/-- The loops `while (p(currentChar)) { text += currentChar; advance(); }` of
`makeIdentifier` and `makeNumber`, with the same budget. -/
def Lexer.read_while (p : Char → Bool) : Nat → Lexer → String → String × Lexer
  | 0, lx, text => (text, lx)
  | budget + 1, lx, text =>
    if p lx.currentChar then
      Lexer.read_while p budget lx.advance (text.push lx.currentChar)
    else (text, lx)

def Lexer.makeIdentifier (lx : Lexer) : Token × Lexer :=
  let r := Lexer.read_while (fun c => isalnum c || c = '_') (lx.source.length + 1) lx ""
  let ident := r.1
  if ident = "int" then ({ type := .T_INT, value := "int" }, r.2)
  else if ident = "return" then ({ type := .T_RETURN, value := "return" }, r.2)
  else if ident = "main" then ({ type := .T_MAIN, value := "main" }, r.2)
  else if ident = "println_int" then ({ type := .T_IDENT, value := "println_int" }, r.2)
  else ({ type := .T_IDENT, value := ident }, r.2)

def Lexer.makeNumber (lx : Lexer) : Token × Lexer :=
  let r := Lexer.read_while isdigit (lx.source.length + 1) lx ""
  ({ type := .T_LITERAL, value := r.1 }, r.2)

/-- The `switch (currentChar)` of `getNextToken` and the `return` behind it. -/
def Lexer.symbol (lx : Lexer) : Token × Lexer :=
  let c := lx.currentChar
  if c = '\x00' then ({ type := .T_EOF, value := "" }, lx)
  else if c = '=' then
    if lx.peek = '=' then ({ type := .T_EQ, value := "==" }, lx.advance.advance)
    else ({ type := .T_ASSIGN, value := "=" }, lx.advance)
  else if c = ';' then ({ type := .T_SEMICOLON, value := ";" }, lx.advance)
  else if c = ',' then ({ type := .T_COMMA, value := "," }, lx.advance)
  else if c = '(' then ({ type := .T_LPAREN, value := "(" }, lx.advance)
  else if c = ')' then ({ type := .T_RPAREN, value := ")" }, lx.advance)
  else if c = '\x7b' then ({ type := .T_LBRACE, value := "\x7b" }, lx.advance)
  else if c = '\x7d' then ({ type := .T_RBRACE, value := "\x7d" }, lx.advance)
  else if c = '+' then ({ type := .T_PLUS, value := "+" }, lx.advance)
  else if c = '-' then ({ type := .T_MINUS, value := "-" }, lx.advance)
  else if c = '*' then ({ type := .T_STAR, value := "*" }, lx.advance)
  else if c = '/' then ({ type := .T_SLASH, value := "/" }, lx.advance)
  else if c = '%' then ({ type := .T_PERCENT, value := "%" }, lx.advance)
  else if c = '<' then
    if lx.peek = '=' then ({ type := .T_LE, value := "<=" }, lx.advance.advance)
    else ({ type := .T_LT, value := "<" }, lx.advance)
  else if c = '>' then
    if lx.peek = '=' then ({ type := .T_GE, value := ">=" }, lx.advance.advance)
    else ({ type := .T_GT, value := ">" }, lx.advance)
  else if c = '!' ∧ lx.peek = '=' then ({ type := .T_NE, value := "!=" }, lx.advance.advance)
  else if c = '&' then
    if lx.peek = '&' then ({ type := .T_LOGICAL_AND, value := "&&" }, lx.advance.advance)
    else ({ type := .T_BIT_AND, value := "&" }, lx.advance)
  else if c = '|' then ({ type := .T_BIT_OR, value := "|" }, lx.advance)
  else if c = '^' then ({ type := .T_BIT_XOR, value := "^" }, lx.advance)
  else ({ type := .T_ILLEGAL, value := String.singleton c }, lx)

def Lexer.getNextToken (lx : Lexer) : Token × Lexer :=
  let lx := Lexer.skip_spaces (lx.source.length + 1) lx
  if isalpha lx.currentChar || lx.currentChar = '_' then lx.makeIdentifier
  else if isdigit lx.currentChar then lx.makeNumber
  else lx.symbol

/-! ## compilelab1: the single-pass compiler -/

/-- The `std::runtime_error`s thrown by `compilelab1.cpp`, one constructor per
message prefix, each carrying the text appended to it.  `out_of_fuel` is no
`std::runtime_error`: it marks a run whose nested calls and loop iterations
outgrew the budget it was given; the nested calls are what the program keeps
on its call stack. -/
inductive ParseError where
  /-- Thrown by `eat`: unexpected token. -/
  | unexpected_token (value : String)
  /-- Thrown by `parseStatement`: invalid start of a statement. -/
  | invalid_statement (value : String)
  /-- Thrown by `parseAssignment` and `parsePrimaryExpr`: undeclared variable. -/
  | undeclared_variable (name : String)
  /-- Thrown by `parsePrimaryExpr`: invalid primary expression. -/
  | invalid_primary (value : String)
  /-- The budget of the model ran out. -/
  | out_of_fuel
  deriving DecidableEq

/-- The class `Compiler`. -/
structure Compiler where
  lexer : Lexer
  currentToken : Token
  localVars : SymbolTable
  globalVars : List String
  code : List Instr
  stackIndex : Int
  hasMainReturn : Bool
  labelCounter : Int
  deriving DecidableEq

/-- The constructor `Compiler(source)`. -/
def Compiler.new (source : List Char) : Compiler :=
  { lexer := (Lexer.getNextToken (Lexer.new source)).2,
    currentToken := (Lexer.getNextToken (Lexer.new source)).1,
    localVars := [], globalVars := [], code := [], stackIndex := 0,
    hasMainReturn := false, labelCounter := 0 }

def Compiler.eat (c : Compiler) (type : TokenType) : Except ParseError Compiler :=
  if c.currentToken.type = type then
    .ok { c with currentToken := c.lexer.getNextToken.1, lexer := c.lexer.getNextToken.2 }
  else
    .error (.unexpected_token c.currentToken.value)

/-- The calls `emit(s)` and `emitLabel(s)`: one more line of `code`. -/
def Compiler.emit (c : Compiler) (i : Instr) : Compiler :=
  { c with code := c.code ++ [i] }

def Compiler.isGlobal (c : Compiler) (name : String) : Bool :=
  c.globalVars.contains name

def Compiler.isLocal (c : Compiler) (name : String) : Bool :=
  c.localVars.count name

/-- The lines emitted for one `&&` after its right operand. -/
def Compiler.emitLogicalAndTail (c : Compiler) (label : Int) : Compiler :=
  ((((((c.emit (.pop .eax)).emit (.cmp .eax (.imm 0))).emit (.je (.L_false label))).emit
    (.mov (.reg .eax) (.imm 1))).emit (.jmp (.L_end1 label))).emit
    (.label (.L_false label))).emit (.mov (.reg .eax) (.imm 0)) |>.emit
    (.label (.L_end1 label)) |>.emit (.push (.reg .eax))

mutual
def Compiler.parseExpression : Nat → Compiler → Except ParseError Compiler
  | 0, _ => .error .out_of_fuel
  | fuel + 1, c => Compiler.parseLogicalAndExpr fuel c
def Compiler.parseLogicalAndExpr : Nat → Compiler → Except ParseError Compiler
  | 0, _ => .error .out_of_fuel
  | fuel + 1, c => do
    let c ← Compiler.parseBitwiseOrExpr fuel c
    Compiler.parseLogicalAndLoop fuel c
/-- The `while` loop of `parseLogicalAndExpr`. -/
def Compiler.parseLogicalAndLoop : Nat → Compiler → Except ParseError Compiler
  | 0, _ => .error .out_of_fuel
  | fuel + 1, c =>
    if c.currentToken.type = .T_LOGICAL_AND then do
      let c ← c.eat .T_LOGICAL_AND
      let label := c.labelCounter
      let c := { c with labelCounter := c.labelCounter + 1 }
      let c := ((c.emit (.pop .eax)).emit (.cmp .eax (.imm 0))).emit (.je (.L_false label))
      let c ← Compiler.parseBitwiseOrExpr fuel c
      Compiler.parseLogicalAndLoop fuel (c.emitLogicalAndTail label)
    else pure c
def Compiler.parseBitwiseOrExpr : Nat → Compiler → Except ParseError Compiler
  | 0, _ => .error .out_of_fuel
  | fuel + 1, c => do
    let c ← Compiler.parseBitwiseXorExpr fuel c
    Compiler.parseBitwiseOrLoop fuel c
/-- The `while` loop of `parseBitwiseOrExpr`. -/
def Compiler.parseBitwiseOrLoop : Nat → Compiler → Except ParseError Compiler
  | 0, _ => .error .out_of_fuel
  | fuel + 1, c =>
    if c.currentToken.type = .T_BIT_OR then do
      let c ← c.eat .T_BIT_OR
      let c ← Compiler.parseBitwiseXorExpr fuel c
      Compiler.parseBitwiseOrLoop fuel
        ((((c.emit (.pop .edx)).emit (.pop .eax)).emit (.or_ .eax (.reg .edx))).emit
          (.push (.reg .eax)))
    else pure c
def Compiler.parseBitwiseXorExpr : Nat → Compiler → Except ParseError Compiler
  | 0, _ => .error .out_of_fuel
  | fuel + 1, c => do
    let c ← Compiler.parseBitwiseAndExpr fuel c
    Compiler.parseBitwiseXorLoop fuel c
/-- The `while` loop of `parseBitwiseXorExpr`. -/
def Compiler.parseBitwiseXorLoop : Nat → Compiler → Except ParseError Compiler
  | 0, _ => .error .out_of_fuel
  | fuel + 1, c =>
    if c.currentToken.type = .T_BIT_XOR then do
      let c ← c.eat .T_BIT_XOR
      let c ← Compiler.parseBitwiseAndExpr fuel c
      Compiler.parseBitwiseXorLoop fuel
        ((((c.emit (.pop .edx)).emit (.pop .eax)).emit (.xor_ .eax (.reg .edx))).emit
          (.push (.reg .eax)))
    else pure c
def Compiler.parseBitwiseAndExpr : Nat → Compiler → Except ParseError Compiler
  | 0, _ => .error .out_of_fuel
  | fuel + 1, c => do
    let c ← Compiler.parseEqualityExpr fuel c
    Compiler.parseBitwiseAndLoop fuel c
/-- The `while` loop of `parseBitwiseAndExpr`. -/
def Compiler.parseBitwiseAndLoop : Nat → Compiler → Except ParseError Compiler
  | 0, _ => .error .out_of_fuel
  | fuel + 1, c =>
    if c.currentToken.type = .T_BIT_AND then do
      let c ← c.eat .T_BIT_AND
      let c ← Compiler.parseEqualityExpr fuel c
      Compiler.parseBitwiseAndLoop fuel
        ((((c.emit (.pop .edx)).emit (.pop .eax)).emit (.and_ .eax (.reg .edx))).emit
          (.push (.reg .eax)))
    else pure c
def Compiler.parseEqualityExpr : Nat → Compiler → Except ParseError Compiler
  | 0, _ => .error .out_of_fuel
  | fuel + 1, c => do
    let c ← Compiler.parseRelationalExpr fuel c
    Compiler.parseEqualityLoop fuel c
/-- The `while` loop of `parseEqualityExpr`. -/
def Compiler.parseEqualityLoop : Nat → Compiler → Except ParseError Compiler
  | 0, _ => .error .out_of_fuel
  | fuel + 1, c =>
    if c.currentToken.type = .T_EQ ∨ c.currentToken.type = .T_NE then do
      let op := c.currentToken
      let c ← c.eat op.type
      let c ← Compiler.parseRelationalExpr fuel c
      Compiler.parseEqualityLoop fuel
        ((((((c.emit (.pop .edx)).emit (.pop .eax)).emit (.cmp .eax (.reg .edx))).emit
          (if op.type = .T_EQ then .setcc .e else .setcc .ne)).emit .movzx_eax_al).emit
          (.push (.reg .eax)))
    else pure c
def Compiler.parseRelationalExpr : Nat → Compiler → Except ParseError Compiler
  | 0, _ => .error .out_of_fuel
  | fuel + 1, c => do
    let c ← Compiler.parseAdditiveExpr fuel c
    Compiler.parseRelationalLoop fuel c
/-- The `while` loop of `parseRelationalExpr`. -/
def Compiler.parseRelationalLoop : Nat → Compiler → Except ParseError Compiler
  | 0, _ => .error .out_of_fuel
  | fuel + 1, c =>
    if c.currentToken.type = .T_LT ∨ c.currentToken.type = .T_LE ∨
        c.currentToken.type = .T_GT ∨ c.currentToken.type = .T_GE then do
      let op := c.currentToken
      let c ← c.eat op.type
      let c ← Compiler.parseAdditiveExpr fuel c
      Compiler.parseRelationalLoop fuel
        ((((((c.emit (.pop .edx)).emit (.pop .eax)).emit (.cmp .eax (.reg .edx))).emit
          (if op.type = .T_LT then .setcc .l
           else if op.type = .T_LE then .setcc .le
           else if op.type = .T_GT then .setcc .g
           else .setcc .ge)).emit .movzx_eax_al).emit
          (.push (.reg .eax)))
    else pure c
def Compiler.parseAdditiveExpr : Nat → Compiler → Except ParseError Compiler
  | 0, _ => .error .out_of_fuel
  | fuel + 1, c => do
    let c ← Compiler.parseMultiplicativeExpr fuel c
    Compiler.parseAdditiveLoop fuel c
/-- The `while` loop of `parseAdditiveExpr`. -/
def Compiler.parseAdditiveLoop : Nat → Compiler → Except ParseError Compiler
  | 0, _ => .error .out_of_fuel
  | fuel + 1, c =>
    if c.currentToken.type = .T_PLUS ∨ c.currentToken.type = .T_MINUS then do
      let op := c.currentToken
      let c ← c.eat op.type
      let c ← Compiler.parseMultiplicativeExpr fuel c
      Compiler.parseAdditiveLoop fuel
        ((((c.emit (.pop .edx)).emit (.pop .eax)).emit
          (if op.type = .T_PLUS then .add .eax (.reg .edx) else .sub .eax (.reg .edx))).emit
          (.push (.reg .eax)))
    else pure c
def Compiler.parseMultiplicativeExpr : Nat → Compiler → Except ParseError Compiler
  | 0, _ => .error .out_of_fuel
  | fuel + 1, c => do
    let c ← Compiler.parseUnaryExpr fuel c
    Compiler.parseMultiplicativeLoop fuel c
/-- The `while` loop of `parseMultiplicativeExpr`. -/
def Compiler.parseMultiplicativeLoop : Nat → Compiler → Except ParseError Compiler
  | 0, _ => .error .out_of_fuel
  | fuel + 1, c =>
    if c.currentToken.type = .T_STAR ∨ c.currentToken.type = .T_SLASH ∨
        c.currentToken.type = .T_PERCENT then do
      let op := c.currentToken
      let c ← c.eat op.type
      let c ← Compiler.parseUnaryExpr fuel c
      Compiler.parseMultiplicativeLoop fuel
        ((if op.type = .T_STAR then
            ((c.emit (.pop .edx)).emit (.pop .eax)).emit (.imul .eax (.reg .edx))
          else if op.type = .T_PERCENT then
            ((((c.emit (.pop .ecx)).emit (.pop .eax)).emit .cdq).emit (.idiv .ecx)).emit
              (.mov (.reg .eax) (.reg .edx))
          else
            (((c.emit (.pop .ecx)).emit (.pop .eax)).emit .cdq).emit (.idiv .ecx)).emit
          (.push (.reg .eax)))
    else pure c
def Compiler.parseUnaryExpr : Nat → Compiler → Except ParseError Compiler
  | 0, _ => .error .out_of_fuel
  | fuel + 1, c =>
    if c.currentToken.type = .T_MINUS then do
      let c ← c.eat .T_MINUS
      let c ← Compiler.parseUnaryExpr fuel c
      pure (((c.emit (.pop .eax)).emit (.neg .eax)).emit (.push (.reg .eax)))
    else Compiler.parsePrimaryExpr fuel c
def Compiler.parsePrimaryExpr : Nat → Compiler → Except ParseError Compiler
  | 0, _ => .error .out_of_fuel
  | fuel + 1, c =>
    if c.currentToken.type = .T_LITERAL then
      (c.emit (.push (.lit c.currentToken.value))).eat .T_LITERAL
    else if c.currentToken.type = .T_IDENT then
      let varName := c.currentToken.value
      if c.isLocal varName then
        (c.emit (.push (.ebp_rel ((c.localVars.find varName).getD 0)))).eat .T_IDENT
      else if c.isGlobal varName then
        (c.emit (.push (.global varName))).eat .T_IDENT
      else .error (.undeclared_variable varName)
    else if c.currentToken.type = .T_LPAREN then do
      let c ← c.eat .T_LPAREN
      let c ← Compiler.parseExpression fuel c
      c.eat .T_RPAREN
    else .error (.invalid_primary c.currentToken.value)
end

def Compiler.parseDeclaration (c : Compiler) : Except ParseError Compiler := do
  let c ← c.eat .T_INT
  let c := { c with stackIndex := c.stackIndex - 4 }
  let c := { c with localVars := c.localVars.assign c.currentToken.value c.stackIndex }
  let c ← c.eat .T_IDENT
  c.eat .T_SEMICOLON

def Compiler.parseReturn (fuel : Nat) (c : Compiler) : Except ParseError Compiler := do
  let c ← c.eat .T_RETURN
  let c ← Compiler.parseExpression fuel c
  let c ← c.eat .T_SEMICOLON
  pure (((c.emit (.pop .eax)).emit .leave).emit .ret)

def Compiler.parseAssignment (fuel : Nat) (c : Compiler) : Except ParseError Compiler := do
  let varName := c.currentToken.value
  let c ← c.eat .T_IDENT
  let c ← c.eat .T_ASSIGN
  let c ← Compiler.parseExpression fuel c
  let c ← c.eat .T_SEMICOLON
  let c := c.emit (.pop .eax)
  if c.isLocal varName then
    pure (c.emit (.mov (.ebp_rel ((c.localVars.find varName).getD 0)) (.reg .eax)))
  else if c.isGlobal varName then
    pure (c.emit (.mov (.global varName) (.reg .eax)))
  else .error (.undeclared_variable varName)

def Compiler.parsePrintln (fuel : Nat) (c : Compiler) : Except ParseError Compiler := do
  let c ← c.eat .T_IDENT
  let c ← c.eat .T_LPAREN
  let c ← Compiler.parseExpression fuel c
  let c ← c.eat .T_RPAREN
  let c ← c.eat .T_SEMICOLON
  pure (((((c.emit (.push .esp_top)).emit (.push .format_str)).emit (.call "printf")).emit
    (.add .esp (.imm 8))).emit (.pop .eax))

def Compiler.parseStatement (fuel : Nat) (c : Compiler) : Except ParseError Compiler :=
  if c.currentToken.type = .T_INT then c.parseDeclaration
  else if c.currentToken.type = .T_RETURN then do
    let c ← Compiler.parseReturn fuel c
    pure { c with hasMainReturn := true }
  else if c.currentToken.type = .T_IDENT then
    if c.currentToken.value = "println_int" then Compiler.parsePrintln fuel c
    else Compiler.parseAssignment fuel c
  else .error (.invalid_statement c.currentToken.value)

/-- The `while` loop of `parseBlock`. -/
def Compiler.parseBlockLoop : Nat → Compiler → Except ParseError Compiler
  | 0, _ => .error .out_of_fuel
  | fuel + 1, c =>
    if c.currentToken.type ≠ .T_RBRACE ∧ c.currentToken.type ≠ .T_EOF then do
      let c ← Compiler.parseStatement fuel c
      Compiler.parseBlockLoop fuel c
    else pure c

def Compiler.parseBlock (fuel : Nat) (c : Compiler) : Except ParseError Compiler := do
  let c ← c.eat .T_LBRACE
  let c ← Compiler.parseBlockLoop fuel c
  c.eat .T_RBRACE

/-- The optional parameter list of `parseMain`, between the parentheses. -/
def Compiler.parseMainParams (c : Compiler) : Except ParseError Compiler :=
  if c.currentToken.type = .T_INT then do
    let c ← c.eat .T_INT
    let c ← c.eat .T_IDENT
    if c.currentToken.type = .T_COMMA then do
      let c ← c.eat .T_COMMA
      let c ← c.eat .T_INT
      c.eat .T_IDENT
    else pure c
  else pure c

def Compiler.parseMain (fuel : Nat) (c : Compiler) : Except ParseError Compiler := do
  let c ← c.eat .T_MAIN
  let c := (((c.emit (.label (.named "main"))).emit (.push (.reg .ebp))).emit
    (.mov (.reg .ebp) (.reg .esp))).emit (.sub .esp (.imm 256))
  let c ← c.eat .T_LPAREN
  let c ← c.parseMainParams
  let c ← c.eat .T_RPAREN
  let c ← Compiler.parseBlock fuel c
  if !c.hasMainReturn then
    pure (((c.emit (.mov (.reg .eax) (.imm 0))).emit .leave).emit .ret)
  else pure c

def Compiler.parseTopLevelStatement (fuel : Nat) (c : Compiler) : Except ParseError Compiler := do
  let c ← c.eat .T_INT
  if c.currentToken.type = .T_MAIN then Compiler.parseMain fuel c
  else do
    let c := { c with globalVars := c.globalVars ++ [c.currentToken.value] }
    let c ← c.eat .T_IDENT
    c.eat .T_SEMICOLON

def Compiler.parseProgram : Nat → Compiler → Except ParseError Compiler
  | 0, _ => .error .out_of_fuel
  | fuel + 1, c =>
    if c.currentToken.type ≠ .T_EOF then do
      let c ← Compiler.parseTopLevelStatement fuel c
      Compiler.parseProgram fuel c
    else pure c

/-- The text `emitAllSections` writes to `std::cout`, line by line. -/
def Compiler.emitAllSections (c : Compiler) : List String :=
  [".intel_syntax noprefix", ".global main", ".extern printf", ".data",
    "format_str:\t.asciz \"%d\\n\""] ++
  c.globalVars.map (fun var => var ++ ":\t.long 0") ++
  [".text"] ++ c.code.map Instr.render1

/-- The constructor followed by the `parseProgram()` call of `compile()`; the
result is the compiler object `emitAllSections()` then prints. -/
def Compiler.compile (fuel : Nat) (source : List Char) : Except ParseError Compiler :=
  Compiler.parseProgram fuel (Compiler.new source)

/-! ## The x86 subset the two compilers emit -/

/-- The state of the 32-bit machine running emitted code.  Registers and
memory words are numbers below `2 ^ 32`; `memory` maps the address of a word
to the word, `globals` holds the words of the named `.data` slots, `flags`
keeps the two operands of the last `cmp` (any other arithmetic instruction
leaves the flags unknown), `output` lists the integers printed by `printf`
and `pc` indexes the next line. -/
structure Machine where
  eax : Nat
  ebx : Nat
  ecx : Nat
  edx : Nat
  ebp : Nat
  esp : Nat
  memory : Nat → Nat
  globals : String → Nat
  format_str : Nat
  flags : Option (Nat × Nat)
  output : List Int
  pc : Nat

/-- Reduction of an integer to a 32-bit word. -/
def word (n : Int) : Nat := (n % 4294967296).toNat

/-- The signed value of a 32-bit word. -/
def signed (w : Nat) : Int := if w < 2147483648 then w else (w : Int) - 4294967296

/-- The number a literal token denotes, read digit by digit. -/
def literal_value (text : String) : Nat :=
  text.toList.foldl (fun n c => 10 * n + (c.toNat - 48)) 0

def Machine.get (m : Machine) : Reg → Nat
  | .eax => m.eax | .ebx => m.ebx | .ecx => m.ecx
  | .edx => m.edx | .ebp => m.ebp | .esp => m.esp

def Machine.set (m : Machine) (r : Reg) (v : Nat) : Machine :=
  match r with
  | .eax => { m with eax := v } | .ebx => { m with ebx := v } | .ecx => { m with ecx := v }
  | .edx => { m with edx := v } | .ebp => { m with ebp := v } | .esp => { m with esp := v }

/-- Memory with the word at `address` replaced. -/
def Machine.store (m : Machine) (address v : Nat) : Machine :=
  { m with memory := fun a => if a = address then v else m.memory a }

/-- The value of a source operand. -/
def Machine.read (m : Machine) : Operand → Nat
  | .reg r => m.get r
  | .imm v => word v
  | .lit text => literal_value text % 4294967296
  | .ebp_minus offset => m.memory (word (m.ebp - offset))
  | .ebp_rel index => m.memory (word (m.ebp + index))
  | .global name => m.globals name
  | .esp_top => m.memory m.esp
  | .format_str => m.format_str

/-- A write to a destination operand; an immediate is no destination. -/
def Machine.write (m : Machine) (dst : Operand) (v : Nat) : Option Machine :=
  match dst with
  | .reg r => some (m.set r v)
  | .ebp_minus offset => some (m.store (word (m.ebp - offset)) v)
  | .ebp_rel index => some (m.store (word (m.ebp + index)) v)
  | .global name => some { m with globals := fun g => if g = name then v else m.globals g }
  | .esp_top => some (m.store m.esp v)
  | .imm _ => none
  | .lit _ => none
  | .format_str => none

def Machine.push (m : Machine) (v : Nat) : Machine :=
  { m.store (word (m.esp - 4)) v with esp := word (m.esp - 4) }

/-- An arithmetic instruction `op dst, src`: the result goes to `dst` and the
flags are no longer those of a `cmp`. -/
def Machine.arith (m : Machine) (dst : Reg) (v : Int) : Machine :=
  { m.set dst (word v) with flags := none }

/-- The truth of a condition code after `cmp a, b`. -/
def CC.holds (c : CC) (a b : Nat) : Bool :=
  match c with
  | .e => a = b
  | .ne => a ≠ b
  | .l => signed a < signed b
  | .le => signed a ≤ signed b
  | .g => signed a > signed b
  | .ge => signed a ≥ signed b

/-- The index of the line placing label `l`. -/
def find_label (l : Label) (program : List Instr) : Option Nat :=
  let i := program.indexOf (.label l)
  if i < program.length then some i else none

/-- What one step does: go on, stop at `ret`, or fault. -/
inductive Step where
  | next (m : Machine)
  | halt (m : Machine)
  | fault

/-- One step to the following line. -/
def Machine.advance (m : Machine) : Step := .next { m with pc := m.pc + 1 }

def Machine.jump (m : Machine) (l : Label) (program : List Instr) : Step :=
  match find_label l program with
  | some i => .next { m with pc := i }
  | none => .fault

/-- The effect of one line.  `call` is defined for `printf` only, `ret`
ends the run of the function. -/
def Machine.step (m : Machine) (program : List Instr) : Step :=
  match program.get? m.pc with
  | none => .fault
  | some i =>
    match i with
    | .push src => (m.push (m.read src)).advance
    | .pop dst => ({ m with esp := word (m.esp + 4) }.set dst (m.memory m.esp)).advance
    | .mov dst src =>
      match m.write dst (m.read src) with
      | some m1 => m1.advance
      | none => .fault
    | .add dst src => (m.arith dst (m.get dst + m.read src)).advance
    | .sub dst src => (m.arith dst (m.get dst - m.read src)).advance
    | .imul dst src => (m.arith dst (signed (m.get dst) * signed (m.read src))).advance
    | .and_ dst src => (m.arith dst ((m.get dst &&& m.read src : Nat))).advance
    | .or_ dst src => (m.arith dst ((m.get dst ||| m.read src : Nat))).advance
    | .xor_ dst src => (m.arith dst ((m.get dst ^^^ m.read src : Nat))).advance
    | .cmp dst src => ({ m with flags := some (m.get dst, m.read src) }).advance
    | .neg dst => (m.arith dst (- (m.get dst : Int))).advance
    | .not_ dst => (m.set dst (4294967295 - m.get dst)).advance
    | .cdq => ({ m with edx := if m.eax < 2147483648 then 0 else 4294967295 }).advance
    | .idiv src =>
      let dividend : Int :=
        if m.edx < 2147483648 then (m.edx * 4294967296 + m.eax : Nat)
        else ((m.edx * 4294967296 + m.eax : Nat) : Int) - 18446744073709551616
      let divisor := signed (m.get src)
      if divisor = 0 then .fault
      else if Int.tdiv dividend divisor < -2147483648 ∨ 2147483647 < Int.tdiv dividend divisor then
        .fault
      else
        ({ m with eax := word (Int.tdiv dividend divisor),
                  edx := word (Int.tmod dividend divisor), flags := none }).advance
    | .setcc c =>
      match m.flags with
      | some (a, b) =>
        ({ m with eax := m.eax - m.eax % 256 + (if c.holds a b then 1 else 0) }).advance
      | none => .fault
    | .movzx_eax_al => ({ m with eax := m.eax % 256 }).advance
    | .call name =>
      if name = "printf" then
        ({ m with output := m.output ++ [signed (m.memory (word (m.esp + 4)))],
                  flags := none }).advance
      else .fault
    | .leave =>
      ({ m with esp := word (m.ebp + 4), ebp := m.memory m.ebp }).advance
    | .ret => .halt { m with esp := word (m.esp + 4) }
    | .jmp target => m.jump target program
    | .je target =>
      match m.flags with
      | some (a, b) => if a = b then m.jump target program else m.advance
      | none => .fault
    | .label _ => m.advance
    | .global _ => m.advance

/-- How a run ends. -/
inductive Run where
  | returned (m : Machine)
  | fault
  | out_of_fuel

/-- At most `fuel` steps from `m`. -/
def Machine.run (program : List Instr) : Nat → Machine → Run
  | 0, _ => .out_of_fuel
  | fuel + 1, m =>
    match m.step program with
    | .next m1 => Machine.run program fuel m1
    | .halt m1 => .returned m1
    | .fault => .fault

/-- The value in `eax` when the run returns. -/
def Run.result : Run → Option Int
  | .returned m => some (signed m.eax)
  | .fault => none
  | .out_of_fuel => none

/-- A machine about to run the first line, with the stack pointer at
`stack_top` and every register, word and flag cleared. -/
def Machine.start (stack_top : Nat) : Machine :=
  { eax := 0, ebx := 0, ecx := 0, edx := 0, ebp := 0, esp := stack_top,
    memory := fun _ => 0, globals := fun _ => 0, format_str := 0, flags := none,
    output := [], pc := 0 }

/-! ## compilelab1: what the lexer has yet to read -/

/-- The characters the lexer has yet to look at, as an endless sequence:
index 0 is `currentChar`, index `i + 1` is `source[pos + i]`, and `'\0'`
stands wherever the index is past the end, as `advance` supplies it. -/
def Lexer.stream (lx : Lexer) : Nat → Char
  | 0 => lx.currentChar
  | i + 1 => lx.source.getD (lx.pos + i) '\x00'

/-- The call `getNextToken()` as a step on the lexer state alone. -/
def Lexer.skip_token (lx : Lexer) : Lexer := lx.getNextToken.2

/-! ## compilelab1: tokens ahead and the frame of an expression -/

/-- The assignment `currentToken = lexer.getNextToken()` of a successful
`eat`. -/
def Compiler.next (c : Compiler) : Compiler :=
  { c with currentToken := c.lexer.getNextToken.1, lexer := c.lexer.getNextToken.2 }

/-- The token `n` places ahead: `currentToken` for 0, then what the calls of
`getNextToken` answer in turn. -/
def Compiler.lookahead (c : Compiler) (n : Nat) : Token :=
  (Nat.iterate Compiler.next n c).currentToken

/-- The operand of the `sub esp, N` line that reserves a frame, if the line
is one. -/
def Instr.reserves : Instr → Option Operand
  | .sub .esp src => some src
  | _ => none

/-- What parsing an expression does to the compiler object: the variable
tables, `stackIndex` and `hasMainReturn` stay, `code` grows by lines that
reserve no frame. -/
def ExprFrame (c c' : Compiler) : Prop :=
  c'.localVars = c.localVars ∧ c'.globalVars = c.globalVars ∧
    c'.stackIndex = c.stackIndex ∧ c'.hasMainReturn = c.hasMainReturn ∧
    ∃ code, c'.code = c.code ++ code ∧ ∀ i ∈ code, Instr.reserves i = none

/-! ## compilelab1: the precedence cascade -/

/-- The level of the cascade whose loop consumes a binary operator:
1 for `|`, 2 for `^`, 3 for `&`, 4 for `==` `!=`, 5 for `<` `<=` `>` `>=`,
6 for `+` `-`, 7 for `*` `/` `%`; 0 for every other token. -/
def precedence : TokenType → Nat
  | .T_BIT_OR => 1
  | .T_BIT_XOR => 2
  | .T_BIT_AND => 3
  | .T_EQ => 4
  | .T_NE => 4
  | .T_LT => 5
  | .T_LE => 5
  | .T_GT => 5
  | .T_GE => 5
  | .T_PLUS => 6
  | .T_MINUS => 6
  | .T_STAR => 7
  | .T_SLASH => 7
  | .T_PERCENT => 7
  | _ => 0

/-- The lines a loop of the cascade emits behind the right operand of a
binary operator. -/
def operator_code : TokenType → List Instr
  | .T_BIT_OR => [.pop .edx, .pop .eax, .or_ .eax (.reg .edx), .push (.reg .eax)]
  | .T_BIT_XOR => [.pop .edx, .pop .eax, .xor_ .eax (.reg .edx), .push (.reg .eax)]
  | .T_BIT_AND => [.pop .edx, .pop .eax, .and_ .eax (.reg .edx), .push (.reg .eax)]
  | .T_EQ => [.pop .edx, .pop .eax, .cmp .eax (.reg .edx), .setcc .e, .movzx_eax_al,
      .push (.reg .eax)]
  | .T_NE => [.pop .edx, .pop .eax, .cmp .eax (.reg .edx), .setcc .ne, .movzx_eax_al,
      .push (.reg .eax)]
  | .T_LT => [.pop .edx, .pop .eax, .cmp .eax (.reg .edx), .setcc .l, .movzx_eax_al,
      .push (.reg .eax)]
  | .T_LE => [.pop .edx, .pop .eax, .cmp .eax (.reg .edx), .setcc .le, .movzx_eax_al,
      .push (.reg .eax)]
  | .T_GT => [.pop .edx, .pop .eax, .cmp .eax (.reg .edx), .setcc .g, .movzx_eax_al,
      .push (.reg .eax)]
  | .T_GE => [.pop .edx, .pop .eax, .cmp .eax (.reg .edx), .setcc .ge, .movzx_eax_al,
      .push (.reg .eax)]
  | .T_PLUS => [.pop .edx, .pop .eax, .add .eax (.reg .edx), .push (.reg .eax)]
  | .T_MINUS => [.pop .edx, .pop .eax, .sub .eax (.reg .edx), .push (.reg .eax)]
  | .T_STAR => [.pop .edx, .pop .eax, .imul .eax (.reg .edx), .push (.reg .eax)]
  | .T_SLASH => [.pop .ecx, .pop .eax, .cdq, .idiv .ecx, .push (.reg .eax)]
  | .T_PERCENT => [.pop .ecx, .pop .eax, .cdq, .idiv .ecx, .mov (.reg .eax) (.reg .edx),
      .push (.reg .eax)]
  | _ => []

/-- The parse function of level `n` of the cascade; past level 7 stands
`parseUnaryExpr`, the operand parser of the multiplicative level. -/
def cascade : Nat → Nat → Compiler → Except ParseError Compiler
  | 1 => Compiler.parseBitwiseOrExpr
  | 2 => Compiler.parseBitwiseXorExpr
  | 3 => Compiler.parseBitwiseAndExpr
  | 4 => Compiler.parseEqualityExpr
  | 5 => Compiler.parseRelationalExpr
  | 6 => Compiler.parseAdditiveExpr
  | 7 => Compiler.parseMultiplicativeExpr
  | _ => Compiler.parseUnaryExpr

/-- The `while` loop of level `n` of the cascade. -/
def cascade_loop : Nat → Nat → Compiler → Except ParseError Compiler
  | 1 => Compiler.parseBitwiseOrLoop
  | 2 => Compiler.parseBitwiseXorLoop
  | 3 => Compiler.parseBitwiseAndLoop
  | 4 => Compiler.parseEqualityLoop
  | 5 => Compiler.parseRelationalLoop
  | 6 => Compiler.parseAdditiveLoop
  | _ => Compiler.parseMultiplicativeLoop

/-- The compiler object after `k` more tokens were consumed and `lines` were
emitted. -/
def Compiler.after (c : Compiler) (k : Nat) (lines : List Instr) : Compiler :=
  { Nat.iterate Compiler.next k c with code := c.code ++ lines }

/-- A token `parsePrimaryExpr` accepts as an operand under the tables of `c`:
a literal, or an identifier that is a local or a global. -/
def Compiler.is_operand (c : Compiler) (t : Token) : Prop :=
  t.type = .T_LITERAL ∨
    (t.type = .T_IDENT ∧ (c.isLocal t.value = true ∨ c.isGlobal t.value = true))

/-- The line `parsePrimaryExpr` emits for an operand token. -/
def Compiler.push_of (c : Compiler) (t : Token) : Instr :=
  if t.type = .T_LITERAL then .push (.lit t.value)
  else if c.isLocal t.value then .push (.ebp_rel ((c.localVars.find t.value).getD 0))
  else .push (.global t.value)

/-- With enough recursion budget the parse function `p` takes `c` to `c'`. -/
def ParsesTo (p : Nat → Compiler → Except ParseError Compiler) (c c' : Compiler) : Prop :=
  ∃ N : Nat, ∀ fuel : Nat, N ≤ fuel → p fuel c = .ok c'

/-! ## compilelab1: local slots and the reserved frame -/

/-- The state of the local slots and of the frame reservations: `stackIndex`
is a non-positive multiple of 4, every slot bound in `localVars` is a multiple
of 4 between `stackIndex` and -4, the lowest slot `stackIndex` is bound as
soon as anything is, and every `sub esp, N` line of `code` has `N = 256`. -/
def SlotsOk (c : Compiler) : Prop :=
  c.stackIndex ≤ 0 ∧ c.stackIndex % 4 = 0 ∧
    (∀ (name : String) (index : Int), c.localVars.find name = some index →
      c.stackIndex ≤ index ∧ index ≤ -4 ∧ index % 4 = 0) ∧
    ((c.localVars = [] ∧ c.stackIndex = 0) ∨
      ∃ name : String, c.localVars.find name = some c.stackIndex) ∧
    ∀ i ∈ c.code, ∀ src : Operand, Instr.reserves i = some src → src = .imm 256

/-- A property of the compiler object that the statements of a block keep:
it survives more lines of `code` that reserve no frame, whatever happens to
the lexer, the globals and the flags, and it survives the two assignments of
`parseDeclaration`. -/
def Stable (P : Compiler → Prop) : Prop :=
  (∀ (c c' : Compiler) (code : List Instr), c'.localVars = c.localVars →
    c'.stackIndex = c.stackIndex → c'.code = c.code ++ code →
    (∀ i ∈ code, Instr.reserves i = none) → P c → P c') ∧
  (∀ (c c' : Compiler) (name : String),
    c'.localVars = c.localVars.assign name (c.stackIndex - 4) →
    c'.stackIndex = c.stackIndex - 4 → c'.code = c.code → P c → P c')

/-- The invariant of the whole run: the slots are in order, and a local is
bound only after a prologue line `sub esp, 256` was emitted. -/
def FrameOk (c : Compiler) : Prop :=
  SlotsOk c ∧ (c.localVars = [] ∨ Instr.sub .esp (.imm 256) ∈ c.code)

/-! ## Running emitted lines -/

/-- The run of `n` lines one after the other: the machine after `n` steps
that each went on to a next line, `none` when a step before the last one
returned or faulted. -/
def Machine.exec (program : List Instr) : Nat → Machine → Option Machine
  | 0, m => some m
  | n + 1, m =>
    match m.step program with
    | .next m1 => Machine.exec program n m1
    | .halt _ => none
    | .fault => none

/-! ## compilelab2: the text of an expression -/

/-- A generator that looks at nothing but the variable frames of the
context: it leaves the context and `label_count` as they are, and its result
and the lines it prints are the same whatever the function table, the value
of `label_count` and the text printed before. -/
def Uniform {α : Type} (m : Gen α) : Prop :=
  ∀ c : CodeGenContext, ∃ (r : Except CompileError α) (code : List Instr),
    ∀ (ft : SymbolTable) (lc : Int) (o : List Instr),
      m { context := { c with function_table := ft }, label_count := lc, out := o } =
        (r, { context := { c with function_table := ft }, label_count := lc,
              out := o ++ code })

/-- The lines `codegen` of `e` prints under context `c`, written code(e) in
the statements about the text of a larger node. -/
def Expression.code (e : Expression) (c : CodeGenContext) : List Instr :=
  (e.codegen { context := c, label_count := 0, out := [] }).2.out

/-! ## Jumps and the labels they name -/

/-- The label a jump line names: the operand of `jmp` and of `je`. -/
def Instr.jump_target : Instr → Option Label
  | .jmp l => some l
  | .je l => some l
  | _ => none

/-- Every jump of `code` names a control-flow label that `whole` places, or
the `.L_cond_c` or `.L_end_e` of a pair `(c, e)` of `loops`. -/
def JumpsInto (loops : List (Int × Int)) (whole code : List Instr) : Prop :=
  ∀ i ∈ code, ∀ l : Label, i.jump_target = some l →
    (Instr.label l).control_label = some l ∧
      (Instr.label l ∈ whole ∨ ∃ pair ∈ loops, l = .L_cond pair.1 ∨ l = .L_end pair.2)

/-- The text each function of the list contributes, in order: what the call
of its `codegen` appends to the output, every call running in the state the
one before it left. -/
def function_texts : List FunctionDefinition → GenState → List (List Instr)
  | [], _ => []
  | func :: rest, s =>
    (func.codegen s).2.out.drop s.out.length :: function_texts rest (func.codegen s).2

/-! ## The evaluator of the specification and straight-line runs -/

/-- Reduction of an integer to the 32-bit two's-complement value it has as a
C++ `int`. -/
def wrap (n : Int) : Int := signed (word n)

/-- The unary operators of the evaluator: `-`, `~` and `!`. -/
def unary_value (op : String) (a : Int) : Option Int :=
  if op = "-" then some (wrap (-a))
  else if op = "~" then some (Int.not a)
  else if op = "!" then some (if a = 0 then 1 else 0)
  else none

/-- The binary operators of the evaluator, applied as `lhs op rhs`: `+`, `-`
and `*` wrap to 32 bits, `/` and `%` truncate toward zero and have no value
for a zero divisor or for `INT_MIN / -1`, `&`, `|`, `^` act on two's-complement
bits, and the six comparisons are signed and give 1 or 0. -/
def binary_value (op : String) (a b : Int) : Option Int :=
  if op = "+" then some (wrap (a + b))
  else if op = "-" then some (wrap (a - b))
  else if op = "*" then some (wrap (a * b))
  else if op = "/" then
    if b = 0 ∨ (a = -2147483648 ∧ b = -1) then none else some (Int.tdiv a b)
  else if op = "%" then
    if b = 0 ∨ (a = -2147483648 ∧ b = -1) then none else some (Int.tmod a b)
  else if op = "&" then some (Int.land a b)
  else if op = "|" then some (Int.lor a b)
  else if op = "^" then some (Int.xor a b)
  else if op = "==" then some (if a = b then 1 else 0)
  else if op = "!=" then some (if a ≠ b then 1 else 0)
  else if op = "<" then some (if a < b then 1 else 0)
  else if op = "<=" then some (if a ≤ b then 1 else 0)
  else if op = ">" then some (if a > b then 1 else 0)
  else if op = ">=" then some (if a ≥ b then 1 else 0)
  else none

/-- The value of a variable-free, call-free expression as the evaluator of
the specification computes it; `none` for an `Identifier`, a `FunctionCall`,
an operator outside the two lists, or a division without a value. -/
def Expression.value : Expression → Option Int
  | .Integer value => some (wrap value)
  | .Identifier _ => none
  | .UnaryOperator op rhs =>
    match rhs.value with
    | some a => unary_value op a
    | none => none
  | .BinaryOperator op lhs rhs =>
    match lhs.value, rhs.value with
    | some a, some b => binary_value op a b
    | _, _ => none
  | .FunctionCall _ _ => none

/-- The number of stack words the code of an expression needs below the
stack pointer it starts with. -/
def Expression.stack_need : Expression → Nat
  | .Integer _ => 1
  | .Identifier _ => 1
  | .UnaryOperator _ rhs => rhs.stack_need
  | .BinaryOperator _ lhs rhs => max rhs.stack_need (lhs.stack_need + 1)
  | .FunctionCall _ _ => 1

/-- The effect of a line that is no jump, as `Machine.step` gives it: the
step of the machine on the line alone, the program counter then moved on by
one; `none` when the line faults or returns. -/
def Machine.line (m : Machine) (i : Instr) : Option Machine :=
  match ({ m with pc := 0 } : Machine).step [i] with
  | .next m1 => some { m1 with pc := m.pc + 1 }
  | .halt _ => none
  | .fault => none

/-- The effect of a block of lines none of which jumps, one after the
other. -/
def Machine.lines : List Instr → Machine → Option Machine
  | [], m => some m
  | i :: rest, m =>
    match m.line i with
    | some m1 => Machine.lines rest m1
    | none => none

/-- The `n` words on top of the stack, the top first. -/
def Machine.stack (m : Machine) (n : Nat) : List Nat :=
  (List.range n).map (fun i => m.memory (m.esp + 4 * i))

/-- Code that, run as a block from any machine with room for `need` words on
the stack, faults nowhere and leaves the machine with the word of `v` pushed:
the stack pointer is 4 lower, the new top holds `v`, and no word at or above
the old stack pointer has changed. -/
def Computes (code : List Instr) (v : Int) (need : Nat) : Prop :=
  ∀ m : Machine, m.esp < 4294967296 → 4 * need ≤ m.esp →
    ∃ m1 : Machine, Machine.lines code m = some m1 ∧ m1.esp + 4 = m.esp ∧
      m1.memory m1.esp = word v ∧ ∀ a : Nat, m.esp ≤ a → m1.memory a = m.memory a

/-! ## compilelab1: the tokens of a whole text -/

/-- The answers of repeated `getNextToken()` calls, up to and including the
first end-of-file token; `n` bounds the number of calls. -/
def Lexer.tokens : Nat → Lexer → List Token
  | 0, _ => []
  | n + 1, lx =>
    lx.getNextToken.1 ::
      (if lx.getNextToken.1.type = .T_EOF then [] else Lexer.tokens n lx.getNextToken.2)

/-- The characters every position of a text may hold: ASCII whitespace,
letters, digits, the underscore and the operator and punctuation characters
other than the exclamation mark. -/
def legal_char (c : Char) : Bool :=
  isspace c || isalnum c || c = '_' || "=;,()\x7b\x7d+-*/%<>&|^".toList.contains c

/-- A text of legal characters, in which an exclamation mark may stand only
right before an equals sign. -/
def lexable : List Char → Bool
  | [] => true
  | c :: rest => (legal_char c || (c = '!' && rest.head? = some '=')) && lexable rest

/-- The lexer `lx` has exactly the characters `cs` left to read: `cs` is its
stream, followed by `'\0'` for ever. -/
def Lexer.Reads (lx : Lexer) (cs : List Char) : Prop :=
  ∀ i : Nat, lx.stream i = cs.getD i '\x00'

/-- The pair `r` returned by one `getNextToken()` call on the text `cs` takes
a token off the front of `cs`: the value of the token is a non-empty piece of
`cs` free of whitespace, the lexer is left reading what follows the piece, and
the token is neither end-of-file nor illegal. -/
def Lexer.Takes (r : Token × Lexer) (cs : List Char) : Prop :=
  ∃ rest : List Char, cs = r.1.value.data ++ rest ∧ r.1.value.data ≠ [] ∧
    (∀ ch ∈ r.1.value.data, isspace ch = false) ∧ r.2.Reads rest ∧
    r.1.type ≠ .T_EOF ∧ r.1.type ≠ .T_ILLEGAL

/-! ## compilelab1: the work a run has left -/

/-- The number of characters the lexer has yet to pass: those from `pos` on,
and `currentChar` unless it is `'\0'`. -/
def Lexer.chars_left (lx : Lexer) : Nat :=
  (lx.source.length - lx.pos) + (if lx.currentChar = '\x00' then 0 else 1)

/-- The measure of progress of the parser: the characters the lexer has yet
to pass, plus one while the current token is neither end-of-file nor illegal.
Consuming a token lowers it. -/
def Compiler.work_left (c : Compiler) : Nat :=
  c.lexer.chars_left +
    (if c.currentToken.type = .T_EOF ∨ c.currentToken.type = .T_ILLEGAL then 0 else 1)

/-- A run that started with `w` work left has settled: its result `x` is not
the exhaustion of the budget, a compiler object it returns has at least `d`
less work left, and the run `x'` of the same call with one more unit of
budget gives the same result. -/
def Compiler.Settled (d : Nat) (x x' : Except ParseError Compiler) (w : Nat) : Prop :=
  x ≠ .error .out_of_fuel ∧ (∀ c' : Compiler, x = .ok c' → c'.work_left + d ≤ w) ∧ x' = x

/-! ## compilelab1: texts that outgrow a fixed frame and a fixed stack -/

/-- The text of a `main` that declares the `n` locals `v0` to `v(n-1)`,
assigns 5 to the last one and returns 1 plus the last one. -/
def many_locals_source (n : Nat) : String :=
  "int main()\x7b" ++ String.join ((List.range n).map (fun i => "int v" ++ toString i ++ ";")) ++
    "v" ++ toString (n - 1) ++ "=5;return 1+v" ++ toString (n - 1) ++ ";\x7d"

/-- The text `int main(){return -…-1;}` with `n` unary minus signs in a
row. -/
def minus_run_source (n : Nat) : List Char :=
  "int main()\x7breturn ".toList ++ (List.replicate n '-' ++ "1;\x7d".toList)

end CompilerDesign

namespace CompilerDesign

/-! ## Running the generator monad -/

theorem pure_run {α : Type} (a : α) (s : GenState) :
    (Pure.pure a : Gen α) s = (.ok a, s) := rfl

theorem bind_run {α β : Type} (m : Gen α) (f : α → Gen β) (s : GenState) :
    (m >>= f) s =
      match m s with
      | (.ok a, s1) => f a s1
      | (.error e, s1) => (.error e, s1) := rfl

theorem bind_ok {α β : Type} (m : Gen α) (f : α → Gen β) (s s' : GenState) (b : β) :
    (m >>= f) s = (.ok b, s') ↔ ∃ a s1, m s = (.ok a, s1) ∧ f a s1 = (.ok b, s') := by
  rw [bind_run]
  rcases h : m s with ⟨e | a, s1⟩
  · simp
  · simp only [Prod.mk.injEq, Except.ok.injEq]
    constructor
    · intro hf
      exact ⟨a, s1, ⟨rfl, rfl⟩, hf⟩
    · rintro ⟨_, _, ⟨rfl, rfl⟩, hf⟩
      exact hf

theorem emit_run (i : Instr) (s : GenState) :
    emit i s = (.ok (), { s with out := s.out ++ [i] }) := rfl

theorem emit_ok (i : Instr) (s s' : GenState) (u : Unit) :
    emit i s = (.ok u, s') ↔ s' = { s with out := s.out ++ [i] } := by
  rw [emit_run]
  constructor
  · intro h
    injection h with _ h2
    exact h2.symm
  · intro h
    rw [h]

theorem throw_ok {α : Type} (e : CompileError) (s s' : GenState) (a : α) :
    (Gen.throw e : Gen α) s = (.ok a, s') ↔ False := by
  simp [Gen.throw]

/-! ## Depth simulation lemmas -/

theorem depth_after_append (d : Int) (a b : List Instr) :
    depth_after d (a ++ b) = depth_after (depth_after d a) b := by
  induction a generalizing d with
  | nil => rfl
  | cons i rest ih => simp [depth_after, ih]

theorem simulate_depth_append (d : Int) (a b : List Instr) :
    simulate_depth d (a ++ b) = simulate_depth d a ++ simulate_depth (depth_after d a) b := by
  induction a generalizing d with
  | nil => rfl
  | cons i rest ih => simp [simulate_depth, depth_after, ih]

theorem Pushes.nil : Pushes 0 [] := by
  intro d
  simp [simulate_depth, depth_after]

theorem Pushes.append {j k : Int} {a b : List Instr} (ha : Pushes j a) (hb : Pushes k b)
    (hj : 0 ≤ j) : Pushes (j + k) (a ++ b) := by
  intro d
  obtain ⟨ha1, ha2⟩ := ha d
  obtain ⟨hb1, hb2⟩ := hb (d + j)
  refine ⟨?_, ?_⟩
  · intro x hx
    rw [simulate_depth_append, List.mem_append] at hx
    rcases hx with hx | hx
    · exact ha1 x hx
    · rw [ha2] at hx
      have := hb1 x hx
      omega
  · rw [depth_after_append, ha2, hb2]
    omega

theorem depth_after_shift (d c : Int) (code : List Instr) :
    depth_after (d + c) code = d + depth_after c code := by
  induction code generalizing c with
  | nil => rfl
  | cons i rest ih =>
    simp only [depth_after]
    rw [add_assoc, ih]

theorem Pushes.snoc {j k : Int} {a : List Instr} (ha : Pushes j a) (i : Instr)
    (hk : j + stack_effect i = k) (h0 : 0 ≤ k) : Pushes k (a ++ [i]) := by
  intro d
  obtain ⟨ha1, ha2⟩ := ha d
  refine ⟨?_, ?_⟩
  · intro x hx
    rw [simulate_depth_append, List.mem_append] at hx
    rcases hx with hx | hx
    · exact ha1 x hx
    · simp only [simulate_depth, List.mem_singleton] at hx
      omega
  · rw [depth_after_append, ha2]
    simp only [depth_after]
    omega

theorem Pushes.of_plain {code : List Instr} (h : ∀ i ∈ code, Instr.plain i) : Pushes 0 code := by
  induction code with
  | nil => exact Pushes.nil
  | cons i rest ih =>
    have hi : stack_effect i = 0 := (h i (List.mem_cons_self _ _)).1
    have hrest := ih (fun x hx => h x (List.mem_cons_of_mem _ hx))
    intro d
    obtain ⟨h1, h2⟩ := hrest d
    simp only [simulate_depth, depth_after, hi, add_zero, List.mem_cons, forall_eq_or_imp,
      le_refl, true_and]
    exact ⟨h1, by simpa using h2⟩

theorem Pushes.cast {j k : Int} {a : List Instr} (ha : Pushes j a) (h : j = k) : Pushes k a :=
  h ▸ ha

/-! ## Straight-line generators -/

theorem emits_emit {P : Instr → Prop} {i : Instr} (h : P i) : Emits (emit i) P := by
  intro s
  exact ⟨[i], rfl, by simpa using h⟩

theorem emits_pure {P : Instr → Prop} : Emits (pure ()) P := by
  intro s
  refine ⟨[], ?_, by simp⟩
  rw [pure_run, List.append_nil]

theorem emits_ite {P : Instr → Prop} {c : Prop} [Decidable c] {m n : Gen Unit}
    (hm : Emits m P) (hn : Emits n P) : Emits (if c then m else n) P := by
  split_ifs
  · exact hm
  · exact hn

theorem emits_bind {P : Instr → Prop} {m n : Gen Unit} (hm : Emits m P) (hn : Emits n P) :
    Emits (m >>= fun _ => n) P := by
  intro s
  obtain ⟨c1, h1, p1⟩ := hm s
  obtain ⟨c2, h2, p2⟩ := hn { s with out := s.out ++ c1 }
  refine ⟨c1 ++ c2, ?_, ?_⟩
  · rw [bind_run, h1]
    simp only [h2, List.append_assoc]
  · intro i hi
    rcases List.mem_append.1 hi with hi | hi
    · exact p1 i hi
    · exact p2 i hi

theorem unary_operation_emits (op : String) : Emits (unary_operation op) Instr.plain := by
  unfold unary_operation
  repeat (first
    | exact emits_pure
    | exact emits_emit (by simp [Instr.plain, stack_effect, Instr.is_control])
    | apply emits_ite
    | apply emits_bind)

theorem binary_operation_emits (op : String) : Emits (binary_operation op) Instr.plain := by
  unfold binary_operation
  repeat (first
    | exact emits_pure
    | exact emits_emit (by simp [Instr.plain, stack_effect, Instr.is_control])
    | apply emits_ite
    | apply emits_bind)


theorem get_variable_offset_state (name : String) (s : GenState) :
    (Gen.get_variable_offset name s).2 = s := by
  unfold Gen.get_variable_offset lift_context CodeGenContext.get_variable_offset
  rcases s with ⟨⟨ft, stk, off, ll⟩, lc, out⟩
  cases stk with
  | nil => rfl
  | cons top rest =>
    simp only
    cases top.find name <;> rfl

theorem get_variable_offset_ok {name : String} {s s1 : GenState} {offset : Int}
    (h : Gen.get_variable_offset name s = (.ok offset, s1)) : s1 = s := by
  have := get_variable_offset_state name s
  rw [h] at this
  exact this

theorem Pushes.single (i : Instr) (h : stack_effect i = 1) : Pushes 1 [i] := by
  have := Pushes.snoc (k := 1) Pushes.nil i (by rw [h]; rfl) (by norm_num)
  simpa using this

mutual
theorem Expression.codegen_pushes : ∀ (e : Expression) (st st' : GenState),
    e.codegen st = (.ok (), st') → ∃ code, st'.out = st.out ++ code ∧ Pushes 1 code
  | .Integer value, st, st', h => by
    simp only [Expression.codegen, emit_ok] at h
    subst h
    exact ⟨_, rfl, Pushes.single _ rfl⟩
  | .Identifier name, st, st', h => by
    simp only [Expression.codegen, bind_ok, emit_ok] at h
    obtain ⟨offset, s1, h1, _, s2, rfl, rfl⟩ := h
    have := get_variable_offset_ok h1
    subst this
    refine ⟨[Instr.mov (.reg .eax) (.ebp_minus offset)] ++ [Instr.push (.reg .eax)], by simp, ?_⟩
    exact (Pushes.nil.snoc (k := 0) (Instr.mov (.reg .eax) (.ebp_minus offset))
      (by norm_num [stack_effect]) (by norm_num)).snoc (k := 1) _
      (by norm_num [stack_effect]) (by norm_num)
  | .UnaryOperator op rhs, st, st', h => by
    simp only [Expression.codegen, bind_ok, emit_ok] at h
    obtain ⟨_, s1, h1, _, s2, rfl, _, s3, h3, rfl⟩ := h
    obtain ⟨c1, e1, p1⟩ := Expression.codegen_pushes rhs st s1 h1
    obtain ⟨c3, e3, p3⟩ := unary_operation_emits op
      { context := s1.context, label_count := s1.label_count, out := s1.out ++ [Instr.pop Reg.eax] }
    rw [e3] at h3
    injection h3 with _ h3
    subst h3
    refine ⟨c1 ++ [Instr.pop Reg.eax] ++ c3 ++ [Instr.push (.reg .eax)], by simp [e1], ?_⟩
    have q1 := p1.snoc (k := 0) (Instr.pop Reg.eax) (by norm_num [stack_effect]) (by norm_num)
    have q2 := q1.append (Pushes.of_plain p3) (by norm_num)
    exact q2.snoc (k := 1) _ (by norm_num [stack_effect]) (by norm_num)
  | .BinaryOperator op lhs rhs, st, st', h => by
    simp only [Expression.codegen] at h
    split_ifs at h with hop
    · cases lhs with
      | Identifier name =>
        simp only [bind_ok, emit_ok] at h
        obtain ⟨offset, s0, h0, _, s1, h1, _, s2, rfl, _, s3, rfl, rfl⟩ := h
        have := get_variable_offset_ok h0
        subst this
        obtain ⟨c1, e1, p1⟩ := Expression.codegen_pushes rhs _ s1 h1
        refine ⟨c1 ++ [Instr.pop Reg.eax] ++ [Instr.mov (.ebp_minus offset) (.reg .eax)] ++
          [Instr.push (.reg .eax)], by simp [e1], ?_⟩
        have q1 := p1.snoc (k := 0) (Instr.pop Reg.eax) (by norm_num [stack_effect]) (by norm_num)
        have q2 := q1.snoc (k := 0) (Instr.mov (.ebp_minus offset) (.reg .eax)) (by norm_num [stack_effect]) (by norm_num)
        exact q2.snoc (k := 1) _ (by norm_num [stack_effect]) (by norm_num)
      | _ => simp [throw_ok] at h
    · simp only [bind_ok, emit_ok] at h
      obtain ⟨_, s1, h1, _, s2, h2, _, s3, rfl, _, s4, rfl, _, s5, h5, rfl⟩ := h
      obtain ⟨c1, e1, p1⟩ := Expression.codegen_pushes rhs st s1 h1
      obtain ⟨c2, e2, p2⟩ := Expression.codegen_pushes lhs s1 s2 h2
      obtain ⟨c5, e5, p5⟩ := binary_operation_emits op
        { context := s2.context, label_count := s2.label_count,
          out := s2.out ++ [Instr.pop Reg.eax] ++ [Instr.pop Reg.ebx] }
      simp only [List.append_assoc] at h5 e5
      rw [e5] at h5
      injection h5 with _ h5
      subst h5
      refine ⟨c1 ++ c2 ++ [Instr.pop Reg.eax] ++ [Instr.pop Reg.ebx] ++ c5 ++
        [Instr.push (.reg .eax)], by simp [e1, e2], ?_⟩
      have q1 := p1.append p2 (by norm_num)
      have q2 := q1.snoc (k := 1) (Instr.pop Reg.eax) (by norm_num [stack_effect]) (by norm_num)
      have q3 := q2.snoc (k := 0) (Instr.pop Reg.ebx) (by norm_num [stack_effect]) (by norm_num)
      have q4 := q3.append (Pushes.of_plain p5) (by norm_num)
      exact q4.snoc (k := 1) _ (by norm_num [stack_effect]) (by norm_num)
  | .FunctionCall name [], st, st', h => by
    simp only [Expression.codegen] at h
    by_cases hname : name = "println_int"
    · simp [hname, throw_ok] at h
    · simp only [if_neg hname, bind_ok, emit_ok, codegen_reversed, pure_run, List.isEmpty_nil,
        Bool.not_true, Bool.false_eq_true, if_false, Prod.mk.injEq, Except.ok.injEq,
        true_and] at h
      obtain ⟨_, s1, rfl, _, s2, rfl, _, s3, rfl, rfl⟩ := h
      refine ⟨[Instr.call name] ++ [Instr.push (.reg .eax)], by simp, ?_⟩
      exact (Pushes.nil.snoc (k := 0) (Instr.call name) (by norm_num [stack_effect])
        (by norm_num)).snoc (k := 1) _ (by norm_num [stack_effect]) (by norm_num)
  | .FunctionCall name [a], st, st', h => by
    simp only [Expression.codegen] at h
    by_cases hname : name = "println_int"
    · simp only [if_pos hname, bind_ok, emit_ok] at h
      obtain ⟨_, s1, h1, _, s2, rfl, _, s3, rfl, _, s4, rfl, rfl⟩ := h
      obtain ⟨c1, e1, p1⟩ := Expression.codegen_pushes a st s1 h1
      refine ⟨c1 ++ [Instr.push .format_str] ++ [Instr.call "printf"] ++
        [Instr.add .esp (.imm 8)] ++ [Instr.push (.imm 0)], by simp [e1], ?_⟩
      have q1 := p1.snoc (k := 2) (Instr.push .format_str) (by norm_num [stack_effect]) (by norm_num)
      have q2 := q1.snoc (k := 2) (Instr.call "printf") (by norm_num [stack_effect]) (by norm_num)
      have q3 := q2.snoc (k := 0) (Instr.add .esp (.imm 8)) (by norm_num [stack_effect]) (by norm_num)
      exact q3.snoc (k := 1) (Instr.push (.imm 0)) (by norm_num [stack_effect]) (by norm_num)
    · simp only [if_neg hname, bind_ok, emit_ok, List.isEmpty_cons,
        Bool.not_false, if_true] at h
      obtain ⟨_, s1, h1, _, s2, rfl, _, s3, rfl, rfl⟩ := h
      obtain ⟨c1, e1, p1⟩ := codegen_reversed_pushes [a] st s1 h1
      refine ⟨c1 ++ [Instr.call name] ++
        [Instr.add .esp (.imm ((([a] : List Expression).length : Int) * 4))] ++
        [Instr.push (.reg .eax)], by simp [e1], ?_⟩
      have q1 := p1.snoc (k := 1) (Instr.call name) (by norm_num [stack_effect])
        (by norm_num)
      have q2 := q1.snoc (k := 0) (Instr.add .esp (.imm ((([a] : List Expression).length : Int) * 4)))
        (by simp [stack_effect]) (by norm_num)
      exact q2.snoc (k := 1) _ (by norm_num [stack_effect]) (by norm_num)
  | .FunctionCall name (a :: b :: rest), st, st', h => by
    simp only [Expression.codegen] at h
    by_cases hname : name = "println_int"
    · simp [hname, throw_ok] at h
    · simp only [if_neg hname, bind_ok, emit_ok, List.isEmpty_cons,
        Bool.not_false, if_true] at h
      obtain ⟨_, s1, h1, _, s2, rfl, _, s3, rfl, rfl⟩ := h
      obtain ⟨c1, e1, p1⟩ := codegen_reversed_pushes (a :: b :: rest) st s1 h1
      refine ⟨c1 ++ [Instr.call name] ++
        [Instr.add .esp (.imm (((a :: b :: rest).length : Int) * 4))] ++
        [Instr.push (.reg .eax)], by simp [e1], ?_⟩
      have q1 := p1.snoc (k := (a :: b :: rest).length) (Instr.call name)
        (by norm_num [stack_effect]) (by positivity)
      have q2 := q1.snoc (k := 0) (Instr.add .esp (.imm (((a :: b :: rest).length : Int) * 4)))
        (by simp [stack_effect]; ring) (by norm_num)
      exact q2.snoc (k := 1) _ (by norm_num [stack_effect]) (by norm_num)
theorem codegen_reversed_pushes : ∀ (arguments : List Expression) (st st' : GenState),
    codegen_reversed arguments st = (.ok (), st') →
      ∃ code, st'.out = st.out ++ code ∧ Pushes arguments.length code
  | [], st, st', h => by
    simp only [codegen_reversed, pure_run] at h
    injection h with _ h
    subst h
    exact ⟨[], by simp, Pushes.nil⟩
  | argument :: rest, st, st', h => by
    simp only [codegen_reversed, bind_ok] at h
    obtain ⟨_, s1, h1, h2⟩ := h
    obtain ⟨c1, e1, p1⟩ := codegen_reversed_pushes rest st s1 h1
    obtain ⟨c2, e2, p2⟩ := Expression.codegen_pushes argument s1 st' h2
    refine ⟨c1 ++ c2, by simp [e1, e2], ?_⟩
    have := p1.append p2 (by positivity)
    simpa using this
end

/-- C1: the code of every expression whose `codegen` returns normally keeps
the depth counter (push +1, pop -1, `add esp, 4n` -n) at or above its start
after every line and leaves it exactly one above the start. -/
theorem expression_codegen_balanced (e : Expression) (st st' : GenState)
    (h : e.codegen st = (.ok (), st')) :
    ∃ code, st'.out = st.out ++ code ∧
      ∀ d : Int, (∀ x ∈ simulate_depth d code, d ≤ x) ∧ depth_after d code = d + 1 :=
  Expression.codegen_pushes e st st' h


theorem expression_codegen_balanced_witness :
    ∃ code,
      (Expression.codegen (.BinaryOperator "-" (.Integer 7)
        (.FunctionCall "println_int" [.UnaryOperator "-" (.Integer 2)])) GenState.initial).2.out
        = GenState.initial.out ++ code ∧
      ∀ d : Int, (∀ x ∈ simulate_depth d code, d ≤ x) ∧ depth_after d code = d + 1 :=
  expression_codegen_balanced (.BinaryOperator "-" (.Integer 7)
    (.FunctionCall "println_int" [.UnaryOperator "-" (.Integer 2)])) GenState.initial _ (by rfl)

/-! ## The symbol table -/

theorem SymbolTable.find_assign_self (m : SymbolTable) (name : String) (v : Int) :
    (m.assign name v).find name = some v := by
  induction m with
  | nil => simp [SymbolTable.assign, SymbolTable.find]
  | cons p rest ih =>
    obtain ⟨k, w⟩ := p
    by_cases hk : k = name
    · simp [SymbolTable.assign, SymbolTable.find, hk]
    · simp [SymbolTable.assign, SymbolTable.find, hk, ih]

theorem SymbolTable.find_assign_ne (m : SymbolTable) (name other : String) (v : Int)
    (h : other ≠ name) : (m.assign name v).find other = m.find other := by
  have hne : ¬ name = other := fun hk => h hk.symm
  induction m with
  | nil => simp [SymbolTable.assign, SymbolTable.find, hne]
  | cons p rest ih =>
    obtain ⟨k, w⟩ := p
    by_cases hk : k = name
    · subst hk
      simp [SymbolTable.assign, SymbolTable.find, hne]
    · by_cases hko : k = other
      · subst hko
        simp [SymbolTable.assign, SymbolTable.find, hk]
      · simp [SymbolTable.assign, SymbolTable.find, hk, hko, ih]

theorem add_variable_spec (c : CodeGenContext) (top : SymbolTable)
    (rest : List SymbolTable) (name : String) (hc : c.symbol_table_stack = top :: rest) :
    ((c.add_variable name).1 = .error (.redeclaration name) ↔ (top.find name).isSome = true) ∧
    ((c.add_variable name).1 = .ok () ↔ top.find name = none) ∧
    ((top.find name).isSome = true → (c.add_variable name).2 = c) ∧
    (top.find name = none →
      (c.add_variable name).2.current_offset = c.current_offset + 4 ∧
      ∃ top', (c.add_variable name).2.symbol_table_stack = top' :: rest ∧
        top'.find name = some (c.current_offset + 4) ∧
        (∀ other, other ≠ name → top'.find other = top.find other) ∧
        (c.add_variable name).2.function_table = c.function_table ∧
        (c.add_variable name).2.loop_labels = c.loop_labels) := by
  by_cases hb : (top.find name).isSome = true
  · have hnone : top.find name ≠ none := by
      intro h0
      rw [h0] at hb
      simp at hb
    have hres : c.add_variable name = (.error (.redeclaration name), c) := by
      unfold CodeGenContext.add_variable
      rw [hc]
      simp [SymbolTable.count, hb]
    rw [hres]
    simp [hb, hnone]
  · have hnone : top.find name = none := by
      simpa using hb
    have hres : c.add_variable name = (.ok (), { c with
        current_offset := c.current_offset + 4,
        symbol_table_stack := top.assign name (c.current_offset + 4) :: rest }) := by
      unfold CodeGenContext.add_variable
      rw [hc]
      simp [SymbolTable.count, hb]
    rw [hres]
    refine ⟨by simp [hb], by simp [hnone], fun h => absurd h hb, fun _ => ⟨rfl, _, rfl, ?_, ?_, rfl, rfl⟩⟩
    · exact SymbolTable.find_assign_self _ _ _
    · exact fun other h => SymbolTable.find_assign_ne _ _ _ _ h

/-- C3: on a context whose scope stack is `top :: rest`, `add_variable(name)`
throws the redeclaration error exactly when `name` is bound in `top`; a throw
leaves the whole context as it was and is never another error; a normal
return adds 4 to `current_offset`, binds `name` in the top frame to the new
`current_offset`, and changes no other binding, frame or field. -/
theorem add_variable_contract (c : CodeGenContext) (top : SymbolTable)
    (rest : List SymbolTable) (name : String) (hc : c.symbol_table_stack = top :: rest) :
    ((c.add_variable name).1 = .error (.redeclaration name) ↔ (top.find name).isSome = true) ∧
    ((c.add_variable name).1 = .ok () ↔ top.find name = none) ∧
    ((top.find name).isSome = true → (c.add_variable name).2 = c) ∧
    (top.find name = none →
      (c.add_variable name).2.current_offset = c.current_offset + 4 ∧
      ∃ top', (c.add_variable name).2.symbol_table_stack = top' :: rest ∧
        top'.find name = some (c.current_offset + 4) ∧
        (∀ other, other ≠ name → top'.find other = top.find other) ∧
        (c.add_variable name).2.function_table = c.function_table ∧
        (c.add_variable name).2.loop_labels = c.loop_labels) :=
  add_variable_spec c top rest name hc

theorem add_variable_contract_witness :
    (((CodeGenContext.mk [] [[("x", 4)], [("y", 4)]] 4 []).add_variable "y").1 = .ok () ↔
      SymbolTable.find [("x", 4)] "y" = none) :=
  (add_variable_contract (CodeGenContext.mk [] [[("x", 4)], [("y", 4)]] 4 []) [("x", 4)]
    [[("y", 4)]] "y" rfl).2.1

/-- C10 as stated fails: after `push_scope()`, `add_variable("x")` and a
second `push_scope()` the top frame is empty and the frame below binds `x` to
4; the innermost-to-outermost search finds 4, but `get_variable_offset("x")`
throws the undeclared-variable error. -/
theorem get_variable_offset_ignores_outer_frames :
    (((GenState.initial.context.push_scope).add_variable "x").2.push_scope).symbol_table_stack
      = [[], [("x", 4)]] ∧
    innermost_binding
      (((GenState.initial.context.push_scope).add_variable "x").2.push_scope).symbol_table_stack
      "x" = some 4 ∧
    ((((GenState.initial.context.push_scope).add_variable "x").2.push_scope).get_variable_offset
      "x").1 = .error (.undeclared "x") :=
  ⟨rfl, rfl, rfl⟩

/-- C10 amended: on a context whose scope stack is `top :: rest`,
`get_variable_offset(name)` returns the offset bound to `name` in the top
frame alone and throws the undeclared-variable error exactly when the top
frame does not bind `name`, whatever the frames below hold; the context is
not changed. -/
theorem get_variable_offset_top_frame (c : CodeGenContext) (top : SymbolTable)
    (rest : List SymbolTable) (name : String) (hc : c.symbol_table_stack = top :: rest) :
    (∀ offset, (c.get_variable_offset name).1 = .ok offset ↔ top.find name = some offset) ∧
    ((c.get_variable_offset name).1 = .error (.undeclared name) ↔ top.find name = none) ∧
    (c.get_variable_offset name).2 = c := by
  unfold CodeGenContext.get_variable_offset
  rw [hc]
  rcases hfind : top.find name with _ | v <;> simp [hfind]

theorem get_variable_offset_top_frame_witness :
    ((CodeGenContext.mk [] [[], [("x", 4)]] 4 []).get_variable_offset "x").1
        = .error (.undeclared "x") ↔ SymbolTable.find [] "x" = none :=
  (get_variable_offset_top_frame (CodeGenContext.mk [] [[], [("x", 4)]] 4 []) []
    [[("x", 4)]] "x" rfl).2.1


/-! ## The declaration pre-pass -/

theorem bind_assoc_run {α β γ : Type} (m : Gen α) (f : α → Gen β) (g : β → Gen γ)
    (s : GenState) : ((m >>= f) >>= g) s = (m >>= fun a => f a >>= g) s := by
  simp only [bind_run]
  rcases m s with ⟨e | a, s1⟩ <;> rfl

theorem bind_congr_run {α β : Type} (m : Gen α) (f g : α → Gen β) (s : GenState)
    (h : ∀ a s1, f a s1 = g a s1) : (m >>= f) s = (m >>= g) s := by
  simp only [bind_run]
  rcases m s with ⟨e | a, s1⟩
  · rfl
  · exact h a s1

theorem declare_all_append (a b : List String) (s : GenState) :
    declare_all (a ++ b) s = (declare_all a >>= fun _ => declare_all b) s := by
  induction a generalizing s with
  | nil => rfl
  | cons n rest ih =>
    simp only [List.cons_append, declare_all]
    rw [bind_assoc_run]
    exact bind_congr_run _ _ _ _ (fun _ s1 => ih s1)

theorem preprocess_declarations_eq (ds : List (String × Option Expression)) (s : GenState) :
    preprocess_declarations ds s = declare_all (ds.map Prod.fst) s := by
  induction ds generalizing s with
  | nil => rfl
  | cons d rest ih =>
    simp only [preprocess_declarations, List.map_cons, declare_all]
    exact bind_congr_run _ _ _ _ (fun _ s1 => ih s1)

mutual
theorem Statement.preprocess_eq : ∀ (stmt : Statement) (s : GenState),
    stmt.preprocess s = declare_all stmt.declared_names s
  | .Block statements, s => by
    simp only [Statement.preprocess, Statement.declared_names]
    exact preprocess_statements_eq statements s
  | .VariableDeclaration declarations, s => by
    simp only [Statement.preprocess, Statement.declared_names]
    exact preprocess_declarations_eq declarations s
  | .IfStatement _ then_block else_block, s => by
    simp only [Statement.preprocess, Statement.declared_names]
    rw [declare_all_append, bind_run, bind_run, Statement.preprocess_eq then_block s]
    rcases declare_all then_block.declared_names s with ⟨e | a, s1⟩
    · rfl
    · exact preprocess_else_eq else_block s1
  | .WhileStatement _ body, s => by
    simp only [Statement.preprocess, Statement.declared_names]
    exact Statement.preprocess_eq body s
  | .ExpressionStatement _, s => rfl
  | .ReturnStatement _, s => rfl
  | .BreakStatement, s => rfl
  | .ContinueStatement, s => rfl
theorem preprocess_statements_eq : ∀ (statements : List Statement) (s : GenState),
    preprocess_statements statements s = declare_all (declared_names_statements statements) s
  | [], s => rfl
  | stmt :: rest, s => by
    simp only [preprocess_statements, declared_names_statements]
    rw [declare_all_append, bind_run, bind_run, Statement.preprocess_eq stmt s]
    rcases declare_all stmt.declared_names s with ⟨e | a, s1⟩
    · rfl
    · exact preprocess_statements_eq rest s1
theorem preprocess_else_eq : ∀ (else_block : Option Statement) (s : GenState),
    preprocess_else else_block s = declare_all (declared_names_else else_block) s
  | none, s => rfl
  | some else_block, s => by
    simp only [preprocess_else, declared_names_else]
    exact Statement.preprocess_eq else_block s
end

theorem add_variable_run (name : String) (s : GenState) :
    Gen.add_variable name s =
      ((s.context.add_variable name).1, { s with context := (s.context.add_variable name).2 }) :=
  rfl


theorem declare_all_ok : ∀ (names : List String) (st st' : GenState) (top : SymbolTable)
    (rest : List SymbolTable), st.context.symbol_table_stack = top :: rest →
    declare_all names st = (.ok (), st') →
    names.Nodup ∧ (∀ n ∈ names, top.find n = none) ∧
    st'.context.current_offset = st.context.current_offset + 4 * names.length ∧
    st'.out = st.out ∧ st'.label_count = st.label_count ∧
    st'.context.loop_labels = st.context.loop_labels ∧
    st'.context.function_table = st.context.function_table ∧
    ∃ top', st'.context.symbol_table_stack = top' :: rest ∧
      (∀ n ∈ names, ∃ o, top'.find n = some o ∧ st.context.current_offset + 4 ≤ o ∧
        o ≤ st.context.current_offset + 4 * names.length) ∧
      (∀ n, n ∉ names → top'.find n = top.find n)
  | [], st, st', top, rest, hst, h => by
    simp only [declare_all, pure_run, Prod.mk.injEq, true_and] at h
    subst h
    simp [hst]
  | name :: names, st, st', top, rest, hst, h => by
    simp only [declare_all, bind_ok, add_variable_run, Prod.mk.injEq] at h
    obtain ⟨_, s1, ⟨hres, rfl⟩, h⟩ := h
    obtain ⟨_, hok, _, hsucc⟩ := add_variable_spec st.context top rest name hst
    have hnone := hok.1 hres
    obtain ⟨hoff, top1, hstack, hself, hother, hft, hll⟩ := hsucc hnone
    obtain ⟨hnd, hfresh, hoff', hout, hlc, hll', hft', top', hstack', hin, hnotin⟩ :=
      declare_all_ok names _ st' top1 rest hstack h
    have hname : name ∉ names := by
      intro hmem
      have := hfresh name hmem
      rw [hself] at this
      cases this
    simp only at hoff' hout hlc hll' hft' hin
    refine ⟨List.nodup_cons.2 ⟨hname, hnd⟩, ?_, ?_, hout, hlc, hll'.trans hll, hft'.trans hft,
      top', hstack', ?_, ?_⟩
    · intro n hn
      rcases List.mem_cons.1 hn with rfl | hn
      · exact hnone
      · have hne : n ≠ name := fun hh => hname (hh ▸ hn)
        rw [← hother n hne]
        exact hfresh n hn
    · rw [hoff', hoff]
      simp only [List.length_cons]
      push_cast
      ring
    · intro n hn
      rcases List.mem_cons.1 hn with rfl | hn
      · refine ⟨st.context.current_offset + 4, ?_, le_refl _, ?_⟩
        · rw [hnotin n hname]
          exact hself
        · simp only [List.length_cons]
          push_cast
          omega
      · obtain ⟨o, ho, h1, h2⟩ := hin n hn
        refine ⟨o, ho, ?_, ?_⟩
        · rw [hoff] at h1
          omega
        · rw [hoff] at h2
          simp only [List.length_cons]
          push_cast
          omega
    · intro n hn
      have hne : n ≠ name := fun hh => hn (hh ▸ List.mem_cons_self _ _)
      have hn' : n ∉ names := fun hh => hn (List.mem_cons_of_mem _ hh)
      rw [hnotin n hn', hother n hne]

theorem declare_all_result : ∀ (names : List String) (st : GenState) (top : SymbolTable)
    (rest : List SymbolTable), st.context.symbol_table_stack = top :: rest →
    (declare_all names st).1 = .ok () ∨
      ∃ y ∈ names, (declare_all names st).1 = .error (.redeclaration y)
  | [], st, top, rest, hst => Or.inl rfl
  | name :: names, st, top, rest, hst => by
    obtain ⟨hredecl, hok, hsame, hsucc⟩ := add_variable_spec st.context top rest name hst
    simp only [declare_all, bind_run, add_variable_run]
    by_cases hb : (top.find name).isSome = true
    · right
      refine ⟨name, List.mem_cons_self _ _, ?_⟩
      rw [hredecl.2 hb]
    · have hnone : top.find name = none := by simpa using hb
      obtain ⟨_, top1, hstack, _⟩ := hsucc hnone
      rw [hok.2 hnone]
      rcases declare_all_result names
        { st with context := (st.context.add_variable name).2 } top1 rest hstack with h | ⟨y, hy, h⟩
      · exact Or.inl h
      · exact Or.inr ⟨y, List.mem_cons_of_mem _ hy, h⟩


theorem declare_all_duplicate (names : List String) (st : GenState) (top : SymbolTable)
    (rest : List SymbolTable) (hst : st.context.symbol_table_stack = top :: rest)
    (hdup : ¬ names.Nodup) :
    ∃ y ∈ names, (declare_all names st).1 = .error (.redeclaration y) := by
  rcases declare_all_result names st top rest hst with h | h
  · exfalso
    have hrun : declare_all names st = (.ok (), (declare_all names st).2) := by
      rw [← h]
    exact hdup (declare_all_ok names st _ top rest hst hrun).1
  · exact h

theorem declared_names_statements_append (a b : List Statement) :
    declared_names_statements (a ++ b) =
      declared_names_statements a ++ declared_names_statements b := by
  induction a with
  | nil => rfl
  | cons stmt rest ih => simp [declared_names_statements, ih]

theorem bind_error_fst {α β : Type} (m : Gen α) (f : α → Gen β) (s : GenState)
    (e : CompileError) (h : (m s).1 = .error e) : ((m >>= f) s).1 = .error e := by
  rw [bind_run]
  rcases hm : m s with ⟨e1 | a, s1⟩
  · rw [hm] at h
    simpa using h
  · rw [hm] at h
    cases h

/-- The scope stack in which both `FunctionDefinition::preprocess` and
`FunctionDefinition::codegen` run the pre-pass of the body: one fresh frame
holding the parameters, on top of the frames that were there. -/
theorem push_scope_bind_params_stack (c : CodeGenContext)
    (params : List (List (String × Option Expression))) :
    ((c.push_scope).bind_params params).symbol_table_stack =
        (bind_params [] 8 params).1 :: c.symbol_table_stack ∧
      ((c.push_scope).bind_params params).current_offset = 0 := by
  simp [CodeGenContext.push_scope, CodeGenContext.bind_params]

theorem FunctionDefinition.preprocess_run (f : FunctionDefinition) (st : GenState) :
    f.preprocess st =
      ((Statement.Block f.body).preprocess >>= fun _ => modify_context (fun c => c.pop_scope))
        { st with context :=
            (({ st.context with
                function_table := st.context.function_table.assign f.name f.params.length
              } : CodeGenContext).push_scope).bind_params f.params } := rfl

/-- C4 as stated fails: for the body `int x; { int x; }` the declaration
pre-pass does not succeed, it throws the redeclaration error for `x`. -/
theorem nested_redeclaration_rejected :
    (FunctionDefinition.preprocess
      { type := "int", name := "main", params := [],
        body := [.VariableDeclaration [("x", none)],
                 .Block [.VariableDeclaration [("x", none)]]] }
      GenState.initial).1 = .error (.redeclaration "x") := rfl

/-- C4 amended: a function body that declares `x` twice, at whatever depth of
nested `Block`s, `if` branches and `while` bodies the two declarations stand
(in particular: declares `x` and declares `x` again inside a nested `Block`),
never passes the declaration pre-pass: `FunctionDefinition::preprocess`
throws the redeclaration error for a name the body declares, because
`Block::preprocess` opens no frame and every declaration of the function
lands in the one frame of the function. -/
theorem nested_redeclaration_fails (f : FunctionDefinition) (x : String) (st : GenState)
    (htwice : 2 ≤ (declared_names_statements f.body).count x) :
    ∃ y ∈ declared_names_statements f.body,
      (f.preprocess st).1 = .error (.redeclaration y) := by
  have hdup : ¬ (Statement.Block f.body).declared_names.Nodup := by
    simp only [Statement.declared_names]
    intro hnd
    have := List.nodup_iff_count_le_one.1 hnd x
    omega
  rw [FunctionDefinition.preprocess_run]
  obtain ⟨hstack, _⟩ := push_scope_bind_params_stack
    ({ st.context with
        function_table := st.context.function_table.assign f.name f.params.length } :
      CodeGenContext) f.params
  obtain ⟨y, hmem, hy⟩ := declare_all_duplicate _
    { st with context :=
        (({ st.context with
            function_table := st.context.function_table.assign f.name f.params.length
          } : CodeGenContext).push_scope).bind_params f.params } _ _ hstack hdup
  refine ⟨y, hmem, bind_error_fst _ _ _ _ ?_⟩
  rw [Statement.preprocess_eq]
  exact hy

theorem nested_redeclaration_fails_witness :
    (2 ≤ (declared_names_statements
        [.VariableDeclaration [("x", none)],
         .WhileStatement (.Integer 1) (.Block [.VariableDeclaration [("x", none)]])]).count "x" ∧
      ∃ y ∈ declared_names_statements
          [.VariableDeclaration [("x", none)],
           .WhileStatement (.Integer 1) (.Block [.VariableDeclaration [("x", none)]])],
        (FunctionDefinition.preprocess
          { type := "int", name := "main", params := [],
            body := [.VariableDeclaration [("x", none)],
              .WhileStatement (.Integer 1) (.Block [.VariableDeclaration [("x", none)]])] }
          GenState.initial).1 = .error (.redeclaration y)) ∧
    (2 ≤ (declared_names_statements
        [.Block [.VariableDeclaration [("x", none)],
          .Block [.VariableDeclaration [("x", none)]]]]).count "x" ∧
      ∃ y ∈ declared_names_statements
          [.Block [.VariableDeclaration [("x", none)],
            .Block [.VariableDeclaration [("x", none)]]]],
        (FunctionDefinition.preprocess
          { type := "int", name := "main", params := [],
            body := [.Block [.VariableDeclaration [("x", none)],
              .Block [.VariableDeclaration [("x", none)]]]] }
          GenState.initial).1 = .error (.redeclaration y)) :=
  ⟨⟨by decide, nested_redeclaration_fails
      { type := "int", name := "main", params := [],
        body := [.VariableDeclaration [("x", none)],
          .WhileStatement (.Integer 1) (.Block [.VariableDeclaration [("x", none)]])] }
      "x" GenState.initial (by decide)⟩,
   ⟨by decide, nested_redeclaration_fails
      { type := "int", name := "main", params := [],
        body := [.Block [.VariableDeclaration [("x", none)],
          .Block [.VariableDeclaration [("x", none)]]]] }
      "x" GenState.initial (by decide)⟩⟩


/-! ## Runs that may throw -/

theorem bind_eq_iff {α β : Type} (m : Gen α) (f : α → Gen β) (s s' : GenState)
    (r : Except CompileError β) :
    (m >>= f) s = (r, s') ↔
      (∃ a s1, m s = (.ok a, s1) ∧ f a s1 = (r, s')) ∨
      (∃ e, m s = (.error e, s') ∧ r = .error e) := by
  rw [bind_run]
  rcases h : m s with ⟨e | a, s1⟩
  · simp only [Prod.mk.injEq, reduceCtorEq, false_and, exists_false, exists_const, false_or,
      Except.error.injEq]
    constructor
    · rintro ⟨rfl, rfl⟩
      exact ⟨e, ⟨rfl, rfl⟩, rfl⟩
    · rintro ⟨e', ⟨rfl, rfl⟩, rfl⟩
      exact ⟨rfl, rfl⟩
  · simp only [Prod.mk.injEq, Except.ok.injEq, reduceCtorEq, false_and, exists_false, or_false]
    constructor
    · intro hf
      exact ⟨a, s1, ⟨rfl, rfl⟩, hf⟩
    · rintro ⟨_, _, ⟨rfl, rfl⟩, hf⟩
      exact hf

theorem emit_eq_iff (i : Instr) (s s' : GenState) (r : Except CompileError Unit) :
    emit i s = (r, s') ↔ r = .ok () ∧ s' = { s with out := s.out ++ [i] } := by
  rw [emit_run]
  constructor
  · intro h
    injection h with h1 h2
    exact ⟨h1.symm, h2.symm⟩
  · rintro ⟨rfl, rfl⟩
    rfl

theorem next_label_eq_iff (s s' : GenState) (r : Except CompileError Int) :
    next_label s = (r, s') ↔
      r = .ok s.label_count ∧ s' = { s with label_count := s.label_count + 1 } := by
  unfold next_label
  constructor
  · intro h
    injection h with h1 h2
    exact ⟨h1.symm, h2.symm⟩
  · rintro ⟨rfl, rfl⟩
    rfl

theorem modify_context_eq_iff (f : CodeGenContext → CodeGenContext) (s s' : GenState)
    (r : Except CompileError Unit) :
    modify_context f s = (r, s') ↔ r = .ok () ∧ s' = { s with context := f s.context } := by
  unfold modify_context
  constructor
  · intro h
    injection h with h1 h2
    exact ⟨h1.symm, h2.symm⟩
  · rintro ⟨rfl, rfl⟩
    rfl


/-! ## Relations kept by every run -/

theorem exprStep_refl (s : GenState) : ExprStep s s :=
  ⟨rfl, rfl, [], by simp, by simp⟩

theorem exprStep_trans {a b c : GenState} (h1 : ExprStep a b) (h2 : ExprStep b c) :
    ExprStep a c := by
  obtain ⟨hc1, hl1, c1, ho1, hn1⟩ := h1
  obtain ⟨hc2, hl2, c2, ho2, hn2⟩ := h2
  refine ⟨hc2.trans hc1, hl2.trans hl1, c1 ++ c2, by rw [ho2, ho1, List.append_assoc], ?_⟩
  intro i hi
  rcases List.mem_append.1 hi with hi | hi
  · exact hn1 i hi
  · exact hn2 i hi

theorem preserves_bind {R : GenState → GenState → Prop} {α β : Type} {m : Gen α}
    {f : α → Gen β} (htrans : ∀ a b c, R a b → R b c → R a c)
    (hm : Preserves R m) (hf : ∀ a, Preserves R (f a)) : Preserves R (m >>= f) := by
  intro s
  rw [bind_run]
  have h1 := hm s
  rcases hms : m s with ⟨e | a, s1⟩
  · rw [hms] at h1
    exact h1
  · rw [hms] at h1
    exact htrans _ _ _ h1 (hf a s1)

theorem preserves_ite {R : GenState → GenState → Prop} {α : Type} {c : Prop} [Decidable c]
    {m n : Gen α} (hm : Preserves R m) (hn : Preserves R n) :
    Preserves R (if c then m else n) := by
  split_ifs
  · exact hm
  · exact hn

theorem exprStep_emit {i : Instr} (h : i.is_control = false) : Preserves ExprStep (emit i) := by
  intro s
  exact ⟨rfl, rfl, [i], rfl, by simpa using h⟩

theorem exprStep_pure {α : Type} (a : α) : Preserves ExprStep (Pure.pure a : Gen α) :=
  fun s => exprStep_refl s

theorem exprStep_throw {α : Type} (e : CompileError) :
    Preserves ExprStep (Gen.throw e : Gen α) :=
  fun s => exprStep_refl s

theorem exprStep_get_variable_offset (name : String) :
    Preserves ExprStep (Gen.get_variable_offset name) := by
  intro s
  rw [get_variable_offset_state]
  exact exprStep_refl s

theorem exprStep_of_emits {m : Gen Unit} (h : Emits m Instr.plain) : Preserves ExprStep m := by
  intro s
  obtain ⟨code, hrun, hplain⟩ := h s
  rw [hrun]
  exact ⟨rfl, rfl, code, rfl, fun i hi => (hplain i hi).2⟩

mutual
theorem Expression.codegen_step : ∀ e : Expression, Preserves ExprStep e.codegen
  | .Integer value => by
    simp only [Expression.codegen]
    exact exprStep_emit rfl
  | .Identifier name => by
    simp only [Expression.codegen]
    exact preserves_bind (fun _ _ _ => exprStep_trans) (exprStep_get_variable_offset name)
      (fun _ => preserves_bind (fun _ _ _ => exprStep_trans) (exprStep_emit rfl)
        (fun _ => exprStep_emit rfl))
  | .UnaryOperator op rhs => by
    simp only [Expression.codegen]
    exact preserves_bind (fun _ _ _ => exprStep_trans) (Expression.codegen_step rhs)
      (fun _ => preserves_bind (fun _ _ _ => exprStep_trans) (exprStep_emit rfl)
        (fun _ => preserves_bind (fun _ _ _ => exprStep_trans)
          (exprStep_of_emits (unary_operation_emits op)) (fun _ => exprStep_emit rfl)))
  | .BinaryOperator op lhs rhs => by
    simp only [Expression.codegen]
    split_ifs
    · cases lhs with
      | Identifier name =>
        exact preserves_bind (fun _ _ _ => exprStep_trans) (exprStep_get_variable_offset name)
          (fun _ => preserves_bind (fun _ _ _ => exprStep_trans) (Expression.codegen_step rhs)
            (fun _ => preserves_bind (fun _ _ _ => exprStep_trans) (exprStep_emit rfl)
              (fun _ => preserves_bind (fun _ _ _ => exprStep_trans) (exprStep_emit rfl)
                (fun _ => exprStep_emit rfl))))
      | _ => exact exprStep_throw _
    · exact preserves_bind (fun _ _ _ => exprStep_trans) (Expression.codegen_step rhs)
        (fun _ => preserves_bind (fun _ _ _ => exprStep_trans) (Expression.codegen_step lhs)
          (fun _ => preserves_bind (fun _ _ _ => exprStep_trans) (exprStep_emit rfl)
            (fun _ => preserves_bind (fun _ _ _ => exprStep_trans) (exprStep_emit rfl)
              (fun _ => preserves_bind (fun _ _ _ => exprStep_trans)
                (exprStep_of_emits (binary_operation_emits op)) (fun _ => exprStep_emit rfl)))))
  | .FunctionCall name [] => by
    by_cases hname : name = "println_int"
    · simp only [Expression.codegen, if_pos hname]
      exact exprStep_throw _
    · simp only [Expression.codegen, if_neg hname]
      exact preserves_bind (fun _ _ _ => exprStep_trans) (codegen_reversed_step [])
        (fun _ => preserves_bind (fun _ _ _ => exprStep_trans) (exprStep_emit rfl)
          (fun _ => preserves_bind (fun _ _ _ => exprStep_trans)
            (preserves_ite (exprStep_emit rfl) (exprStep_pure ())) (fun _ => exprStep_emit rfl)))
  | .FunctionCall name [a] => by
    by_cases hname : name = "println_int"
    · simp only [Expression.codegen, if_pos hname]
      exact preserves_bind (fun _ _ _ => exprStep_trans) (Expression.codegen_step a)
        (fun _ => preserves_bind (fun _ _ _ => exprStep_trans) (exprStep_emit rfl)
          (fun _ => preserves_bind (fun _ _ _ => exprStep_trans) (exprStep_emit rfl)
            (fun _ => preserves_bind (fun _ _ _ => exprStep_trans) (exprStep_emit rfl)
              (fun _ => exprStep_emit rfl))))
    · simp only [Expression.codegen, if_neg hname]
      exact preserves_bind (fun _ _ _ => exprStep_trans) (codegen_reversed_step [a])
        (fun _ => preserves_bind (fun _ _ _ => exprStep_trans) (exprStep_emit rfl)
          (fun _ => preserves_bind (fun _ _ _ => exprStep_trans)
            (preserves_ite (exprStep_emit rfl) (exprStep_pure ())) (fun _ => exprStep_emit rfl)))
  | .FunctionCall name (a :: b :: rest) => by
    by_cases hname : name = "println_int"
    · simp only [Expression.codegen, if_pos hname]
      exact exprStep_throw _
    · simp only [Expression.codegen, if_neg hname]
      exact preserves_bind (fun _ _ _ => exprStep_trans) (codegen_reversed_step (a :: b :: rest))
        (fun _ => preserves_bind (fun _ _ _ => exprStep_trans) (exprStep_emit rfl)
          (fun _ => preserves_bind (fun _ _ _ => exprStep_trans)
            (preserves_ite (exprStep_emit rfl) (exprStep_pure ())) (fun _ => exprStep_emit rfl)))
theorem codegen_reversed_step : ∀ arguments : List Expression,
    Preserves ExprStep (codegen_reversed arguments)
  | [] => by
    simp only [codegen_reversed]
    exact exprStep_pure ()
  | a :: rest => by
    simp only [codegen_reversed]
    exact preserves_bind (fun _ _ _ => exprStep_trans) (codegen_reversed_step rest)
      (fun _ => Expression.codegen_step a)
end


/-! ## Label numbers -/

theorem label_numbers_append (a b : List Instr) :
    label_numbers (a ++ b) = label_numbers a ++ label_numbers b := by
  simp [label_numbers, placed_control_labels, List.filterMap_append]

theorem label_numbers_nil : label_numbers [] = [] := rfl

theorem label_numbers_cons (i : Instr) (rest : List Instr) :
    label_numbers (i :: rest) =
      (match i.control_label with
        | some l => [l.number]
        | none => []) ++ label_numbers rest := by
  unfold label_numbers placed_control_labels
  rw [List.filterMap_cons]
  cases i.control_label <;> rfl

theorem control_label_of_not_control {i : Instr} (h : i.is_control = false) :
    i.control_label = none := by
  cases i <;> first | rfl | (simp [Instr.is_control] at h)

theorem label_numbers_of_not_control {code : List Instr}
    (h : ∀ i ∈ code, Instr.is_control i = false) : label_numbers code = [] := by
  induction code with
  | nil => rfl
  | cons i rest ih =>
    rw [label_numbers_cons, control_label_of_not_control (h i (List.mem_cons_self _ _)),
      ih (fun x hx => h x (List.mem_cons_of_mem _ hx))]
    rfl

theorem fresh_iff_count (lo hi : Int) (code : List Instr) :
    Fresh lo hi code ↔
      ∀ n : Int, (label_numbers code).count n ≤ if lo ≤ n ∧ n < hi then 1 else 0 := by
  unfold Fresh
  constructor
  · rintro ⟨hnd, hr⟩ n
    have h1 := List.nodup_iff_count_le_one.1 hnd n
    by_cases hn : lo ≤ n ∧ n < hi
    · rw [if_pos hn]
      exact h1
    · rw [if_neg hn]
      have : n ∉ label_numbers code := fun hmem => hn (hr n hmem)
      rw [List.count_eq_zero_of_not_mem this]
  · intro h
    refine ⟨List.nodup_iff_count_le_one.2 (fun n => ?_), fun n hn => ?_⟩
    · have := h n
      split_ifs at this <;> omega
    · have := h n
      have hpos : 0 < (label_numbers code).count n := List.count_pos_iff.2 hn
      split_ifs at this with hr
      · exact hr
      · omega

theorem labelStep_refl (s : GenState) : LabelStep s s := by
  refine ⟨le_refl _, [], by simp, ?_⟩
  rw [fresh_iff_count]
  intro n
  simp [label_numbers_nil]

theorem labelStep_trans {a b c : GenState} (h1 : LabelStep a b) (h2 : LabelStep b c) :
    LabelStep a c := by
  obtain ⟨hl1, c1, ho1, hf1⟩ := h1
  obtain ⟨hl2, c2, ho2, hf2⟩ := h2
  refine ⟨le_trans hl1 hl2, c1 ++ c2, by rw [ho2, ho1, List.append_assoc], ?_⟩
  rw [fresh_iff_count] at hf1 hf2 ⊢
  intro n
  have h1 := hf1 n
  have h2 := hf2 n
  rw [label_numbers_append, List.count_append]
  split_ifs at h1 h2 ⊢ <;> omega

theorem labelStep_of_exprStep {a b : GenState} (h : ExprStep a b) : LabelStep a b := by
  obtain ⟨_, hl, code, ho, hn⟩ := h
  refine ⟨by rw [hl], code, ho, ?_⟩
  rw [fresh_iff_count]
  intro n
  simp [label_numbers_of_not_control hn]

theorem preserves_mono {R S : GenState → GenState → Prop} {α : Type} {m : Gen α}
    (h : ∀ a b, R a b → S a b) (hm : Preserves R m) : Preserves S m :=
  fun s => h _ _ (hm s)


theorem get_current_loop_labels_state (s : GenState) :
    (Gen.get_current_loop_labels s).2 = s := by
  unfold Gen.get_current_loop_labels lift_context CodeGenContext.get_current_loop_labels
  rcases s with ⟨⟨ft, stk, off, ll⟩, lc, out⟩
  cases ll <;> rfl

theorem labelStep_emit {i : Instr} (h : i.control_label = none) :
    Preserves LabelStep (emit i) := by
  intro s
  refine ⟨le_refl _, [i], rfl, ?_⟩
  rw [fresh_iff_count]
  intro n
  simp [label_numbers_cons, h, label_numbers_nil]

theorem labelStep_expression (e : Expression) : Preserves LabelStep e.codegen :=
  preserves_mono (fun _ _ => labelStep_of_exprStep) (Expression.codegen_step e)

theorem labelStep_get_variable_offset (name : String) :
    Preserves LabelStep (Gen.get_variable_offset name) :=
  preserves_mono (fun _ _ => labelStep_of_exprStep) (exprStep_get_variable_offset name)

theorem labelStep_get_current_loop_labels : Preserves LabelStep Gen.get_current_loop_labels := by
  intro s
  rw [get_current_loop_labels_state]
  exact labelStep_refl s

theorem labelStep_pure {α : Type} (a : α) : Preserves LabelStep (Pure.pure a : Gen α) :=
  fun s => labelStep_refl s

theorem labelStep_modify_context (f : CodeGenContext → CodeGenContext) :
    Preserves LabelStep (modify_context f) := by
  intro s
  refine ⟨le_refl _, [], by simp [CompilerDesign.modify_context], ?_⟩
  rw [fresh_iff_count]
  intro n
  simp [label_numbers_nil]

theorem codegen_declarations_labels : ∀ ds : List (String × Option Expression),
    Preserves LabelStep (codegen_declarations ds)
  | [] => labelStep_pure ()
  | (name, none) :: rest => by
    simp only [codegen_declarations]
    exact preserves_bind (fun _ _ _ => labelStep_trans) (labelStep_pure _)
      (fun _ => codegen_declarations_labels rest)
  | (name, some init) :: rest => by
    simp only [codegen_declarations]
    exact preserves_bind (fun _ _ _ => labelStep_trans) (labelStep_get_variable_offset name)
      (fun _ => preserves_bind (fun _ _ _ => labelStep_trans) (labelStep_expression init)
        (fun _ => preserves_bind (fun _ _ _ => labelStep_trans) (labelStep_emit rfl)
          (fun _ => preserves_bind (fun _ _ _ => labelStep_trans) (labelStep_emit rfl)
            (fun _ => codegen_declarations_labels rest))))

theorem ite_emit (c : Prop) [Decidable c] (a b : Instr) :
    (if c then emit a else emit b) = emit (if c then a else b) := by
  split_ifs <;> rfl



theorem expr_run {e : Expression} {s s1 : GenState} {r : Except CompileError Unit}
    (h : e.codegen s = (r, s1)) :
    s1.context = s.context ∧ s1.label_count = s.label_count ∧
      ∃ c1, s1.out = s.out ++ c1 ∧ label_numbers c1 = [] := by
  have h1 := Expression.codegen_step e s
  rw [h] at h1
  obtain ⟨hc, hl, c1, ho, hn⟩ := h1
  exact ⟨hc, hl, c1, ho, label_numbers_of_not_control hn⟩

theorem stmt_run {m : Gen Unit} (hm : Preserves LabelStep m) {s s1 : GenState}
    {r : Except CompileError Unit} (h : m s = (r, s1)) :
    s.label_count ≤ s1.label_count ∧
      ∃ c, s1.out = s.out ++ c ∧
        ∀ n : Int, (label_numbers c).count n ≤
          if s.label_count ≤ n ∧ n < s1.label_count then 1 else 0 := by
  have h1 := hm s
  rw [h] at h1
  obtain ⟨hl, c, ho, hf⟩ := h1
  exact ⟨hl, c, ho, (fresh_iff_count _ _ _).1 hf⟩

theorem labelStep_build {s s1 : GenState} (code : List Instr)
    (hl : s.label_count ≤ s1.label_count) (ho : s1.out = s.out ++ code)
    (hc : ∀ n : Int, (label_numbers code).count n ≤
      if s.label_count ≤ n ∧ n < s1.label_count then 1 else 0) : LabelStep s s1 :=
  ⟨hl, code, ho, (fresh_iff_count _ _ _).2 hc⟩

theorem if_none_labels (c : Expression) (t : Statement)
    (iht : Preserves LabelStep t.codegen) :
    Preserves LabelStep (Statement.IfStatement c t none).codegen := by
  intro st
  rcases h : (Statement.IfStatement c t none).codegen st with ⟨r, st'⟩
  simp only [Statement.codegen, codegen_else, ite_emit, bind_eq_iff, emit_eq_iff, next_label_eq_iff,
    pure_run, Prod.mk.injEq,
    reduceCtorEq, false_and, and_false, exists_false, or_false, Except.ok.injEq, true_and,
    exists_and_left, exists_eq_left, exists_eq_left', Option.isSome_none, Bool.false_eq_true,
    if_false] at h
  obtain ⟨_, _, ⟨rfl, rfl⟩, _, _, ⟨rfl, rfl⟩, h⟩ := h
  rcases h with ⟨_, s1, hc, _, _, _, h⟩ | ⟨e, hc, rfl⟩
  · obtain ⟨_, hl1, c1, ho1, hn1⟩ := expr_run hc
    simp only at hl1 ho1
    rcases h with ⟨_, s2, ht, rfl, _, rfl⟩ | ⟨e, ht, rfl⟩
    · obtain ⟨hl3, c3, ho3, hf3⟩ := stmt_run iht ht
      simp only at hl3 ho3 hf3
      refine labelStep_build (c1 ++ [Instr.pop Reg.eax] ++ [Instr.cmp Reg.eax (Operand.imm 0)] ++
        [Instr.je (Label.L_end (st.label_count + 1))] ++ c3 ++
        [Instr.label (Label.L_end (st.label_count + 1))]) (by simp only; omega)
        (by simp [ho3, ho1]) ?_
      intro n
      have := hf3 n
      simp only [label_numbers_append, label_numbers_cons, label_numbers_nil,
        hn1, Instr.control_label, Label.number, List.count_append,
        List.count_cons, List.count_nil, List.nil_append, List.append_nil, beq_iff_eq] at this ⊢
      split_ifs at this ⊢ <;> omega
    · obtain ⟨hl3, c3, ho3, hf3⟩ := stmt_run iht ht
      simp only at hl3 ho3 hf3
      refine labelStep_build (c1 ++ [Instr.pop Reg.eax] ++ [Instr.cmp Reg.eax (Operand.imm 0)] ++
        [Instr.je (Label.L_end (st.label_count + 1))] ++ c3) (by simp only; omega)
        (by simp [ho3, ho1]) ?_
      intro n
      have := hf3 n
      simp only [label_numbers_append, label_numbers_cons, label_numbers_nil,
        hn1, Instr.control_label, Label.number, List.count_append,
        List.count_cons, List.count_nil, List.nil_append, List.append_nil, beq_iff_eq] at this ⊢
      split_ifs at this ⊢ <;> omega
  · obtain ⟨_, hl1, c1, ho1, hn1⟩ := expr_run hc
    simp only at hl1 ho1
    refine labelStep_build c1 (by simp only; omega) (by simp [ho1]) ?_
    intro n
    simp [hn1]

theorem if_some_labels (c : Expression) (t e : Statement)
    (iht : Preserves LabelStep t.codegen) (ihe : Preserves LabelStep e.codegen) :
    Preserves LabelStep (Statement.IfStatement c t (some e)).codegen := by
  intro st
  rcases h : (Statement.IfStatement c t (some e)).codegen st with ⟨r, st'⟩
  simp only [Statement.codegen, codegen_else, ite_emit, bind_eq_iff, emit_eq_iff, next_label_eq_iff,
    pure_run, Prod.mk.injEq,
    reduceCtorEq, false_and, and_false, exists_false, or_false, Except.ok.injEq, true_and,
    exists_and_left, exists_eq_left, exists_eq_left', Option.isSome_some, if_true] at h
  obtain ⟨_, _, ⟨rfl, rfl⟩, _, _, ⟨rfl, rfl⟩, h⟩ := h
  rcases h with ⟨_, s1, hc, _, _, _, h⟩ | ⟨e, hc, rfl⟩
  · obtain ⟨_, hl1, c1, ho1, hn1⟩ := expr_run hc
    simp only at hl1 ho1
    rcases h with ⟨_, s2, ht, h⟩ | ⟨e, ht, rfl⟩
    · obtain ⟨hl3, c3, ho3, hf3⟩ := stmt_run iht ht
      simp only at hl3 ho3 hf3
      rcases h with ⟨_, s3, ⟨_, _, he⟩, rfl, rfl⟩ | ⟨e1, ⟨_, _, he⟩, rfl⟩
      · obtain ⟨hl4, c4, ho4, hf4⟩ := stmt_run ihe he
        simp only at hl4 ho4 hf4
        refine labelStep_build (c1 ++ [Instr.pop Reg.eax] ++ [Instr.cmp Reg.eax (Operand.imm 0)] ++
          [Instr.je (Label.L_else st.label_count)] ++ c3 ++
          [Instr.jmp (Label.L_end (st.label_count + 1))] ++
          [Instr.label (Label.L_else st.label_count)] ++ c4 ++
          [Instr.label (Label.L_end (st.label_count + 1))]) (by simp only; omega)
          (by simp [ho4, ho3, ho1]) ?_
        intro n
        have h3 := hf3 n
        have h4 := hf4 n
        simp only [label_numbers_append, label_numbers_cons, label_numbers_nil,
          hn1, Instr.control_label, Label.number, List.count_append,
          List.count_cons, List.count_nil, List.nil_append, List.append_nil, beq_iff_eq] at h3 h4 ⊢
        split_ifs at h3 h4 ⊢ <;> omega
      · obtain ⟨hl4, c4, ho4, hf4⟩ := stmt_run ihe he
        simp only at hl4 ho4 hf4
        refine labelStep_build (c1 ++ [Instr.pop Reg.eax] ++ [Instr.cmp Reg.eax (Operand.imm 0)] ++
          [Instr.je (Label.L_else st.label_count)] ++ c3 ++
          [Instr.jmp (Label.L_end (st.label_count + 1))] ++
          [Instr.label (Label.L_else st.label_count)] ++ c4) (by simp only; omega)
          (by simp [ho4, ho3, ho1]) ?_
        intro n
        have h3 := hf3 n
        have h4 := hf4 n
        simp only [label_numbers_append, label_numbers_cons, label_numbers_nil,
          hn1, Instr.control_label, Label.number, List.count_append,
          List.count_cons, List.count_nil, List.nil_append, List.append_nil, beq_iff_eq] at h3 h4 ⊢
        split_ifs at h3 h4 ⊢ <;> omega
    · obtain ⟨hl3, c3, ho3, hf3⟩ := stmt_run iht ht
      simp only at hl3 ho3 hf3
      refine labelStep_build (c1 ++ [Instr.pop Reg.eax] ++ [Instr.cmp Reg.eax (Operand.imm 0)] ++
        [Instr.je (Label.L_else st.label_count)] ++ c3) (by simp only; omega)
        (by simp [ho3, ho1]) ?_
      intro n
      have h3 := hf3 n
      simp only [label_numbers_append, label_numbers_cons, label_numbers_nil,
        hn1, Instr.control_label, Label.number, List.count_append,
        List.count_cons, List.count_nil, List.nil_append, List.append_nil, beq_iff_eq] at h3 ⊢
      split_ifs at h3 ⊢ <;> omega
  · obtain ⟨_, hl1, c1, ho1, hn1⟩ := expr_run hc
    simp only at hl1 ho1
    refine labelStep_build c1 (by simp only; omega) (by simp [ho1]) ?_
    intro n
    simp [hn1]

theorem while_labels (c : Expression) (body : Statement)
    (ihb : Preserves LabelStep body.codegen) :
    Preserves LabelStep (Statement.WhileStatement c body).codegen := by
  intro st
  rcases h : (Statement.WhileStatement c body).codegen st with ⟨r, st'⟩
  simp only [Statement.codegen, bind_eq_iff, emit_eq_iff, next_label_eq_iff, modify_context_eq_iff,
    pure_run, Prod.mk.injEq,
    reduceCtorEq, false_and, and_false, exists_false, or_false, Except.ok.injEq, true_and,
    exists_and_left, exists_eq_left, exists_eq_left'] at h
  obtain ⟨_, _, ⟨rfl, rfl⟩, _, _, ⟨rfl, rfl⟩, h⟩ := h
  obtain ⟨_, _, h⟩ := h
  rcases h with ⟨_, s1, hc, _, _, _, h⟩ | ⟨e, hc, rfl⟩
  · obtain ⟨_, hl1, c1, ho1, hn1⟩ := expr_run hc
    simp only at hl1 ho1
    rcases h with ⟨_, s2, hb, rfl, _, _, rfl⟩ | ⟨e, hb, rfl⟩
    · obtain ⟨hl3, c3, ho3, hf3⟩ := stmt_run ihb hb
      simp only at hl3 ho3 hf3
      refine labelStep_build ([Instr.label (Label.L_cond st.label_count)] ++ c1 ++
        [Instr.pop Reg.eax] ++ [Instr.cmp Reg.eax (Operand.imm 0)] ++
        [Instr.je (Label.L_end (st.label_count + 1))] ++ c3 ++
        [Instr.jmp (Label.L_cond st.label_count)] ++
        [Instr.label (Label.L_end (st.label_count + 1))]) (by simp only; omega)
        (by simp [ho3, ho1]) ?_
      intro n
      have h3 := hf3 n
      simp only [label_numbers_append, label_numbers_cons, label_numbers_nil,
        hn1, Instr.control_label, Label.number, List.count_append,
        List.count_cons, List.count_nil, List.nil_append, List.append_nil, beq_iff_eq] at h3 ⊢
      split_ifs at h3 ⊢ <;> omega
    · obtain ⟨hl3, c3, ho3, hf3⟩ := stmt_run ihb hb
      simp only at hl3 ho3 hf3
      refine labelStep_build ([Instr.label (Label.L_cond st.label_count)] ++ c1 ++
        [Instr.pop Reg.eax] ++ [Instr.cmp Reg.eax (Operand.imm 0)] ++
        [Instr.je (Label.L_end (st.label_count + 1))] ++ c3) (by simp only; omega)
        (by simp [ho3, ho1]) ?_
      intro n
      have h3 := hf3 n
      simp only [label_numbers_append, label_numbers_cons, label_numbers_nil,
        hn1, Instr.control_label, Label.number, List.count_append,
        List.count_cons, List.count_nil, List.nil_append, List.append_nil, beq_iff_eq] at h3 ⊢
      split_ifs at h3 ⊢ <;> omega
  · obtain ⟨_, hl1, c1, ho1, hn1⟩ := expr_run hc
    simp only at hl1 ho1
    refine labelStep_build ([Instr.label (Label.L_cond st.label_count)] ++ c1)
      (by simp only; omega) (by simp [ho1]) ?_
    intro n
    simp only [label_numbers_append, label_numbers_cons, label_numbers_nil,
      hn1, Instr.control_label, Label.number, List.count_append,
      List.count_cons, List.count_nil, List.nil_append, List.append_nil, beq_iff_eq]
    split_ifs <;> omega

mutual
theorem Statement.codegen_labels : ∀ stmt : Statement, Preserves LabelStep stmt.codegen
  | .Block statements => by
    simp only [Statement.codegen]
    exact codegen_statements_labels statements
  | .VariableDeclaration declarations => by
    simp only [Statement.codegen]
    exact codegen_declarations_labels declarations
  | .ExpressionStatement expression => by
    simp only [Statement.codegen]
    exact preserves_bind (fun _ _ _ => labelStep_trans) (labelStep_expression expression)
      (fun _ => preserves_ite (labelStep_emit rfl) (labelStep_pure ()))
  | .ReturnStatement expression => by
    simp only [Statement.codegen]
    exact preserves_bind (fun _ _ _ => labelStep_trans) (labelStep_expression expression)
      (fun _ => preserves_bind (fun _ _ _ => labelStep_trans) (labelStep_emit rfl)
        (fun _ => preserves_bind (fun _ _ _ => labelStep_trans) (labelStep_emit rfl)
          (fun _ => labelStep_emit rfl)))
  | .IfStatement c t none => if_none_labels c t (Statement.codegen_labels t)
  | .IfStatement c t (some e) =>
    if_some_labels c t e (Statement.codegen_labels t) (Statement.codegen_labels e)
  | .WhileStatement c body => while_labels c body (Statement.codegen_labels body)
  | .BreakStatement => by
    simp only [Statement.codegen]
    exact preserves_bind (fun _ _ _ => labelStep_trans) labelStep_get_current_loop_labels
      (fun _ => labelStep_emit rfl)
  | .ContinueStatement => by
    simp only [Statement.codegen]
    exact preserves_bind (fun _ _ _ => labelStep_trans) labelStep_get_current_loop_labels
      (fun _ => labelStep_emit rfl)
theorem codegen_statements_labels : ∀ statements : List Statement,
    Preserves LabelStep (codegen_statements statements)
  | [] => by
    simp only [codegen_statements]
    exact labelStep_pure ()
  | stmt :: rest => by
    simp only [codegen_statements]
    exact preserves_bind (fun _ _ _ => labelStep_trans) (Statement.codegen_labels stmt)
      (fun _ => codegen_statements_labels rest)
end


theorem declare_all_output : ∀ (names : List String) (s : GenState),
    (declare_all names s).2.out = s.out ∧ (declare_all names s).2.label_count = s.label_count
  | [], s => ⟨rfl, rfl⟩
  | name :: rest, s => by
    simp only [declare_all, bind_run, add_variable_run]
    rcases (s.context.add_variable name).1 with e | a
    · exact ⟨rfl, rfl⟩
    · exact declare_all_output rest _

theorem labelStep_of_same_output {a b : GenState} (ho : b.out = a.out)
    (hl : b.label_count = a.label_count) : LabelStep a b := by
  refine labelStep_build [] (by rw [hl]) (by simp [ho]) ?_
  intro n
  simp [label_numbers_nil]

theorem labelStep_preprocess (stmt : Statement) : Preserves LabelStep stmt.preprocess := by
  intro s
  rw [Statement.preprocess_eq]
  exact labelStep_of_same_output (declare_all_output _ s).1 (declare_all_output _ s).2

theorem FunctionDefinition.codegen_function_labels (f : FunctionDefinition) :
    Preserves LabelStep f.codegen := by
  unfold FunctionDefinition.codegen
  exact preserves_bind (fun _ _ _ => labelStep_trans) (labelStep_emit rfl)
    (fun _ => preserves_bind (fun _ _ _ => labelStep_trans) (labelStep_emit rfl)
    (fun _ => preserves_bind (fun _ _ _ => labelStep_trans) (labelStep_emit rfl)
    (fun _ => preserves_bind (fun _ _ _ => labelStep_trans) (labelStep_emit rfl)
    (fun _ => preserves_bind (fun _ _ _ => labelStep_trans) (labelStep_modify_context _)
    (fun _ => preserves_bind (fun _ _ _ => labelStep_trans) (labelStep_modify_context _)
    (fun _ => preserves_bind (fun _ _ _ => labelStep_trans) (labelStep_preprocess _)
    (fun _ => preserves_bind (fun _ _ _ => labelStep_trans) (fun s => labelStep_refl s)
    (fun _ => preserves_bind (fun _ _ _ => labelStep_trans)
      (preserves_ite (labelStep_emit rfl) (labelStep_pure ()))
    (fun _ => preserves_bind (fun _ _ _ => labelStep_trans) (Statement.codegen_labels _)
    (fun _ => preserves_bind (fun _ _ _ => labelStep_trans)
      (preserves_ite (preserves_bind (fun _ _ _ => labelStep_trans) (labelStep_emit rfl)
        (fun _ => labelStep_emit rfl)) (labelStep_pure ()))
    (fun _ => labelStep_modify_context _)))))))))))

theorem codegen_functions_labels : ∀ functions : List FunctionDefinition,
    Preserves LabelStep (codegen_functions functions)
  | [] => labelStep_pure ()
  | func :: rest => by
    simp only [codegen_functions]
    exact preserves_bind (fun _ _ _ => labelStep_trans) (FunctionDefinition.codegen_function_labels func)
      (fun _ => codegen_functions_labels rest)

/-- C7: whatever the program and whether or not generation throws, the text
written by `Program::codegen` places no control-flow label twice: the
numbers of the placed `.L_else_N`, `.L_end_N` and `.L_cond_N` labels are
pairwise different values drawn from `label_count`, which only grows. -/
theorem control_labels_placed_once (p : Program) (context : CodeGenContext)
    (label_count : Int) :
    (placed_control_labels
      (p.codegen { context := context, label_count := label_count, out := [] }).2.out).Nodup ∧
    (label_numbers
      (p.codegen { context := context, label_count := label_count, out := [] }).2.out).Nodup ∧
    ∀ n ∈ label_numbers
        (p.codegen { context := context, label_count := label_count, out := [] }).2.out,
      label_count ≤ n ∧
        n < (p.codegen { context := context, label_count := label_count, out := [] }).2.label_count := by
  obtain ⟨_, code, ho, hnd, hr⟩ := codegen_functions_labels p.functions
    { context := context, label_count := label_count, out := [] }
  simp only [List.nil_append] at ho
  unfold Program.codegen
  rw [ho]
  exact ⟨List.Nodup.of_map _ hnd, hnd, hr⟩


/-! ## The stack frame -/

theorem ldiff_fifteen (n : Nat) : Nat.ldiff n 15 = n / 16 * 16 := by
  apply Nat.eq_of_testBit_eq
  intro i
  rw [Nat.testBit_ldiff]
  have h15 : (15 : Nat) = 2 ^ 4 - 1 := by norm_num
  have h16 : n / 16 * 16 = (n >>> 4) <<< 4 := by
    rw [Nat.shiftRight_eq_div_pow, Nat.shiftLeft_eq]
  rw [h15, Nat.testBit_two_pow_sub_one, h16, Nat.testBit_shiftLeft, Nat.testBit_shiftRight]
  by_cases hi : i < 4
  · have : ¬ i ≥ 4 := by omega
    simp [hi, this]
  · have h4 : i ≥ 4 := by omega
    have : 4 + (i - 4) = i := by omega
    simp [hi, h4, this]

theorem land_not_fifteen (x : Int) (hx : 0 ≤ x) : Int.land x (Int.not 15) = x / 16 * 16 := by
  obtain ⟨n, rfl⟩ := Int.eq_ofNat_of_zero_le hx
  show Int.land (Int.ofNat n) (Int.negSucc 15) = _
  simp only [Int.land]
  rw [ldiff_fifteen]
  push_cast
  rfl

theorem get_stack_size_eq (c : CodeGenContext) (h : 0 ≤ c.current_offset) :
    c.get_stack_size = (c.current_offset + 15) / 16 * 16 := by
  unfold CodeGenContext.get_stack_size
  exact land_not_fifteen _ (by omega)

theorem Statement.codegen_output (stmt : Statement) (s : GenState) :
    ∃ code, (stmt.codegen s).2.out = s.out ++ code := by
  obtain ⟨_, code, ho, _⟩ := Statement.codegen_labels stmt s
  exact ⟨code, ho⟩

/-- The lines `FunctionDefinition::codegen` prints before it touches the
context: `.global name`, `name:`, `push ebp`, `mov ebp, esp`. -/
theorem FunctionDefinition.codegen_run (f : FunctionDefinition) (st : GenState) :
    f.codegen st =
      ((Statement.Block f.body).preprocess >>= fun _ =>
        (fun s => (.ok s.context.get_stack_size, s) : Gen Int) >>= fun stack_size =>
        (if stack_size > 0 then emit (.sub .esp (.imm stack_size)) else pure ()) >>= fun _ =>
        (Statement.Block f.body).codegen >>= fun _ =>
        (if f.type = "void" then (emit .leave >>= fun _ => emit .ret) else pure ()) >>= fun _ =>
        modify_context (fun c => c.pop_scope))
      { context := (st.context.push_scope).bind_params f.params,
        label_count := st.label_count,
        out := st.out ++ [.global f.name, .label (.named f.name), .push (.reg .ebp),
          .mov (.reg .ebp) (.reg .esp)] } := by
  simp [FunctionDefinition.codegen, bind_run, emit_run, modify_context]

theorem frame_size_spec (f : FunctionDefinition) (st s1 : GenState)
    (hpre : (Statement.Block f.body).preprocess
      { context := (st.context.push_scope).bind_params f.params,
        label_count := st.label_count,
        out := st.out ++ [.global f.name, .label (.named f.name), .push (.reg .ebp),
          .mov (.reg .ebp) (.reg .esp)] } = (.ok (), s1)) :
    s1.context.get_stack_size % 16 = 0 ∧
    4 * ((declared_names_statements f.body).length : Int) ≤ s1.context.get_stack_size ∧
    (∀ m : Int, m % 16 = 0 → 4 * ((declared_names_statements f.body).length : Int) ≤ m →
      s1.context.get_stack_size ≤ m) ∧
    (∀ name ∈ declared_names_statements f.body, ∃ top rest offset,
      s1.context.symbol_table_stack = top :: rest ∧ top.find name = some offset ∧
        4 ≤ offset ∧ offset ≤ s1.context.get_stack_size) ∧
    ∃ tail, (f.codegen st).2.out =
      st.out ++ [.global f.name, .label (.named f.name), .push (.reg .ebp),
          .mov (.reg .ebp) (.reg .esp)] ++
        (if s1.context.get_stack_size > 0 then [.sub .esp (.imm s1.context.get_stack_size)]
          else []) ++ tail := by
  obtain ⟨hstack, hoff0⟩ := push_scope_bind_params_stack st.context f.params
  have hpre' := hpre
  rw [Statement.preprocess_eq] at hpre'
  obtain ⟨_, _, hoff, hout, _, _, _, top', hstack', hin, _⟩ :=
    declare_all_ok _ _ s1 _ _ hstack hpre'
  simp only [Statement.declared_names, hoff0, zero_add] at hoff hin hout
  have hsize := get_stack_size_eq s1.context (by rw [hoff]; positivity)
  rw [hoff] at hsize
  refine ⟨?_, ?_, ?_, ?_, ?_⟩
  · rw [hsize]
    omega
  · rw [hsize]
    omega
  · intro m hm hle
    rw [hsize]
    omega
  · intro name hname
    obtain ⟨o, ho, h1, h2⟩ := hin name hname
    refine ⟨top', _, o, hstack', ho, h1, ?_⟩
    rw [hsize]
    omega
  · rw [FunctionDefinition.codegen_run, bind_run, hpre]
    simp only [bind_run]
    by_cases hpos : s1.context.get_stack_size > 0
    · simp only [if_pos hpos, emit_run]
      obtain ⟨code, hcode⟩ := Statement.codegen_output (Statement.Block f.body)
        { s1 with out := s1.out ++ [Instr.sub .esp (.imm s1.context.get_stack_size)] }
      rcases hb : (Statement.Block f.body).codegen
        { s1 with out := s1.out ++ [Instr.sub .esp (.imm s1.context.get_stack_size)] }
        with ⟨e | u, s2⟩
      · rw [hb] at hcode
        simp only at hcode
        exact ⟨code, by simp [hcode, hout]⟩
      · rw [hb] at hcode
        simp only at hcode
        by_cases hvoid : f.type = "void"
        · exact ⟨code ++ [Instr.leave, Instr.ret], by
            simp [hvoid, emit_run, bind_run, modify_context, hcode, hout]⟩
        · exact ⟨code, by simp [hvoid, pure_run, modify_context, hcode, hout]⟩
    · simp only [if_neg hpos, pure_run]
      obtain ⟨code, hcode⟩ := Statement.codegen_output (Statement.Block f.body) s1
      rcases hb : (Statement.Block f.body).codegen s1 with ⟨e | u, s2⟩
      · rw [hb] at hcode
        simp only at hcode
        exact ⟨code, by simp [hcode, hout]⟩
      · rw [hb] at hcode
        simp only at hcode
        by_cases hvoid : f.type = "void"
        · exact ⟨code ++ [Instr.leave, Instr.ret], by
            simp [hvoid, emit_run, bind_run, modify_context, hcode, hout]⟩
        · exact ⟨code, by simp [hvoid, pure_run, modify_context, hcode, hout]⟩

/-- C6: when the declaration pre-pass that `FunctionDefinition::codegen` runs
on the body returns normally, the frame size `get_stack_size()` it then
computes is a multiple of 16, is the least multiple of 16 that is at least 4
times the number of declared locals, bounds every declared local's offset
`o` by `4 ≤ o ≤ size`, and is the operand of the `sub esp` line printed next
(no line is printed when the size is 0). -/
theorem frame_size_contract (f : FunctionDefinition) (st s1 : GenState)
    (hpre : (Statement.Block f.body).preprocess
      { context := (st.context.push_scope).bind_params f.params,
        label_count := st.label_count,
        out := st.out ++ [.global f.name, .label (.named f.name), .push (.reg .ebp),
          .mov (.reg .ebp) (.reg .esp)] } = (.ok (), s1)) :
    s1.context.get_stack_size % 16 = 0 ∧
    4 * ((declared_names_statements f.body).length : Int) ≤ s1.context.get_stack_size ∧
    (∀ m : Int, m % 16 = 0 → 4 * ((declared_names_statements f.body).length : Int) ≤ m →
      s1.context.get_stack_size ≤ m) ∧
    (∀ name ∈ declared_names_statements f.body, ∃ top rest offset,
      s1.context.symbol_table_stack = top :: rest ∧ top.find name = some offset ∧
        4 ≤ offset ∧ offset ≤ s1.context.get_stack_size) ∧
    ∃ tail, (f.codegen st).2.out =
      st.out ++ [.global f.name, .label (.named f.name), .push (.reg .ebp),
          .mov (.reg .ebp) (.reg .esp)] ++
        (if s1.context.get_stack_size > 0 then [.sub .esp (.imm s1.context.get_stack_size)]
          else []) ++ tail :=
  frame_size_spec f st s1 hpre

theorem frame_size_contract_witness :
    (CodeGenContext.mk [] [[("a", 4), ("b", 8), ("c", 12), ("d", 16), ("e", 20)]] 20
      []).get_stack_size % 16 = 0 ∧
    4 * ((declared_names_statements
      [.VariableDeclaration [("a", none), ("b", none)],
       .WhileStatement (.Integer 1) (.Block [.VariableDeclaration [("c", none)]]),
       .VariableDeclaration [("d", none), ("e", some (.Integer 7))]]).length : Int) ≤
      (CodeGenContext.mk [] [[("a", 4), ("b", 8), ("c", 12), ("d", 16), ("e", 20)]] 20
        []).get_stack_size :=
  have h := frame_size_contract
    { type := "int", name := "main", params := [],
      body := [.VariableDeclaration [("a", none), ("b", none)],
       .WhileStatement (.Integer 1) (.Block [.VariableDeclaration [("c", none)]]),
       .VariableDeclaration [("d", none), ("e", some (.Integer 7))]] }
    GenState.initial
    { context := CodeGenContext.mk [] [[("a", 4), ("b", 8), ("c", 12), ("d", 16), ("e", 20)]] 20 [],
      label_count := 0,
      out := [.global "main", .label (.named "main"), .push (.reg .ebp),
        .mov (.reg .ebp) (.reg .esp)] }
    rfl
  ⟨h.1, h.2.1⟩

/-- C8 fails on the code for `println_int(1);`: generation returns normally
and prints `push 1`, `push offset format_str`, `call printf`, `add esp, 8`,
`push 0` with no `add esp, 4` behind it, so the statement leaves the depth
counter one above its start instead of level. -/
theorem println_statement_leaves_a_word :
    (Statement.codegen (.ExpressionStatement (.FunctionCall "println_int" [.Integer 1]))
      GenState.initial).1 = .ok () ∧
    (Statement.codegen (.ExpressionStatement (.FunctionCall "println_int" [.Integer 1]))
      GenState.initial).2.out =
      [.push (.imm 1), .push .format_str, .call "printf", .add .esp (.imm 8), .push (.imm 0)] ∧
    depth_after 0
      (Statement.codegen (.ExpressionStatement (.FunctionCall "println_int" [.Integer 1]))
        GenState.initial).2.out = 1 :=
  ⟨rfl, rfl, rfl⟩

theorem get_stack_size_of_zero (c : CodeGenContext) (h : c.current_offset = 0) :
    c.get_stack_size = 0 := by
  rw [get_stack_size_eq c (by rw [h]), h]
  norm_num

theorem codegen_empty_int_function :
    FunctionDefinition.codegen { type := "int", name := "f", params := [], body := [] }
      GenState.initial =
      (.ok (), { context := { function_table := [], symbol_table_stack := [],
                              current_offset := 0, loop_labels := [] },
                 label_count := 0,
                 out := [.global "f", .label (.named "f"), .push (.reg .ebp),
                   .mov (.reg .ebp) (.reg .esp)] }) := by
  rw [FunctionDefinition.codegen_run]
  simp only [bind_run, Statement.preprocess, preprocess_statements, pure_run]
  rw [get_stack_size_of_zero _ rfl]
  rfl

theorem codegen_void_function_with_return :
    (FunctionDefinition.codegen
      { type := "void", name := "g", params := [],
        body := [.ReturnStatement (.Integer 0)] } GenState.initial).2.out =
      [.global "g", .label (.named "g"), .push (.reg .ebp), .mov (.reg .ebp) (.reg .esp),
        .push (.imm 0), .pop .eax, .leave, .ret, .leave, .ret] := by
  rw [FunctionDefinition.codegen_run]
  simp only [bind_run, Statement.preprocess, preprocess_statements, pure_run]
  rw [get_stack_size_of_zero _ rfl]
  rfl

/-- C9 as stated fails: an `int` function with an empty body gets no epilogue,
its text ends with `mov ebp, esp` and holds no `ret`; a `void` function whose
body already returns gets the epilogue all the same. -/
theorem default_epilogue_ignores_returns :
    (FunctionDefinition.codegen { type := "int", name := "f", params := [], body := [] }
      GenState.initial) =
      (.ok (), { context := { function_table := [], symbol_table_stack := [],
                              current_offset := 0, loop_labels := [] },
                 label_count := 0,
                 out := [.global "f", .label (.named "f"), .push (.reg .ebp),
                   .mov (.reg .ebp) (.reg .esp)] }) ∧
    (FunctionDefinition.codegen
      { type := "void", name := "g", params := [],
        body := [.ReturnStatement (.Integer 0)] } GenState.initial).2.out =
      [.global "g", .label (.named "g"), .push (.reg .ebp), .mov (.reg .ebp) (.reg .esp),
        .push (.imm 0), .pop .eax, .leave, .ret, .leave, .ret] :=
  ⟨codegen_empty_int_function, codegen_void_function_with_return⟩

/-- C9 amended: when `FunctionDefinition::codegen` returns normally, the text
after the body code is the epilogue `leave`, `ret` exactly when the declared
return type is the string `void`, and nothing otherwise, whether or not the
body holds a return statement; the epilogue never sets `eax`. -/
theorem default_epilogue_iff_void (f : FunctionDefinition) (st st' : GenState)
    (h : f.codegen st = (.ok (), st')) :
    ∃ s1 s2 : GenState,
      (Statement.Block f.body).preprocess
        { context := (st.context.push_scope).bind_params f.params,
          label_count := st.label_count,
          out := st.out ++ [.global f.name, .label (.named f.name), .push (.reg .ebp),
            .mov (.reg .ebp) (.reg .esp)] } = (.ok (), s1) ∧
      (Statement.Block f.body).codegen
        { s1 with out := s1.out ++
            (if s1.context.get_stack_size > 0
              then [Instr.sub .esp (.imm s1.context.get_stack_size)] else []) } = (.ok (), s2) ∧
      st'.out = s2.out ++ (if f.type = "void" then [Instr.leave, Instr.ret] else []) ∧
      st'.context = s2.context.pop_scope := by
  rw [FunctionDefinition.codegen_run] at h
  simp only [bind_ok, modify_context] at h
  obtain ⟨_, s1, hpre, size, _, hsize, _, s2, hsub, _, s3, hbody, _, s4, hepi, hpop⟩ := h
  injection hsize with hsize1 hsize2
  injection hsize1 with hsize1
  subst hsize1 hsize2
  injection hpop with _ hpop
  subst hpop
  refine ⟨s1, s3, hpre, ?_, ?_⟩
  · by_cases hpos : s1.context.get_stack_size > 0
    · simp only [if_pos hpos, emit_ok] at hsub ⊢
      rw [← hsub]
      exact hbody
    · simp only [if_neg hpos, pure_run, Prod.mk.injEq, true_and] at hsub
      simp only [if_neg hpos, List.append_nil]
      rw [← hsub] at hbody
      exact hbody
  · by_cases hvoid : f.type = "void"
    · simp only [if_pos hvoid, bind_ok, emit_ok] at hepi ⊢
      obtain ⟨_, s5, rfl, rfl⟩ := hepi
      simp
    · simp only [if_neg hvoid, pure_run, Prod.mk.injEq, true_and] at hepi
      subst hepi
      simp [hvoid]

theorem default_epilogue_iff_void_witness :
    ∃ s1 s2 : GenState,
      (Statement.Block []).preprocess
        { context := (GenState.initial.context.push_scope).bind_params [],
          label_count := 0,
          out := [] ++ [.global "f", .label (.named "f"), .push (.reg .ebp),
            .mov (.reg .ebp) (.reg .esp)] } = (.ok (), s1) ∧
      (Statement.Block []).codegen
        { s1 with out := s1.out ++
            (if s1.context.get_stack_size > 0
              then [Instr.sub .esp (.imm s1.context.get_stack_size)] else []) } = (.ok (), s2) ∧
      (FunctionDefinition.codegen { type := "int", name := "f", params := [], body := [] }
        GenState.initial).2.out = s2.out ++ (if "int" = "void" then [Instr.leave, Instr.ret] else []) ∧
      (FunctionDefinition.codegen { type := "int", name := "f", params := [], body := [] }
        GenState.initial).2.context = s2.context.pop_scope :=
  default_epilogue_iff_void { type := "int", name := "f", params := [], body := [] }
    GenState.initial _ (by rw [codegen_empty_int_function])


/-! ## Loop labels -/

theorem expr_ok_context {e : Expression} {s s1 : GenState} {r : Except CompileError Unit}
    (h : e.codegen s = (r, s1)) : s1.context = s.context :=
  (expr_run h).1

theorem pop_push_loop_labels (c : CodeGenContext) (a b : Int) :
    (c.push_loop_labels a b).pop_loop_labels = c := by
  cases c
  rfl

theorem get_current_loop_labels_ok {s s1 : GenState} {labels : Int × Int}
    (h : Gen.get_current_loop_labels s = (.ok labels, s1)) : s1 = s := by
  have := get_current_loop_labels_state s
  rw [h] at this
  exact this

theorem codegen_declarations_context : ∀ (ds : List (String × Option Expression))
    (st st' : GenState), codegen_declarations ds st = (.ok (), st') → st'.context = st.context
  | [], st, st', h => by
    simp only [codegen_declarations, pure_run, Prod.mk.injEq, true_and] at h
    rw [h]
  | (name, none) :: rest, st, st', h => by
    simp only [codegen_declarations, bind_ok, pure_run, Prod.mk.injEq, true_and] at h
    obtain ⟨_, s1, rfl, h⟩ := h
    exact codegen_declarations_context rest _ _ h
  | (name, some init) :: rest, st, st', h => by
    simp only [codegen_declarations, bind_ok, emit_ok] at h
    obtain ⟨_, s1, h1, _, s2, h2, _, s3, rfl, _, s4, rfl, h⟩ := h
    have e1 := get_variable_offset_ok h1
    subst e1
    have e2 := expr_ok_context h2
    have e3 := codegen_declarations_context rest _ _ h
    simp only at e3
    rw [e3, e2]

mutual
theorem Statement.codegen_context : ∀ (stmt : Statement) (st st' : GenState),
    stmt.codegen st = (.ok (), st') → st'.context = st.context
  | .Block statements, st, st', h => by
    simp only [Statement.codegen] at h
    exact codegen_statements_context statements st st' h
  | .VariableDeclaration declarations, st, st', h => by
    simp only [Statement.codegen] at h
    exact codegen_declarations_context declarations st st' h
  | .ExpressionStatement expression, st, st', h => by
    simp only [Statement.codegen, bind_ok] at h
    obtain ⟨_, s1, h1, h2⟩ := h
    have e1 := expr_ok_context h1
    split_ifs at h2
    · rw [emit_ok] at h2
      rw [h2, ← e1]
    · rw [pure_run] at h2
      injection h2 with _ h2
      rw [← h2, e1]
  | .ReturnStatement expression, st, st', h => by
    simp only [Statement.codegen, bind_ok, emit_ok] at h
    obtain ⟨_, s1, h1, _, s2, rfl, _, s3, rfl, rfl⟩ := h
    have e1 := expr_ok_context h1
    exact e1
  | .IfStatement c t none, st, st', h => by
    simp only [Statement.codegen, codegen_else, ite_emit, bind_ok, emit_ok, next_label_eq_iff,
      pure_run, Prod.mk.injEq, Except.ok.injEq, true_and] at h
    obtain ⟨_, _, ⟨rfl, rfl⟩, _, _, ⟨rfl, rfl⟩, _, s1, h1, _, _, rfl, _, _, rfl, _, _, rfl,
      _, s2, h2, _, _, rfl, rfl⟩ := h
    have e1 := expr_ok_context h1
    have e2 := Statement.codegen_context t _ _ h2
    simp only at e1 e2 ⊢
    rw [e2, e1]
  | .IfStatement c t (some e), st, st', h => by
    simp only [Statement.codegen, codegen_else, ite_emit, bind_ok, emit_ok, next_label_eq_iff,
      pure_run, Prod.mk.injEq, Except.ok.injEq, true_and] at h
    obtain ⟨_, _, ⟨rfl, rfl⟩, _, _, ⟨rfl, rfl⟩, _, s1, h1, _, _, rfl, _, _, rfl, _, _, rfl,
      _, s2, h2, _, s3, ⟨_, _, rfl, _, _, rfl, h3⟩, rfl⟩ := h
    have e1 := expr_ok_context h1
    have e2 := Statement.codegen_context t _ _ h2
    have e3 := Statement.codegen_context e _ _ h3
    simp only at e1 e2 e3 ⊢
    rw [e3, e2, e1]
  | .WhileStatement c body, st, st', h => by
    simp only [Statement.codegen, bind_ok, emit_ok, next_label_eq_iff, modify_context_eq_iff,
      Prod.mk.injEq, Except.ok.injEq, true_and] at h
    obtain ⟨_, _, ⟨rfl, rfl⟩, _, _, ⟨rfl, rfl⟩, _, _, rfl, _, _, rfl, _, s1, h1, _, _, rfl,
      _, _, rfl, _, _, rfl, _, s2, h2, _, _, rfl, _, _, rfl, rfl⟩ := h
    have e1 := expr_ok_context h1
    have e2 := Statement.codegen_context body _ _ h2
    simp only at e1 e2 ⊢
    rw [e2, e1, pop_push_loop_labels]
  | .BreakStatement, st, st', h => by
    simp only [Statement.codegen, bind_ok, emit_ok] at h
    obtain ⟨_, s1, h1, rfl⟩ := h
    rw [get_current_loop_labels_ok h1]
  | .ContinueStatement, st, st', h => by
    simp only [Statement.codegen, bind_ok, emit_ok] at h
    obtain ⟨_, s1, h1, rfl⟩ := h
    rw [get_current_loop_labels_ok h1]
theorem codegen_statements_context : ∀ (statements : List Statement) (st st' : GenState),
    codegen_statements statements st = (.ok (), st') → st'.context = st.context
  | [], st, st', h => by
    simp only [codegen_statements, pure_run, Prod.mk.injEq, true_and] at h
    rw [h]
  | stmt :: rest, st, st', h => by
    simp only [codegen_statements, bind_ok] at h
    obtain ⟨_, s1, h1, h2⟩ := h
    rw [codegen_statements_context rest s1 st' h2, Statement.codegen_context stmt st s1 h1]
end

theorem Reaches.loop_labels {st st' : GenState} {stmt target : Statement}
    {path : List (Int × Int)} (h : Reaches st stmt path st' target) :
    st'.context.loop_labels = path ++ st.context.loop_labels := by
  induction h with
  | here st stmt => rfl
  | block st s1 st' before after stmt target path hbefore _ ih =>
    rw [ih, codegen_statements_context before st s1 hbefore]
  | if_then st s1 st' condition then_block else_block target path hcondition _ ih =>
    rw [ih]
    simp only
    rw [expr_ok_context hcondition]
  | if_else st s1 s2 st' condition then_block else_block target path hcondition hthen _ ih =>
    rw [ih]
    simp only
    rw [Statement.codegen_context then_block _ _ hthen]
    simp only
    rw [expr_ok_context hcondition]
  | while_body st s1 st' condition body target path hcondition _ ih =>
    rw [ih]
    simp only
    rw [expr_ok_context hcondition]
    simp [CodeGenContext.push_loop_labels]


theorem outGrows_refl (s : GenState) : OutGrows s s := ⟨[], by simp⟩

theorem outGrows_trans {a b c : GenState} (h1 : OutGrows a b) (h2 : OutGrows b c) :
    OutGrows a c := by
  obtain ⟨c1, h1⟩ := h1
  obtain ⟨c2, h2⟩ := h2
  exact ⟨c1 ++ c2, by rw [h2, h1, List.append_assoc]⟩

theorem outGrows_of_labelStep {a b : GenState} (h : LabelStep a b) : OutGrows a b := by
  obtain ⟨_, code, ho, _⟩ := h
  exact ⟨code, ho⟩

theorem outGrows_emit (i : Instr) : Preserves OutGrows (emit i) :=
  fun _ => ⟨[i], rfl⟩

theorem outGrows_statement (stmt : Statement) : Preserves OutGrows stmt.codegen :=
  preserves_mono (fun _ _ => outGrows_of_labelStep) (Statement.codegen_labels stmt)

theorem outGrows_statements (statements : List Statement) :
    Preserves OutGrows (codegen_statements statements) :=
  preserves_mono (fun _ _ => outGrows_of_labelStep) (codegen_statements_labels statements)

theorem outGrows_modify_context (f : CodeGenContext → CodeGenContext) :
    Preserves OutGrows (modify_context f) :=
  fun s => outGrows_refl s

theorem outGrows_codegen_else (else_label end_label : Int) :
    ∀ else_block : Option Statement,
      Preserves OutGrows (codegen_else else_label end_label else_block)
  | none => fun s => outGrows_refl s
  | some e => by
    simp only [CompilerDesign.codegen_else]
    exact preserves_bind (fun _ _ _ => outGrows_trans) (outGrows_emit _)
      (fun _ => preserves_bind (fun _ _ _ => outGrows_trans) (outGrows_emit _)
        (fun _ => outGrows_statement e))

theorem bind_error {α β : Type} {m : Gen α} (f : α → Gen β) {s s' : GenState}
    {e : CompileError} (h : m s = (.error e, s')) : (m >>= f) s = (.error e, s') := by
  rw [bind_run, h]

theorem bind_output {α β : Type} (m : Gen α) {f : α → Gen β}
    (hf : ∀ a, Preserves OutGrows (f a)) (s : GenState) :
    ∃ tail, ((m >>= f) s).2.out = (m s).2.out ++ tail := by
  rw [bind_run]
  rcases m s with ⟨e | a, s1⟩
  · exact ⟨[], by simp⟩
  · exact hf a s1

theorem codegen_statements_append (a b : List Statement) (s : GenState) :
    codegen_statements (a ++ b) s = (codegen_statements a >>= fun _ => codegen_statements b) s := by
  induction a generalizing s with
  | nil => rfl
  | cons stmt rest ih =>
    simp only [List.cons_append, codegen_statements]
    rw [bind_assoc_run]
    exact bind_congr_run _ _ _ _ (fun _ s1 => ih s1)

theorem block_codegen_run (before after : List Statement) (stmt : Statement)
    (st s1 : GenState) (hbefore : codegen_statements before st = (.ok (), s1)) :
    (Statement.Block (before ++ stmt :: after)).codegen st =
      (stmt.codegen >>= fun _ => codegen_statements after) s1 := by
  simp only [Statement.codegen]
  rw [codegen_statements_append, bind_run, hbefore]
  rfl

theorem if_codegen_run (condition : Expression) (then_block : Statement)
    (else_block : Option Statement) (st s1 : GenState)
    (hcondition : condition.codegen { st with label_count := st.label_count + 1 + 1 } =
      (.ok (), s1)) :
    (Statement.IfStatement condition then_block else_block).codegen st =
      (then_block.codegen >>= fun _ =>
        codegen_else st.label_count (st.label_count + 1) else_block >>= fun _ =>
          emit (.label (.L_end (st.label_count + 1))))
        { s1 with out := s1.out ++ [.pop .eax] ++ [.cmp .eax (.imm 0)] ++
            [if else_block.isSome then .je (.L_else st.label_count)
             else .je (.L_end (st.label_count + 1))] } := by
  simp only [Statement.codegen, ite_emit]
  simp only [bind_run, next_label, hcondition, emit_run]

theorem if_else_codegen_run (condition : Expression) (then_block else_block : Statement)
    (st s1 s2 : GenState)
    (hcondition : condition.codegen { st with label_count := st.label_count + 1 + 1 } =
      (.ok (), s1))
    (hthen : then_block.codegen
      { s1 with out := s1.out ++ [.pop .eax] ++ [.cmp .eax (.imm 0)] ++
          [.je (.L_else st.label_count)] } = (.ok (), s2)) :
    (Statement.IfStatement condition then_block (some else_block)).codegen st =
      (else_block.codegen >>= fun _ => emit (.label (.L_end (st.label_count + 1))))
        { s2 with out := s2.out ++ [.jmp (.L_end (st.label_count + 1))] ++
            [.label (.L_else st.label_count)] } := by
  rw [if_codegen_run condition then_block (some else_block) st s1 hcondition]
  simp only [Option.isSome_some, if_true]
  rw [bind_run, hthen]
  simp only [codegen_else, bind_run, emit_run]

theorem while_codegen_run (condition : Expression) (body : Statement) (st s1 : GenState)
    (hcondition : condition.codegen
      { context := st.context.push_loop_labels st.label_count (st.label_count + 1),
        label_count := st.label_count + 1 + 1,
        out := st.out ++ [.label (.L_cond st.label_count)] } = (.ok (), s1)) :
    (Statement.WhileStatement condition body).codegen st =
      (body.codegen >>= fun _ =>
        emit (.jmp (.L_cond st.label_count)) >>= fun _ =>
          emit (.label (.L_end (st.label_count + 1))) >>= fun _ =>
            modify_context (fun c => c.pop_loop_labels))
        { s1 with out := s1.out ++ [.pop .eax] ++ [.cmp .eax (.imm 0)] ++
            [.je (.L_end (st.label_count + 1))] } := by
  simp only [Statement.codegen]
  simp only [bind_run, next_label, modify_context, hcondition, emit_run]

theorem Reaches.error {st st' s'' : GenState} {stmt target : Statement}
    {path : List (Int × Int)} {e : CompileError} (h : Reaches st stmt path st' target)
    (htarget : target.codegen st' = (.error e, s'')) : stmt.codegen st = (.error e, s'') := by
  induction h with
  | here st stmt => exact htarget
  | block st s1 st' before after stmt target path hbefore _ ih =>
    rw [block_codegen_run before after stmt st s1 hbefore]
    exact bind_error _ (ih htarget)
  | if_then st s1 st' condition then_block else_block target path hcondition _ ih =>
    rw [if_codegen_run condition then_block else_block st s1 hcondition]
    exact bind_error _ (ih htarget)
  | if_else st s1 s2 st' condition then_block else_block target path hcondition hthen _ ih =>
    rw [if_else_codegen_run condition then_block else_block st s1 s2 hcondition hthen]
    exact bind_error _ (ih htarget)
  | while_body st s1 st' condition body target path hcondition _ ih =>
    rw [while_codegen_run condition body st s1 hcondition]
    exact bind_error _ (ih htarget)

theorem Reaches.output {st st' : GenState} {stmt target : Statement}
    {path : List (Int × Int)} (h : Reaches st stmt path st' target) :
    ∃ tail, (stmt.codegen st).2.out = (target.codegen st').2.out ++ tail := by
  induction h with
  | here st stmt => exact ⟨[], by simp⟩
  | block st s1 st' before after stmt target path hbefore _ ih =>
    rw [block_codegen_run before after stmt st s1 hbefore]
    obtain ⟨t1, h1⟩ := ih
    obtain ⟨t2, h2⟩ := bind_output stmt.codegen
      (f := fun _ => codegen_statements after) (fun _ => outGrows_statements after) s1
    exact ⟨t1 ++ t2, by rw [h2, h1, List.append_assoc]⟩
  | if_then st s1 st' condition then_block else_block target path hcondition _ ih =>
    rw [if_codegen_run condition then_block else_block st s1 hcondition]
    obtain ⟨t1, h1⟩ := ih
    obtain ⟨t2, h2⟩ := bind_output then_block.codegen
      (f := fun _ => codegen_else st.label_count (st.label_count + 1) else_block >>= fun _ =>
          emit (.label (.L_end (st.label_count + 1))))
      (fun _ => preserves_bind (fun _ _ _ => outGrows_trans) (outGrows_codegen_else _ _ _)
        (fun _ => outGrows_emit _))
      { s1 with out := s1.out ++ [.pop .eax] ++ [.cmp .eax (.imm 0)] ++
            [if else_block.isSome then .je (.L_else st.label_count)
             else .je (.L_end (st.label_count + 1))] }
    exact ⟨t1 ++ t2, by rw [h2, h1, List.append_assoc]⟩
  | if_else st s1 s2 st' condition then_block else_block target path hcondition hthen _ ih =>
    rw [if_else_codegen_run condition then_block else_block st s1 s2 hcondition hthen]
    obtain ⟨t1, h1⟩ := ih
    obtain ⟨t2, h2⟩ := bind_output else_block.codegen
      (f := fun _ => emit (.label (.L_end (st.label_count + 1))))
      (fun _ => outGrows_emit _)
      { s2 with out := s2.out ++ [.jmp (.L_end (st.label_count + 1))] ++
            [.label (.L_else st.label_count)] }
    exact ⟨t1 ++ t2, by rw [h2, h1, List.append_assoc]⟩
  | while_body st s1 st' condition body target path hcondition _ ih =>
    rw [while_codegen_run condition body st s1 hcondition]
    obtain ⟨t1, h1⟩ := ih
    obtain ⟨t2, h2⟩ := bind_output body.codegen
      (f := fun _ => emit (.jmp (.L_cond st.label_count)) >>= fun _ =>
          emit (.label (.L_end (st.label_count + 1))) >>= fun _ =>
            modify_context (fun c => c.pop_loop_labels))
      (fun _ => preserves_bind (fun _ _ _ => outGrows_trans) (outGrows_emit _)
        (fun _ => preserves_bind (fun _ _ _ => outGrows_trans) (outGrows_emit _)
          (fun _ => outGrows_modify_context _)))
      { s1 with out := s1.out ++ [.pop .eax] ++ [.cmp .eax (.imm 0)] ++
            [.je (.L_end (st.label_count + 1))] }
    exact ⟨t1 ++ t2, by rw [h2, h1, List.append_assoc]⟩


theorem break_codegen_run (s : GenState) :
    Statement.BreakStatement.codegen s =
      match s.context.loop_labels with
      | [] => (.error .outside_loop, s)
      | top :: _ => (.ok (), { s with out := s.out ++ [.jmp (.L_end top.2)] }) := by
  simp only [Statement.codegen, bind_run, Gen.get_current_loop_labels, lift_context,
    CodeGenContext.get_current_loop_labels]
  rcases s with ⟨⟨ft, stk, off, ll⟩, lc, out⟩
  cases ll <;> rfl

theorem continue_codegen_run (s : GenState) :
    Statement.ContinueStatement.codegen s =
      match s.context.loop_labels with
      | [] => (.error .outside_loop, s)
      | top :: _ => (.ok (), { s with out := s.out ++ [.jmp (.L_cond top.1)] }) := by
  simp only [Statement.codegen, bind_run, Gen.get_current_loop_labels, lift_context,
    CodeGenContext.get_current_loop_labels]
  rcases s with ⟨⟨ft, stk, off, ll⟩, lc, out⟩
  cases ll <;> rfl

/-- C5: let the run of a statement tree start with an empty loop-label stack
and reach a `BreakStatement` or `ContinueStatement` (all earlier calls having
returned normally), and let `path` be the label pairs drawn by the enclosing
`WhileStatement`s, innermost first.  If no `WhileStatement` encloses it,
generation of the whole tree throws the outside-of-a-loop error.  Otherwise,
with `(c, k)` the pair of the innermost enclosing loop, a break prints
`jmp .L_end_k` and a continue prints `jmp .L_cond_c`, and that line is part
of the text of the whole tree. -/
theorem loop_control_targets (st st' : GenState) (stmt target : Statement)
    (path : List (Int × Int)) (hempty : st.context.loop_labels = [])
    (hreach : Reaches st stmt path st' target)
    (htarget : target = .BreakStatement ∨ target = .ContinueStatement) :
    (path = [] → (stmt.codegen st).1 = .error .outside_loop) ∧
    (∀ c k outer, path = (c, k) :: outer →
      (target = .BreakStatement →
        target.codegen st' = (.ok (), { st' with out := st'.out ++ [.jmp (.L_end k)] }) ∧
        ∃ tail, (stmt.codegen st).2.out = st'.out ++ [.jmp (.L_end k)] ++ tail) ∧
      (target = .ContinueStatement →
        target.codegen st' = (.ok (), { st' with out := st'.out ++ [.jmp (.L_cond c)] }) ∧
        ∃ tail, (stmt.codegen st).2.out = st'.out ++ [.jmp (.L_cond c)] ++ tail)) := by
  have hlabels := hreach.loop_labels
  rw [hempty, List.append_nil] at hlabels
  refine ⟨?_, ?_⟩
  · intro hpath
    rw [hpath] at hlabels
    have herr : target.codegen st' = (.error .outside_loop, st') := by
      rcases htarget with rfl | rfl
      · rw [break_codegen_run, hlabels]
      · rw [continue_codegen_run, hlabels]
    rw [hreach.error herr]
  · intro c k outer hpath
    rw [hpath] at hlabels
    obtain ⟨tail, htail⟩ := hreach.output
    refine ⟨?_, ?_⟩
    · intro hb
      subst hb
      have hrun : Statement.BreakStatement.codegen st' =
          (.ok (), { st' with out := st'.out ++ [.jmp (.L_end k)] }) := by
        rw [break_codegen_run, hlabels]
      refine ⟨hrun, tail, ?_⟩
      rw [htail, hrun]
    · intro hc
      subst hc
      have hrun : Statement.ContinueStatement.codegen st' =
          (.ok (), { st' with out := st'.out ++ [.jmp (.L_cond c)] }) := by
        rw [continue_codegen_run, hlabels]
      refine ⟨hrun, tail, ?_⟩
      rw [htail, hrun]


theorem loop_control_targets_witness :
    ∃ tail,
      (Statement.codegen (.WhileStatement (.Integer 1) .BreakStatement) GenState.initial).2.out =
        [.label (.L_cond 0), .push (.imm 1), .pop .eax, .cmp .eax (.imm 0), .je (.L_end 1)] ++
          [.jmp (.L_end 1)] ++ tail :=
  (((loop_control_targets GenState.initial
    { context := { function_table := [], symbol_table_stack := [], current_offset := 0,
                   loop_labels := [(0, 1)] },
      label_count := 2,
      out := [.label (.L_cond 0), .push (.imm 1), .pop .eax, .cmp .eax (.imm 0),
        .je (.L_end 1)] }
    (.WhileStatement (.Integer 1) .BreakStatement) .BreakStatement [(0, 1)] rfl
    (Reaches.while_body GenState.initial
      { context := { function_table := [], symbol_table_stack := [], current_offset := 0,
                     loop_labels := [(0, 1)] },
        label_count := 2,
        out := [.label (.L_cond 0), .push (.imm 1)] }
      _ (.Integer 1) .BreakStatement .BreakStatement [] rfl (Reaches.here _ _))
    (Or.inl rfl)).2 0 1 [] rfl).1 rfl).2

/-! ## compilelab1: the round trip of the specification -/

theorem run_succ (p : List Instr) (fuel : Nat) (m : Machine) :
    Machine.run p (fuel + 1) m =
      match m.step p with
      | .next m1 => Machine.run p fuel m1
      | .halt m1 => .returned m1
      | .fault => .fault := rfl

theorem word_lt (x : Int) : word x < 4294967296 := by
  unfold word
  omega

/-- A `pop` after a `push` restores the stack pointer. -/
theorem word_pop_push (a : Nat) (ha : a < 4294967296) :
    word ((word ((a : Int) - 4) : Nat) + 4) = a := by
  unfold word
  omega

/-- A `push` writes below the word the stack pointer was at. -/
theorem word_push_ne (a : Nat) : ¬ a = word ((a : Int) - 4) := by
  unfold word
  omega

theorem word_push_push_ne (a : Nat) (ha : a < 4294967296) :
    ¬ a = word ((word ((a : Int) - 4) : Nat) - 4) := by
  unfold word
  omega

/-- The lines emitted for `main` return 14 from every machine state: the
run is followed line by line, the five stack addresses involved being kept
apart by 32-bit arithmetic alone. -/
theorem main_code_returns_14 (m : Machine) (hpc : m.pc = 0) :
    (Machine.run
      [.label (.named "main"), .push (.reg .ebp), .mov (.reg .ebp) (.reg .esp),
        .sub .esp (.imm 256), .push (.lit "2"), .push (.lit "3"), .push (.lit "4"),
        .pop .edx, .pop .eax, .imul .eax (.reg .edx), .push (.reg .eax),
        .pop .edx, .pop .eax, .add .eax (.reg .edx), .push (.reg .eax),
        .pop .eax, .mov (.ebp_rel (-4)) (.reg .eax), .push (.ebp_rel (-4)), .pop .eax,
        .leave, .ret]
      21 m).result = some 14 := by
  obtain ⟨eax, ebx, ecx, edx, ebp, esp, memory, globals, fs, flags, output, pc⟩ := m
  simp only at hpc
  subst hpc
  have l2 : literal_value "2" % 4294967296 = 2 := by decide
  have l3 : literal_value "3" % 4294967296 = 3 := by decide
  have l4 : literal_value "4" % 4294967296 = 4 := by decide
  have m12 : word (signed 3 * signed 4) = 12 := by decide
  have a14 : word ((2 : Nat) + (12 : Nat)) = 14 := by decide
  have s14 : signed 14 = 14 := by decide
  rw [run_succ]
  simp only [Machine.step, List.get?, Machine.advance, Machine.push, Machine.read, Machine.get,
    Machine.store, Machine.write, Machine.set, Machine.arith]
  rw [run_succ]
  simp only [Machine.step, List.get?, Machine.advance, Machine.push, Machine.read, Machine.get,
    Machine.store, Machine.write, Machine.set, Machine.arith]
  generalize hA : word (↑esp - 4) = A
  rw [run_succ]
  simp only [Machine.step, List.get?, Machine.advance, Machine.push, Machine.read, Machine.get,
    Machine.store, Machine.write, Machine.set, Machine.arith]
  rw [run_succ]
  simp only [Machine.step, List.get?, Machine.advance, Machine.push, Machine.read, Machine.get,
    Machine.store, Machine.write, Machine.set, Machine.arith]
  generalize hB : word (↑A - ↑(word 256)) = B
  have hBlt : B < 4294967296 := hB ▸ word_lt _
  rw [run_succ]
  simp only [Machine.step, List.get?, Machine.advance, Machine.push, Machine.read, Machine.get,
    Machine.store, Machine.write, Machine.set, Machine.arith]
  generalize hC1 : word (↑B - 4) = C1
  have hC1lt : C1 < 4294967296 := hC1 ▸ word_lt _
  rw [run_succ]
  simp only [Machine.step, List.get?, Machine.advance, Machine.push, Machine.read, Machine.get,
    Machine.store, Machine.write, Machine.set, Machine.arith]
  generalize hC2 : word (↑C1 - 4) = C2
  have hC2lt : C2 < 4294967296 := hC2 ▸ word_lt _
  rw [run_succ]
  simp only [Machine.step, List.get?, Machine.advance, Machine.push, Machine.read, Machine.get,
    Machine.store, Machine.write, Machine.set, Machine.arith]
  generalize hC3 : word (↑C2 - 4) = C3
  have e32 : word (↑C3 + 4) = C2 := by rw [← hC3]; exact word_pop_push C2 hC2lt
  have e21 : word (↑C2 + 4) = C1 := by rw [← hC2]; exact word_pop_push C1 hC1lt
  have e1B : word (↑C1 + 4) = B := by rw [← hC1]; exact word_pop_push B hBlt
  have n23 : ¬ C2 = C3 := by rw [← hC3]; exact word_push_ne C2
  have n12 : ¬ C1 = C2 := by rw [← hC2]; exact word_push_ne C1
  have n13 : ¬ C1 = C3 := by rw [← hC3, ← hC2]; exact word_push_push_ne C1 hC1lt
  simp only [l2, l3, l4]
  rw [run_succ]
  simp only [Machine.step, List.get?, Machine.advance, Machine.push, Machine.read, Machine.get,
    Machine.store, Machine.write, Machine.set, Machine.arith]
  simp only [e32, if_true]
  rw [run_succ]
  simp only [Machine.step, List.get?, Machine.advance, Machine.push, Machine.read, Machine.get,
    Machine.store, Machine.write, Machine.set, Machine.arith]
  simp only [e21, n23, if_true, if_false]
  rw [run_succ]
  simp only [Machine.step, List.get?, Machine.advance, Machine.push, Machine.read, Machine.get,
    Machine.store, Machine.write, Machine.set, Machine.arith]
  simp only [m12]
  rw [run_succ]
  simp only [Machine.step, List.get?, Machine.advance, Machine.push, Machine.read, Machine.get,
    Machine.store, Machine.write, Machine.set, Machine.arith]
  simp only [hC2]
  rw [run_succ]
  simp only [Machine.step, List.get?, Machine.advance, Machine.push, Machine.read, Machine.get,
    Machine.store, Machine.write, Machine.set, Machine.arith]
  simp only [e21, if_true]
  rw [run_succ]
  simp only [Machine.step, List.get?, Machine.advance, Machine.push, Machine.read, Machine.get,
    Machine.store, Machine.write, Machine.set, Machine.arith]
  simp only [e1B, n12, n13, if_true, if_false]
  rw [run_succ]
  simp only [Machine.step, List.get?, Machine.advance, Machine.push, Machine.read, Machine.get,
    Machine.store, Machine.write, Machine.set, Machine.arith]
  simp only [a14]
  rw [run_succ]
  simp only [Machine.step, List.get?, Machine.advance, Machine.push, Machine.read, Machine.get,
    Machine.store, Machine.write, Machine.set, Machine.arith]
  simp only [hC1]
  rw [run_succ]
  simp only [Machine.step, List.get?, Machine.advance, Machine.push, Machine.read, Machine.get,
    Machine.store, Machine.write, Machine.set, Machine.arith]
  simp only [e1B, if_true]
  rw [run_succ]
  simp only [Machine.step, List.get?, Machine.advance, Machine.push, Machine.read, Machine.get,
    Machine.store, Machine.write, Machine.set, Machine.arith]
  rw [run_succ]
  simp only [Machine.step, List.get?, Machine.advance, Machine.push, Machine.read, Machine.get,
    Machine.store, Machine.write, Machine.set, Machine.arith]
  simp only [hC1, if_true]
  rw [run_succ]
  simp only [Machine.step, List.get?, Machine.advance, Machine.push, Machine.read, Machine.get,
    Machine.store, Machine.write, Machine.set, Machine.arith]
  simp only [e1B, if_true]
  rw [run_succ]
  simp only [Machine.step, List.get?, Machine.advance, Machine.push, Machine.read, Machine.get,
    Machine.store, Machine.write, Machine.set, Machine.arith]
  rw [run_succ]
  simp only [Machine.step, List.get?, Machine.advance, Machine.push, Machine.read, Machine.get,
    Machine.store, Machine.write, Machine.set, Machine.arith]
  simp only [Run.result, s14]

/-- C2: the single-pass compiler accepts
`int main(){ int x; x = 2 + 3 * 4; return x; }` and emits 21 lines for
`main`; run on the 32-bit machine from the first line, whatever the stack
pointer, registers and memory hold, these lines return with 14 in `eax`. -/
theorem round_trip_returns_14 :
    (Compiler.compile 100
        "int main()\x7b int x; x = 2 + 3 * 4; return x; \x7d".toList).toOption.map
      (fun c => c.code) = some
      [.label (.named "main"), .push (.reg .ebp), .mov (.reg .ebp) (.reg .esp),
        .sub .esp (.imm 256), .push (.lit "2"), .push (.lit "3"), .push (.lit "4"),
        .pop .edx, .pop .eax, .imul .eax (.reg .edx), .push (.reg .eax),
        .pop .edx, .pop .eax, .add .eax (.reg .edx), .push (.reg .eax),
        .pop .eax, .mov (.ebp_rel (-4)) (.reg .eax), .push (.ebp_rel (-4)), .pop .eax,
        .leave, .ret] ∧
    ∀ m : Machine, (Machine.run
      [.label (.named "main"), .push (.reg .ebp), .mov (.reg .ebp) (.reg .esp),
        .sub .esp (.imm 256), .push (.lit "2"), .push (.lit "3"), .push (.lit "4"),
        .pop .edx, .pop .eax, .imul .eax (.reg .edx), .push (.reg .eax),
        .pop .edx, .pop .eax, .add .eax (.reg .edx), .push (.reg .eax),
        .pop .eax, .mov (.ebp_rel (-4)) (.reg .eax), .push (.ebp_rel (-4)), .pop .eax,
        .leave, .ret]
      21 { m with pc := 0 }).result = some 14 := by
  constructor
  · decide!
  · intro m
    exact main_code_returns_14 _ rfl

/-! ## Assignment -/

theorem get_variable_offset_run (name : String) (s : GenState) (top : SymbolTable)
    (rest : List SymbolTable) (o : Int) (hstack : s.context.symbol_table_stack = top :: rest)
    (hfind : top.find name = some o) : Gen.get_variable_offset name s = (.ok o, s) := by
  unfold Gen.get_variable_offset lift_context CodeGenContext.get_variable_offset
  simp only [hstack, hfind]

theorem expr_ok_state {e : Expression} {s s1 : GenState} {r : Except CompileError Unit}
    (h : e.codegen s = (r, s1)) : ∃ code, s1 = { s with out := s.out ++ code } := by
  obtain ⟨hc, hl, code, ho, _⟩ := expr_run h
  refine ⟨code, ?_⟩
  rcases s1 with ⟨c1, l1, o1⟩
  simp only at hc hl ho
  subst hc hl ho
  rfl

/-- C11: for `BinaryOperator` with op `=`: when `lhs` is not an `Identifier`,
`codegen` throws the error "LHS of assignment must be a variable" and leaves
the state, the output included, as it was; when `lhs` is an `Identifier`
bound at offset `o` in the top frame and `codegen` of `rhs` returns normally
after printing `code`, the whole prints exactly `code`, `pop eax`,
`mov DWORD PTR [ebp-o], eax`, `push eax`, and `code` leaves one value on the
operand stack. -/
theorem assignment_codegen_contract (lhs rhs : Expression) (st : GenState) :
    ((∀ name, lhs ≠ .Identifier name) →
      (Expression.BinaryOperator "=" lhs rhs).codegen st = (.error .lhs_not_variable, st)) ∧
    (∀ (name : String) (top : SymbolTable) (rest : List SymbolTable) (o : Int) (s1 : GenState),
      lhs = .Identifier name → st.context.symbol_table_stack = top :: rest →
      top.find name = some o → rhs.codegen st = (.ok (), s1) →
      ∃ code, s1 = { st with out := st.out ++ code } ∧ Pushes 1 code ∧
        (Expression.BinaryOperator "=" lhs rhs).codegen st =
          (.ok (), { st with out := st.out ++ code ++
            [.pop .eax, .mov (.ebp_minus o) (.reg .eax), .push (.reg .eax)] })) := by
  constructor
  · intro hlhs
    cases lhs with
    | Identifier name => exact absurd rfl (hlhs name)
    | Integer v => simp [Expression.codegen, Gen.throw]
    | BinaryOperator op a b => simp [Expression.codegen, Gen.throw]
    | UnaryOperator op a => simp [Expression.codegen, Gen.throw]
    | FunctionCall n args => simp [Expression.codegen, Gen.throw]
  · intro name top rest o s1 hlhs hstack hfind hrhs
    subst hlhs
    obtain ⟨code, hs1⟩ := expr_ok_state hrhs
    obtain ⟨code', ho, hp⟩ := Expression.codegen_pushes rhs st s1 hrhs
    have hcode : code' = code := by
      rw [hs1] at ho
      exact (List.append_cancel_left ho).symm
    subst hcode
    refine ⟨code', hs1, hp, ?_⟩
    simp only [Expression.codegen, if_true, bind_run,
      get_variable_offset_run name st top rest o hstack hfind, hrhs, emit_run]
    rw [hs1]
    simp

theorem assignment_codegen_contract_witness :
    (Expression.BinaryOperator "=" (.Integer 1) (.Integer 5)).codegen GenState.initial =
      (.error .lhs_not_variable, GenState.initial) ∧
    ∃ code,
      ({ context := { function_table := [], symbol_table_stack := [[("x", 4)]],
                      current_offset := 4, loop_labels := [] },
         label_count := 0, out := [Instr.push (.imm 5)] } : GenState) =
        { context := { function_table := [], symbol_table_stack := [[("x", 4)]],
                       current_offset := 4, loop_labels := [] },
          label_count := 0, out := [] ++ code } ∧
      Pushes 1 code ∧
      (Expression.BinaryOperator "=" (.Identifier "x") (.Integer 5)).codegen
        { context := { function_table := [], symbol_table_stack := [[("x", 4)]],
                       current_offset := 4, loop_labels := [] },
          label_count := 0, out := [] } =
        (.ok (), { context := { function_table := [], symbol_table_stack := [[("x", 4)]],
                                current_offset := 4, loop_labels := [] },
                   label_count := 0,
                   out := [] ++ code ++
                     [.pop .eax, .mov (.ebp_minus 4) (.reg .eax), .push (.reg .eax)] }) :=
  ⟨(assignment_codegen_contract (.Integer 1) (.Integer 5) GenState.initial).1
      (fun _ h => Expression.noConfusion h),
   (assignment_codegen_contract (.Identifier "x") (.Integer 5)
      { context := { function_table := [], symbol_table_stack := [[("x", 4)]],
                     current_offset := 4, loop_labels := [] },
        label_count := 0, out := [] }).2 "x" [("x", 4)] [] 4 _ rfl rfl rfl rfl⟩

/-! ## Eager and short-circuit `&&` -/

theorem eager_main_code :
    (FunctionDefinition.codegen
      { type := "int", name := "main", params := [],
        body := [.ReturnStatement (.BinaryOperator "&&" (.Integer 1) (.Integer 2))] }
      GenState.initial).2.out =
      [.global "main", .label (.named "main"), .push (.reg .ebp), .mov (.reg .ebp) (.reg .esp),
        .push (.imm 2), .push (.imm 1), .pop .eax, .pop .ebx, .and_ .eax (.reg .ebx),
        .cmp .eax (.imm 0), .setcc .ne, .movzx_eax_al, .push (.reg .eax),
        .pop .eax, .leave, .ret] := by
  rw [FunctionDefinition.codegen_run]
  simp only [bind_run, Statement.preprocess, preprocess_statements, pure_run]
  rw [get_stack_size_of_zero _ rfl]
  rfl

theorem eager_code_returns_0 (m : Machine) (hpc : m.pc = 0) :
    (Machine.run
      [.global "main", .label (.named "main"), .push (.reg .ebp), .mov (.reg .ebp) (.reg .esp),
        .push (.imm 2), .push (.imm 1), .pop .eax, .pop .ebx, .and_ .eax (.reg .ebx),
        .cmp .eax (.imm 0), .setcc .ne, .movzx_eax_al, .push (.reg .eax),
        .pop .eax, .leave, .ret] 16 m).result = some 0 := by
  obtain ⟨eax, ebx, ecx, edx, ebp, esp, memory, globals, fs, flags, output, pc⟩ := m
  simp only at hpc
  subst hpc
  have w1 : word 1 = 1 := by decide
  have w2 : word 2 = 2 := by decide
  have w0 : word 0 = 0 := by decide
  have a12 : word (((1 : Nat) &&& (2 : Nat) : Nat) : Int) = 0 := by decide
  have hne : CC.holds .ne 0 0 = false := by decide
  have s0 : signed 0 = 0 := by decide
  rw [run_succ]
  simp only [Machine.step, List.get?, Machine.advance, Machine.push, Machine.read, Machine.get,
    Machine.store, Machine.write, Machine.set, Machine.arith]
  rw [run_succ]
  simp only [Machine.step, List.get?, Machine.advance, Machine.push, Machine.read, Machine.get,
    Machine.store, Machine.write, Machine.set, Machine.arith]
  rw [run_succ]
  simp only [Machine.step, List.get?, Machine.advance, Machine.push, Machine.read, Machine.get,
    Machine.store, Machine.write, Machine.set, Machine.arith]
  generalize hA : word (↑esp - 4) = A
  have hAlt : A < 4294967296 := hA ▸ word_lt _
  rw [run_succ]
  simp only [Machine.step, List.get?, Machine.advance, Machine.push, Machine.read, Machine.get,
    Machine.store, Machine.write, Machine.set, Machine.arith]
  rw [run_succ]
  simp only [Machine.step, List.get?, Machine.advance, Machine.push, Machine.read, Machine.get,
    Machine.store, Machine.write, Machine.set, Machine.arith]
  generalize hC1 : word (↑A - 4) = C1
  have hC1lt : C1 < 4294967296 := hC1 ▸ word_lt _
  rw [run_succ]
  simp only [Machine.step, List.get?, Machine.advance, Machine.push, Machine.read, Machine.get,
    Machine.store, Machine.write, Machine.set, Machine.arith]
  generalize hC2 : word (↑C1 - 4) = C2
  have e21 : word (↑C2 + 4) = C1 := by rw [← hC2]; exact word_pop_push C1 hC1lt
  have e1A : word (↑C1 + 4) = A := by rw [← hC1]; exact word_pop_push A hAlt
  have n12 : ¬ C1 = C2 := by rw [← hC2]; exact word_push_ne C1
  simp only [w1, w2]
  rw [run_succ]
  simp only [Machine.step, List.get?, Machine.advance, Machine.push, Machine.read, Machine.get,
    Machine.store, Machine.write, Machine.set, Machine.arith]
  simp only [e21, if_true]
  rw [run_succ]
  simp only [Machine.step, List.get?, Machine.advance, Machine.push, Machine.read, Machine.get,
    Machine.store, Machine.write, Machine.set, Machine.arith]
  simp only [e1A, n12, if_true, if_false]
  rw [run_succ]
  simp only [Machine.step, List.get?, Machine.advance, Machine.push, Machine.read, Machine.get,
    Machine.store, Machine.write, Machine.set, Machine.arith]
  simp only [a12]
  rw [run_succ]
  simp only [Machine.step, List.get?, Machine.advance, Machine.push, Machine.read, Machine.get,
    Machine.store, Machine.write, Machine.set, Machine.arith]
  simp only [w0]
  rw [run_succ]
  simp only [Machine.step, List.get?, Machine.advance, Machine.push, Machine.read, Machine.get,
    Machine.store, Machine.write, Machine.set, Machine.arith]
  simp only [hne, Bool.false_eq_true, if_false, Nat.zero_mod, Nat.sub_zero, Nat.add_zero]
  rw [run_succ]
  simp only [Machine.step, List.get?, Machine.advance, Machine.push, Machine.read, Machine.get,
    Machine.store, Machine.write, Machine.set, Machine.arith]
  simp only [Nat.zero_mod]
  rw [run_succ]
  simp only [Machine.step, List.get?, Machine.advance, Machine.push, Machine.read, Machine.get,
    Machine.store, Machine.write, Machine.set, Machine.arith]
  simp only [hC1]
  rw [run_succ]
  simp only [Machine.step, List.get?, Machine.advance, Machine.push, Machine.read, Machine.get,
    Machine.store, Machine.write, Machine.set, Machine.arith]
  simp only [e1A, if_true]
  rw [run_succ]
  simp only [Machine.step, List.get?, Machine.advance, Machine.push, Machine.read, Machine.get,
    Machine.store, Machine.write, Machine.set, Machine.arith]
  rw [run_succ]
  simp only [Machine.step, List.get?, Machine.advance, Machine.push, Machine.read, Machine.get,
    Machine.store, Machine.write, Machine.set, Machine.arith]
  simp only [Run.result, s0]

theorem short_circuit_main_code :
    (Compiler.compile 100 "int main()\x7b return 1 && 2; \x7d".toList).toOption.map
      (fun c => c.code) = some
      [.label (.named "main"), .push (.reg .ebp), .mov (.reg .ebp) (.reg .esp),
        .sub .esp (.imm 256), .push (.lit "1"), .pop .eax, .cmp .eax (.imm 0),
        .je (.L_false 0), .push (.lit "2"), .pop .eax, .cmp .eax (.imm 0), .je (.L_false 0),
        .mov (.reg .eax) (.imm 1), .jmp (.L_end1 0), .label (.L_false 0),
        .mov (.reg .eax) (.imm 0), .label (.L_end1 0), .push (.reg .eax),
        .pop .eax, .leave, .ret] := by
  decide!

theorem short_circuit_code_returns_1 (m : Machine) (hpc : m.pc = 0) :
    (Machine.run
      [.label (.named "main"), .push (.reg .ebp), .mov (.reg .ebp) (.reg .esp),
        .sub .esp (.imm 256), .push (.lit "1"), .pop .eax, .cmp .eax (.imm 0),
        .je (.L_false 0), .push (.lit "2"), .pop .eax, .cmp .eax (.imm 0), .je (.L_false 0),
        .mov (.reg .eax) (.imm 1), .jmp (.L_end1 0), .label (.L_false 0),
        .mov (.reg .eax) (.imm 0), .label (.L_end1 0), .push (.reg .eax),
        .pop .eax, .leave, .ret] 19 m).result = some 1 := by
  obtain ⟨eax, ebx, ecx, edx, ebp, esp, memory, globals, fs, flags, output, pc⟩ := m
  simp only at hpc
  subst hpc
  have l1 : literal_value "1" % 4294967296 = 1 := by decide
  have l2 : literal_value "2" % 4294967296 = 2 := by decide
  have w0 : word 0 = 0 := by decide
  have w1 : word 1 = 1 := by decide
  have n10 : ¬ (1 : Nat) = 0 := by decide
  have n20 : ¬ (2 : Nat) = 0 := by decide
  have s1 : signed 1 = 1 := by decide
  have hfind : find_label (.L_end1 0)
      [.label (.named "main"), .push (.reg .ebp), .mov (.reg .ebp) (.reg .esp),
        .sub .esp (.imm 256), .push (.lit "1"), .pop .eax, .cmp .eax (.imm 0),
        .je (.L_false 0), .push (.lit "2"), .pop .eax, .cmp .eax (.imm 0), .je (.L_false 0),
        .mov (.reg .eax) (.imm 1), .jmp (.L_end1 0), .label (.L_false 0),
        .mov (.reg .eax) (.imm 0), .label (.L_end1 0), .push (.reg .eax),
        .pop .eax, .leave, .ret] = some 16 := by decide
  rw [run_succ]
  simp only [Machine.step, List.get?, Machine.advance, Machine.push, Machine.read, Machine.get,
    Machine.store, Machine.write, Machine.set, Machine.arith]
  rw [run_succ]
  simp only [Machine.step, List.get?, Machine.advance, Machine.push, Machine.read, Machine.get,
    Machine.store, Machine.write, Machine.set, Machine.arith]
  generalize hA : word (↑esp - 4) = A
  rw [run_succ]
  simp only [Machine.step, List.get?, Machine.advance, Machine.push, Machine.read, Machine.get,
    Machine.store, Machine.write, Machine.set, Machine.arith]
  rw [run_succ]
  simp only [Machine.step, List.get?, Machine.advance, Machine.push, Machine.read, Machine.get,
    Machine.store, Machine.write, Machine.set, Machine.arith]
  generalize hB : word (↑A - ↑(word 256)) = B
  have hBlt : B < 4294967296 := hB ▸ word_lt _
  rw [run_succ]
  simp only [Machine.step, List.get?, Machine.advance, Machine.push, Machine.read, Machine.get,
    Machine.store, Machine.write, Machine.set, Machine.arith]
  generalize hC1 : word (↑B - 4) = C1
  have e1B : word (↑C1 + 4) = B := by rw [← hC1]; exact word_pop_push B hBlt
  simp only [l1]
  rw [run_succ]
  simp only [Machine.step, List.get?, Machine.advance, Machine.push, Machine.read, Machine.get,
    Machine.store, Machine.write, Machine.set, Machine.arith]
  simp only [e1B, if_true]
  rw [run_succ]
  simp only [Machine.step, List.get?, Machine.advance, Machine.push, Machine.read, Machine.get,
    Machine.store, Machine.write, Machine.set, Machine.arith]
  simp only [w0]
  rw [run_succ]
  simp only [Machine.step, List.get?, Machine.advance, Machine.push, Machine.read, Machine.get,
    Machine.store, Machine.write, Machine.set, Machine.arith, if_neg n10]
  rw [run_succ]
  simp only [Machine.step, List.get?, Machine.advance, Machine.push, Machine.read, Machine.get,
    Machine.store, Machine.write, Machine.set, Machine.arith]
  simp only [l2, hC1]
  rw [run_succ]
  simp only [Machine.step, List.get?, Machine.advance, Machine.push, Machine.read, Machine.get,
    Machine.store, Machine.write, Machine.set, Machine.arith]
  simp only [e1B, if_true]
  rw [run_succ]
  simp only [Machine.step, List.get?, Machine.advance, Machine.push, Machine.read, Machine.get,
    Machine.store, Machine.write, Machine.set, Machine.arith]
  simp only [w0]
  rw [run_succ]
  simp only [Machine.step, List.get?, Machine.advance, Machine.push, Machine.read, Machine.get,
    Machine.store, Machine.write, Machine.set, Machine.arith, if_neg n20]
  rw [run_succ]
  simp only [Machine.step, List.get?, Machine.advance, Machine.push, Machine.read, Machine.get,
    Machine.store, Machine.write, Machine.set, Machine.arith]
  simp only [w1]
  rw [run_succ]
  simp only [Machine.step, List.get?, Machine.advance, Machine.push, Machine.read, Machine.get,
    Machine.store, Machine.write, Machine.set, Machine.arith, Machine.jump, hfind]
  rw [run_succ]
  simp only [Machine.step, List.get?, Machine.advance, Machine.push, Machine.read, Machine.get,
    Machine.store, Machine.write, Machine.set, Machine.arith]
  rw [run_succ]
  simp only [Machine.step, List.get?, Machine.advance, Machine.push, Machine.read, Machine.get,
    Machine.store, Machine.write, Machine.set, Machine.arith]
  simp only [hC1]
  rw [run_succ]
  simp only [Machine.step, List.get?, Machine.advance, Machine.push, Machine.read, Machine.get,
    Machine.store, Machine.write, Machine.set, Machine.arith]
  simp only [e1B, if_true]
  rw [run_succ]
  simp only [Machine.step, List.get?, Machine.advance, Machine.push, Machine.read, Machine.get,
    Machine.store, Machine.write, Machine.set, Machine.arith]
  rw [run_succ]
  simp only [Machine.step, List.get?, Machine.advance, Machine.push, Machine.read, Machine.get,
    Machine.store, Machine.write, Machine.set, Machine.arith]
  simp only [Run.result, s1]

/-- C12 fails on the code for `1 && 2`: the AST generator prints
`and eax, ebx` before normalising, so `main` returning `1 && 2` returns 0
from every machine state (1 and 2 share no bit), while the code of the
single-pass compiler for the same source returns 1. -/
theorem eager_and_is_bitwise :
    (FunctionDefinition.codegen
      { type := "int", name := "main", params := [],
        body := [.ReturnStatement (.BinaryOperator "&&" (.Integer 1) (.Integer 2))] }
      GenState.initial).2.out =
      [.global "main", .label (.named "main"), .push (.reg .ebp), .mov (.reg .ebp) (.reg .esp),
        .push (.imm 2), .push (.imm 1), .pop .eax, .pop .ebx, .and_ .eax (.reg .ebx),
        .cmp .eax (.imm 0), .setcc .ne, .movzx_eax_al, .push (.reg .eax),
        .pop .eax, .leave, .ret] ∧
    (∀ m : Machine, (Machine.run
      [.global "main", .label (.named "main"), .push (.reg .ebp), .mov (.reg .ebp) (.reg .esp),
        .push (.imm 2), .push (.imm 1), .pop .eax, .pop .ebx, .and_ .eax (.reg .ebx),
        .cmp .eax (.imm 0), .setcc .ne, .movzx_eax_al, .push (.reg .eax),
        .pop .eax, .leave, .ret] 16 { m with pc := 0 }).result = some 0) ∧
    (Compiler.compile 100 "int main()\x7b return 1 && 2; \x7d".toList).toOption.map
      (fun c => c.code) = some
      [.label (.named "main"), .push (.reg .ebp), .mov (.reg .ebp) (.reg .esp),
        .sub .esp (.imm 256), .push (.lit "1"), .pop .eax, .cmp .eax (.imm 0),
        .je (.L_false 0), .push (.lit "2"), .pop .eax, .cmp .eax (.imm 0), .je (.L_false 0),
        .mov (.reg .eax) (.imm 1), .jmp (.L_end1 0), .label (.L_false 0),
        .mov (.reg .eax) (.imm 0), .label (.L_end1 0), .push (.reg .eax),
        .pop .eax, .leave, .ret] ∧
    (∀ m : Machine, (Machine.run
      [.label (.named "main"), .push (.reg .ebp), .mov (.reg .ebp) (.reg .esp),
        .sub .esp (.imm 256), .push (.lit "1"), .pop .eax, .cmp .eax (.imm 0),
        .je (.L_false 0), .push (.lit "2"), .pop .eax, .cmp .eax (.imm 0), .je (.L_false 0),
        .mov (.reg .eax) (.imm 1), .jmp (.L_end1 0), .label (.L_false 0),
        .mov (.reg .eax) (.imm 0), .label (.L_end1 0), .push (.reg .eax),
        .pop .eax, .leave, .ret] 19 { m with pc := 0 }).result = some 1) :=
  ⟨eager_main_code, fun _ => eager_code_returns_0 _ rfl, short_circuit_main_code,
    fun _ => short_circuit_code_returns_1 _ rfl⟩

/-! ## compilelab1: running the parser -/

theorem except_of_toOption {ε α : Type} {x : Except ε α} {a : α}
    (h : x.toOption = some a) : x = .ok a := by
  cases x with
  | error e => simp [Except.toOption] at h
  | ok b =>
    simp only [Except.toOption, Option.some.injEq] at h
    rw [h]

theorem except_bind_ok {ε α β : Type} (m : Except ε α) (f : α → Except ε β) (b : β) :
    (m >>= f) = .ok b ↔ ∃ a, m = .ok a ∧ f a = .ok b := by
  cases m <;> simp [bind, Except.bind]

theorem except_pure_ok {ε α : Type} (a b : α) : (pure a : Except ε α) = .ok b ↔ a = b := by
  simp [pure, Except.pure]

theorem Compiler.eat_ok (c : Compiler) (type : TokenType) (h : c.currentToken.type = type) :
    c.eat type = .ok c.next := by
  simp [Compiler.eat, h, Compiler.next]

theorem Compiler.eat_eq_ok (c c' : Compiler) (type : TokenType) (h : c.eat type = .ok c') :
    c.currentToken.type = type ∧ c' = c.next := by
  unfold Compiler.eat at h
  split_ifs at h with ht
  · injection h with h
    exact ⟨ht, h.symm⟩

theorem exprFrame_refl (c : Compiler) : ExprFrame c c :=
  ⟨rfl, rfl, rfl, rfl, [], by simp, by simp⟩

theorem exprFrame_trans {a b c : Compiler} (h1 : ExprFrame a b) (h2 : ExprFrame b c) :
    ExprFrame a c := by
  obtain ⟨l1, g1, s1, r1, c1, e1, p1⟩ := h1
  obtain ⟨l2, g2, s2, r2, c2, e2, p2⟩ := h2
  refine ⟨l2.trans l1, g2.trans g1, s2.trans s1, r2.trans r1, c1 ++ c2,
    by rw [e2, e1, List.append_assoc], ?_⟩
  intro i hi
  rcases List.mem_append.1 hi with hi | hi
  · exact p1 i hi
  · exact p2 i hi

theorem exprFrame_next (c : Compiler) : ExprFrame c c.next :=
  ⟨rfl, rfl, rfl, rfl, [], by simp [Compiler.next], by simp⟩

theorem exprFrame_eat {c c' : Compiler} {type : TokenType} (h : c.eat type = .ok c') :
    ExprFrame c c' := by
  rw [(Compiler.eat_eq_ok c c' type h).2]
  exact exprFrame_next c

theorem exprFrame_emit (c : Compiler) (i : Instr) (h : i.reserves = none) :
    ExprFrame c (c.emit i) :=
  ⟨rfl, rfl, rfl, rfl, [i], rfl, by simpa using h⟩

theorem exprFrame_label (c : Compiler) :
    ExprFrame c { c with labelCounter := c.labelCounter + 1 } :=
  ⟨rfl, rfl, rfl, rfl, [], by simp, by simp⟩

theorem exprFrame_of_code (c c' : Compiler) (code : List Instr)
    (h : c' = { c with code := c.code ++ code }) (hp : ∀ i ∈ code, Instr.reserves i = none) :
    ExprFrame c c' := by
  subst h
  exact ⟨rfl, rfl, rfl, rfl, code, rfl, hp⟩

theorem exprFrame_step {c c1 c2 c3 c' : Compiler} (h1 : ExprFrame c c1) (h2 : ExprFrame c1 c2)
    (h3 : ExprFrame c2 c3) (h4 : ExprFrame c3 c') : ExprFrame c c' :=
  exprFrame_trans (exprFrame_trans (exprFrame_trans h1 h2) h3) h4

mutual
theorem Compiler.parseExpression_frame : ∀ (fuel : Nat) (c c' : Compiler),
    Compiler.parseExpression fuel c = .ok c' → ExprFrame c c'
  | 0, c, c', h => by simp [Compiler.parseExpression] at h
  | fuel + 1, c, c', h => by
    simp only [Compiler.parseExpression] at h
    exact Compiler.parseLogicalAndExpr_frame fuel c c' h
theorem Compiler.parseLogicalAndExpr_frame : ∀ (fuel : Nat) (c c' : Compiler),
    Compiler.parseLogicalAndExpr fuel c = .ok c' → ExprFrame c c'
  | 0, c, c', h => by simp [Compiler.parseLogicalAndExpr] at h
  | fuel + 1, c, c', h => by
    simp only [Compiler.parseLogicalAndExpr, except_bind_ok] at h
    obtain ⟨c1, h1, h2⟩ := h
    exact exprFrame_trans (Compiler.parseBitwiseOrExpr_frame fuel c c1 h1)
      (Compiler.parseLogicalAndLoop_frame fuel c1 c' h2)
theorem Compiler.parseLogicalAndLoop_frame : ∀ (fuel : Nat) (c c' : Compiler),
    Compiler.parseLogicalAndLoop fuel c = .ok c' → ExprFrame c c'
  | 0, c, c', h => by simp [Compiler.parseLogicalAndLoop] at h
  | fuel + 1, c, c', h => by
    simp only [Compiler.parseLogicalAndLoop] at h
    by_cases ht : c.currentToken.type = .T_LOGICAL_AND
    · rw [if_pos ht] at h
      simp only [except_bind_ok] at h
      obtain ⟨c1, h1, c2, h2, h3⟩ := h
      refine exprFrame_step (exprFrame_eat h1) ?_
        (Compiler.parseBitwiseOrExpr_frame fuel _ c2 h2)
        (exprFrame_trans ?_ (Compiler.parseLogicalAndLoop_frame fuel _ c' h3))
      · exact ⟨rfl, rfl, rfl, rfl,
          [.pop .eax, .cmp .eax (.imm 0), .je (.L_false c1.labelCounter)],
          by simp [Compiler.emit], by simp [Instr.reserves]⟩
      · exact exprFrame_of_code _ _
          [.pop .eax, .cmp .eax (.imm 0), .je (.L_false c1.labelCounter),
            .mov (.reg .eax) (.imm 1), .jmp (.L_end1 c1.labelCounter),
            .label (.L_false c1.labelCounter), .mov (.reg .eax) (.imm 0),
            .label (.L_end1 c1.labelCounter), .push (.reg .eax)]
          (by simp [Compiler.emit, Compiler.emitLogicalAndTail]) (by simp [Instr.reserves])
    · rw [if_neg ht, except_pure_ok] at h
      subst h
      exact exprFrame_refl c
theorem Compiler.parseBitwiseOrExpr_frame : ∀ (fuel : Nat) (c c' : Compiler),
    Compiler.parseBitwiseOrExpr fuel c = .ok c' → ExprFrame c c'
  | 0, c, c', h => by simp [Compiler.parseBitwiseOrExpr] at h
  | fuel + 1, c, c', h => by
    simp only [Compiler.parseBitwiseOrExpr, except_bind_ok] at h
    obtain ⟨c1, h1, h2⟩ := h
    exact exprFrame_trans (Compiler.parseBitwiseXorExpr_frame fuel c c1 h1)
      (Compiler.parseBitwiseOrLoop_frame fuel c1 c' h2)
theorem Compiler.parseBitwiseOrLoop_frame : ∀ (fuel : Nat) (c c' : Compiler),
    Compiler.parseBitwiseOrLoop fuel c = .ok c' → ExprFrame c c'
  | 0, c, c', h => by simp [Compiler.parseBitwiseOrLoop] at h
  | fuel + 1, c, c', h => by
    simp only [Compiler.parseBitwiseOrLoop] at h
    by_cases ht : c.currentToken.type = .T_BIT_OR
    · rw [if_pos ht] at h
      simp only [except_bind_ok] at h
      obtain ⟨c1, h1, c2, h2, h3⟩ := h
      refine exprFrame_step (exprFrame_eat h1) (Compiler.parseBitwiseXorExpr_frame fuel _ c2 h2)
        ?_ (Compiler.parseBitwiseOrLoop_frame fuel _ c' h3)
      exact exprFrame_of_code _ _
        [.pop .edx, .pop .eax, .or_ .eax (.reg .edx), .push (.reg .eax)]
        (by simp [Compiler.emit]) (by simp [Instr.reserves])
    · rw [if_neg ht, except_pure_ok] at h
      subst h
      exact exprFrame_refl c
theorem Compiler.parseBitwiseXorExpr_frame : ∀ (fuel : Nat) (c c' : Compiler),
    Compiler.parseBitwiseXorExpr fuel c = .ok c' → ExprFrame c c'
  | 0, c, c', h => by simp [Compiler.parseBitwiseXorExpr] at h
  | fuel + 1, c, c', h => by
    simp only [Compiler.parseBitwiseXorExpr, except_bind_ok] at h
    obtain ⟨c1, h1, h2⟩ := h
    exact exprFrame_trans (Compiler.parseBitwiseAndExpr_frame fuel c c1 h1)
      (Compiler.parseBitwiseXorLoop_frame fuel c1 c' h2)
theorem Compiler.parseBitwiseXorLoop_frame : ∀ (fuel : Nat) (c c' : Compiler),
    Compiler.parseBitwiseXorLoop fuel c = .ok c' → ExprFrame c c'
  | 0, c, c', h => by simp [Compiler.parseBitwiseXorLoop] at h
  | fuel + 1, c, c', h => by
    simp only [Compiler.parseBitwiseXorLoop] at h
    by_cases ht : c.currentToken.type = .T_BIT_XOR
    · rw [if_pos ht] at h
      simp only [except_bind_ok] at h
      obtain ⟨c1, h1, c2, h2, h3⟩ := h
      refine exprFrame_step (exprFrame_eat h1) (Compiler.parseBitwiseAndExpr_frame fuel _ c2 h2)
        ?_ (Compiler.parseBitwiseXorLoop_frame fuel _ c' h3)
      exact exprFrame_of_code _ _
        [.pop .edx, .pop .eax, .xor_ .eax (.reg .edx), .push (.reg .eax)]
        (by simp [Compiler.emit]) (by simp [Instr.reserves])
    · rw [if_neg ht, except_pure_ok] at h
      subst h
      exact exprFrame_refl c
theorem Compiler.parseBitwiseAndExpr_frame : ∀ (fuel : Nat) (c c' : Compiler),
    Compiler.parseBitwiseAndExpr fuel c = .ok c' → ExprFrame c c'
  | 0, c, c', h => by simp [Compiler.parseBitwiseAndExpr] at h
  | fuel + 1, c, c', h => by
    simp only [Compiler.parseBitwiseAndExpr, except_bind_ok] at h
    obtain ⟨c1, h1, h2⟩ := h
    exact exprFrame_trans (Compiler.parseEqualityExpr_frame fuel c c1 h1)
      (Compiler.parseBitwiseAndLoop_frame fuel c1 c' h2)
theorem Compiler.parseBitwiseAndLoop_frame : ∀ (fuel : Nat) (c c' : Compiler),
    Compiler.parseBitwiseAndLoop fuel c = .ok c' → ExprFrame c c'
  | 0, c, c', h => by simp [Compiler.parseBitwiseAndLoop] at h
  | fuel + 1, c, c', h => by
    simp only [Compiler.parseBitwiseAndLoop] at h
    by_cases ht : c.currentToken.type = .T_BIT_AND
    · rw [if_pos ht] at h
      simp only [except_bind_ok] at h
      obtain ⟨c1, h1, c2, h2, h3⟩ := h
      refine exprFrame_step (exprFrame_eat h1) (Compiler.parseEqualityExpr_frame fuel _ c2 h2)
        ?_ (Compiler.parseBitwiseAndLoop_frame fuel _ c' h3)
      exact exprFrame_of_code _ _
        [.pop .edx, .pop .eax, .and_ .eax (.reg .edx), .push (.reg .eax)]
        (by simp [Compiler.emit]) (by simp [Instr.reserves])
    · rw [if_neg ht, except_pure_ok] at h
      subst h
      exact exprFrame_refl c
theorem Compiler.parseEqualityExpr_frame : ∀ (fuel : Nat) (c c' : Compiler),
    Compiler.parseEqualityExpr fuel c = .ok c' → ExprFrame c c'
  | 0, c, c', h => by simp [Compiler.parseEqualityExpr] at h
  | fuel + 1, c, c', h => by
    simp only [Compiler.parseEqualityExpr, except_bind_ok] at h
    obtain ⟨c1, h1, h2⟩ := h
    exact exprFrame_trans (Compiler.parseRelationalExpr_frame fuel c c1 h1)
      (Compiler.parseEqualityLoop_frame fuel c1 c' h2)
theorem Compiler.parseEqualityLoop_frame : ∀ (fuel : Nat) (c c' : Compiler),
    Compiler.parseEqualityLoop fuel c = .ok c' → ExprFrame c c'
  | 0, c, c', h => by simp [Compiler.parseEqualityLoop] at h
  | fuel + 1, c, c', h => by
    simp only [Compiler.parseEqualityLoop] at h
    by_cases ht : c.currentToken.type = .T_EQ ∨ c.currentToken.type = .T_NE
    · rw [if_pos ht] at h
      simp only [except_bind_ok] at h
      obtain ⟨c1, h1, c2, h2, h3⟩ := h
      refine exprFrame_step (exprFrame_eat h1) (Compiler.parseRelationalExpr_frame fuel _ c2 h2)
        ?_ (Compiler.parseEqualityLoop_frame fuel _ c' h3)
      exact exprFrame_of_code _ _
        [.pop .edx, .pop .eax, .cmp .eax (.reg .edx),
          if c.currentToken.type = .T_EQ then .setcc .e else .setcc .ne,
          .movzx_eax_al, .push (.reg .eax)]
        (by simp [Compiler.emit]) (by
          intro i hi
          simp only [List.mem_cons, List.mem_singleton, List.not_mem_nil, or_false] at hi
          rcases hi with rfl | rfl | rfl | rfl | rfl | rfl <;> first | rfl | (split_ifs <;> rfl))
    · rw [if_neg ht, except_pure_ok] at h
      subst h
      exact exprFrame_refl c
theorem Compiler.parseRelationalExpr_frame : ∀ (fuel : Nat) (c c' : Compiler),
    Compiler.parseRelationalExpr fuel c = .ok c' → ExprFrame c c'
  | 0, c, c', h => by simp [Compiler.parseRelationalExpr] at h
  | fuel + 1, c, c', h => by
    simp only [Compiler.parseRelationalExpr, except_bind_ok] at h
    obtain ⟨c1, h1, h2⟩ := h
    exact exprFrame_trans (Compiler.parseAdditiveExpr_frame fuel c c1 h1)
      (Compiler.parseRelationalLoop_frame fuel c1 c' h2)
theorem Compiler.parseRelationalLoop_frame : ∀ (fuel : Nat) (c c' : Compiler),
    Compiler.parseRelationalLoop fuel c = .ok c' → ExprFrame c c'
  | 0, c, c', h => by simp [Compiler.parseRelationalLoop] at h
  | fuel + 1, c, c', h => by
    simp only [Compiler.parseRelationalLoop] at h
    by_cases ht : c.currentToken.type = .T_LT ∨ c.currentToken.type = .T_LE ∨
        c.currentToken.type = .T_GT ∨ c.currentToken.type = .T_GE
    · rw [if_pos ht] at h
      simp only [except_bind_ok] at h
      obtain ⟨c1, h1, c2, h2, h3⟩ := h
      refine exprFrame_step (exprFrame_eat h1) (Compiler.parseAdditiveExpr_frame fuel _ c2 h2)
        ?_ (Compiler.parseRelationalLoop_frame fuel _ c' h3)
      exact exprFrame_of_code _ _
        [.pop .edx, .pop .eax, .cmp .eax (.reg .edx),
          if c.currentToken.type = .T_LT then .setcc .l
          else if c.currentToken.type = .T_LE then .setcc .le
          else if c.currentToken.type = .T_GT then .setcc .g
          else .setcc .ge,
          .movzx_eax_al, .push (.reg .eax)]
        (by simp [Compiler.emit]) (by
          intro i hi
          simp only [List.mem_cons, List.mem_singleton, List.not_mem_nil, or_false] at hi
          rcases hi with rfl | rfl | rfl | rfl | rfl | rfl <;> first | rfl | (split_ifs <;> rfl))
    · rw [if_neg ht, except_pure_ok] at h
      subst h
      exact exprFrame_refl c
theorem Compiler.parseAdditiveExpr_frame : ∀ (fuel : Nat) (c c' : Compiler),
    Compiler.parseAdditiveExpr fuel c = .ok c' → ExprFrame c c'
  | 0, c, c', h => by simp [Compiler.parseAdditiveExpr] at h
  | fuel + 1, c, c', h => by
    simp only [Compiler.parseAdditiveExpr, except_bind_ok] at h
    obtain ⟨c1, h1, h2⟩ := h
    exact exprFrame_trans (Compiler.parseMultiplicativeExpr_frame fuel c c1 h1)
      (Compiler.parseAdditiveLoop_frame fuel c1 c' h2)
theorem Compiler.parseAdditiveLoop_frame : ∀ (fuel : Nat) (c c' : Compiler),
    Compiler.parseAdditiveLoop fuel c = .ok c' → ExprFrame c c'
  | 0, c, c', h => by simp [Compiler.parseAdditiveLoop] at h
  | fuel + 1, c, c', h => by
    simp only [Compiler.parseAdditiveLoop] at h
    by_cases ht : c.currentToken.type = .T_PLUS ∨ c.currentToken.type = .T_MINUS
    · rw [if_pos ht] at h
      simp only [except_bind_ok] at h
      obtain ⟨c1, h1, c2, h2, h3⟩ := h
      refine exprFrame_step (exprFrame_eat h1)
        (Compiler.parseMultiplicativeExpr_frame fuel _ c2 h2)
        ?_ (Compiler.parseAdditiveLoop_frame fuel _ c' h3)
      exact exprFrame_of_code _ _
        [.pop .edx, .pop .eax,
          if c.currentToken.type = .T_PLUS then .add .eax (.reg .edx)
          else .sub .eax (.reg .edx),
          .push (.reg .eax)]
        (by simp [Compiler.emit]) (by
          intro i hi
          simp only [List.mem_cons, List.mem_singleton, List.not_mem_nil, or_false] at hi
          rcases hi with rfl | rfl | rfl | rfl <;> first | rfl | (split_ifs <;> rfl))
    · rw [if_neg ht, except_pure_ok] at h
      subst h
      exact exprFrame_refl c
theorem Compiler.parseMultiplicativeExpr_frame : ∀ (fuel : Nat) (c c' : Compiler),
    Compiler.parseMultiplicativeExpr fuel c = .ok c' → ExprFrame c c'
  | 0, c, c', h => by simp [Compiler.parseMultiplicativeExpr] at h
  | fuel + 1, c, c', h => by
    simp only [Compiler.parseMultiplicativeExpr, except_bind_ok] at h
    obtain ⟨c1, h1, h2⟩ := h
    exact exprFrame_trans (Compiler.parseUnaryExpr_frame fuel c c1 h1)
      (Compiler.parseMultiplicativeLoop_frame fuel c1 c' h2)
theorem Compiler.parseMultiplicativeLoop_frame : ∀ (fuel : Nat) (c c' : Compiler),
    Compiler.parseMultiplicativeLoop fuel c = .ok c' → ExprFrame c c'
  | 0, c, c', h => by simp [Compiler.parseMultiplicativeLoop] at h
  | fuel + 1, c, c', h => by
    simp only [Compiler.parseMultiplicativeLoop] at h
    by_cases ht : c.currentToken.type = .T_STAR ∨ c.currentToken.type = .T_SLASH ∨
        c.currentToken.type = .T_PERCENT
    · rw [if_pos ht] at h
      simp only [except_bind_ok] at h
      obtain ⟨c1, h1, c2, h2, h3⟩ := h
      refine exprFrame_step (exprFrame_eat h1) (Compiler.parseUnaryExpr_frame fuel _ c2 h2)
        ?_ (Compiler.parseMultiplicativeLoop_frame fuel _ c' h3)
      by_cases hstar : c.currentToken.type = .T_STAR
      · exact exprFrame_of_code _ _
          [.pop .edx, .pop .eax, .imul .eax (.reg .edx), .push (.reg .eax)]
          (by simp [Compiler.emit, hstar]) (by simp [Instr.reserves])
      · by_cases hpercent : c.currentToken.type = .T_PERCENT
        · exact exprFrame_of_code _ _
            [.pop .ecx, .pop .eax, .cdq, .idiv .ecx, .mov (.reg .eax) (.reg .edx),
              .push (.reg .eax)]
            (by simp [Compiler.emit, hstar, hpercent]) (by simp [Instr.reserves])
        · exact exprFrame_of_code _ _
            [.pop .ecx, .pop .eax, .cdq, .idiv .ecx, .push (.reg .eax)]
            (by simp [Compiler.emit, hstar, hpercent]) (by simp [Instr.reserves])
    · rw [if_neg ht, except_pure_ok] at h
      subst h
      exact exprFrame_refl c
theorem Compiler.parseUnaryExpr_frame : ∀ (fuel : Nat) (c c' : Compiler),
    Compiler.parseUnaryExpr fuel c = .ok c' → ExprFrame c c'
  | 0, c, c', h => by simp [Compiler.parseUnaryExpr] at h
  | fuel + 1, c, c', h => by
    simp only [Compiler.parseUnaryExpr] at h
    split_ifs at h with ht
    · simp only [except_bind_ok, except_pure_ok] at h
      obtain ⟨c1, h1, c2, h2, h3⟩ := h
      subst h3
      refine exprFrame_trans (exprFrame_eat h1)
        (exprFrame_trans (Compiler.parseUnaryExpr_frame fuel _ c2 h2) ?_)
      exact exprFrame_of_code _ _ [.pop .eax, .neg .eax, .push (.reg .eax)]
        (by simp [Compiler.emit]) (by simp [Instr.reserves])
    · exact Compiler.parsePrimaryExpr_frame fuel c c' h
theorem Compiler.parsePrimaryExpr_frame : ∀ (fuel : Nat) (c c' : Compiler),
    Compiler.parsePrimaryExpr fuel c = .ok c' → ExprFrame c c'
  | 0, c, c', h => by simp [Compiler.parsePrimaryExpr] at h
  | fuel + 1, c, c', h => by
    simp only [Compiler.parsePrimaryExpr] at h
    split_ifs at h with h1 h2 h3 h4 h5
    · exact exprFrame_trans (exprFrame_emit c (.push (.lit c.currentToken.value)) rfl)
        (exprFrame_eat h)
    · exact exprFrame_trans
        (exprFrame_emit c (.push (.ebp_rel ((c.localVars.find c.currentToken.value).getD 0))) rfl)
        (exprFrame_eat h)
    · exact exprFrame_trans (exprFrame_emit c (.push (.global c.currentToken.value)) rfl)
        (exprFrame_eat h)
    · simp only [except_bind_ok] at h
      obtain ⟨c1, e1, c2, e2, e3⟩ := h
      exact exprFrame_trans (exprFrame_eat e1)
        (exprFrame_trans (Compiler.parseExpression_frame fuel _ c2 e2) (exprFrame_eat e3))
end

theorem Compiler.lookahead_zero (c : Compiler) : c.lookahead 0 = c.currentToken := rfl

theorem Compiler.lookahead_succ (c : Compiler) (n : Nat) :
    c.lookahead (n + 1) = c.next.lookahead n := rfl

theorem Compiler.lookahead_one (c : Compiler) : c.lookahead 1 = c.next.currentToken := by
  rw [show (1 : Nat) = 0 + 1 from rfl, Compiler.lookahead_succ, Compiler.lookahead_zero]

theorem Compiler.lookahead_two (c : Compiler) : c.lookahead 2 = c.next.next.currentToken := by
  rw [show (2 : Nat) = 1 + 1 from rfl, Compiler.lookahead_succ, Compiler.lookahead_one]

/-! ## compilelab1: locals first, then globals -/

theorem Lexer.advance_source (lx : Lexer) : lx.advance.source = lx.source := by
  unfold Lexer.advance
  split_ifs <;> rfl

theorem Lexer.stream_advance (lx : Lexer) (i : Nat) :
    lx.advance.stream i = lx.stream (i + 1) := by
  unfold Lexer.advance
  split_ifs with h
  · cases i with
    | zero =>
      simp only [Lexer.stream, add_zero]
      rw [List.getD_eq_default _ _ h]
    | succ i =>
      simp only [Lexer.stream]
      rw [List.getD_eq_default _ _ (by omega), List.getD_eq_default _ _ (by omega)]
  · cases i with
    | zero => simp only [Lexer.stream, add_zero]
    | succ i =>
      simp only [Lexer.stream]
      congr 1
      omega

theorem Lexer.iterate_advance_source (lx : Lexer) (n : Nat) :
    (Nat.iterate Lexer.advance n lx).source = lx.source := by
  induction n generalizing lx with
  | zero => rfl
  | succ n ih => rw [Function.iterate_succ_apply, ih, Lexer.advance_source]

theorem Lexer.stream_iterate_advance (lx : Lexer) (n i : Nat) :
    (Nat.iterate Lexer.advance n lx).stream i = lx.stream (n + i) := by
  induction n generalizing lx with
  | zero => simp
  | succ n ih =>
    rw [Function.iterate_succ_apply, ih, Lexer.stream_advance]
    congr 1
    omega

/-- Past the end of the text the lexer sees `'\0'` only. -/
theorem Lexer.stream_beyond (lx : Lexer) (i : Nat) (h : lx.source.length < i) :
    lx.stream i = '\x00' := by
  cases i with
  | zero => omega
  | succ i =>
    simp only [Lexer.stream]
    exact List.getD_eq_default _ _ (by omega)

theorem Lexer.skip_spaces_run (lx : Lexer) (j budget : Nat)
    (hspace : ∀ i, i < j → isspace (lx.stream i) = true)
    (hstop : isspace (lx.stream j) = false) (hbudget : j ≤ budget) :
    Lexer.skip_spaces budget lx = Nat.iterate Lexer.advance j lx := by
  induction j generalizing lx budget with
  | zero =>
    have h0 : isspace lx.currentChar = false := hstop
    cases budget with
    | zero => rfl
    | succ b => simp [Lexer.skip_spaces, h0]
  | succ j ih =>
    cases budget with
    | zero => omega
    | succ b =>
      have h0 : isspace lx.currentChar = true := hspace 0 (by omega)
      simp only [Lexer.skip_spaces, h0, if_true, Function.iterate_succ_apply]
      apply ih
      · intro i hi
        rw [Lexer.stream_advance]
        exact hspace (i + 1) (by omega)
      · rw [Lexer.stream_advance]
        exact hstop
      · omega

theorem Lexer.read_while_run (p : Char → Bool) (lx : Lexer) (k budget : Nat) (text : String)
    (hrun : ∀ i, i < k → p (lx.stream i) = true)
    (hstop : p (lx.stream k) = false) (hbudget : k ≤ budget) :
    Lexer.read_while p budget lx text =
      (String.mk (text.data ++ (List.range k).map lx.stream), Nat.iterate Lexer.advance k lx) := by
  induction k generalizing lx budget text with
  | zero =>
    have h0 : p lx.currentChar = false := hstop
    cases budget with
    | zero => simp [Lexer.read_while]
    | succ b => simp [Lexer.read_while, h0]
  | succ k ih =>
    cases budget with
    | zero => omega
    | succ b =>
      have h0 : p lx.currentChar = true := hrun 0 (by omega)
      simp only [Lexer.read_while, h0, if_true, Function.iterate_succ_apply]
      rw [ih lx.advance b (text.push lx.currentChar)
        (fun i hi => by rw [Lexer.stream_advance]; exact hrun (i + 1) (by omega))
        (by rw [Lexer.stream_advance]; exact hstop) (by omega)]
      congr 2
      rw [List.range_succ_eq_map, List.map_cons, List.map_map]
      simp only [String.data_push, List.append_assoc, List.singleton_append]
      have hmap : List.map lx.advance.stream (List.range k) =
          List.map (lx.stream ∘ Nat.succ) (List.range k) :=
        List.map_congr_left (fun i _ => by simp [Function.comp, Lexer.stream_advance])
      rw [hmap]
      rfl

/-- A run of characters accepted by a test that rejects `'\0'` ends within
the budget `source.length + 1`. -/
theorem Lexer.run_le_budget (p : Char → Bool) (hp : p '\x00' = false) (lx : Lexer) (k : Nat)
    (hrun : ∀ i, i < k → p (lx.stream i) = true) : k ≤ lx.source.length + 1 := by
  by_contra hk
  have h1 := hrun (lx.source.length + 1) (by omega)
  rw [Lexer.stream_beyond lx _ (by omega), hp] at h1
  exact Bool.false_ne_true h1

theorem Lexer.skip_spaces_at_nul (lx : Lexer) (budget : Nat) (h : lx.currentChar = '\x00') :
    Lexer.skip_spaces budget lx = lx := by
  cases budget with
  | zero => rfl
  | succ b =>
    have : isspace lx.currentChar = false := by rw [h]; rfl
    simp [Lexer.skip_spaces, this]

/-- At `'\0'` the lexer answers end-of-file and stays where it is. -/
theorem Lexer.getNextToken_at_nul (lx : Lexer) (h : lx.currentChar = '\x00') :
    lx.getNextToken = ({ type := .T_EOF, value := "" }, lx) := by
  have h1 : ¬ (isalpha lx.currentChar || decide (lx.currentChar = '_')) = true := by
    rw [h]; decide
  have h2 : ¬ isdigit lx.currentChar = true := by rw [h]; decide
  unfold Lexer.getNextToken
  simp only [Lexer.skip_spaces_at_nul lx _ h]
  rw [if_neg h1, if_neg h2]
  unfold Lexer.symbol
  simp only [h, if_true]

theorem token_ite {c : Prop} [Decidable c] {a b : Token × Lexer} {P : Token → Prop}
    (ha : P a.1) (hb : P b.1) : P (if c then a else b).1 := by
  split_ifs
  · exact ha
  · exact hb

theorem Lexer.symbol_type_ne_eof (lx : Lexer) (h : ¬ lx.currentChar = '\x00') :
    ¬ lx.symbol.1.type = .T_EOF := by
  unfold Lexer.symbol
  dsimp only
  rw [if_neg h]
  repeat (first
    | exact (fun h => TokenType.noConfusion h)
    | apply token_ite (P := fun t => ¬ t.type = .T_EOF))

/-- End-of-file is answered at `'\0'` only. -/
theorem Lexer.eof_only_at_nul (lx : Lexer) (h : lx.getNextToken.1.type = .T_EOF) :
    lx.getNextToken.2.currentChar = '\x00' := by
  unfold Lexer.getNextToken at h ⊢
  simp only at h ⊢
  generalize Lexer.skip_spaces (lx.source.length + 1) lx = l1 at h ⊢
  by_cases ha : (isalpha l1.currentChar || decide (l1.currentChar = '_')) = true
  · exfalso
    rw [if_pos ha] at h
    unfold Lexer.makeIdentifier at h
    simp only at h
    split_ifs at h
  · rw [if_neg ha] at h ⊢
    by_cases hd : isdigit l1.currentChar = true
    · exfalso
      rw [if_pos hd] at h
      simp [Lexer.makeNumber] at h
    · rw [if_neg hd] at h ⊢
      by_cases hc : l1.currentChar = '\x00'
      · unfold Lexer.symbol
        simp only [hc, if_true]
      · exact absurd h (Lexer.symbol_type_ne_eof l1 hc)

theorem Lexer.skip_token_fixed (lx : Lexer) (h : lx.currentChar = '\x00') (n : Nat) :
    Nat.iterate Lexer.skip_token n lx = lx := by
  induction n with
  | zero => rfl
  | succ n ih =>
    rw [Function.iterate_succ_apply', ih, Lexer.skip_token, Lexer.getNextToken_at_nul lx h]

theorem Lexer.skip_spaces_to_nul (budget : Nat) (lx : Lexer)
    (hrest : ∀ ch ∈ lx.source.drop lx.pos, isspace ch = true)
    (h : lx.currentChar = '\x00' ∨
      (isspace lx.currentChar = true ∧ lx.source.length - lx.pos + 1 ≤ budget)) :
    (Lexer.skip_spaces budget lx).currentChar = '\x00' := by
  induction budget generalizing lx with
  | zero =>
    rcases h with h | ⟨_, h⟩
    · exact h
    · omega
  | succ b ih =>
    rcases h with h | ⟨hs, hb⟩
    · rw [Lexer.skip_spaces_at_nul lx _ h]
      exact h
    · simp only [Lexer.skip_spaces, hs, if_true]
      by_cases hpos : lx.pos ≥ lx.source.length
      · apply ih
        · simp only [Lexer.advance, if_pos hpos]
          exact hrest
        · left
          simp only [Lexer.advance, if_pos hpos]
      · have hlt : lx.pos < lx.source.length := by omega
        have hdrop := List.drop_eq_getElem_cons hlt
        apply ih
        · simp only [Lexer.advance, if_neg hpos]
          intro ch hch
          apply hrest
          rw [hdrop]
          exact List.mem_cons_of_mem _ hch
        · right
          simp only [Lexer.advance, if_neg hpos]
          refine ⟨?_, by omega⟩
          apply hrest
          rw [List.getD_eq_getElem _ _ hlt, hdrop]
          exact List.mem_cons_self _ _

/-- C14: once `getNextToken` has answered end-of-file, every later call
answers end-of-file again and leaves `pos` and `currentChar` as they are; and
end-of-file is the answer whenever the character under the cursor and all
characters behind it are whitespace (or the text is used up). -/
theorem eof_is_final (lx : Lexer) :
    (lx.getNextToken.1.type = .T_EOF →
      ∀ n : Nat,
        (Nat.iterate Lexer.skip_token n lx.getNextToken.2).getNextToken =
          ({ type := .T_EOF, value := "" }, lx.getNextToken.2)) ∧
    ((isspace lx.currentChar = true ∨ lx.currentChar = '\x00') →
      (∀ ch ∈ lx.source.drop lx.pos, isspace ch = true) →
      lx.getNextToken.1 = { type := .T_EOF, value := "" }) := by
  constructor
  · intro h n
    have hnul := Lexer.eof_only_at_nul lx h
    rw [Lexer.skip_token_fixed _ hnul n]
    exact Lexer.getNextToken_at_nul _ hnul
  · intro hcur hrest
    have hnul : (Lexer.skip_spaces (lx.source.length + 1) lx).currentChar = '\x00' := by
      apply Lexer.skip_spaces_to_nul _ _ hrest
      rcases hcur with hcur | hcur
      · exact Or.inr ⟨hcur, by omega⟩
      · exact Or.inl hcur
    have h1 : ¬ (isalpha (Lexer.skip_spaces (lx.source.length + 1) lx).currentChar ||
        decide ((Lexer.skip_spaces (lx.source.length + 1) lx).currentChar = '_')) = true := by
      rw [hnul]; decide
    have h2 : ¬ isdigit (Lexer.skip_spaces (lx.source.length + 1) lx).currentChar = true := by
      rw [hnul]; decide
    unfold Lexer.getNextToken
    simp only
    rw [if_neg h1, if_neg h2]
    unfold Lexer.symbol
    simp only [hnul, if_true]

theorem eof_is_final_witness :
    (∀ n : Nat,
      (Nat.iterate Lexer.skip_token n (Lexer.new " \n".toList).getNextToken.2).getNextToken =
        ({ type := .T_EOF, value := "" }, (Lexer.new " \n".toList).getNextToken.2)) ∧
    (Lexer.new " \n".toList).getNextToken.1 = { type := .T_EOF, value := "" } :=
  ⟨(eof_is_final (Lexer.new " \n".toList)).1 (by decide),
   (eof_is_final (Lexer.new " \n".toList)).2 (by decide) (by decide)⟩

/-- C15 fails on the code for the text `@`: the call answers the illegal
token without calling `advance`, so the lexer state is the one it started
in and every later call answers the same illegal token; end-of-file is never
reached. -/
theorem illegal_token_never_advances :
    (Lexer.new "@".toList).getNextToken =
      ({ type := .T_ILLEGAL, value := "@" }, Lexer.new "@".toList) ∧
    ∀ n : Nat, (Nat.iterate Lexer.skip_token n (Lexer.new "@".toList)).getNextToken =
      ({ type := .T_ILLEGAL, value := "@" }, Lexer.new "@".toList) := by
  have h : (Lexer.new "@".toList).getNextToken =
      ({ type := .T_ILLEGAL, value := "@" }, Lexer.new "@".toList) := by decide
  refine ⟨h, ?_⟩
  intro n
  have hfix : Nat.iterate Lexer.skip_token n (Lexer.new "@".toList) = Lexer.new "@".toList := by
    induction n with
    | zero => rfl
    | succ n ih => rw [Function.iterate_succ_apply', ih, Lexer.skip_token, h]
  rw [hfix, h]

theorem isspace_of_isalpha (c : Char) (h : isalpha c = true ∨ c = '_') : isspace c = false := by
  by_contra hs
  have hs' : isspace c = true := by simpa using hs
  simp only [isspace, Bool.or_eq_true, decide_eq_true_eq] at hs'
  rcases hs' with ((((hc | hc) | hc) | hc) | hc) | hc <;> subst hc <;>
    rcases h with h | h <;> revert h <;> decide

theorem Lexer.makeIdentifier_run (lx : Lexer) (k : Nat)
    (hrun : ∀ i, i < k → (isalnum (lx.stream i) || decide (lx.stream i = '_')) = true)
    (hstop : (isalnum (lx.stream k) || decide (lx.stream k = '_')) = false) :
    (Lexer.read_while (fun c => isalnum c || decide (c = '_')) (lx.source.length + 1) lx "") =
      (String.mk ((List.range k).map lx.stream), Nat.iterate Lexer.advance k lx) := by
  have hb := Lexer.run_le_budget (fun c => isalnum c || decide (c = '_')) (by decide) lx k hrun
  rw [Lexer.read_while_run _ lx k _ "" hrun hstop hb]
  rfl

/-- C16: when the first character that is not whitespace is a letter or an
underscore, `getNextToken` consumes the whitespace and the whole run `w` of
letters, digits and underscores behind it and nothing more; the token's text
is `w`; its type is `T_INT`, `T_RETURN` or `T_MAIN` exactly when `w` is
`int`, `return` or `main`, and for every other `w` the token is `T_IDENT`
with value `w`. -/
theorem identifier_or_keyword (lx : Lexer) (j k : Nat)
    (hspace : ∀ i, i < j → isspace (lx.stream i) = true)
    (hstart : isalpha (lx.stream j) = true ∨ lx.stream j = '_')
    (hrun : ∀ i, i < k → (isalnum (lx.stream (j + i)) || decide (lx.stream (j + i) = '_')) = true)
    (hstop : (isalnum (lx.stream (j + k)) || decide (lx.stream (j + k) = '_')) = false) :
    lx.getNextToken.2 = Nat.iterate Lexer.advance (j + k) lx ∧
    lx.getNextToken.1.value = String.mk ((List.range k).map (fun i => lx.stream (j + i))) ∧
    (lx.getNextToken.1.type = .T_INT ↔
      String.mk ((List.range k).map (fun i => lx.stream (j + i))) = "int") ∧
    (lx.getNextToken.1.type = .T_RETURN ↔
      String.mk ((List.range k).map (fun i => lx.stream (j + i))) = "return") ∧
    (lx.getNextToken.1.type = .T_MAIN ↔
      String.mk ((List.range k).map (fun i => lx.stream (j + i))) = "main") ∧
    (String.mk ((List.range k).map (fun i => lx.stream (j + i))) ≠ "int" →
      String.mk ((List.range k).map (fun i => lx.stream (j + i))) ≠ "return" →
      String.mk ((List.range k).map (fun i => lx.stream (j + i))) ≠ "main" →
      lx.getNextToken.1 =
        { type := .T_IDENT,
          value := String.mk ((List.range k).map (fun i => lx.stream (j + i))) }) := by
  have hj := Lexer.run_le_budget isspace (by decide) lx j hspace
  have hskip := Lexer.skip_spaces_run lx j (lx.source.length + 1) hspace
    (isspace_of_isalpha _ hstart) hj
  have hcur : (Nat.iterate Lexer.advance j lx).currentChar = lx.stream j := by
    have := Lexer.stream_iterate_advance lx j 0
    simpa [Lexer.stream] using this
  have ha : (isalpha (Nat.iterate Lexer.advance j lx).currentChar ||
      decide ((Nat.iterate Lexer.advance j lx).currentChar = '_')) = true := by
    rw [hcur]
    rcases hstart with h | h
    · simp [h]
    · simp [h]
  have hread := Lexer.makeIdentifier_run (Nat.iterate Lexer.advance j lx) k
    (fun i hi => by rw [Lexer.stream_iterate_advance]; exact hrun i hi)
    (by rw [Lexer.stream_iterate_advance]; exact hstop)
  have hmap : (List.range k).map (Nat.iterate Lexer.advance j lx).stream =
      (List.range k).map (fun i => lx.stream (j + i)) :=
    List.map_congr_left (fun i _ => Lexer.stream_iterate_advance lx j i)
  rw [hmap, Lexer.iterate_advance_source, ← Function.iterate_add_apply, add_comm k j] at hread
  unfold Lexer.getNextToken
  simp only [hskip]
  rw [if_pos ha]
  unfold Lexer.makeIdentifier
  simp only [Lexer.iterate_advance_source, hread]
  generalize String.mk ((List.range k).map (fun i => lx.stream (j + i))) = w
  split_ifs with h1 h2 h3 h4
  · subst h1; simp
  · subst h2; simp
  · subst h3; simp
  · subst h4; simp
  · simp [h1, h2, h3]

theorem identifier_or_keyword_witness :
    (Lexer.new "integer".toList).getNextToken.1 =
      { type := .T_IDENT,
        value := String.mk ((List.range 7).map
          (fun i => (Lexer.new "integer".toList).stream (0 + i))) } ∧
    (Lexer.new "  main_=1".toList).getNextToken.1 =
      { type := .T_IDENT,
        value := String.mk ((List.range 5).map
          (fun i => (Lexer.new "  main_=1".toList).stream (2 + i))) } ∧
    (Lexer.new "Int x".toList).getNextToken.1 =
      { type := .T_IDENT,
        value := String.mk ((List.range 3).map
          (fun i => (Lexer.new "Int x".toList).stream (0 + i))) } ∧
    ((Lexer.new " return;".toList).getNextToken.1.type = .T_RETURN ↔
      String.mk ((List.range 6).map (fun i => (Lexer.new " return;".toList).stream (1 + i)))
        = "return") :=
  ⟨(identifier_or_keyword (Lexer.new "integer".toList) 0 7
      (by decide) (by decide) (by decide) (by decide)).2.2.2.2.2
      (by decide) (by decide) (by decide),
   (identifier_or_keyword (Lexer.new "  main_=1".toList) 2 5
      (by decide) (by decide) (by decide) (by decide)).2.2.2.2.2
      (by decide) (by decide) (by decide),
   (identifier_or_keyword (Lexer.new "Int x".toList) 0 3
      (by decide) (by decide) (by decide) (by decide)).2.2.2.2.2
      (by decide) (by decide) (by decide),
   (identifier_or_keyword (Lexer.new " return;".toList) 1 6
      (by decide) (by decide) (by decide) (by decide)).2.2.2.1⟩

/-! ## compilelab1: associativity and precedence -/

theorem Compiler.iterate_next_fields (c : Compiler) (k : Nat) :
    (Nat.iterate Compiler.next k c).localVars = c.localVars ∧
    (Nat.iterate Compiler.next k c).globalVars = c.globalVars ∧
    (Nat.iterate Compiler.next k c).code = c.code ∧
    (Nat.iterate Compiler.next k c).stackIndex = c.stackIndex ∧
    (Nat.iterate Compiler.next k c).hasMainReturn = c.hasMainReturn ∧
    (Nat.iterate Compiler.next k c).labelCounter = c.labelCounter := by
  induction k generalizing c with
  | zero => exact ⟨rfl, rfl, rfl, rfl, rfl, rfl⟩
  | succ k ih =>
    rw [Function.iterate_succ_apply]
    exact ih c.next

theorem Compiler.after_zero (c : Compiler) : c.after 0 [] = c := by
  simp [Compiler.after]

theorem Compiler.after_next (c : Compiler) (k : Nat) (lines : List Instr) :
    (c.after k lines).next = c.after (k + 1) lines := by
  simp only [Compiler.after, Function.iterate_succ_apply', Compiler.next]

theorem Compiler.after_emit (c : Compiler) (k : Nat) (lines : List Instr) (i : Instr) :
    (c.after k lines).emit i = c.after k (lines ++ [i]) := by
  simp only [Compiler.after, Compiler.emit, List.append_assoc]

theorem Compiler.after_currentToken (c : Compiler) (k : Nat) (lines : List Instr) :
    (c.after k lines).currentToken = c.lookahead k := rfl

theorem Compiler.after_localVars (c : Compiler) (k : Nat) (lines : List Instr) :
    (c.after k lines).localVars = c.localVars :=
  (Compiler.iterate_next_fields c k).1

theorem Compiler.after_globalVars (c : Compiler) (k : Nat) (lines : List Instr) :
    (c.after k lines).globalVars = c.globalVars :=
  (Compiler.iterate_next_fields c k).2.1

theorem Compiler.after_code (c : Compiler) (k : Nat) (lines : List Instr) :
    (c.after k lines).code = c.code ++ lines := rfl

theorem Compiler.after_after (c : Compiler) (j k : Nat) (l m : List Instr) :
    (c.after j l).after k m = c.after (j + k) (l ++ m) := by
  induction k generalizing m with
  | zero =>
    simp only [Compiler.after, Function.iterate_zero, id_eq, add_zero, List.append_assoc]
  | succ k ih =>
    have h1 : (c.after j l).after (k + 1) m = ((c.after j l).after k m).next := by
      rw [Compiler.after_next]
    rw [h1, ih, Compiler.after_next]
    rfl

theorem Compiler.after_lookahead (c : Compiler) (k i : Nat) (lines : List Instr) :
    (c.after k lines).lookahead i = c.lookahead (k + i) := by
  have h := Compiler.after_after c k i lines []
  have h2 : ((c.after k lines).after i []).currentToken = (c.after (k + i) (lines ++ [])).currentToken :=
    by rw [h]
  exact h2

theorem Compiler.is_operand_after (c : Compiler) (k : Nat) (lines : List Instr) (t : Token) :
    (c.after k lines).is_operand t ↔ c.is_operand t := by
  simp only [Compiler.is_operand, Compiler.isLocal, Compiler.isGlobal, Compiler.after_localVars,
    Compiler.after_globalVars]

theorem Compiler.push_of_after (c : Compiler) (k : Nat) (lines : List Instr) (t : Token) :
    (c.after k lines).push_of t = c.push_of t := by
  simp only [Compiler.push_of, Compiler.isLocal, Compiler.after_localVars]

theorem precedence_eq_one (t : TokenType) : precedence t = 1 ↔ t = .T_BIT_OR := by
  cases t <;> simp [precedence]
theorem precedence_eq_two (t : TokenType) : precedence t = 2 ↔ t = .T_BIT_XOR := by
  cases t <;> simp [precedence]
theorem precedence_eq_three (t : TokenType) : precedence t = 3 ↔ t = .T_BIT_AND := by
  cases t <;> simp [precedence]
theorem precedence_eq_four (t : TokenType) :
    precedence t = 4 ↔ (t = .T_EQ ∨ t = .T_NE) := by
  cases t <;> simp [precedence]
theorem precedence_eq_five (t : TokenType) :
    precedence t = 5 ↔ (t = .T_LT ∨ t = .T_LE ∨ t = .T_GT ∨ t = .T_GE) := by
  cases t <;> simp [precedence]
theorem precedence_eq_six (t : TokenType) :
    precedence t = 6 ↔ (t = .T_PLUS ∨ t = .T_MINUS) := by
  cases t <;> simp [precedence]
theorem precedence_eq_seven (t : TokenType) :
    precedence t = 7 ↔ (t = .T_STAR ∨ t = .T_SLASH ∨ t = .T_PERCENT) := by
  cases t <;> simp [precedence]

theorem precedence_le_seven (t : TokenType) : precedence t ≤ 7 := by
  cases t <;> simp [precedence]

theorem except_ok_bind {ε α β : Type} (a : α) (f : α → Except ε β) :
    (Except.ok a >>= f) = f a := rfl

theorem Compiler.emit_after (c : Compiler) (i : Instr) : c.emit i = c.after 0 [i] := by
  simp only [Compiler.emit, Compiler.after, Function.iterate_zero, id_eq]

theorem cascade_loop_exit (n fuel : Nat) (c : Compiler) (h1 : 1 ≤ n) (h7 : n ≤ 7)
    (h : precedence c.currentToken.type ≠ n) : cascade_loop n (fuel + 1) c = .ok c := by
  interval_cases n
  · rw [Ne, precedence_eq_one] at h
    simp only [cascade_loop, Compiler.parseBitwiseOrLoop, if_neg h]
    rfl
  · rw [Ne, precedence_eq_two] at h
    simp only [cascade_loop, Compiler.parseBitwiseXorLoop, if_neg h]
    rfl
  · rw [Ne, precedence_eq_three] at h
    simp only [cascade_loop, Compiler.parseBitwiseAndLoop, if_neg h]
    rfl
  · rw [Ne, precedence_eq_four] at h
    simp only [cascade_loop, Compiler.parseEqualityLoop, if_neg h]
    rfl
  · rw [Ne, precedence_eq_five] at h
    simp only [cascade_loop, Compiler.parseRelationalLoop, if_neg h]
    rfl
  · rw [Ne, precedence_eq_six] at h
    simp only [cascade_loop, Compiler.parseAdditiveLoop, if_neg h]
    rfl
  · rw [Ne, precedence_eq_seven] at h
    simp only [cascade_loop, Compiler.parseMultiplicativeLoop, if_neg h]
    rfl

theorem cascade_succ (n fuel : Nat) (c : Compiler) (h1 : 1 ≤ n) (h7 : n ≤ 7) :
    cascade n (fuel + 1) c = (cascade (n + 1) fuel c >>= cascade_loop n fuel) := by
  interval_cases n
  · simp only [cascade, cascade_loop, Compiler.parseBitwiseOrExpr]
  · simp only [cascade, cascade_loop, Compiler.parseBitwiseXorExpr]
  · simp only [cascade, cascade_loop, Compiler.parseBitwiseAndExpr]
  · simp only [cascade, cascade_loop, Compiler.parseEqualityExpr]
  · simp only [cascade, cascade_loop, Compiler.parseRelationalExpr]
  · simp only [cascade, cascade_loop, Compiler.parseAdditiveExpr]
  · simp only [cascade, cascade_loop, Compiler.parseMultiplicativeExpr]

theorem cascade_loop_step (n fuel : Nat) (c : Compiler) (h1 : 1 ≤ n) (h7 : n ≤ 7)
    (h : precedence c.currentToken.type = n) :
    cascade_loop n (fuel + 1) c =
      (cascade (n + 1) fuel c.next >>= fun c1 =>
        cascade_loop n fuel (c1.after 0 (operator_code c.currentToken.type))) := by
  interval_cases n
  · rw [precedence_eq_one] at h
    simp only [cascade, cascade_loop, Compiler.parseBitwiseOrLoop, h, true_or, or_true, if_true, if_false,
      reduceCtorEq, Compiler.eat_ok c _ h, except_ok_bind, Compiler.emit_after, Compiler.after_after,
      operator_code, zero_add, List.cons_append, List.nil_append]
  · rw [precedence_eq_two] at h
    simp only [cascade, cascade_loop, Compiler.parseBitwiseXorLoop, h, true_or, or_true, if_true, if_false,
      reduceCtorEq, Compiler.eat_ok c _ h, except_ok_bind, Compiler.emit_after, Compiler.after_after,
      operator_code, zero_add, List.cons_append, List.nil_append]
  · rw [precedence_eq_three] at h
    simp only [cascade, cascade_loop, Compiler.parseBitwiseAndLoop, h, true_or, or_true, if_true, if_false,
      reduceCtorEq, Compiler.eat_ok c _ h, except_ok_bind, Compiler.emit_after, Compiler.after_after,
      operator_code, zero_add, List.cons_append, List.nil_append]
  · rw [precedence_eq_four] at h
    rcases h with h | h
    · simp only [cascade, cascade_loop, Compiler.parseEqualityLoop, h, true_or, or_true, if_true, if_false,
      reduceCtorEq, Compiler.eat_ok c _ h, except_ok_bind, Compiler.emit_after, Compiler.after_after,
      operator_code, zero_add, List.cons_append, List.nil_append]
    · simp only [cascade, cascade_loop, Compiler.parseEqualityLoop, h, true_or, or_true, if_true, if_false,
      reduceCtorEq, Compiler.eat_ok c _ h, except_ok_bind, Compiler.emit_after, Compiler.after_after,
      operator_code, zero_add, List.cons_append, List.nil_append]
  · rw [precedence_eq_five] at h
    rcases h with h | h | h | h
    · simp only [cascade, cascade_loop, Compiler.parseRelationalLoop, h, true_or, or_true, if_true, if_false,
      reduceCtorEq, Compiler.eat_ok c _ h, except_ok_bind, Compiler.emit_after, Compiler.after_after,
      operator_code, zero_add, List.cons_append, List.nil_append]
    · simp only [cascade, cascade_loop, Compiler.parseRelationalLoop, h, true_or, or_true, if_true, if_false,
      reduceCtorEq, Compiler.eat_ok c _ h, except_ok_bind, Compiler.emit_after, Compiler.after_after,
      operator_code, zero_add, List.cons_append, List.nil_append]
    · simp only [cascade, cascade_loop, Compiler.parseRelationalLoop, h, true_or, or_true, if_true, if_false,
      reduceCtorEq, Compiler.eat_ok c _ h, except_ok_bind, Compiler.emit_after, Compiler.after_after,
      operator_code, zero_add, List.cons_append, List.nil_append]
    · simp only [cascade, cascade_loop, Compiler.parseRelationalLoop, h, true_or, or_true, if_true, if_false,
      reduceCtorEq, Compiler.eat_ok c _ h, except_ok_bind, Compiler.emit_after, Compiler.after_after,
      operator_code, zero_add, List.cons_append, List.nil_append]
  · rw [precedence_eq_six] at h
    rcases h with h | h
    · simp only [cascade, cascade_loop, Compiler.parseAdditiveLoop, h, true_or, or_true, if_true, if_false,
      reduceCtorEq, Compiler.eat_ok c _ h, except_ok_bind, Compiler.emit_after, Compiler.after_after,
      operator_code, zero_add, List.cons_append, List.nil_append]
    · simp only [cascade, cascade_loop, Compiler.parseAdditiveLoop, h, true_or, or_true, if_true, if_false,
      reduceCtorEq, Compiler.eat_ok c _ h, except_ok_bind, Compiler.emit_after, Compiler.after_after,
      operator_code, zero_add, List.cons_append, List.nil_append]
  · rw [precedence_eq_seven] at h
    rcases h with h | h | h
    · simp only [cascade, cascade_loop, Compiler.parseMultiplicativeLoop, h, true_or, or_true, if_true, if_false,
      reduceCtorEq, Compiler.eat_ok c _ h, except_ok_bind, Compiler.emit_after, Compiler.after_after,
      operator_code, zero_add, List.cons_append, List.nil_append]
    · simp only [cascade, cascade_loop, Compiler.parseMultiplicativeLoop, h, true_or, or_true, if_true, if_false,
      reduceCtorEq, Compiler.eat_ok c _ h, except_ok_bind, Compiler.emit_after, Compiler.after_after,
      operator_code, zero_add, List.cons_append, List.nil_append]
    · simp only [cascade, cascade_loop, Compiler.parseMultiplicativeLoop, h, true_or, or_true, if_true, if_false,
      reduceCtorEq, Compiler.eat_ok c _ h, except_ok_bind, Compiler.emit_after, Compiler.after_after,
      operator_code, zero_add, List.cons_append, List.nil_append]

theorem parsesTo_level {n : Nat} {c c1 c2 : Compiler} (h1 : 1 ≤ n) (h7 : n ≤ 7)
    (ho : ParsesTo (cascade (n + 1)) c c1) (hl : ParsesTo (cascade_loop n) c1 c2) :
    ParsesTo (cascade n) c c2 := by
  obtain ⟨N, hN⟩ := ho
  obtain ⟨M, hM⟩ := hl
  refine ⟨N + M + 1, fun fuel hf => ?_⟩
  obtain ⟨f, rfl⟩ : ∃ f, fuel = f + 1 := ⟨fuel - 1, by omega⟩
  rw [cascade_succ n f c h1 h7, hN f (by omega), except_ok_bind]
  exact hM f (by omega)

theorem parsesTo_exit {n : Nat} {c : Compiler} (h1 : 1 ≤ n) (h7 : n ≤ 7)
    (h : precedence c.currentToken.type ≠ n) : ParsesTo (cascade_loop n) c c := by
  refine ⟨1, fun fuel hf => ?_⟩
  obtain ⟨f, rfl⟩ : ∃ f, fuel = f + 1 := ⟨fuel - 1, by omega⟩
  exact cascade_loop_exit n f c h1 h7 h

theorem parsesTo_step {n : Nat} {c c1 c2 : Compiler} (h1 : 1 ≤ n) (h7 : n ≤ 7)
    (h : precedence c.currentToken.type = n) (ho : ParsesTo (cascade (n + 1)) c.next c1)
    (hl : ParsesTo (cascade_loop n) (c1.after 0 (operator_code c.currentToken.type)) c2) :
    ParsesTo (cascade_loop n) c c2 := by
  obtain ⟨N, hN⟩ := ho
  obtain ⟨M, hM⟩ := hl
  refine ⟨N + M + 1, fun fuel hf => ?_⟩
  obtain ⟨f, rfl⟩ : ∃ f, fuel = f + 1 := ⟨fuel - 1, by omega⟩
  rw [cascade_loop_step n f c h1 h7 h, hN f (by omega), except_ok_bind]
  exact hM f (by omega)

/-- A result of a tighter level is the result of every looser level whose
operators the next token is not. -/
theorem parsesTo_between : ∀ (d n : Nat) (c c1 : Compiler), 1 ≤ n → n + d ≤ 8 →
    ParsesTo (cascade (n + d)) c c1 →
    (∀ k, n ≤ k → k < n + d → precedence c1.currentToken.type ≠ k) →
    ParsesTo (cascade n) c c1
  | 0, n, c, c1, _, _, h, _ => h
  | d + 1, n, c, c1, h1, h8, h, hk => by
    have hup : ParsesTo (cascade (n + 1)) c c1 := by
      apply parsesTo_between d (n + 1) c c1 (by omega) (by omega)
      · rw [show n + 1 + d = n + (d + 1) by omega]
        exact h
      · intro k hk1 hk2
        exact hk k (by omega) (by omega)
    exact parsesTo_level h1 (by omega) hup (parsesTo_exit h1 (by omega) (hk n (by omega) (by omega)))

theorem parsesTo_expression {c c1 : Compiler} (h : ParsesTo (cascade 1) c c1)
    (hand : c1.currentToken.type ≠ .T_LOGICAL_AND) :
    ParsesTo Compiler.parseExpression c c1 := by
  obtain ⟨N, hN⟩ := h
  refine ⟨N + 3, fun fuel hf => ?_⟩
  obtain ⟨f, rfl⟩ : ∃ f, fuel = f + 3 := ⟨fuel - 3, by omega⟩
  have h1 : cascade 1 (f + 1) c = .ok c1 := hN (f + 1) (by omega)
  simp only [cascade] at h1
  simp only [Compiler.parseExpression, Compiler.parseLogicalAndExpr, h1, except_ok_bind]
  obtain ⟨g, rfl⟩ : ∃ g, f = g + 0 := ⟨f, rfl⟩
  simp only [Compiler.parseLogicalAndLoop, if_neg hand]
  rfl

theorem parsesTo_operand {c : Compiler} (h : c.is_operand c.currentToken) :
    ParsesTo (cascade 8) c (c.after 1 [c.push_of c.currentToken]) := by
  refine ⟨2, fun fuel hf => ?_⟩
  obtain ⟨f, rfl⟩ : ∃ f, fuel = f + 2 := ⟨fuel - 2, by omega⟩
  have hminus : ¬ c.currentToken.type = .T_MINUS := by
    rcases h with h | ⟨h, _⟩ <;> rw [h] <;> exact fun h => TokenType.noConfusion h
  simp only [cascade, Compiler.parseUnaryExpr, if_neg hminus, Compiler.parsePrimaryExpr]
  rcases h with h | ⟨h, hv⟩
  · rw [if_pos h, Compiler.emit_after, Compiler.eat_ok _ _ (by exact h), Compiler.after_next]
    simp only [Compiler.push_of, if_pos h]
  · have hlit : ¬ c.currentToken.type = .T_LITERAL := by
      rw [h]; exact fun h => TokenType.noConfusion h
    rw [if_neg hlit, if_pos h]
    by_cases hl : c.isLocal c.currentToken.value = true
    · rw [if_pos hl, Compiler.emit_after, Compiler.eat_ok _ _ (by exact h), Compiler.after_next]
      simp only [Compiler.push_of, if_neg hlit, if_pos hl]
    · have hg : c.isGlobal c.currentToken.value = true := hv.resolve_left hl
      rw [if_neg hl, if_pos hg, Compiler.emit_after, Compiler.eat_ok _ _ (by exact h),
        Compiler.after_next]
      simp only [Compiler.push_of, if_neg hlit, if_neg hl]

theorem parsesTo_paren (c c1 : Compiler) (h : c.currentToken.type = .T_LPAREN)
    (he : ParsesTo Compiler.parseExpression c.next c1)
    (hr : c1.currentToken.type = .T_RPAREN) : ParsesTo (cascade 8) c c1.next := by
  obtain ⟨N, hN⟩ := he
  refine ⟨N + 2, fun fuel hf => ?_⟩
  obtain ⟨f, rfl⟩ : ∃ f, fuel = f + 2 := ⟨fuel - 2, by omega⟩
  have hminus : ¬ c.currentToken.type = .T_MINUS := by
    rw [h]; exact fun h => TokenType.noConfusion h
  have hlit : ¬ c.currentToken.type = .T_LITERAL := by
    rw [h]; exact fun h => TokenType.noConfusion h
  have hid : ¬ c.currentToken.type = .T_IDENT := by
    rw [h]; exact fun h => TokenType.noConfusion h
  simp only [cascade, Compiler.parseUnaryExpr, if_neg hminus, Compiler.parsePrimaryExpr,
    if_neg hlit, if_neg hid, if_pos h, Compiler.eat_ok c _ h, except_ok_bind,
    hN f (by omega), Compiler.eat_ok c1 _ hr]

theorem Compiler.after_one_after (c : Compiler) (k : Nat) (lines : List Instr) :
    (c.after k lines).after 1 [(c.after k lines).push_of (c.after k lines).currentToken] =
      c.after (k + 1) (lines ++ [c.push_of (c.lookahead k)]) := by
  rw [Compiler.after_after, Compiler.push_of_after, Compiler.after_currentToken]

/-- One operand, seen from level `m`: the token behind it is no operator of
level `m` or tighter. -/
theorem parsesTo_atom (s : Compiler) (k m : Nat) (lines : List Instr) (h1 : 1 ≤ m) (h8 : m ≤ 8)
    (hop : s.is_operand (s.lookahead k))
    (hnext : precedence (s.lookahead (k + 1)).type < m) :
    ParsesTo (cascade m) (s.after k lines)
      (s.after (k + 1) (lines ++ [s.push_of (s.lookahead k)])) := by
  have h0 : ParsesTo (cascade 8) (s.after k lines)
      (s.after (k + 1) (lines ++ [s.push_of (s.lookahead k)])) := by
    have := parsesTo_operand (c := s.after k lines)
      ((Compiler.is_operand_after s k lines _).2 hop)
    rw [Compiler.after_one_after] at this
    exact this
  apply parsesTo_between (8 - m) m _ _ h1 (by omega)
  · rw [show m + (8 - m) = 8 by omega]
    exact h0
  · intro j hj1 hj2
    rw [Compiler.after_currentToken]
    omega

/-- One round of a level's loop over an operator and a single operand. -/
theorem parsesTo_round (s : Compiler) (k n : Nat) (lines : List Instr) (r : Compiler)
    (h1 : 1 ≤ n) (h7 : n ≤ 7)
    (hop : precedence (s.lookahead k).type = n)
    (hy : s.is_operand (s.lookahead (k + 1)))
    (hnext : precedence (s.lookahead (k + 2)).type ≤ n)
    (hrest : ParsesTo (cascade_loop n)
      (s.after (k + 2)
        (lines ++ [s.push_of (s.lookahead (k + 1))] ++ operator_code (s.lookahead k).type)) r) :
    ParsesTo (cascade_loop n) (s.after k lines) r := by
  apply parsesTo_step h1 h7 (by rw [Compiler.after_currentToken]; exact hop)
  · rw [Compiler.after_next]
    exact parsesTo_atom s (k + 1) (n + 1) lines (by omega) (by omega) hy
      (by rw [show k + 1 + 1 = k + 2 from rfl]; omega)
  · rw [Compiler.after_after, Compiler.after_currentToken]
    exact hrest

theorem parsesTo_done (s : Compiler) (k n : Nat) (lines : List Instr) (h1 : 1 ≤ n) (h7 : n ≤ 7)
    (h : precedence (s.lookahead k).type ≠ n) :
    ParsesTo (cascade_loop n) (s.after k lines) (s.after k lines) :=
  parsesTo_exit h1 h7 (by rw [Compiler.after_currentToken]; exact h)

/-- The phrase `x o y` at the level of its operator `o`. -/
theorem parsesTo_binary (s : Compiler) (k n : Nat) (lines : List Instr)
    (h1 : 1 ≤ n)
    (hx : s.is_operand (s.lookahead k))
    (hop : precedence (s.lookahead (k + 1)).type = n)
    (hy : s.is_operand (s.lookahead (k + 2)))
    (hnext : precedence (s.lookahead (k + 3)).type < n) :
    ParsesTo (cascade n) (s.after k lines)
      (s.after (k + 3) (lines ++ [s.push_of (s.lookahead k)] ++
        [s.push_of (s.lookahead (k + 2))] ++ operator_code (s.lookahead (k + 1)).type)) := by
  have h7 : n ≤ 7 := hop ▸ precedence_le_seven _
  apply parsesTo_level h1 h7
    (parsesTo_atom s k (n + 1) lines (by omega) (by omega) hx (by omega))
  apply parsesTo_round s (k + 1) n _ _ h1 h7 hop hy
    (by rw [show k + 1 + 2 = k + 3 from rfl]; omega)
  exact parsesTo_done s (k + 3) n _ h1 h7 (by omega)

/-- A result at level `n` is the result of `parseExpression` when the next
token is no operator of a looser level and not `&&`. -/
theorem parsesTo_whole (s r : Compiler) (n : Nat) (h1 : 1 ≤ n) (h7 : n ≤ 7)
    (h : ParsesTo (cascade n) s r)
    (hnext : precedence r.currentToken.type = 0)
    (hand : r.currentToken.type ≠ .T_LOGICAL_AND) :
    ParsesTo Compiler.parseExpression s r := by
  apply parsesTo_expression _ hand
  apply parsesTo_between (n - 1) 1 s r (by omega) (by omega)
  · rw [show 1 + (n - 1) = n by omega]
    exact h
  · intro j hj1 hj2
    omega

theorem parsesTo_group (s : Compiler) (k j : Nat) (lines inner : List Instr)
    (hl : (s.lookahead k).type = .T_LPAREN)
    (he : ParsesTo Compiler.parseExpression (s.after (k + 1) lines) (s.after j inner))
    (hr : (s.lookahead j).type = .T_RPAREN) :
    ParsesTo (cascade 8) (s.after k lines) (s.after (j + 1) inner) := by
  have := parsesTo_paren (s.after k lines) (s.after j inner)
    (by rw [Compiler.after_currentToken]; exact hl)
    (by rw [Compiler.after_next]; exact he)
    (by rw [Compiler.after_currentToken]; exact hr)
  rw [Compiler.after_next] at this
  exact this

theorem parsesTo_lift (s : Compiler) (k j m n : Nat) (lines inner : List Instr)
    (h1 : 1 ≤ m) (hmn : m ≤ n) (h8 : n ≤ 8)
    (h : ParsesTo (cascade n) (s.after k lines) (s.after j inner))
    (hnext : precedence (s.lookahead j).type < m) :
    ParsesTo (cascade m) (s.after k lines) (s.after j inner) := by
  apply parsesTo_between (n - m) m _ _ h1 (by omega)
  · rw [show m + (n - m) = n by omega]
    exact h
  · intro i hi1 hi2
    rw [Compiler.after_currentToken]
    omega

theorem parsesTo_top (s : Compiler) (k j n : Nat) (lines inner : List Instr)
    (h1 : 1 ≤ n) (h7 : n ≤ 7)
    (h : ParsesTo (cascade n) (s.after k lines) (s.after j inner))
    (hnext : precedence (s.lookahead j).type = 0)
    (hand : (s.lookahead j).type ≠ .T_LOGICAL_AND) :
    ParsesTo Compiler.parseExpression (s.after k lines) (s.after j inner) :=
  parsesTo_whole _ _ n h1 h7 h (by rw [Compiler.after_currentToken]; exact hnext)
    (by rw [Compiler.after_currentToken]; exact hand)

/-- The phrase `a o1 b o2 c` with both operators at level `n`. -/
theorem parsesTo_chain (s : Compiler) (n : Nat) (h1 : 1 ≤ n)
    (ha : s.is_operand (s.lookahead 0)) (hb : s.is_operand (s.lookahead 2))
    (hc : s.is_operand (s.lookahead 4))
    (ho1 : precedence (s.lookahead 1).type = n) (ho2 : precedence (s.lookahead 3).type = n)
    (hend : precedence (s.lookahead 5).type = 0)
    (hand : (s.lookahead 5).type ≠ .T_LOGICAL_AND) :
    ParsesTo Compiler.parseExpression s
      (s.after 5 ([s.push_of (s.lookahead 0), s.push_of (s.lookahead 2)] ++
        operator_code (s.lookahead 1).type ++ [s.push_of (s.lookahead 4)] ++
        operator_code (s.lookahead 3).type)) := by
  have h7 : n ≤ 7 := ho1 ▸ precedence_le_seven _
  have h := parsesTo_top s 0 5 n [] _ h1 h7
    (parsesTo_level h1 h7
      (parsesTo_atom s 0 (n + 1) [] (by omega) (by omega) ha (by simp only [Nat.reduceAdd, zero_add]; omega))
      (parsesTo_round s 1 n _ _ h1 h7 ho1 hb (by simp only [Nat.reduceAdd, zero_add]; omega)
        (parsesTo_round s 3 n _ _ h1 h7 ho2 hc (by simp only [Nat.reduceAdd, zero_add]; omega)
          (parsesTo_done s 5 n _ h1 h7 (by omega))))) hend hand
  rw [Compiler.after_zero] at h
  simpa only [List.nil_append, List.append_assoc, List.cons_append] using h

/-- The phrase `( a o1 b ) o2 c` with both operators at level `n`. -/
theorem parsesTo_chain_grouped (s : Compiler) (n : Nat) (h1 : 1 ≤ n)
    (hl : (s.lookahead 0).type = .T_LPAREN)
    (ha : s.is_operand (s.lookahead 1)) (hb : s.is_operand (s.lookahead 3))
    (hr : (s.lookahead 4).type = .T_RPAREN)
    (hc : s.is_operand (s.lookahead 6))
    (ho1 : precedence (s.lookahead 2).type = n) (ho2 : precedence (s.lookahead 5).type = n)
    (hend : precedence (s.lookahead 7).type = 0)
    (hand : (s.lookahead 7).type ≠ .T_LOGICAL_AND) :
    ParsesTo Compiler.parseExpression s
      (s.after 7 ([s.push_of (s.lookahead 1), s.push_of (s.lookahead 3)] ++
        operator_code (s.lookahead 2).type ++ [s.push_of (s.lookahead 6)] ++
        operator_code (s.lookahead 5).type)) := by
  have h7 : n ≤ 7 := ho1 ▸ precedence_le_seven _
  have hr0 : precedence (s.lookahead 4).type = 0 := by rw [hr]; rfl
  have hrand : (s.lookahead 4).type ≠ .T_LOGICAL_AND := by
    rw [hr]; exact fun h => TokenType.noConfusion h
  have hinner := parsesTo_top s 1 4 n [] _ h1 h7
    (parsesTo_binary s 1 n [] h1 ha ho1 hb (by simp only [Nat.reduceAdd, zero_add]; omega)) hr0 hrand
  have hgroup := parsesTo_lift s 0 5 (n + 1) 8 [] _ (by omega) (by omega) (by omega)
    (parsesTo_group s 0 4 [] _ hl hinner hr) (by omega)
  have h := parsesTo_top s 0 7 n [] _ h1 h7
    (parsesTo_level h1 h7 hgroup
      (parsesTo_round s 5 n _ _ h1 h7 ho2 hc (by simp only [Nat.reduceAdd, zero_add]; omega)
        (parsesTo_done s 7 n _ h1 h7 (by omega)))) hend hand
  rw [Compiler.after_zero] at h
  simpa only [List.nil_append, List.append_assoc, List.cons_append] using h

/-- The phrase `a o1 b o2 c` with `o2` at a tighter level than `o1`. -/
theorem parsesTo_tighter (s : Compiler) (m n : Nat) (h1 : 1 ≤ m) (hmn : m < n)
    (ha : s.is_operand (s.lookahead 0)) (hb : s.is_operand (s.lookahead 2))
    (hc : s.is_operand (s.lookahead 4))
    (ho1 : precedence (s.lookahead 1).type = m) (ho2 : precedence (s.lookahead 3).type = n)
    (hend : precedence (s.lookahead 5).type = 0)
    (hand : (s.lookahead 5).type ≠ .T_LOGICAL_AND) :
    ParsesTo Compiler.parseExpression s
      (s.after 5 ([s.push_of (s.lookahead 0), s.push_of (s.lookahead 2),
        s.push_of (s.lookahead 4)] ++
        operator_code (s.lookahead 3).type ++ operator_code (s.lookahead 1).type)) := by
  have h7 : n ≤ 7 := ho2 ▸ precedence_le_seven _
  have hright := parsesTo_lift s 2 5 (m + 1) n _ _ (by omega) (by omega) (by omega)
    (parsesTo_binary s 2 n [s.push_of (s.lookahead 0)] (by omega) hb ho2 hc (by simp only [Nat.reduceAdd, zero_add]; omega))
    (by omega)
  have hloop : ParsesTo (cascade_loop m) (s.after 1 [s.push_of (s.lookahead 0)])
      (s.after 5 ([s.push_of (s.lookahead 0)] ++ [s.push_of (s.lookahead 2)] ++
        [s.push_of (s.lookahead 4)] ++ operator_code (s.lookahead 3).type ++
        operator_code (s.lookahead 1).type)) := by
    apply parsesTo_step h1 (by omega) (by rw [Compiler.after_currentToken]; exact ho1)
    · rw [Compiler.after_next]
      exact hright
    · rw [Compiler.after_after, Compiler.after_currentToken]
      exact parsesTo_done s 5 m _ h1 (by omega) (by omega)
  have h := parsesTo_top s 0 5 m [] _ h1 (by omega)
    (parsesTo_level h1 (by omega)
      (parsesTo_atom s 0 (m + 1) [] (by omega) (by omega) ha (by simp only [Nat.reduceAdd, zero_add]; omega)) hloop) hend hand
  rw [Compiler.after_zero] at h
  simpa only [List.nil_append, List.append_assoc, List.cons_append] using h

/-- The phrase `a o1 ( b o2 c )` with `o2` at a tighter level than `o1`. -/
theorem parsesTo_tighter_grouped (s : Compiler) (m n : Nat) (h1 : 1 ≤ m) (hmn : m < n)
    (ha : s.is_operand (s.lookahead 0))
    (hl : (s.lookahead 2).type = .T_LPAREN)
    (hb : s.is_operand (s.lookahead 3)) (hc : s.is_operand (s.lookahead 5))
    (hr : (s.lookahead 6).type = .T_RPAREN)
    (ho1 : precedence (s.lookahead 1).type = m) (ho2 : precedence (s.lookahead 4).type = n)
    (hend : precedence (s.lookahead 7).type = 0)
    (hand : (s.lookahead 7).type ≠ .T_LOGICAL_AND) :
    ParsesTo Compiler.parseExpression s
      (s.after 7 ([s.push_of (s.lookahead 0), s.push_of (s.lookahead 3),
        s.push_of (s.lookahead 5)] ++
        operator_code (s.lookahead 4).type ++ operator_code (s.lookahead 1).type)) := by
  have h7 : n ≤ 7 := ho2 ▸ precedence_le_seven _
  have hr0 : precedence (s.lookahead 6).type = 0 := by rw [hr]; rfl
  have hrand : (s.lookahead 6).type ≠ .T_LOGICAL_AND := by
    rw [hr]; exact fun h => TokenType.noConfusion h
  have hinner := parsesTo_top s 3 6 n [s.push_of (s.lookahead 0)] _ (by omega) h7
    (parsesTo_binary s 3 n [s.push_of (s.lookahead 0)] (by omega) hb ho2 hc (by simp only [Nat.reduceAdd, zero_add]; omega))
    hr0 hrand
  have hright := parsesTo_lift s 2 7 (m + 1) 8 _ _ (by omega) (by omega) (by omega)
    (parsesTo_group s 2 6 _ _ hl hinner hr) (by omega)
  have hloop : ParsesTo (cascade_loop m) (s.after 1 [s.push_of (s.lookahead 0)])
      (s.after 7 ([s.push_of (s.lookahead 0)] ++ [s.push_of (s.lookahead 3)] ++
        [s.push_of (s.lookahead 5)] ++ operator_code (s.lookahead 4).type ++
        operator_code (s.lookahead 1).type)) := by
    apply parsesTo_step h1 (by omega) (by rw [Compiler.after_currentToken]; exact ho1)
    · rw [Compiler.after_next]
      exact hright
    · rw [Compiler.after_after, Compiler.after_currentToken]
      exact parsesTo_done s 7 m _ h1 (by omega) (by omega)
  have h := parsesTo_top s 0 7 m [] _ h1 (by omega)
    (parsesTo_level h1 (by omega)
      (parsesTo_atom s 0 (m + 1) [] (by omega) (by omega) ha (by simp only [Nat.reduceAdd, zero_add]; omega)) hloop) hend hand
  rw [Compiler.after_zero] at h
  simpa only [List.nil_append, List.append_assoc, List.cons_append] using h

theorem Compiler.push_of_congr (c c' : Compiler) (t : Token)
    (h : c'.localVars = c.localVars) : c'.push_of t = c.push_of t := by
  simp only [Compiler.push_of, Compiler.isLocal, h]

theorem Compiler.is_operand_congr (c c' : Compiler) (t : Token)
    (hl : c'.localVars = c.localVars) (hg : c'.globalVars = c.globalVars) :
    c'.is_operand t ↔ c.is_operand t := by
  simp only [Compiler.is_operand, Compiler.isLocal, Compiler.isGlobal, hl, hg]

/-- C17: in a compiler state whose next tokens are `a o1 b o2 c` followed by a
token that is neither a binary operator nor `&&`, with `a`, `b`, `c` literals
or declared variables: if `o1` and `o2` belong to the same level of the
cascade, `parseExpression` emits for `a o1 b o2 c` exactly the lines it emits
for `( a o1 b ) o2 c`, namely `a`, `b`, the lines of `o1`, `c`, the lines of
`o2`; if `o2` belongs to a tighter level than `o1`, it emits exactly the
lines it emits for `a o1 ( b o2 c )`, namely `a`, `b`, `c`, the lines of
`o2`, the lines of `o1`.  Both parses return normally once the recursion
budget is large enough. -/
theorem left_associativity_and_precedence (s s' : Compiler) (a o1 b o2 c t : Token)
    (hlocals : s'.localVars = s.localVars) (hglobals : s'.globalVars = s.globalVars)
    (hcode : s'.code = s.code)
    (hs : (List.range 6).map s.lookahead = [a, o1, b, o2, c, t])
    (ha : s.is_operand a) (hb : s.is_operand b) (hc : s.is_operand c)
    (ho1 : 1 ≤ precedence o1.type)
    (hend : precedence t.type = 0) (hand : t.type ≠ .T_LOGICAL_AND) :
    (precedence o2.type = precedence o1.type →
      (List.range 8).map s'.lookahead =
        [{ type := .T_LPAREN, value := "(" }, a, o1, b, { type := .T_RPAREN, value := ")" },
          o2, c, t] →
      ∃ r r' : Compiler, ParsesTo Compiler.parseExpression s r ∧
        ParsesTo Compiler.parseExpression s' r' ∧ r'.code = r.code ∧
        r.code = s.code ++ ([s.push_of a, s.push_of b] ++ operator_code o1.type ++
          [s.push_of c] ++ operator_code o2.type)) ∧
    (precedence o1.type < precedence o2.type →
      (List.range 8).map s'.lookahead =
        [a, o1, { type := .T_LPAREN, value := "(" }, b, o2, c,
          { type := .T_RPAREN, value := ")" }, t] →
      ∃ r r' : Compiler, ParsesTo Compiler.parseExpression s r ∧
        ParsesTo Compiler.parseExpression s' r' ∧ r'.code = r.code ∧
        r.code = s.code ++ ([s.push_of a, s.push_of b, s.push_of c] ++ operator_code o2.type ++
          operator_code o1.type)) := by
  simp only [List.range_succ, List.range_zero, List.nil_append, List.cons_append, List.map_cons,
    List.map_nil, List.cons.injEq, and_true] at hs
  obtain ⟨h0, h1, h2, h3, h4, h5⟩ := hs
  have hop := fun x => Compiler.is_operand_congr s s' x hlocals hglobals
  have hpush := fun x => Compiler.push_of_congr s s' x hlocals
  constructor
  · intro hsame hs'
    simp only [List.range_succ, List.range_zero, List.nil_append, List.cons_append, List.map_cons,
      List.map_nil, List.cons.injEq, and_true] at hs'
    obtain ⟨g0, g1, g2, g3, g4, g5, g6, g7⟩ := hs'
    have p := parsesTo_chain s (precedence o1.type) ho1 (h0 ▸ ha) (h2 ▸ hb) (h4 ▸ hc)
      (by rw [h1]) (by rw [h3, hsame]) (by rw [h5, hend]) (by rw [h5]; exact hand)
    have p' := parsesTo_chain_grouped s' (precedence o1.type) ho1 (by rw [g0])
      (by rw [g1]; exact (hop a).2 ha) (by rw [g3]; exact (hop b).2 hb) (by rw [g4])
      (by rw [g6]; exact (hop c).2 hc) (by rw [g2]) (by rw [g5, hsame]) (by rw [g7, hend])
      (by rw [g7]; exact hand)
    refine ⟨_, _, p, p', ?_, ?_⟩
    · simp only [Compiler.after_code, hcode, g1, g2, g3, g5, g6, h0, h1, h2, h3, h4, hpush]
    · simp only [Compiler.after_code, h0, h1, h2, h3, h4]
  · intro hlt hs'
    simp only [List.range_succ, List.range_zero, List.nil_append, List.cons_append, List.map_cons,
      List.map_nil, List.cons.injEq, and_true] at hs'
    obtain ⟨g0, g1, g2, g3, g4, g5, g6, g7⟩ := hs'
    have p := parsesTo_tighter s (precedence o1.type) (precedence o2.type) ho1 hlt
      (h0 ▸ ha) (h2 ▸ hb) (h4 ▸ hc) (by rw [h1]) (by rw [h3]) (by rw [h5, hend])
      (by rw [h5]; exact hand)
    have p' := parsesTo_tighter_grouped s' (precedence o1.type) (precedence o2.type) ho1 hlt
      (by rw [g0]; exact (hop a).2 ha) (by rw [g2])
      (by rw [g3]; exact (hop b).2 hb) (by rw [g5]; exact (hop c).2 hc) (by rw [g6])
      (by rw [g1]) (by rw [g4]) (by rw [g7, hend]) (by rw [g7]; exact hand)
    refine ⟨_, _, p, p', ?_, ?_⟩
    · simp only [Compiler.after_code, hcode, g0, g1, g3, g4, g5, h0, h1, h2, h3, h4, hpush]
    · simp only [Compiler.after_code, h0, h1, h2, h3, h4]

theorem left_associativity_and_precedence_witness :
    (∃ r r' : Compiler,
      ParsesTo Compiler.parseExpression
        { Compiler.new "x - 2 + y;".toList with
          localVars := [("y", -4)], globalVars := ["x"] } r ∧
      ParsesTo Compiler.parseExpression
        { Compiler.new "(x - 2) + y;".toList with
          localVars := [("y", -4)], globalVars := ["x"] } r' ∧
      r'.code = r.code ∧
      r.code = [] ++ ([Instr.push (.global "x"), .push (.lit "2")] ++
        operator_code .T_MINUS ++ [Instr.push (.ebp_rel (-4))] ++ operator_code .T_PLUS)) ∧
    (∃ r r' : Compiler,
      ParsesTo Compiler.parseExpression (Compiler.new "1 < 2 * 3;".toList) r ∧
      ParsesTo Compiler.parseExpression (Compiler.new "1 < (2 * 3);".toList) r' ∧
      r'.code = r.code ∧
      r.code = [] ++ ([Instr.push (.lit "1"), .push (.lit "2"), .push (.lit "3")] ++
        operator_code .T_STAR ++ operator_code .T_LT)) :=
  ⟨(left_associativity_and_precedence
      { Compiler.new "x - 2 + y;".toList with localVars := [("y", -4)], globalVars := ["x"] }
      { Compiler.new "(x - 2) + y;".toList with localVars := [("y", -4)], globalVars := ["x"] }
      { type := .T_IDENT, value := "x" } { type := .T_MINUS, value := "-" }
      { type := .T_LITERAL, value := "2" } { type := .T_PLUS, value := "+" }
      { type := .T_IDENT, value := "y" } { type := .T_SEMICOLON, value := ";" }
      rfl rfl rfl (by decide!) (Or.inr ⟨rfl, Or.inr (by decide)⟩) (Or.inl rfl)
      (Or.inr ⟨rfl, Or.inl (by decide)⟩) (by decide) (by decide) (by decide)).1
      (by decide) (by decide!),
   (left_associativity_and_precedence
      (Compiler.new "1 < 2 * 3;".toList) (Compiler.new "1 < (2 * 3);".toList)
      { type := .T_LITERAL, value := "1" } { type := .T_LT, value := "<" }
      { type := .T_LITERAL, value := "2" } { type := .T_STAR, value := "*" }
      { type := .T_LITERAL, value := "3" } { type := .T_SEMICOLON, value := ";" }
      rfl rfl rfl (by decide!) (Or.inl rfl) (Or.inl rfl) (Or.inl rfl)
      (by decide) (by decide) (by decide)).2
      (by decide) (by decide!)⟩

/-! ## compilelab1: declarations -/

theorem Compiler.parseDeclaration_run (c : Compiler) (h1 : c.currentToken.type = .T_INT)
    (h2 : (c.lookahead 1).type = .T_IDENT) (h3 : (c.lookahead 2).type = .T_SEMICOLON) :
    c.parseDeclaration =
      .ok { lexer := c.next.next.next.lexer, currentToken := c.next.next.next.currentToken,
            localVars := c.localVars.assign (c.lookahead 1).value (c.stackIndex - 4),
            globalVars := c.globalVars, code := c.code, stackIndex := c.stackIndex - 4,
            hasMainReturn := c.hasMainReturn, labelCounter := c.labelCounter } := by
  rw [Compiler.lookahead_one] at h2
  rw [Compiler.lookahead_two] at h3
  rw [Compiler.lookahead_one]
  simp only [Compiler.next] at h2 h3
  simp only [Compiler.parseDeclaration, Compiler.eat, h1, h2, h3, if_true, bind, Except.bind,
    Compiler.next]

theorem SymbolTable.assign_keys (m : SymbolTable) (name : String) (v index : Int)
    (h : m.find name = some index) :
    (m.assign name v).map Prod.fst = m.map Prod.fst := by
  induction m with
  | nil => simp [SymbolTable.find] at h
  | cons p rest ih =>
    obtain ⟨k, w⟩ := p
    by_cases hk : k = name
    · simp [SymbolTable.assign, hk]
    · simp only [SymbolTable.find, if_neg hk] at h
      simp [SymbolTable.assign, hk, ih h]

/-- C18 fails on the code for `int main(){ int x; int x; return x; }`:
compilation succeeds, the second declaration rebinds `x` to `[ebp-8]` and the
return reads that slot. -/
theorem redeclared_local_compiles :
    (Compiler.compile 100
        "int main()\x7b int x; int x; return x; \x7d".toList).toOption.map
      (fun c => (c.localVars, c.stackIndex, c.code)) = some
      ([("x", -8)], -8,
       [.label (.named "main"), .push (.reg .ebp), .mov (.reg .ebp) (.reg .esp),
        .sub .esp (.imm 256), .push (.ebp_rel (-8)), .pop .eax, .leave, .ret]) := by
  decide!

/-- C18 amended: `parseDeclaration` accepts `int name;` for a name that is
already a local: it returns normally, emits nothing, lowers `stackIndex` by
4 and rebinds `name` to the new `stackIndex` in place of its old slot, the
other names keeping theirs.  Nothing in the single-pass compiler throws a
redeclaration error. -/
theorem redeclaration_rebinds (c : Compiler) (name : String) (index : Int)
    (hbound : c.localVars.find name = some index)
    (h1 : c.currentToken.type = .T_INT)
    (h2 : c.lookahead 1 = { type := .T_IDENT, value := name })
    (h3 : (c.lookahead 2).type = .T_SEMICOLON) :
    ∃ c' : Compiler, c.parseDeclaration = .ok c' ∧
      c'.localVars.find name = some (c.stackIndex - 4) ∧
      c'.stackIndex = c.stackIndex - 4 ∧ c'.code = c.code ∧
      c'.localVars.map Prod.fst = c.localVars.map Prod.fst ∧
      ∀ other : String, other ≠ name → c'.localVars.find other = c.localVars.find other := by
  rw [Compiler.parseDeclaration_run c h1 (by rw [h2]) h3, h2]
  refine ⟨_, rfl, ?_, rfl, rfl, ?_, ?_⟩
  · exact SymbolTable.find_assign_self _ _ _
  · exact SymbolTable.assign_keys _ _ _ _ hbound
  · intro other hne
    exact SymbolTable.find_assign_ne _ _ _ _ hne

theorem redeclaration_rebinds_witness :
    ∃ c' : Compiler,
      Compiler.parseDeclaration
        { Compiler.new "int x; return x;".toList with
          localVars := [("x", -4)], stackIndex := -4 } = .ok c' ∧
      c'.localVars.find "x" = some (-4 - 4) ∧
      c'.stackIndex = -4 - 4 ∧ c'.code = [] ∧
      c'.localVars.map Prod.fst = ["x"] ∧
      ∀ other : String, other ≠ "x" → c'.localVars.find other =
        SymbolTable.find [("x", -4)] other :=
  redeclaration_rebinds
    { Compiler.new "int x; return x;".toList with localVars := [("x", -4)], stackIndex := -4 }
    "x" (-4) (by decide) (by decide!) (by decide!) (by decide!)

/-! ## compilelab1: the reserved frame -/

theorem stable_frame {P : Compiler → Prop} (hP : Stable P) {c c' : Compiler}
    (hf : ExprFrame c c') (h : P c) : P c' := by
  obtain ⟨hl, _, hs, _, code, hc, hp⟩ := hf
  exact hP.1 c c' code hl hs hc hp h

theorem stable_eat {P : Compiler → Prop} (hP : Stable P) {c c' : Compiler} {type : TokenType}
    (he : c.eat type = .ok c') (h : P c) : P c' :=
  stable_frame hP (exprFrame_eat he) h

theorem stable_expression {P : Compiler → Prop} (hP : Stable P) {fuel : Nat} {c c' : Compiler}
    (he : Compiler.parseExpression fuel c = .ok c') (h : P c) : P c' :=
  stable_frame hP (Compiler.parseExpression_frame fuel c c' he) h

theorem stable_emit {P : Compiler → Prop} (hP : Stable P) {c : Compiler} (i : Instr)
    (hi : Instr.reserves i = none) (h : P c) : P (c.emit i) :=
  stable_frame hP (exprFrame_emit c i hi) h

theorem stable_fields {P : Compiler → Prop} (hP : Stable P) {c c' : Compiler}
    (hl : c'.localVars = c.localVars) (hs : c'.stackIndex = c.stackIndex)
    (hc : c'.code = c.code) (h : P c) : P c' :=
  hP.1 c c' [] hl hs (by rw [hc, List.append_nil]) (by simp) h

theorem stable_declaration {P : Compiler → Prop} (hP : Stable P) {c c' : Compiler}
    (he : c.parseDeclaration = .ok c') (h : P c) : P c' := by
  simp only [Compiler.parseDeclaration, except_bind_ok] at he
  obtain ⟨c1, e1, c2, e2, e3⟩ := he
  refine stable_eat hP e3 (stable_eat hP e2 ?_)
  exact hP.2 c1 _ c1.currentToken.value rfl rfl rfl (stable_eat hP e1 h)

theorem stable_return {P : Compiler → Prop} (hP : Stable P) {fuel : Nat} {c c' : Compiler}
    (he : Compiler.parseReturn fuel c = .ok c') (h : P c) : P c' := by
  simp only [Compiler.parseReturn, except_bind_ok, except_pure_ok] at he
  obtain ⟨c1, e1, c2, e2, c3, e3, rfl⟩ := he
  exact stable_emit hP _ rfl (stable_emit hP _ rfl (stable_emit hP _ rfl
    (stable_eat hP e3 (stable_expression hP e2 (stable_eat hP e1 h)))))

theorem stable_assignment {P : Compiler → Prop} (hP : Stable P) {fuel : Nat} {c c' : Compiler}
    (he : Compiler.parseAssignment fuel c = .ok c') (h : P c) : P c' := by
  simp only [Compiler.parseAssignment, except_bind_ok] at he
  obtain ⟨c1, e1, c2, e2, c3, e3, c4, e4, e5⟩ := he
  have h4 := stable_emit hP (.pop .eax) rfl
    (stable_eat hP e4 (stable_expression hP e3 (stable_eat hP e2 (stable_eat hP e1 h))))
  by_cases hl : (c4.emit (.pop .eax)).isLocal c.currentToken.value = true
  · rw [if_pos hl, except_pure_ok] at e5
    subst e5
    exact stable_emit hP _ rfl h4
  · rw [if_neg hl] at e5
    by_cases hg : (c4.emit (.pop .eax)).isGlobal c.currentToken.value = true
    · rw [if_pos hg, except_pure_ok] at e5
      subst e5
      exact stable_emit hP _ rfl h4
    · rw [if_neg hg] at e5
      exact absurd e5 (by simp)

theorem stable_println {P : Compiler → Prop} (hP : Stable P) {fuel : Nat} {c c' : Compiler}
    (he : Compiler.parsePrintln fuel c = .ok c') (h : P c) : P c' := by
  simp only [Compiler.parsePrintln, except_bind_ok, except_pure_ok] at he
  obtain ⟨c1, e1, c2, e2, c3, e3, c4, e4, c5, e5, rfl⟩ := he
  exact stable_emit hP _ rfl (stable_emit hP _ rfl (stable_emit hP _ rfl (stable_emit hP _ rfl
    (stable_emit hP _ rfl (stable_eat hP e5 (stable_eat hP e4 (stable_expression hP e3
      (stable_eat hP e2 (stable_eat hP e1 h)))))))))

theorem stable_statement {P : Compiler → Prop} (hP : Stable P) {fuel : Nat} {c c' : Compiler}
    (he : Compiler.parseStatement fuel c = .ok c') (h : P c) : P c' := by
  unfold Compiler.parseStatement at he
  by_cases h1 : c.currentToken.type = .T_INT
  · rw [if_pos h1] at he
    exact stable_declaration hP he h
  · rw [if_neg h1] at he
    by_cases h2 : c.currentToken.type = .T_RETURN
    · rw [if_pos h2] at he
      simp only [except_bind_ok, except_pure_ok] at he
      obtain ⟨c1, e1, rfl⟩ := he
      exact stable_fields hP (c := c1) rfl rfl rfl (stable_return hP e1 h)
    · rw [if_neg h2] at he
      by_cases h3 : c.currentToken.type = .T_IDENT
      · rw [if_pos h3] at he
        by_cases h4 : c.currentToken.value = "println_int"
        · rw [if_pos h4] at he
          exact stable_println hP he h
        · rw [if_neg h4] at he
          exact stable_assignment hP he h
      · rw [if_neg h3] at he
        exact absurd he (by simp)

theorem stable_blockLoop {P : Compiler → Prop} (hP : Stable P) : ∀ (fuel : Nat) (c c' : Compiler),
    Compiler.parseBlockLoop fuel c = .ok c' → P c → P c'
  | 0, c, c', he, _ => by simp [Compiler.parseBlockLoop] at he
  | fuel + 1, c, c', he, h => by
    simp only [Compiler.parseBlockLoop] at he
    by_cases ht : c.currentToken.type ≠ .T_RBRACE ∧ c.currentToken.type ≠ .T_EOF
    · rw [if_pos ht] at he
      simp only [except_bind_ok] at he
      obtain ⟨c1, e1, e2⟩ := he
      exact stable_blockLoop hP fuel c1 c' e2 (stable_statement hP e1 h)
    · rw [if_neg ht, except_pure_ok] at he
      subst he
      exact h

theorem stable_block {P : Compiler → Prop} (hP : Stable P) {fuel : Nat} {c c' : Compiler}
    (he : Compiler.parseBlock fuel c = .ok c') (h : P c) : P c' := by
  simp only [Compiler.parseBlock, except_bind_ok] at he
  obtain ⟨c1, e1, c2, e2, e3⟩ := he
  exact stable_eat hP e3 (stable_blockLoop hP fuel c1 c2 e2 (stable_eat hP e1 h))

theorem stable_mainParams {P : Compiler → Prop} (hP : Stable P) {c c' : Compiler}
    (he : c.parseMainParams = .ok c') (h : P c) : P c' := by
  unfold Compiler.parseMainParams at he
  by_cases h1 : c.currentToken.type = .T_INT
  · rw [if_pos h1] at he
    simp only [except_bind_ok] at he
    obtain ⟨c1, e1, c2, e2, e3⟩ := he
    by_cases h2 : c2.currentToken.type = .T_COMMA
    · rw [if_pos h2] at e3
      simp only [except_bind_ok] at e3
      obtain ⟨c3, e3, c4, e4, e5⟩ := e3
      exact stable_eat hP e5 (stable_eat hP e4 (stable_eat hP e3
        (stable_eat hP e2 (stable_eat hP e1 h))))
    · rw [if_neg h2, except_pure_ok] at e3
      subst e3
      exact stable_eat hP e2 (stable_eat hP e1 h)
  · rw [if_neg h1, except_pure_ok] at he
    subst he
    exact h

/-- What `parseMain` does around the prologue: a stable property that holds
once `sub esp, 256` is emitted holds when `parseMain` returns. -/
theorem stable_main {P Q : Compiler → Prop} (hP : Stable P) (hQ : Stable Q)
    (hsub : ∀ c : Compiler, P c → Q (c.emit (.sub .esp (.imm 256))))
    {fuel : Nat} {c c' : Compiler}
    (he : Compiler.parseMain fuel c = .ok c') (h : P c) : Q c' := by
  simp only [Compiler.parseMain, except_bind_ok] at he
  obtain ⟨c1, e1, c2, e2, c3, e3, c4, e4, c5, e5, e6⟩ := he
  have hp := hsub _ (stable_emit hP (.mov (.reg .ebp) (.reg .esp)) rfl
    (stable_emit hP (.push (.reg .ebp)) rfl
      (stable_emit hP (.label (.named "main")) rfl (stable_eat hP e1 h))))
  have h5 := stable_block hQ e5 (stable_eat hQ e4 (stable_mainParams hQ e3 (stable_eat hQ e2 hp)))
  by_cases hr : (!c5.hasMainReturn) = true
  · rw [if_pos hr, except_pure_ok] at e6
    subst e6
    exact stable_emit hQ _ rfl (stable_emit hQ _ rfl (stable_emit hQ _ rfl h5))
  · rw [if_neg hr, except_pure_ok] at e6
    subst e6
    exact h5

theorem stable_slotsOk : Stable SlotsOk := by
  constructor
  · intro c c' code hl hs hc hp h
    unfold SlotsOk at h ⊢
    rw [hs, hl, hc]
    obtain ⟨h1, h2, h3, h4, h5⟩ := h
    refine ⟨h1, h2, h3, h4, ?_⟩
    intro i hi src hsrc
    rcases List.mem_append.1 hi with hi | hi
    · exact h5 i hi src hsrc
    · rw [hp i hi] at hsrc
      exact absurd hsrc (by simp)
  · intro c c' name hl hs hc h
    unfold SlotsOk at h ⊢
    rw [hs, hl, hc]
    obtain ⟨h1, h2, h3, h4, h5⟩ := h
    refine ⟨by omega, by omega, ?_, ?_, h5⟩
    · intro other index hfind
      by_cases hn : other = name
      · subst hn
        rw [SymbolTable.find_assign_self] at hfind
        injection hfind with hfind
        omega
      · rw [SymbolTable.find_assign_ne _ _ _ _ hn] at hfind
        have := h3 other index hfind
        omega
    · right
      exact ⟨_, SymbolTable.find_assign_self _ _ _⟩

theorem stable_slotsOk_in_main :
    Stable (fun c => SlotsOk c ∧ Instr.sub .esp (.imm 256) ∈ c.code) := by
  constructor
  · intro c c' code hl hs hc hp h
    refine ⟨stable_slotsOk.1 c c' code hl hs hc hp h.1, ?_⟩
    rw [hc]
    exact List.mem_append_left _ h.2
  · intro c c' name hl hs hc h
    refine ⟨stable_slotsOk.2 c c' name hl hs hc h.1, ?_⟩
    rw [hc]
    exact h.2

theorem frameOk_new (source : List Char) : FrameOk (Compiler.new source) := by
  unfold FrameOk SlotsOk Compiler.new
  simp [SymbolTable.find]

theorem frameOk_frame {c c' : Compiler} (hf : ExprFrame c c') (h : FrameOk c) : FrameOk c' := by
  refine ⟨stable_frame stable_slotsOk hf h.1, ?_⟩
  obtain ⟨hl, _, _, _, code, hc, _⟩ := hf
  rw [hl, hc]
  rcases h.2 with h2 | h2
  · exact Or.inl h2
  · exact Or.inr (List.mem_append_left _ h2)

theorem sub_esp_emitted (d : Compiler) (hd : SlotsOk d) :
    SlotsOk (d.emit (.sub .esp (.imm 256))) ∧
      Instr.sub .esp (.imm 256) ∈ (d.emit (.sub .esp (.imm 256))).code := by
  refine ⟨?_, by simp [Compiler.emit]⟩
  obtain ⟨h1, h2, h3, h4, h5⟩ := hd
  refine ⟨h1, h2, h3, h4, ?_⟩
  intro i hi src hsrc
  simp only [Compiler.emit, List.mem_append, List.mem_singleton] at hi
  rcases hi with hi | hi
  · exact h5 i hi src hsrc
  · subst hi
    simp only [Instr.reserves, Option.some.injEq] at hsrc
    exact hsrc.symm

theorem frameOk_topLevel {fuel : Nat} {c c' : Compiler}
    (he : Compiler.parseTopLevelStatement fuel c = .ok c') (h : FrameOk c) : FrameOk c' := by
  simp only [Compiler.parseTopLevelStatement, except_bind_ok] at he
  obtain ⟨c1, e1, e2⟩ := he
  have h1 : FrameOk c1 := frameOk_frame (exprFrame_eat e1) h
  by_cases hm : c1.currentToken.type = .T_MAIN
  · rw [if_pos hm] at e2
    have hmain := stable_main (P := SlotsOk)
      (Q := fun c => SlotsOk c ∧ Instr.sub .esp (.imm 256) ∈ c.code)
      stable_slotsOk stable_slotsOk_in_main sub_esp_emitted e2 h1.1
    exact ⟨hmain.1, Or.inr hmain.2⟩
  · rw [if_neg hm] at e2
    simp only [except_bind_ok] at e2
    obtain ⟨c2, e2, e3⟩ := e2
    refine frameOk_frame (exprFrame_eat e3) (frameOk_frame (exprFrame_eat e2) ?_)
    exact ⟨stable_fields stable_slotsOk (c := c1) rfl rfl rfl h1.1, h1.2⟩

theorem frameOk_program : ∀ (fuel : Nat) (c c' : Compiler),
    Compiler.parseProgram fuel c = .ok c' → FrameOk c → FrameOk c'
  | 0, c, c', he, _ => by simp [Compiler.parseProgram] at he
  | fuel + 1, c, c', he, h => by
    simp only [Compiler.parseProgram] at he
    by_cases ht : c.currentToken.type ≠ .T_EOF
    · rw [if_pos ht] at he
      simp only [except_bind_ok] at he
      obtain ⟨c1, e1, e2⟩ := he
      exact frameOk_program fuel c1 c' e2 (frameOk_topLevel e1 h)
    · rw [if_neg ht, except_pure_ok] at he
      subst he
      exact h

theorem frameOk_compile {fuel : Nat} {source : List Char} {c : Compiler}
    (he : Compiler.compile fuel source = .ok c) : FrameOk c :=
  frameOk_program fuel _ c he (frameOk_new source)

/-- The frame of `main` is fixed: whatever a source that compiles declares,
every `sub esp, N` line of the emitted code is the `sub esp, 256` of
`parseMain` and one is emitted before any local is bound; each slot bound by
`parseDeclaration` is a multiple of 4 between `stackIndex` and -4, and the
last one bound is `stackIndex` itself.  So the slots lie in the reserved 256
bytes exactly when `stackIndex` is at least -256, that is, after at most 64
declarations; nothing checks that they do. -/
theorem frame_is_fixed_256 (fuel : Nat) (source : List Char) (c : Compiler)
    (h : Compiler.compile fuel source = .ok c) :
    (∀ i ∈ c.code, ∀ src : Operand, Instr.reserves i = some src → src = .imm 256) ∧
    (256 : Int) % 16 = 0 ∧
    (c.localVars = [] ∨ Instr.sub .esp (.imm 256) ∈ c.code) ∧
    (∀ (name : String) (index : Int), c.localVars.find name = some index →
      c.stackIndex ≤ index ∧ index ≤ -4 ∧ index % 4 = 0) ∧
    ((c.localVars = [] ∧ c.stackIndex = 0) ∨
      ∃ name : String, c.localVars.find name = some c.stackIndex) ∧
    ((∀ (name : String) (index : Int), c.localVars.find name = some index → -256 ≤ index) ↔
      -256 ≤ c.stackIndex) := by
  obtain ⟨⟨h1, h2, h3, h4, h5⟩, h6⟩ := frameOk_compile h
  refine ⟨h5, by decide, h6, h3, h4, ?_⟩
  constructor
  · intro hall
    rcases h4 with ⟨_, h0⟩ | ⟨name, hname⟩
    · omega
    · exact hall name _ hname
  · intro hlow name index hfind
    have := h3 name index hfind
    omega

theorem frame_is_fixed_256_witness :
    (∀ i ∈ [Instr.label (.named "main"), .push (.reg .ebp), .mov (.reg .ebp) (.reg .esp),
        .sub .esp (.imm 256), .push (.ebp_rel (-8)), .pop .eax, .leave, .ret],
      ∀ src : Operand, Instr.reserves i = some src → src = .imm 256) ∧
    (∀ (name : String) (index : Int),
      SymbolTable.find [("a", -4), ("b", -8)] name = some index →
        (-8 : Int) ≤ index ∧ index ≤ -4 ∧ index % 4 = 0) :=
  have h := frame_is_fixed_256 100
    "int main()\x7b int a; int b; return b; \x7d".toList
    { lexer := { source := "int main()\x7b int a; int b; return b; \x7d".toList, pos := 37,
                 currentChar := '\x00' },
      currentToken := { type := .T_EOF, value := "" },
      localVars := [("a", -4), ("b", -8)], globalVars := [],
      code := [.label (.named "main"), .push (.reg .ebp), .mov (.reg .ebp) (.reg .esp),
        .sub .esp (.imm 256), .push (.ebp_rel (-8)), .pop .eax, .leave, .ret],
      stackIndex := -8, hasMainReturn := true, labelCounter := 0 }
    (except_of_toOption (by decide!))
  ⟨h.1, h.2.2.2.1⟩

/-! ## The builtin print call -/

/-- C20: for `FunctionCall` named `println_int`: with an argument count other
than 1, `codegen` throws the error "println_int expects 1 argument" and leaves
the state, the output included, as it was; with exactly one argument the
check passes: if `codegen` of the argument returns normally after printing
`code`, the call prints exactly `code`, `push offset format_str`,
`call printf`, `add esp, 8`, `push 0`, and if `codegen` of the argument
throws, the call throws that same error in that same state. -/
theorem println_int_contract (arguments : List Expression) (st : GenState) :
    (arguments.length ≠ 1 →
      (Expression.FunctionCall "println_int" arguments).codegen st =
        (.error .println_arity, st)) ∧
    (∀ argument : Expression, arguments = [argument] →
      (∀ s1 : GenState, argument.codegen st = (.ok (), s1) →
        ∃ code, s1 = { st with out := st.out ++ code } ∧
          (Expression.FunctionCall "println_int" arguments).codegen st =
            (.ok (), { st with out := st.out ++ code ++
              [.push .format_str, .call "printf", .add .esp (.imm 8), .push (.imm 0)] })) ∧
      (∀ (e : CompileError) (s1 : GenState), argument.codegen st = (.error e, s1) →
        (Expression.FunctionCall "println_int" arguments).codegen st = (.error e, s1))) := by
  constructor
  · intro hlen
    match arguments, hlen with
    | [], _ => simp [Expression.codegen, Gen.throw]
    | [a], h => exact absurd rfl h
    | a :: b :: rest, _ => simp [Expression.codegen, Gen.throw]
  · intro argument harg
    subst harg
    constructor
    · intro s1 h1
      obtain ⟨code, hs1⟩ := expr_ok_state h1
      refine ⟨code, hs1, ?_⟩
      simp only [Expression.codegen, if_true, bind_run, h1, emit_run]
      rw [hs1]
      simp
    · intro e s1 h1
      simp only [Expression.codegen, if_true, bind_run, h1]

theorem println_int_contract_witness :
    (Expression.FunctionCall "println_int" []).codegen GenState.initial =
      (.error .println_arity, GenState.initial) ∧
    (∃ code, ({ GenState.initial with out := [Instr.push (.imm 7)] } : GenState) =
        { GenState.initial with out := GenState.initial.out ++ code } ∧
      (Expression.FunctionCall "println_int" [.Integer 7]).codegen GenState.initial =
        (.ok (), { GenState.initial with out := GenState.initial.out ++ code ++
          [.push .format_str, .call "printf", .add .esp (.imm 8), .push (.imm 0)] })) :=
  ⟨(println_int_contract [] GenState.initial).1 (by decide),
   ((println_int_contract [.Integer 7] GenState.initial).2 (.Integer 7) rfl).1 _ rfl⟩

/-! ## The text of `if` -/

theorem get?_at (pre post : List Instr) (i : Instr) :
    (pre ++ i :: post).get? pre.length = some i := by
  induction pre with
  | nil => rfl
  | cons a rest ih => simpa using ih

theorem exec_succ (p : List Instr) (n : Nat) (m : Machine) :
    Machine.exec p (n + 1) m =
      match m.step p with
      | .next m1 => Machine.exec p n m1
      | .halt _ => none
      | .fault => none := rfl

theorem exec_zero (p : List Instr) (m : Machine) : Machine.exec p 0 m = some m := rfl

theorem find_label_at (l : Label) (pre post : List Instr) (h : Instr.label l ∉ pre) :
    find_label l (pre ++ Instr.label l :: post) = some pre.length := by
  unfold find_label
  have hidx : (pre ++ Instr.label l :: post).indexOf (Instr.label l) = pre.length := by
    induction pre with
    | nil => simp [List.indexOf_cons]
    | cons a rest ih =>
      have hne : a ≠ Instr.label l := fun h1 => h (by simp [h1])
      have hrest : Instr.label l ∉ rest := fun h1 => h (by simp [h1])
      rw [List.cons_append, List.indexOf_cons_ne _ hne, ih hrest, List.length_cons]
  simp only [hidx]
  simp

theorem expr_code_no_label {e : Expression} {s s1 : GenState} {r : Except CompileError Unit}
    (h : e.codegen s = (r, s1)) :
    s1.context = s.context ∧ s1.label_count = s.label_count ∧
      ∃ code, s1.out = s.out ++ code ∧ ∀ l : Label, Instr.label l ∉ code := by
  have hstep := Expression.codegen_step e s
  rw [h] at hstep
  obtain ⟨hc, hl, code, ho, hcode⟩ := hstep
  exact ⟨hc, hl, code, ho, fun l hmem => by simpa [Instr.is_control] using hcode _ hmem⟩

theorem mem_label_numbers {code : List Instr} {l : Label}
    (hl : (Instr.label l).control_label = some l) (h : Instr.label l ∈ code) :
    l.number ∈ label_numbers code := by
  unfold label_numbers placed_control_labels
  exact List.mem_map.mpr ⟨l, List.mem_filterMap.mpr ⟨_, h, hl⟩, rfl⟩

theorem stmt_code_labels {stmt : Statement} {s s1 : GenState} {r : Except CompileError Unit}
    (h : stmt.codegen s = (r, s1)) :
    s.label_count ≤ s1.label_count ∧
      ∃ code, s1.out = s.out ++ code ∧
        ∀ n ∈ label_numbers code, s.label_count ≤ n ∧ n < s1.label_count := by
  obtain ⟨hle, code, ho, hcount⟩ := stmt_run (Statement.codegen_labels stmt) h
  refine ⟨hle, code, ho, fun n hn => ?_⟩
  have h1 := hcount n
  by_contra hcon
  rw [if_neg hcon] at h1
  exact absurd (List.count_pos_iff.mpr hn) (by omega)

theorem if_none_run (condition : Expression) (then_block : Statement) (st s1 s2 : GenState)
    (hc : condition.codegen { st with label_count := st.label_count + 1 + 1 } = (.ok (), s1))
    (ht : then_block.codegen
      { s1 with out := s1.out ++
          [.pop .eax, .cmp .eax (.imm 0), .je (.L_end (st.label_count + 1))] } = (.ok (), s2)) :
    (Statement.IfStatement condition then_block none).codegen st =
      (.ok (), { s2 with out := s2.out ++ [.label (.L_end (st.label_count + 1))] }) := by
  rw [if_codegen_run condition then_block none st s1 hc]
  simp only [Option.isSome_none, Bool.false_eq_true, if_false, List.append_assoc,
    List.singleton_append, List.cons_append, List.nil_append]
  rw [bind_run, ht]
  simp only [codegen_else, bind_run, pure_run, emit_run]

theorem if_some_run (condition : Expression) (then_block else_block : Statement)
    (st s1 s2 s3 : GenState)
    (hc : condition.codegen { st with label_count := st.label_count + 1 + 1 } = (.ok (), s1))
    (ht : then_block.codegen
      { s1 with out := s1.out ++
          [.pop .eax, .cmp .eax (.imm 0), .je (.L_else st.label_count)] } = (.ok (), s2))
    (he : else_block.codegen
      { s2 with out := s2.out ++
          [.jmp (.L_end (st.label_count + 1)), .label (.L_else st.label_count)] } =
        (.ok (), s3)) :
    (Statement.IfStatement condition then_block (some else_block)).codegen st =
      (.ok (), { s3 with out := s3.out ++ [.label (.L_end (st.label_count + 1))] }) := by
  rw [if_else_codegen_run condition then_block else_block st s1 s2 hc
    (by simpa only [List.append_assoc, List.singleton_append, List.cons_append,
      List.nil_append] using ht)]
  simp only [List.append_assoc, List.singleton_append, List.cons_append, List.nil_append]
  rw [bind_run, he]
  simp only [emit_run]

theorem get?_offset (pre mid post : List Instr) (i : Instr) (k : Nat)
    (hk : k = pre.length + mid.length) : (pre ++ (mid ++ i :: post)).get? k = some i := by
  have h := get?_at (pre ++ mid) post i
  rw [List.length_append, ← hk, List.append_assoc] at h
  exact h

theorem if_false_skips (pre tcode rest : List Instr) (e : Int) (m : Machine)
    (hpre : Instr.label (.L_end e) ∉ pre) (ht : Instr.label (.L_end e) ∉ tcode)
    (hpc : m.pc = pre.length) (htop : m.memory m.esp = 0) :
    Machine.exec
      (pre ++ [Instr.pop .eax, Instr.cmp .eax (.imm 0), Instr.je (.L_end e)] ++ tcode ++
        [Instr.label (.L_end e)] ++ rest) 4 m =
      some { m with eax := 0, esp := word (m.esp + 4), flags := some (0, 0),
                    pc := (pre ++ [Instr.pop .eax, Instr.cmp .eax (.imm 0),
                      Instr.je (.L_end e)] ++ tcode ++ [Instr.label (.L_end e)]).length } := by
  generalize hprog : pre ++ [Instr.pop .eax, Instr.cmp .eax (.imm 0), Instr.je (.L_end e)] ++
    tcode ++ [Instr.label (.L_end e)] ++ rest = program
  have g1 : program.get? m.pc = some (Instr.pop .eax) := by
    have := get?_offset pre []
      ([Instr.cmp .eax (.imm 0), Instr.je (.L_end e)] ++ tcode ++ [Instr.label (.L_end e)] ++
        rest) (Instr.pop .eax) m.pc (by simp [hpc])
    rw [← this, ← hprog]
    simp
  have g2 : program.get? (m.pc + 1) = some (Instr.cmp .eax (.imm 0)) := by
    have := get?_offset pre [Instr.pop .eax]
      ([Instr.je (.L_end e)] ++ tcode ++ [Instr.label (.L_end e)] ++ rest)
      (Instr.cmp .eax (.imm 0)) (m.pc + 1) (by simp [hpc])
    rw [← this, ← hprog]
    simp
  have g3 : program.get? (m.pc + 1 + 1) = some (Instr.je (.L_end e)) := by
    have := get?_offset pre [Instr.pop .eax, Instr.cmp .eax (.imm 0)]
      (tcode ++ [Instr.label (.L_end e)] ++ rest) (Instr.je (.L_end e)) (m.pc + 1 + 1)
      (by simp [hpc])
    rw [← this, ← hprog]
    simp
  have h4 : program = (pre ++ [Instr.pop .eax, Instr.cmp .eax (.imm 0), Instr.je (.L_end e)] ++
      tcode) ++ Instr.label (.L_end e) :: rest := by
    rw [← hprog]; simp
  have hmem : Instr.label (.L_end e) ∉
      pre ++ [Instr.pop .eax, Instr.cmp .eax (.imm 0), Instr.je (.L_end e)] ++ tcode := by
    intro h
    rcases List.mem_append.mp h with h | h
    · rcases List.mem_append.mp h with h | h
      · exact hpre h
      · simp at h
    · exact ht h
  generalize hidx : (pre ++ [Instr.pop .eax, Instr.cmp .eax (.imm 0), Instr.je (.L_end e)] ++
      tcode) = upto at h4 hmem
  have hfind : find_label (.L_end e) program = some upto.length := by
    rw [h4]
    exact find_label_at _ _ _ hmem
  have g4 : program.get? upto.length = some (Instr.label (.L_end e)) := by
    rw [h4, get?_at]
  have hw : word 0 = 0 := by decide
  have hlen : (upto ++ [Instr.label (.L_end e)]).length = upto.length + 1 := by simp
  rw [hlen]
  simp only [exec_succ, exec_zero, Machine.step, g1, g2, g3, g4, Machine.advance, Machine.set,
    Machine.get, Machine.read, htop, hw, if_true, Machine.jump, hfind]

/-- C22: `IfStatement::codegen` draws `l` and `e = l + 1` from `label_count`.
Without an else branch, when the condition and the then branch generate
successfully (each in the state the call finds), the text printed is exactly
code(cond), `pop eax`, `cmp eax, 0`, `je .L_end_e`, code(then), `.L_end_e:`;
and on the machine, with the labels placed so far numbered below
`label_count`, a run that stands at `pop eax` with the value 0 on top of the
stack is, four steps later, past `.L_end_e:` on the first line of whatever
follows, having executed no line of code(then).  With an else branch the text
is exactly code(cond), `pop eax`, `cmp eax, 0`, `je .L_else_l`, code(then),
`jmp .L_end_e`, `.L_else_l:`, code(else), `.L_end_e:`. -/
theorem if_statement_codegen_text (condition : Expression) (then_block : Statement)
    (st s1 s2 : GenState) :
    (condition.codegen { st with label_count := st.label_count + 1 + 1 } = (.ok (), s1) →
      then_block.codegen
        { s1 with out := s1.out ++
            [.pop .eax, .cmp .eax (.imm 0), .je (.L_end (st.label_count + 1))] } =
          (.ok (), s2) →
      ∃ ccode tcode : List Instr,
        s1.out = st.out ++ ccode ∧
        s2.out = s1.out ++
          [.pop .eax, .cmp .eax (.imm 0), .je (.L_end (st.label_count + 1))] ++ tcode ∧
        (Statement.IfStatement condition then_block none).codegen st =
          (.ok (), { s2 with out := st.out ++ ccode ++
            [.pop .eax, .cmp .eax (.imm 0), .je (.L_end (st.label_count + 1))] ++ tcode ++
            [.label (.L_end (st.label_count + 1))] }) ∧
        ∀ (rest : List Instr) (m : Machine),
          (∀ n ∈ label_numbers st.out, n < st.label_count) →
          m.pc = (st.out ++ ccode).length → m.memory m.esp = 0 →
          Machine.exec (st.out ++ ccode ++
            [.pop .eax, .cmp .eax (.imm 0), .je (.L_end (st.label_count + 1))] ++ tcode ++
            [.label (.L_end (st.label_count + 1))] ++ rest) 4 m =
            some { m with eax := 0, esp := word (m.esp + 4), flags := some (0, 0),
                          pc := (st.out ++ ccode ++
                            [Instr.pop .eax, Instr.cmp .eax (.imm 0),
                              Instr.je (.L_end (st.label_count + 1))] ++ tcode ++
                            [Instr.label (.L_end (st.label_count + 1))]).length }) ∧
    (∀ (else_block : Statement) (s3 : GenState),
      condition.codegen { st with label_count := st.label_count + 1 + 1 } = (.ok (), s1) →
      then_block.codegen
        { s1 with out := s1.out ++
            [.pop .eax, .cmp .eax (.imm 0), .je (.L_else st.label_count)] } = (.ok (), s2) →
      else_block.codegen
        { s2 with out := s2.out ++
            [.jmp (.L_end (st.label_count + 1)), .label (.L_else st.label_count)] } =
          (.ok (), s3) →
      ∃ ccode tcode ecode : List Instr,
        s1.out = st.out ++ ccode ∧
        s2.out = s1.out ++
          [.pop .eax, .cmp .eax (.imm 0), .je (.L_else st.label_count)] ++ tcode ∧
        s3.out = s2.out ++
          [.jmp (.L_end (st.label_count + 1)), .label (.L_else st.label_count)] ++ ecode ∧
        (Statement.IfStatement condition then_block (some else_block)).codegen st =
          (.ok (), { s3 with out := st.out ++ ccode ++
            [.pop .eax, .cmp .eax (.imm 0), .je (.L_else st.label_count)] ++ tcode ++
            [.jmp (.L_end (st.label_count + 1)), .label (.L_else st.label_count)] ++ ecode ++
            [.label (.L_end (st.label_count + 1))] })) := by
  refine ⟨fun hc ht => ?_, fun else_block s3 hc ht he => ?_⟩
  · obtain ⟨_, hl1, ccode, hco, hcl⟩ := expr_code_no_label hc
    obtain ⟨_, tcode, hto, htl⟩ := stmt_code_labels ht
    simp only at hco hto htl hl1
    refine ⟨ccode, tcode, hco, hto, ?_, ?_⟩
    · rw [if_none_run condition then_block st s1 s2 hc ht, hto, hco]
    · intro rest m hfresh hpc htop
      have hpre : Instr.label (.L_end (st.label_count + 1)) ∉ st.out ++ ccode := by
        intro h
        rcases List.mem_append.mp h with h | h
        · have := hfresh _ (mem_label_numbers (l := .L_end (st.label_count + 1)) rfl h)
          simp only [Label.number] at this
          omega
        · exact hcl _ h
      have htc : Instr.label (.L_end (st.label_count + 1)) ∉ tcode := by
        intro h
        have := (htl _ (mem_label_numbers (l := .L_end (st.label_count + 1)) rfl h)).1
        simp only [Label.number] at this
        omega
      exact if_false_skips (st.out ++ ccode) tcode rest (st.label_count + 1) m hpre htc hpc htop
  · obtain ⟨_, _, ccode, hco, _⟩ := expr_code_no_label hc
    obtain ⟨_, tcode, hto, _⟩ := stmt_code_labels ht
    obtain ⟨_, ecode, heo, _⟩ := stmt_code_labels he
    simp only at hco hto heo
    refine ⟨ccode, tcode, ecode, hco, hto, heo, ?_⟩
    rw [if_some_run condition then_block else_block st s1 s2 s3 hc ht he, heo, hto, hco]

theorem if_statement_codegen_text_witness :
    (∃ ccode tcode : List Instr,
      [Instr.push (.imm 0)] = GenState.initial.out ++ ccode ∧
      [Instr.push (.imm 0), .pop .eax, .cmp .eax (.imm 0), .je (.L_end 1), .push (.imm 1),
        .pop .eax, .leave, .ret] =
        [Instr.push (.imm 0)] ++ [.pop .eax, .cmp .eax (.imm 0), .je (.L_end (0 + 1))] ++
          tcode ∧
      (Statement.IfStatement (.Integer 0) (.ReturnStatement (.Integer 1)) none).codegen
          GenState.initial =
        (.ok (), { context := GenState.initial.context, label_count := 2,
                   out := GenState.initial.out ++ ccode ++
                     [.pop .eax, .cmp .eax (.imm 0), .je (.L_end (0 + 1))] ++ tcode ++
                     [.label (.L_end (0 + 1))] }) ∧
      Machine.exec (GenState.initial.out ++ ccode ++
          [.pop .eax, .cmp .eax (.imm 0), .je (.L_end (0 + 1))] ++ tcode ++
          [.label (.L_end (0 + 1))] ++ []) 4 { Machine.start 1000 with pc := 1 } =
        some { Machine.start 1000 with
                 eax := 0, esp := word (((1000 : Nat) : Int) + 4), flags := some (0, 0),
                 pc := (GenState.initial.out ++ ccode ++
                   [Instr.pop .eax, Instr.cmp .eax (.imm 0), Instr.je (.L_end (0 + 1))] ++
                   tcode ++ [Instr.label (.L_end (0 + 1))]).length }) ∧
    (∃ ccode tcode ecode : List Instr,
      [Instr.push (.imm 0)] = GenState.initial.out ++ ccode ∧
      [Instr.push (.imm 0), .pop .eax, .cmp .eax (.imm 0), .je (.L_else 0), .push (.imm 1),
        .pop .eax, .leave, .ret] =
        [Instr.push (.imm 0)] ++ [.pop .eax, .cmp .eax (.imm 0), .je (.L_else 0)] ++ tcode ∧
      [Instr.push (.imm 0), .pop .eax, .cmp .eax (.imm 0), .je (.L_else 0), .push (.imm 1),
        .pop .eax, .leave, .ret, .jmp (.L_end 1), .label (.L_else 0), .push (.imm 2),
        .pop .eax, .leave, .ret] =
        [Instr.push (.imm 0), .pop .eax, .cmp .eax (.imm 0), .je (.L_else 0), .push (.imm 1),
          .pop .eax, .leave, .ret] ++ [.jmp (.L_end (0 + 1)), .label (.L_else 0)] ++ ecode ∧
      (Statement.IfStatement (.Integer 0) (.ReturnStatement (.Integer 1))
          (some (.ReturnStatement (.Integer 2)))).codegen GenState.initial =
        (.ok (), { context := GenState.initial.context, label_count := 2,
                   out := GenState.initial.out ++ ccode ++
                     [.pop .eax, .cmp .eax (.imm 0), .je (.L_else 0)] ++ tcode ++
                     [.jmp (.L_end (0 + 1)), .label (.L_else 0)] ++ ecode ++
                     [.label (.L_end (0 + 1))] })) :=
  ⟨(((if_statement_codegen_text (.Integer 0) (.ReturnStatement (.Integer 1)) GenState.initial
      { context := GenState.initial.context, label_count := 2, out := [.push (.imm 0)] }
      { context := GenState.initial.context, label_count := 2,
        out := [.push (.imm 0), .pop .eax, .cmp .eax (.imm 0), .je (.L_end 1), .push (.imm 1),
          .pop .eax, .leave, .ret] }).1 rfl rfl).imp
      fun _ h => h.imp fun _ h => ⟨h.1, h.2.1, h.2.2.1,
        h.2.2.2 [] { Machine.start 1000 with pc := 1 } (fun _ hn => by simp [GenState.initial, label_numbers, placed_control_labels] at hn)
          (by rw [← h.1]; rfl) rfl⟩),
   (if_statement_codegen_text (.Integer 0) (.ReturnStatement (.Integer 1)) GenState.initial
      { context := GenState.initial.context, label_count := 2, out := [.push (.imm 0)] }
      { context := GenState.initial.context, label_count := 2,
        out := [.push (.imm 0), .pop .eax, .cmp .eax (.imm 0), .je (.L_else 0), .push (.imm 1),
          .pop .eax, .leave, .ret] }).2 (.ReturnStatement (.Integer 2))
      { context := GenState.initial.context, label_count := 2,
        out := [.push (.imm 0), .pop .eax, .cmp .eax (.imm 0), .je (.L_else 0), .push (.imm 1),
          .pop .eax, .leave, .ret, .jmp (.L_end 1), .label (.L_else 0), .push (.imm 2),
          .pop .eax, .leave, .ret] } rfl rfl rfl⟩

/-! ## The text of `while` and the loop-label stack -/

theorem while_run (condition : Expression) (body : Statement) (st s1 s2 : GenState)
    (hc : condition.codegen
      { context := st.context.push_loop_labels st.label_count (st.label_count + 1),
        label_count := st.label_count + 1 + 1,
        out := st.out ++ [.label (.L_cond st.label_count)] } = (.ok (), s1))
    (hb : body.codegen
      { s1 with out := s1.out ++
          [.pop .eax, .cmp .eax (.imm 0), .je (.L_end (st.label_count + 1))] } =
        (.ok (), s2)) :
    (Statement.WhileStatement condition body).codegen st =
      (.ok (), { context := st.context, label_count := s2.label_count,
                 out := s2.out ++
                   [.jmp (.L_cond st.label_count), .label (.L_end (st.label_count + 1))] }) := by
  rw [while_codegen_run condition body st s1 hc]
  simp only [List.append_assoc, List.singleton_append, List.cons_append, List.nil_append]
  rw [bind_run, hb]
  have hctx : s2.context = st.context.push_loop_labels st.label_count (st.label_count + 1) := by
    rw [Statement.codegen_context body _ _ hb]
    exact expr_ok_context hc
  simp only [bind_run, emit_run, modify_context, hctx, pop_push_loop_labels, List.append_assoc,
    List.singleton_append, List.cons_append, List.nil_append]

/-- C23, as amended: `WhileStatement::codegen` draws `c` and `e = c + 1` from
`label_count`.  When the condition and the body generate successfully (each
in the state the call finds), the text printed is exactly `.L_cond_c:`,
code(cond), `pop eax`, `cmp eax, 0`, `je .L_end_e`, code(body),
`jmp .L_cond_c`, `.L_end_e:`, and the context the call leaves, the loop-label
stack included, is the context it found.  The pair `(c, e)` lies on the
loop-label stack, directly above the entries found, when the body is entered
and when it returns; at every statement generated inside the body the stack
is the pairs of the `WhileStatement`s of the body enclosing that statement,
innermost first, then `(c, e)`, then the entries found, so `(c, e)` is the
top exactly outside nested loops. -/
theorem while_statement_codegen_text (condition : Expression) (body : Statement)
    (st s1 s2 : GenState)
    (hc : condition.codegen
      { context := st.context.push_loop_labels st.label_count (st.label_count + 1),
        label_count := st.label_count + 1 + 1,
        out := st.out ++ [.label (.L_cond st.label_count)] } = (.ok (), s1))
    (hb : body.codegen
      { s1 with out := s1.out ++
          [.pop .eax, .cmp .eax (.imm 0), .je (.L_end (st.label_count + 1))] } =
        (.ok (), s2)) :
    ∃ ccode bcode : List Instr,
      s1.out = st.out ++ [.label (.L_cond st.label_count)] ++ ccode ∧
      s2.out = s1.out ++
        [.pop .eax, .cmp .eax (.imm 0), .je (.L_end (st.label_count + 1))] ++ bcode ∧
      (Statement.WhileStatement condition body).codegen st =
        (.ok (), { context := st.context, label_count := s2.label_count,
                   out := st.out ++ [.label (.L_cond st.label_count)] ++ ccode ++
                     [.pop .eax, .cmp .eax (.imm 0), .je (.L_end (st.label_count + 1))] ++
                     bcode ++
                     [.jmp (.L_cond st.label_count), .label (.L_end (st.label_count + 1))] }) ∧
      s1.context.loop_labels = (st.label_count, st.label_count + 1) :: st.context.loop_labels ∧
      s2.context.loop_labels = (st.label_count, st.label_count + 1) :: st.context.loop_labels ∧
      ∀ (path : List (Int × Int)) (st' : GenState) (target : Statement),
        Reaches
          { s1 with out := s1.out ++
              [.pop .eax, .cmp .eax (.imm 0), .je (.L_end (st.label_count + 1))] }
          body path st' target →
        st'.context.loop_labels =
          path ++ (st.label_count, st.label_count + 1) :: st.context.loop_labels := by
  obtain ⟨hctx1, _, ccode, hco, _⟩ := expr_code_no_label hc
  obtain ⟨_, bcode, hbo, _⟩ := stmt_code_labels hb
  have hctx2 := Statement.codegen_context body _ _ hb
  simp only at hco hbo hctx1 hctx2
  refine ⟨ccode, bcode, hco, hbo, ?_, ?_, ?_, ?_⟩
  · rw [while_run condition body st s1 s2 hc hb, hbo, hco]
  · rw [hctx1]; rfl
  · rw [hctx2, hctx1]; rfl
  · intro path st' target hreach
    have h := hreach.loop_labels
    simp only at h
    rw [h, hctx1]
    rfl

theorem while_statement_codegen_text_witness :
    ∃ ccode bcode : List Instr,
      [Instr.label (.L_cond 0), .push (.imm 1)] =
        GenState.initial.out ++ [.label (.L_cond 0)] ++ ccode ∧
      (Statement.WhileStatement (.Integer 1)
          (.WhileStatement (.Integer 1) .BreakStatement)).codegen GenState.initial =
        (.ok (), { context := GenState.initial.context, label_count := 4,
                   out := GenState.initial.out ++ [.label (.L_cond 0)] ++ ccode ++
                     [.pop .eax, .cmp .eax (.imm 0), .je (.L_end (0 + 1))] ++ bcode ++
                     [.jmp (.L_cond 0), .label (.L_end (0 + 1))] }) ∧
      [((2 : Int), (3 : Int)), (0, 1)] = [(2, 3)] ++ (0, 0 + 1) :: [] :=
  (while_statement_codegen_text (.Integer 1) (.WhileStatement (.Integer 1) .BreakStatement)
    GenState.initial
    { context := { function_table := [], symbol_table_stack := [], current_offset := 0,
                   loop_labels := [(0, 1)] },
      label_count := 2, out := [.label (.L_cond 0), .push (.imm 1)] }
    { context := { function_table := [], symbol_table_stack := [], current_offset := 0,
                   loop_labels := [(0, 1)] },
      label_count := 4,
      out := [.label (.L_cond 0), .push (.imm 1), .pop .eax, .cmp .eax (.imm 0),
        .je (.L_end 1), .label (.L_cond 2), .push (.imm 1), .pop .eax, .cmp .eax (.imm 0),
        .je (.L_end 3), .jmp (.L_end 3), .jmp (.L_cond 2), .label (.L_end 3)] }
    rfl rfl).imp fun _ h => h.imp fun _ h => ⟨h.1, h.2.2.1,
      h.2.2.2.2.2 [(2, 3)]
        { context := { function_table := [], symbol_table_stack := [], current_offset := 0,
                       loop_labels := [(2, 3), (0, 1)] },
          label_count := 4,
          out := [.label (.L_cond 0), .push (.imm 1), .pop .eax, .cmp .eax (.imm 0),
            .je (.L_end 1), .label (.L_cond 2), .push (.imm 1), .pop .eax,
            .cmp .eax (.imm 0), .je (.L_end 3)] }
        .BreakStatement
        (Reaches.while_body _
          { context := { function_table := [], symbol_table_stack := [], current_offset := 0,
                         loop_labels := [(2, 3), (0, 1)] },
            label_count := 4,
            out := [.label (.L_cond 0), .push (.imm 1), .pop .eax, .cmp .eax (.imm 0),
              .je (.L_end 1), .label (.L_cond 2), .push (.imm 1)] }
          _ (.Integer 1) .BreakStatement .BreakStatement [] rfl (Reaches.here _ _))⟩

/-- C23 fails as stated on `while (1) while (1) break;`: the outer loop
draws the pair `(0, 1)` and generates successfully, and its run calls
`BreakStatement::codegen` inside the body at a moment when the loop-label
stack is `(2, 3)`, `(0, 1)`: the top is the pair of the inner loop, and the
`jmp` printed there targets `.L_end_3`. -/
theorem nested_loop_covers_outer_pair :
    (Statement.WhileStatement (.Integer 1)
        (.WhileStatement (.Integer 1) .BreakStatement)).codegen GenState.initial =
      (.ok (), { context := GenState.initial.context, label_count := 4,
                 out := [.label (.L_cond 0), .push (.imm 1), .pop .eax, .cmp .eax (.imm 0),
                   .je (.L_end 1), .label (.L_cond 2), .push (.imm 1), .pop .eax,
                   .cmp .eax (.imm 0), .je (.L_end 3), .jmp (.L_end 3), .jmp (.L_cond 2),
                   .label (.L_end 3), .jmp (.L_cond 0), .label (.L_end 1)] }) ∧
    Reaches GenState.initial
      (.WhileStatement (.Integer 1) (.WhileStatement (.Integer 1) .BreakStatement))
      [(2, 3), (0, 1)]
      { context := { function_table := [], symbol_table_stack := [], current_offset := 0,
                     loop_labels := [(2, 3), (0, 1)] },
        label_count := 4,
        out := [.label (.L_cond 0), .push (.imm 1), .pop .eax, .cmp .eax (.imm 0),
          .je (.L_end 1), .label (.L_cond 2), .push (.imm 1), .pop .eax,
          .cmp .eax (.imm 0), .je (.L_end 3)] }
      .BreakStatement ∧
    (CodeGenContext.get_current_loop_labels
      { function_table := [], symbol_table_stack := [], current_offset := 0,
        loop_labels := [(2, 3), (0, 1)] }).1 = .ok (2, 3) ∧
    ((2 : Int), (3 : Int)) ≠ (0, 1) :=
  ⟨while_run (.Integer 1) (.WhileStatement (.Integer 1) .BreakStatement) GenState.initial
     { context := { function_table := [], symbol_table_stack := [], current_offset := 0,
                    loop_labels := [(0, 1)] },
       label_count := 2, out := [.label (.L_cond 0), .push (.imm 1)] }
     { context := { function_table := [], symbol_table_stack := [], current_offset := 0,
                    loop_labels := [(0, 1)] },
       label_count := 4,
       out := [.label (.L_cond 0), .push (.imm 1), .pop .eax, .cmp .eax (.imm 0),
         .je (.L_end 1), .label (.L_cond 2), .push (.imm 1), .pop .eax, .cmp .eax (.imm 0),
         .je (.L_end 3), .jmp (.L_end 3), .jmp (.L_cond 2), .label (.L_end 3)] }
     rfl rfl,
   Reaches.while_body GenState.initial
     { context := { function_table := [], symbol_table_stack := [], current_offset := 0,
                    loop_labels := [(0, 1)] },
       label_count := 2, out := [.label (.L_cond 0), .push (.imm 1)] }
     _ (.Integer 1) (.WhileStatement (.Integer 1) .BreakStatement) .BreakStatement [(2, 3)] rfl
     (Reaches.while_body _
       { context := { function_table := [], symbol_table_stack := [], current_offset := 0,
                      loop_labels := [(2, 3), (0, 1)] },
         label_count := 4,
         out := [.label (.L_cond 0), .push (.imm 1), .pop .eax, .cmp .eax (.imm 0),
           .je (.L_end 1), .label (.L_cond 2), .push (.imm 1)] }
       _ (.Integer 1) .BreakStatement .BreakStatement [] rfl (Reaches.here _ _)),
   rfl, by decide⟩

/-! ## The text of a call -/

theorem uniform_bind {α β : Type} {m : Gen α} {f : α → Gen β}
    (hm : Uniform m) (hf : ∀ a, Uniform (f a)) : Uniform (m >>= f) := by
  intro c
  obtain ⟨r, code, h⟩ := hm c
  cases r with
  | error e =>
    exact ⟨.error e, code, fun ft lc o => by rw [bind_run, h ft lc o]⟩
  | ok a =>
    obtain ⟨r2, code2, h2⟩ := hf a c
    exact ⟨r2, code ++ code2, fun ft lc o => by
      rw [bind_run, h ft lc o]
      simp only []
      rw [h2 ft lc (o ++ code), List.append_assoc]⟩

theorem uniform_emit (i : Instr) : Uniform (emit i) :=
  fun _ => ⟨.ok (), [i], fun _ _ _ => rfl⟩

theorem uniform_pure {α : Type} (a : α) : Uniform (Pure.pure a : Gen α) :=
  fun _ => ⟨.ok a, [], fun _ _ o => by rw [pure_run, List.append_nil]⟩

theorem uniform_throw {α : Type} (e : CompileError) : Uniform (Gen.throw e : Gen α) :=
  fun _ => ⟨.error e, [], fun _ _ o => by simp only [Gen.throw, List.append_nil]⟩

theorem uniform_ite {α : Type} {c : Prop} [Decidable c] {m n : Gen α}
    (hm : Uniform m) (hn : Uniform n) : Uniform (if c then m else n) := by
  split_ifs
  · exact hm
  · exact hn

theorem uniform_get_variable_offset (name : String) :
    Uniform (Gen.get_variable_offset name) := by
  intro c
  rcases c with ⟨ft0, stack, offset, loops⟩
  cases stack with
  | nil =>
    exact ⟨.error .undefined_behaviour, [], fun ft lc o => by
      simp [Gen.get_variable_offset, lift_context, CodeGenContext.get_variable_offset]⟩
  | cons top rest =>
    cases hfind : top.find name with
    | none =>
      exact ⟨.error (.undeclared name), [], fun ft lc o => by
        simp [Gen.get_variable_offset, lift_context, CodeGenContext.get_variable_offset, hfind]⟩
    | some v =>
      exact ⟨.ok v, [], fun ft lc o => by
        simp [Gen.get_variable_offset, lift_context, CodeGenContext.get_variable_offset, hfind]⟩

theorem uniform_unary_operation (op : String) : Uniform (unary_operation op) := by
  unfold unary_operation
  exact uniform_ite (uniform_emit _) (uniform_ite (uniform_emit _)
    (uniform_ite (uniform_bind (uniform_emit _) (fun _ => uniform_bind (uniform_emit _)
      (fun _ => uniform_emit _))) (uniform_pure ())))

theorem uniform_binary_operation (op : String) : Uniform (binary_operation op) := by
  unfold binary_operation
  refine uniform_ite (uniform_emit _) (uniform_ite (uniform_emit _) (uniform_ite (uniform_emit _)
    (uniform_ite ?_ (uniform_ite ?_ (uniform_ite ?_ (uniform_ite (uniform_emit _)
      (uniform_ite (uniform_emit _) (uniform_ite (uniform_emit _) ?_))))))))
  · exact uniform_bind (uniform_emit _) (fun _ => uniform_bind (uniform_emit _)
      (fun _ => uniform_ite (uniform_emit _) (uniform_pure ())))
  · exact uniform_bind (uniform_emit _) (fun _ => uniform_bind (uniform_emit _)
      (fun _ => uniform_bind (uniform_emit _) (fun _ => uniform_emit _)))
  · exact uniform_bind (uniform_emit _) (fun _ => uniform_bind (uniform_emit _)
      (fun _ => uniform_bind (uniform_emit _) (fun _ => uniform_emit _)))
  · exact uniform_bind (uniform_emit _) (fun _ => uniform_bind
      (uniform_ite (uniform_emit _) (uniform_ite (uniform_emit _) (uniform_ite (uniform_emit _)
        (uniform_ite (uniform_emit _) (uniform_ite (uniform_emit _)
          (uniform_ite (uniform_emit _) (uniform_pure ())))))))
      (fun _ => uniform_emit _))

mutual
theorem Expression.codegen_uniform : ∀ e : Expression, Uniform e.codegen
  | .Integer value => by
    simp only [Expression.codegen]
    exact uniform_emit _
  | .Identifier name => by
    simp only [Expression.codegen]
    exact uniform_bind (uniform_get_variable_offset name)
      (fun _ => uniform_bind (uniform_emit _) (fun _ => uniform_emit _))
  | .UnaryOperator op rhs => by
    simp only [Expression.codegen]
    exact uniform_bind (Expression.codegen_uniform rhs)
      (fun _ => uniform_bind (uniform_emit _)
        (fun _ => uniform_bind (uniform_unary_operation op) (fun _ => uniform_emit _)))
  | .BinaryOperator op lhs rhs => by
    simp only [Expression.codegen]
    split_ifs
    · cases lhs with
      | Identifier name =>
        exact uniform_bind (uniform_get_variable_offset name)
          (fun _ => uniform_bind (Expression.codegen_uniform rhs)
            (fun _ => uniform_bind (uniform_emit _)
              (fun _ => uniform_bind (uniform_emit _) (fun _ => uniform_emit _))))
      | _ => exact uniform_throw _
    · exact uniform_bind (Expression.codegen_uniform rhs)
        (fun _ => uniform_bind (Expression.codegen_uniform lhs)
          (fun _ => uniform_bind (uniform_emit _)
            (fun _ => uniform_bind (uniform_emit _)
              (fun _ => uniform_bind (uniform_binary_operation op) (fun _ => uniform_emit _)))))
  | .FunctionCall name [] => by
    by_cases hname : name = "println_int"
    · simp only [Expression.codegen, if_pos hname]
      exact uniform_throw _
    · simp only [Expression.codegen, if_neg hname]
      exact uniform_bind (codegen_reversed_uniform [])
        (fun _ => uniform_bind (uniform_emit _)
          (fun _ => uniform_bind (uniform_ite (uniform_emit _) (uniform_pure ()))
            (fun _ => uniform_emit _)))
  | .FunctionCall name [a] => by
    by_cases hname : name = "println_int"
    · simp only [Expression.codegen, if_pos hname]
      exact uniform_bind (Expression.codegen_uniform a)
        (fun _ => uniform_bind (uniform_emit _)
          (fun _ => uniform_bind (uniform_emit _)
            (fun _ => uniform_bind (uniform_emit _) (fun _ => uniform_emit _))))
    · simp only [Expression.codegen, if_neg hname]
      exact uniform_bind (codegen_reversed_uniform [a])
        (fun _ => uniform_bind (uniform_emit _)
          (fun _ => uniform_bind (uniform_ite (uniform_emit _) (uniform_pure ()))
            (fun _ => uniform_emit _)))
  | .FunctionCall name (a :: b :: rest) => by
    by_cases hname : name = "println_int"
    · simp only [Expression.codegen, if_pos hname]
      exact uniform_throw _
    · simp only [Expression.codegen, if_neg hname]
      exact uniform_bind (codegen_reversed_uniform (a :: b :: rest))
        (fun _ => uniform_bind (uniform_emit _)
          (fun _ => uniform_bind (uniform_ite (uniform_emit _) (uniform_pure ()))
            (fun _ => uniform_emit _)))
theorem codegen_reversed_uniform : ∀ arguments : List Expression,
    Uniform (codegen_reversed arguments)
  | [] => by
    simp only [codegen_reversed]
    exact uniform_pure ()
  | a :: rest => by
    simp only [codegen_reversed]
    exact uniform_bind (codegen_reversed_uniform rest) (fun _ => Expression.codegen_uniform a)
end

theorem function_table_eta (c : CodeGenContext) :
    ({ c with function_table := c.function_table } : CodeGenContext) = c := rfl

theorem expr_code_run (e : Expression) (c : CodeGenContext) :
    ∃ r : Except CompileError Unit, ∀ (ft : SymbolTable) (lc : Int) (o : List Instr),
      e.codegen { context := { c with function_table := ft }, label_count := lc, out := o } =
        (r, { context := { c with function_table := ft }, label_count := lc,
              out := o ++ e.code c }) := by
  obtain ⟨r, code, h⟩ := Expression.codegen_uniform e c
  have hcode : e.code c = code := by
    unfold Expression.code
    have h0 := h c.function_table 0 []
    rw [function_table_eta] at h0
    rw [h0]
    rfl
  exact ⟨r, fun ft lc o => by rw [h ft lc o, hcode]⟩

theorem expr_code_ok {e : Expression} {st : GenState} (h : (e.codegen st).1 = .ok ())
    (ft : SymbolTable) (lc : Int) (o : List Instr) :
    e.codegen { context := { st.context with function_table := ft }, label_count := lc,
                out := o } =
      (.ok (), { context := { st.context with function_table := ft }, label_count := lc,
                 out := o ++ e.code st.context }) := by
  obtain ⟨r, hr⟩ := expr_code_run e st.context
  have h0 := hr st.context.function_table st.label_count st.out
  rw [function_table_eta] at h0
  have hst : ({ context := st.context, label_count := st.label_count, out := st.out } :
      GenState) = st := rfl
  rw [hst] at h0
  rw [h0] at h
  simp only at h
  rw [hr ft lc o, h]

theorem codegen_reversed_code : ∀ (arguments : List Expression) (st : GenState),
    (∀ a ∈ arguments, (a.codegen st).1 = .ok ()) →
    ∀ (ft : SymbolTable) (lc : Int) (o : List Instr),
      codegen_reversed arguments
          { context := { st.context with function_table := ft }, label_count := lc, out := o } =
        (.ok (), { context := { st.context with function_table := ft }, label_count := lc,
                   out := o ++ (arguments.reverse.map (fun a => a.code st.context)).flatten })
  | [], st, _, ft, lc, o => by
    simp [codegen_reversed, pure_run]
  | a :: rest, st, h, ft, lc, o => by
    simp only [codegen_reversed]
    rw [bind_run, codegen_reversed_code rest st (fun b hb => h b (List.mem_cons_of_mem _ hb))]
    simp only []
    rw [expr_code_ok (h a (List.mem_cons_self _ _))]
    simp [List.append_assoc]

/-- C24: for a `FunctionCall` whose name is not `println_int` and whose
arguments `a1..an` (`n ≥ 0`) generate successfully, whatever the function
table holds (nothing is looked up in it, so a recorded parameter count that
differs from `n` changes nothing), `codegen` returns normally and prints
exactly code(an), ..., code(a1), then `call name`, then `add esp, 4n` if and
only if `n > 0`, then `push eax`; code(a) is what `codegen` of the argument
`a` prints wherever it is called under the same variable frames. -/
theorem function_call_codegen_text (name : String) (arguments : List Expression)
    (st : GenState) (hname : name ≠ "println_int")
    (hargs : ∀ a ∈ arguments, (a.codegen st).1 = .ok ()) :
    (∀ (ft : SymbolTable),
      (Expression.FunctionCall name arguments).codegen
          { st with context := { st.context with function_table := ft } } =
        (.ok (), { context := { st.context with function_table := ft },
                   label_count := st.label_count,
                   out := st.out ++ (arguments.reverse.map (fun a => a.code st.context)).flatten ++
                     [.call name] ++
                     (if 0 < arguments.length then
                       [.add .esp (.imm (4 * (arguments.length : Int)))] else []) ++
                     [.push (.reg .eax)] })) ∧
    ∀ a ∈ arguments, ∀ (ft : SymbolTable) (lc : Int) (o : List Instr),
      a.codegen { context := { st.context with function_table := ft }, label_count := lc,
                  out := o } =
        (.ok (), { context := { st.context with function_table := ft }, label_count := lc,
                   out := o ++ a.code st.context }) := by
  refine ⟨fun ft => ?_, fun a ha ft lc o => expr_code_ok (hargs a ha) ft lc o⟩
  have hrev := codegen_reversed_code arguments st hargs ft st.label_count st.out
  have hcall : ∀ args : List Expression,
      (Expression.FunctionCall name args).codegen =
        (codegen_reversed args >>= fun _ => emit (.call name) >>= fun _ =>
          (if !args.isEmpty then emit (.add .esp (.imm (args.length * 4))) else pure ()) >>=
            fun _ => emit (.push (.reg .eax))) := by
    intro args
    rcases args with _ | ⟨a, _ | ⟨b, rest⟩⟩ <;> simp only [Expression.codegen, if_neg hname]
  rw [hcall, bind_run, hrev]
  cases arguments with
  | nil =>
    simp only [bind_run, emit_run, List.isEmpty_nil, Bool.not_true, Bool.false_eq_true,
      if_false, pure_run, List.length_nil, lt_self_iff_false, List.append_nil]
  | cons a rest =>
    simp only [bind_run, emit_run, List.isEmpty_cons, Bool.not_false, if_true,
      List.length_cons, Nat.zero_lt_succ, List.append_assoc]
    have : (((rest.length + 1 : Nat) : Int)) * 4 = 4 * ((rest.length + 1 : Nat) : Int) := by
      ring
    rw [this]

theorem function_call_codegen_text_witness :
    (Expression.FunctionCall "f" [.Integer 1, .Integer 2]).codegen
        { context := { function_table := [("f", 1)], symbol_table_stack := [],
                       current_offset := 0, loop_labels := [] },
          label_count := 0, out := [] } =
      (.ok (), { context := { function_table := [("f", 1)], symbol_table_stack := [],
                              current_offset := 0, loop_labels := [] },
                 label_count := 0,
                 out := [.push (.imm 2), .push (.imm 1), .call "f", .add .esp (.imm 8),
                   .push (.reg .eax)] }) ∧
    (Expression.FunctionCall "g" []).codegen GenState.initial =
      (.ok (), { context := GenState.initial.context, label_count := 0,
                 out := [.call "g", .push (.reg .eax)] }) :=
  ⟨(function_call_codegen_text "f" [.Integer 1, .Integer 2] GenState.initial (by decide)
      (fun a ha => by
        simp only [List.mem_cons, List.mem_singleton, List.not_mem_nil, or_false] at ha
        rcases ha with rfl | rfl <;> rfl)).1 [("f", 1)],
   (function_call_codegen_text "g" [] GenState.initial (by decide)
      (fun a ha => absurd ha (List.not_mem_nil a))).1 []⟩

/-! ## Every jump names a placed label -/

theorem jumpsInto_nil (loops : List (Int × Int)) (whole : List Instr) :
    JumpsInto loops whole [] :=
  fun _ hi => absurd hi (List.not_mem_nil _)

theorem jumpsInto_append {loops : List (Int × Int)} {whole a b : List Instr}
    (ha : JumpsInto loops whole a) (hb : JumpsInto loops whole b) :
    JumpsInto loops whole (a ++ b) := by
  intro i hi l hl
  rcases List.mem_append.mp hi with h | h
  · exact ha i h l hl
  · exact hb i h l hl

theorem jumpsInto_of_plain {loops : List (Int × Int)} {whole code : List Instr}
    (h : ∀ i ∈ code, Instr.is_control i = false) : JumpsInto loops whole code := by
  intro i hi l hl
  have := h i hi
  cases i <;> simp [Instr.jump_target, Instr.is_control] at hl this

theorem jumpsInto_mono {loops : List (Int × Int)} {whole whole2 code : List Instr}
    (h : JumpsInto loops whole code) (hsub : ∀ i ∈ whole, i ∈ whole2) :
    JumpsInto loops whole2 code := by
  intro i hi l hl
  obtain ⟨h1, h2⟩ := h i hi l hl
  exact ⟨h1, h2.imp (fun h3 => hsub _ h3) id⟩

theorem jumpsInto_inner {loops : List (Int × Int)} {whole code : List Instr} {c e : Int}
    (h : JumpsInto ((c, e) :: loops) whole code)
    (hc : Instr.label (.L_cond c) ∈ whole) (he : Instr.label (.L_end e) ∈ whole) :
    JumpsInto loops whole code := by
  intro i hi l hl
  obtain ⟨h1, h2⟩ := h i hi l hl
  refine ⟨h1, ?_⟩
  rcases h2 with h2 | ⟨pair, hp, h3⟩
  · exact Or.inl h2
  · rcases List.mem_cons.mp hp with rfl | hp
    · rcases h3 with rfl | rfl
      · exact Or.inl hc
      · exact Or.inl he
    · exact Or.inr ⟨pair, hp, h3⟩

theorem jumpsInto_jump {loops : List (Int × Int)} {whole : List Instr} {i : Instr} {l : Label}
    (hi : i.jump_target = some l) (hl : (Instr.label l).control_label = some l)
    (hmem : Instr.label l ∈ whole) : JumpsInto loops whole [i] := by
  intro j hj k hk
  rw [List.mem_singleton] at hj
  subst hj
  rw [hi] at hk
  injection hk with hk
  subst hk
  exact ⟨hl, Or.inl hmem⟩

theorem jumpsInto_test (loops : List (Int × Int)) (whole : List Instr) (l : Label)
    (hl : (Instr.label l).control_label = some l) (hmem : Instr.label l ∈ whole) :
    JumpsInto loops whole [Instr.pop .eax, Instr.cmp .eax (.imm 0), Instr.je l] := by
  intro i hi k hk
  simp only [List.mem_cons, List.mem_singleton, List.not_mem_nil, or_false] at hi
  rcases hi with rfl | rfl | rfl
  · simp [Instr.jump_target] at hk
  · simp [Instr.jump_target] at hk
  · simp only [Instr.jump_target, Option.some.injEq] at hk
    subst hk
    exact ⟨hl, Or.inl hmem⟩

theorem jumpsInto_label (loops : List (Int × Int)) (whole : List Instr) (l : Label) :
    JumpsInto loops whole [Instr.label l] := by
  intro i hi k hk
  rw [List.mem_singleton] at hi
  subst hi
  simp [Instr.jump_target] at hk

theorem jumpsInto_jmp_label (loops : List (Int × Int)) (whole : List Instr) (l l2 : Label)
    (hl : (Instr.label l).control_label = some l) (hmem : Instr.label l ∈ whole) :
    JumpsInto loops whole [Instr.jmp l, Instr.label l2] := by
  intro i hi k hk
  simp only [List.mem_cons, List.mem_singleton, List.not_mem_nil, or_false] at hi
  rcases hi with rfl | rfl
  · simp only [Instr.jump_target, Option.some.injEq] at hk
    subst hk
    exact ⟨hl, Or.inl hmem⟩
  · simp [Instr.jump_target] at hk

theorem expr_code_plain {e : Expression} {s s1 : GenState} {r : Except CompileError Unit}
    (h : e.codegen s = (r, s1)) :
    s1.context = s.context ∧ s1.label_count = s.label_count ∧
      ∃ code, s1.out = s.out ++ code ∧ ∀ i ∈ code, Instr.is_control i = false := by
  have hstep := Expression.codegen_step e s
  rw [h] at hstep
  exact hstep

theorem codegen_declarations_plain : ∀ (ds : List (String × Option Expression))
    (st st' : GenState), codegen_declarations ds st = (.ok (), st') →
    ∃ code, st'.out = st.out ++ code ∧ ∀ i ∈ code, Instr.is_control i = false
  | [], st, st', h => by
    simp only [codegen_declarations, pure_run, Prod.mk.injEq, true_and] at h
    subst h
    exact ⟨[], by simp, fun _ hi => absurd hi (List.not_mem_nil _)⟩
  | (name, none) :: rest, st, st', h => by
    simp only [codegen_declarations, bind_ok, pure_run, Prod.mk.injEq, true_and] at h
    obtain ⟨_, s1, rfl, h⟩ := h
    exact codegen_declarations_plain rest _ _ h
  | (name, some init) :: rest, st, st', h => by
    simp only [codegen_declarations, bind_ok, emit_ok] at h
    obtain ⟨offset, s1, hoff, _, s2, hinit, _, s3, rfl, _, s4, rfl, h⟩ := h
    have hs1 := get_variable_offset_ok hoff
    subst hs1
    obtain ⟨_, _, c1, ho1, hp1⟩ := expr_code_plain hinit
    obtain ⟨c2, ho2, hp2⟩ := codegen_declarations_plain rest _ _ h
    simp only at ho2
    refine ⟨c1 ++ [.pop .eax, .mov (.ebp_minus offset) (.reg .eax)] ++ c2, ?_, ?_⟩
    · rw [ho2, ho1]; simp
    · intro i hi
      simp only [List.mem_append, List.mem_cons, List.mem_singleton, List.not_mem_nil,
        or_false] at hi
      rcases hi with (hi | hi | hi) | hi
      · exact hp1 i hi
      · subst hi; rfl
      · subst hi; rfl
      · exact hp2 i hi

theorem mem_of_append_eq {whole pre post : List Instr} {i : Instr}
    (h : whole = pre ++ i :: post) : i ∈ whole := by
  rw [h]; simp

mutual
theorem Statement.codegen_jumps : ∀ (stmt : Statement) (st st' : GenState),
    stmt.codegen st = (.ok (), st') →
    ∃ code, st'.out = st.out ++ code ∧ JumpsInto st.context.loop_labels code code
  | .Block statements, st, st', h => by
    simp only [Statement.codegen] at h
    exact codegen_statements_jumps statements st st' h
  | .VariableDeclaration declarations, st, st', h => by
    simp only [Statement.codegen] at h
    obtain ⟨code, ho, hp⟩ := codegen_declarations_plain declarations st st' h
    exact ⟨code, ho, jumpsInto_of_plain hp⟩
  | .ExpressionStatement expression, st, st', h => by
    simp only [Statement.codegen, bind_ok] at h
    obtain ⟨_, s1, h1, h2⟩ := h
    obtain ⟨_, _, c1, ho1, hp1⟩ := expr_code_plain h1
    split_ifs at h2
    · rw [emit_ok] at h2
      subst h2
      refine ⟨c1 ++ [.add .esp (.imm 4)], by simp [ho1], jumpsInto_of_plain ?_⟩
      intro i hi
      rcases List.mem_append.mp hi with hi | hi
      · exact hp1 i hi
      · rw [List.mem_singleton] at hi; subst hi; rfl
    · rw [pure_run] at h2
      injection h2 with _ h2
      subst h2
      exact ⟨c1, ho1, jumpsInto_of_plain hp1⟩
  | .ReturnStatement expression, st, st', h => by
    simp only [Statement.codegen, bind_ok, emit_ok] at h
    obtain ⟨_, s1, h1, _, s2, rfl, _, s3, rfl, rfl⟩ := h
    obtain ⟨_, _, c1, ho1, hp1⟩ := expr_code_plain h1
    refine ⟨c1 ++ [.pop .eax, .leave, .ret], by simp [ho1], jumpsInto_of_plain ?_⟩
    intro i hi
    simp only [List.mem_append, List.mem_cons, List.mem_singleton, List.not_mem_nil,
      or_false] at hi
    rcases hi with hi | hi | hi | hi
    · exact hp1 i hi
    · subst hi; rfl
    · subst hi; rfl
    · subst hi; rfl
  | .IfStatement c t none, st, st', h => by
    simp only [Statement.codegen, codegen_else, ite_emit, bind_ok, emit_ok, next_label_eq_iff,
      pure_run, Prod.mk.injEq, Except.ok.injEq, true_and] at h
    obtain ⟨_, _, ⟨rfl, rfl⟩, _, _, ⟨rfl, rfl⟩, _, s1, h1, _, _, rfl, _, _, rfl, _, _, rfl,
      _, s2, h2, _, _, rfl, rfl⟩ := h
    obtain ⟨e1, _, c1, ho1, hp1⟩ := expr_code_plain h1
    obtain ⟨c2, ho2, hj2⟩ := Statement.codegen_jumps t _ _ h2
    simp only [Option.isSome_none, Bool.false_eq_true, if_false] at ho1 ho2 hj2 e1 ⊢
    rw [e1] at hj2
    generalize hwhole : c1 ++ [Instr.pop .eax, Instr.cmp .eax (.imm 0),
      Instr.je (.L_end (st.label_count + 1))] ++ c2 ++
      [Instr.label (.L_end (st.label_count + 1))] = whole
    refine ⟨whole, by rw [← hwhole, ho2, ho1]; simp, ?_⟩
    have hend : Instr.label (.L_end (st.label_count + 1)) ∈ whole := by
      rw [← hwhole]; simp
    have hsub2 : ∀ i ∈ c2, i ∈ whole := by
      intro i hi; rw [← hwhole]; simp [hi]
    rw [← hwhole]
    exact jumpsInto_append (jumpsInto_append (jumpsInto_append (jumpsInto_of_plain hp1)
      (jumpsInto_test _ _ _ rfl (hwhole ▸ hend))) (jumpsInto_mono hj2 (hwhole ▸ hsub2)))
      (jumpsInto_label _ _ _)
  | .IfStatement c t (some e), st, st', h => by
    simp only [Statement.codegen, codegen_else, ite_emit, bind_ok, emit_ok, next_label_eq_iff,
      pure_run, Prod.mk.injEq, Except.ok.injEq, true_and] at h
    obtain ⟨_, _, ⟨rfl, rfl⟩, _, _, ⟨rfl, rfl⟩, _, s1, h1, _, _, rfl, _, _, rfl, _, _, rfl,
      _, s2, h2, _, s3, ⟨_, _, rfl, _, _, rfl, h3⟩, rfl⟩ := h
    obtain ⟨e1, _, c1, ho1, hp1⟩ := expr_code_plain h1
    obtain ⟨c2, ho2, hj2⟩ := Statement.codegen_jumps t _ _ h2
    have e2 := Statement.codegen_context t _ _ h2
    obtain ⟨c3, ho3, hj3⟩ := Statement.codegen_jumps e _ _ h3
    simp only [Option.isSome_some, if_true] at ho1 ho2 hj2 e1 e2 ho3 hj3 ⊢
    rw [e1] at hj2
    rw [e2, e1] at hj3
    generalize hwhole : c1 ++ [Instr.pop .eax, Instr.cmp .eax (.imm 0),
      Instr.je (.L_else st.label_count)] ++ c2 ++
      [Instr.jmp (.L_end (st.label_count + 1)), Instr.label (.L_else st.label_count)] ++ c3 ++
      [Instr.label (.L_end (st.label_count + 1))] = whole
    refine ⟨whole, by rw [← hwhole, ho3, ho2, ho1]; simp, ?_⟩
    have hend : Instr.label (.L_end (st.label_count + 1)) ∈ whole := by
      rw [← hwhole]; simp
    have helse : Instr.label (.L_else st.label_count) ∈ whole := by
      rw [← hwhole]; simp
    have hsub2 : ∀ i ∈ c2, i ∈ whole := by
      intro i hi; rw [← hwhole]; simp [hi]
    have hsub3 : ∀ i ∈ c3, i ∈ whole := by
      intro i hi; rw [← hwhole]; simp [hi]
    have hall : JumpsInto st.context.loop_labels whole
        (c1 ++ [Instr.pop .eax, Instr.cmp .eax (.imm 0),
          Instr.je (.L_else st.label_count)] ++ c2 ++
          [Instr.jmp (.L_end (st.label_count + 1)), Instr.label (.L_else st.label_count)] ++
          c3 ++ [Instr.label (.L_end (st.label_count + 1))]) := by
      exact jumpsInto_append (jumpsInto_append (jumpsInto_append (jumpsInto_append
        (jumpsInto_append (jumpsInto_of_plain hp1) (jumpsInto_test _ _ _ rfl helse))
        (jumpsInto_mono hj2 hsub2)) (jumpsInto_jmp_label _ _ _ _ rfl hend))
        (jumpsInto_mono hj3 hsub3)) (jumpsInto_label _ _ _)
    rw [hwhole] at hall
    exact hall
  | .WhileStatement c body, st, st', h => by
    simp only [Statement.codegen, bind_ok, emit_ok, next_label_eq_iff, modify_context_eq_iff,
      Prod.mk.injEq, Except.ok.injEq, true_and] at h
    obtain ⟨_, _, ⟨rfl, rfl⟩, _, _, ⟨rfl, rfl⟩, _, _, rfl, _, _, rfl, _, s1, h1, _, _, rfl,
      _, _, rfl, _, _, rfl, _, s2, h2, _, _, rfl, _, _, rfl, rfl⟩ := h
    obtain ⟨e1, _, c1, ho1, hp1⟩ := expr_code_plain h1
    obtain ⟨c2, ho2, hj2⟩ := Statement.codegen_jumps body _ _ h2
    simp only at ho1 ho2 hj2 e1 ⊢
    rw [e1] at hj2
    simp only [CodeGenContext.push_loop_labels] at hj2
    generalize hwhole : [Instr.label (.L_cond st.label_count)] ++ c1 ++
      [Instr.pop .eax, Instr.cmp .eax (.imm 0), Instr.je (.L_end (st.label_count + 1))] ++
      c2 ++ [Instr.jmp (.L_cond st.label_count), Instr.label (.L_end (st.label_count + 1))] =
      whole
    refine ⟨whole, by rw [← hwhole, ho2, ho1]; simp, ?_⟩
    have hend : Instr.label (.L_end (st.label_count + 1)) ∈ whole := by
      rw [← hwhole]; simp
    have hcond : Instr.label (.L_cond st.label_count) ∈ whole := by
      rw [← hwhole]; simp
    have hsub2 : ∀ i ∈ c2, i ∈ whole := by
      intro i hi; rw [← hwhole]; simp [hi]
    have hall : JumpsInto st.context.loop_labels whole
        ([Instr.label (.L_cond st.label_count)] ++ c1 ++
          [Instr.pop .eax, Instr.cmp .eax (.imm 0), Instr.je (.L_end (st.label_count + 1))] ++
          c2 ++
          [Instr.jmp (.L_cond st.label_count), Instr.label (.L_end (st.label_count + 1))]) := by
      exact jumpsInto_append (jumpsInto_append (jumpsInto_append (jumpsInto_append
        (jumpsInto_label _ _ _) (jumpsInto_of_plain hp1)) (jumpsInto_test _ _ _ rfl hend))
        (jumpsInto_inner (jumpsInto_mono hj2 hsub2) hcond hend))
        (jumpsInto_jmp_label _ _ _ _ rfl hcond)
    rw [hwhole] at hall
    exact hall
  | .BreakStatement, st, st', h => by
    rw [break_codegen_run] at h
    cases hl : st.context.loop_labels with
    | nil => rw [hl] at h; simp at h
    | cons top rest =>
      rw [hl] at h
      simp only [Prod.mk.injEq, true_and] at h
      subst h
      refine ⟨[.jmp (.L_end top.2)], rfl, ?_⟩
      intro i hi l hil
      rw [List.mem_singleton] at hi
      subst hi
      simp only [Instr.jump_target, Option.some.injEq] at hil
      subst hil
      exact ⟨rfl, Or.inr ⟨top, List.mem_cons_self _ _, Or.inr rfl⟩⟩
  | .ContinueStatement, st, st', h => by
    rw [continue_codegen_run] at h
    cases hl : st.context.loop_labels with
    | nil => rw [hl] at h; simp at h
    | cons top rest =>
      rw [hl] at h
      simp only [Prod.mk.injEq, true_and] at h
      subst h
      refine ⟨[.jmp (.L_cond top.1)], rfl, ?_⟩
      intro i hi l hil
      rw [List.mem_singleton] at hi
      subst hi
      simp only [Instr.jump_target, Option.some.injEq] at hil
      subst hil
      exact ⟨rfl, Or.inr ⟨top, List.mem_cons_self _ _, Or.inl rfl⟩⟩
theorem codegen_statements_jumps : ∀ (statements : List Statement) (st st' : GenState),
    codegen_statements statements st = (.ok (), st') →
    ∃ code, st'.out = st.out ++ code ∧ JumpsInto st.context.loop_labels code code
  | [], st, st', h => by
    simp only [codegen_statements, pure_run, Prod.mk.injEq, true_and] at h
    subst h
    exact ⟨[], by simp, jumpsInto_nil _ _⟩
  | stmt :: rest, st, st', h => by
    simp only [codegen_statements, bind_ok] at h
    obtain ⟨_, s1, h1, h2⟩ := h
    obtain ⟨c1, ho1, hj1⟩ := Statement.codegen_jumps stmt _ _ h1
    have e1 := Statement.codegen_context stmt _ _ h1
    obtain ⟨c2, ho2, hj2⟩ := codegen_statements_jumps rest _ _ h2
    rw [e1] at hj2
    refine ⟨c1 ++ c2, by rw [ho2, ho1, List.append_assoc], ?_⟩
    exact jumpsInto_append (jumpsInto_mono hj1 (fun i hi => List.mem_append_left _ hi))
      (jumpsInto_mono hj2 (fun i hi => List.mem_append_right _ hi))
end

theorem count_label_le_numbers (l : Label) (hl : (Instr.label l).control_label = some l) :
    ∀ code : List Instr, code.count (Instr.label l) ≤ (label_numbers code).count l.number
  | [] => by simp
  | i :: rest => by
    rw [label_numbers_cons, List.count_append, List.count_cons]
    have ih := count_label_le_numbers l hl rest
    by_cases hi : i = Instr.label l
    · subst hi
      simp only [hl, beq_self_eq_true, if_true, List.count_singleton_self]
      omega
    · have : (i == Instr.label l) = false := by simpa using hi
      simp only [this, Bool.false_eq_true, if_false, add_zero]
      omega

theorem count_label_eq_one {out text : List Instr} {l : Label}
    (hl : (Instr.label l).control_label = some l) (hnd : (label_numbers out).Nodup)
    (hsub : text.Sublist out) (hmem : Instr.label l ∈ text) :
    text.count (Instr.label l) = 1 ∧ out.count (Instr.label l) = 1 := by
  have h1 := count_label_le_numbers l hl out
  have h2 := List.nodup_iff_count_le_one.mp hnd l.number
  have h3 := hsub.count_le (Instr.label l)
  have h4 := List.count_pos_iff.mpr hmem
  omega

theorem preprocess_block_state (body : List Statement) (st s1 : GenState)
    (top : SymbolTable) (rest : List SymbolTable)
    (hst : st.context.symbol_table_stack = top :: rest)
    (h : (Statement.Block body).preprocess st = (.ok (), s1)) :
    s1.out = st.out ∧ s1.context.loop_labels = st.context.loop_labels := by
  rw [Statement.preprocess_eq] at h
  obtain ⟨_, _, _, hout, _, hloops, _⟩ := declare_all_ok _ _ s1 _ _ hst h
  exact ⟨hout, hloops⟩

theorem pop_scope_loop_labels (c : CodeGenContext) :
    c.pop_scope.loop_labels = c.loop_labels := by
  unfold CodeGenContext.pop_scope
  split <;> rfl

theorem bind_params_loop_labels (c : CodeGenContext)
    (params : List (List (String × Option Expression))) :
    (c.bind_params params).loop_labels = c.loop_labels := by
  unfold CodeGenContext.bind_params
  split <;> rfl

theorem function_codegen_jumps (f : FunctionDefinition) (st st' : GenState)
    (hloops : st.context.loop_labels = []) (h : f.codegen st = (.ok (), st')) :
    st'.context.loop_labels = [] ∧
    ∃ tail, st'.out = st.out ++ ([.global f.name, .label (.named f.name)] ++ tail) ∧
      JumpsInto [] ([.global f.name, .label (.named f.name)] ++ tail)
        ([.global f.name, .label (.named f.name)] ++ tail) := by
  obtain ⟨hstack, _⟩ := push_scope_bind_params_stack st.context f.params
  rw [FunctionDefinition.codegen_run] at h
  simp only [bind_ok] at h
  obtain ⟨_, s1, hpre, size, s2, hsize, _, s3, hsub, _, s4, hbody, _, s5, hvoid, hpop⟩ := h
  obtain ⟨ho1, hl1⟩ := preprocess_block_state f.body _ s1 _ _ hstack hpre
  simp only [bind_params_loop_labels, CodeGenContext.push_scope] at hl1
  simp only [Prod.mk.injEq, Except.ok.injEq] at hsize
  obtain ⟨_, rfl⟩ := hsize
  have h3 : s3.context = s1.context ∧ ∃ c3, s3.out = s1.out ++ c3 ∧
      ∀ i ∈ c3, Instr.is_control i = false := by
    split_ifs at hsub
    · rw [emit_ok] at hsub
      subst hsub
      exact ⟨rfl, [_], rfl, fun i hi => by rw [List.mem_singleton] at hi; subst hi; rfl⟩
    · rw [pure_run] at hsub
      injection hsub with _ hsub
      subst hsub
      exact ⟨rfl, [], by simp, fun i hi => absurd hi (List.not_mem_nil _)⟩
  obtain ⟨hc3, c3, ho3, hp3⟩ := h3
  obtain ⟨c4, ho4, hj4⟩ := Statement.codegen_jumps _ _ _ hbody
  have hc4 := Statement.codegen_context _ _ _ hbody
  rw [hc3, hl1, hloops] at hj4
  have h5 : s5.context = s4.context ∧ ∃ c5, s5.out = s4.out ++ c5 ∧
      ∀ i ∈ c5, Instr.is_control i = false := by
    split_ifs at hvoid
    · simp only [bind_ok, emit_ok] at hvoid
      obtain ⟨_, _, rfl, rfl⟩ := hvoid
      exact ⟨rfl, [.leave, .ret], by simp, fun i hi => by
        simp only [List.mem_cons, List.mem_singleton, List.not_mem_nil, or_false] at hi
        rcases hi with hi | hi <;> subst hi <;> rfl⟩
    · rw [pure_run] at hvoid
      injection hvoid with _ hvoid
      subst hvoid
      exact ⟨rfl, [], by simp, fun i hi => absurd hi (List.not_mem_nil _)⟩
  obtain ⟨hc5, c5, ho5, hp5⟩ := h5
  rw [modify_context_eq_iff] at hpop
  obtain ⟨_, rfl⟩ := hpop
  refine ⟨?_, [.push (.reg .ebp), .mov (.reg .ebp) (.reg .esp)] ++ c3 ++ c4 ++ c5, ?_, ?_⟩
  · simp only [pop_scope_loop_labels]
    rw [hc5, hc4, hc3, hl1, hloops]
  · simp only [ho5, ho4, ho3, ho1]
    simp
  · have hpro : JumpsInto [] ([.global f.name, .label (.named f.name)] ++
        ([.push (.reg .ebp), .mov (.reg .ebp) (.reg .esp)] ++ c3 ++ c4 ++ c5))
        [Instr.global f.name, Instr.label (.named f.name)] := by
      intro i hi k hk
      simp only [List.mem_cons, List.mem_singleton, List.not_mem_nil, or_false] at hi
      rcases hi with rfl | rfl <;> simp [Instr.jump_target] at hk
    refine jumpsInto_append hpro (jumpsInto_append (jumpsInto_append (jumpsInto_append
      (jumpsInto_of_plain ?_) (jumpsInto_of_plain hp3)) (jumpsInto_mono hj4 ?_))
      (jumpsInto_of_plain hp5))
    · intro i hi
      simp only [List.mem_cons, List.mem_singleton, List.not_mem_nil, or_false] at hi
      rcases hi with hi | hi <;> subst hi <;> rfl
    · intro i hi
      simp [hi]

theorem codegen_functions_jumps : ∀ (functions : List FunctionDefinition) (st st' : GenState),
    st.context.loop_labels = [] → codegen_functions functions st = (.ok (), st') →
    st'.out = st.out ++ (function_texts functions st).flatten ∧
    List.Forall₂
      (fun (func : FunctionDefinition) (text : List Instr) =>
        ∃ tail, text = [.global func.name, .label (.named func.name)] ++ tail)
      functions (function_texts functions st) ∧
    ∀ text ∈ function_texts functions st, JumpsInto [] text text
  | [], st, st', _, h => by
    simp only [codegen_functions, pure_run, Prod.mk.injEq, true_and] at h
    subst h
    simp [function_texts]
  | func :: rest, st, st', hloops, h => by
    simp only [codegen_functions, bind_ok] at h
    obtain ⟨_, s1, h1, h2⟩ := h
    obtain ⟨hl1, tail, ho1, hj1⟩ := function_codegen_jumps func st s1 hloops h1
    obtain ⟨ho2, hf2, hj2⟩ := codegen_functions_jumps rest s1 st' hl1 h2
    have htext : (func.codegen st).2.out.drop st.out.length =
        [.global func.name, .label (.named func.name)] ++ tail := by
      rw [h1]
      simp only [ho1, List.drop_left]
    simp only [function_texts, h1, List.flatten_cons, List.mem_cons, forall_eq_or_imp]
    rw [h1] at htext
    simp only at htext
    rw [htext]
    refine ⟨by rw [ho2, ho1, List.append_assoc], List.Forall₂.cons ⟨tail, rfl⟩ hf2, hj1, hj2⟩

/-- C26: let `Program::codegen` run in a state with an empty loop-label stack
and nothing printed yet (the state `main` calls it in) and return normally.
The text printed is the texts of the functions one after the other, each
opening with its `.global name` and `name:` lines, and every `je` or `jmp`
line of a function's text names a control-flow label whose placing line
occurs exactly once in the text of that same function and exactly once in the
whole text. -/
theorem jumps_target_placed_labels (p : Program) (s s' : GenState)
    (hloops : s.context.loop_labels = []) (hout : s.out = [])
    (h : p.codegen s = (.ok (), s')) :
    s'.out = (function_texts p.functions s).flatten ∧
    List.Forall₂
      (fun (func : FunctionDefinition) (text : List Instr) =>
        ∃ tail, text = [.global func.name, .label (.named func.name)] ++ tail)
      p.functions (function_texts p.functions s) ∧
    ∀ text ∈ function_texts p.functions s, ∀ i ∈ text, ∀ l : Label,
      i.jump_target = some l →
        text.count (Instr.label l) = 1 ∧ s'.out.count (Instr.label l) = 1 := by
  obtain ⟨ho, hf, hj⟩ := codegen_functions_jumps p.functions s s' hloops h
  rw [hout, List.nil_append] at ho
  refine ⟨ho, hf, ?_⟩
  intro text htext i hi l hl
  obtain ⟨hctl, hmem⟩ := hj text htext i hi l hl
  have hmem : Instr.label l ∈ text := by
    rcases hmem with hmem | ⟨pair, hp, _⟩
    · exact hmem
    · exact absurd hp (List.not_mem_nil _)
  have hnd : (label_numbers s'.out).Nodup := by
    obtain ⟨_, code, hcode, hfresh, _⟩ := codegen_functions_labels p.functions s
    have hp : codegen_functions p.functions s = (.ok (), s') := h
    rw [hp, hout, List.nil_append] at hcode
    simp only at hcode
    rw [hcode]
    exact hfresh
  have hsub : text.Sublist s'.out := by
    rw [ho]
    exact List.sublist_flatten_of_mem htext
  exact count_label_eq_one hctl hnd hsub hmem

theorem gen_ok_of {x : Except CompileError Unit × GenState} {s : GenState}
    (h : (x.1.toOption, x.2) = (some (), s)) : x = (.ok (), s) := by
  rcases x with ⟨r | u, s1⟩
  · simp [Except.toOption] at h
  · simp only [Prod.mk.injEq] at h
    rw [h.2]

theorem FunctionDefinition.codegen_no_locals (f : FunctionDefinition) (st s2 : GenState)
    (hnames : declared_names_statements f.body = []) (htype : f.type ≠ "void")
    (hbody : (Statement.Block f.body).codegen
      { context := (st.context.push_scope).bind_params f.params,
        label_count := st.label_count,
        out := st.out ++ [.global f.name, .label (.named f.name), .push (.reg .ebp),
          .mov (.reg .ebp) (.reg .esp)] } = (.ok (), s2)) :
    f.codegen st = (.ok (), { s2 with context := s2.context.pop_scope }) := by
  rw [FunctionDefinition.codegen_run, bind_run, Statement.preprocess_eq]
  simp only [Statement.declared_names, hnames, declare_all, pure_run, bind_run]
  rw [get_stack_size_of_zero _ (push_scope_bind_params_stack st.context f.params).2]
  simp only [gt_iff_lt, lt_self_iff_false, if_false, pure_run, hbody, if_neg htype,
    modify_context]

theorem loop_program_f_run :
    FunctionDefinition.codegen
      { type := "int", name := "f", params := [], body := [.ReturnStatement (.Integer 1)] }
      { context := { function_table := [("f", 0), ("main", 0)], symbol_table_stack := [],
                     current_offset := 0, loop_labels := [] },
        label_count := 0, out := [] } =
    (.ok (),
      { context := { function_table := [("f", 0), ("main", 0)], symbol_table_stack := [],
                     current_offset := 0, loop_labels := [] },
        label_count := 0,
        out := [.global "f", .label (.named "f"), .push (.reg .ebp), .mov (.reg .ebp) (.reg .esp),
          .push (.imm 1), .pop .eax, .leave, .ret] }) :=
  FunctionDefinition.codegen_no_locals
    { type := "int", name := "f", params := [], body := [.ReturnStatement (.Integer 1)] }
    { context := { function_table := [("f", 0), ("main", 0)], symbol_table_stack := [],
                     current_offset := 0, loop_labels := [] },
      label_count := 0, out := [] }
    { context := { function_table := [("f", 0), ("main", 0)], symbol_table_stack := [[]],
                     current_offset := 0, loop_labels := [] },
      label_count := 0,
      out := [.global "f", .label (.named "f"), .push (.reg .ebp), .mov (.reg .ebp) (.reg .esp),
          .push (.imm 1), .pop .eax, .leave, .ret] }
    rfl (by decide) (gen_ok_of (by decide!))

theorem loop_program_main_run :
    FunctionDefinition.codegen
      { type := "int", name := "main", params := [],
            body := [.WhileStatement (.Integer 1) .BreakStatement,
              .ReturnStatement (.Integer 0)] }
      { context := { function_table := [("f", 0), ("main", 0)], symbol_table_stack := [],
                     current_offset := 0, loop_labels := [] },
        label_count := 0,
        out := [.global "f", .label (.named "f"), .push (.reg .ebp), .mov (.reg .ebp) (.reg .esp),
          .push (.imm 1), .pop .eax, .leave, .ret] } =
    (.ok (),
      { context := { function_table := [("f", 0), ("main", 0)], symbol_table_stack := [],
                     current_offset := 0, loop_labels := [] },
        label_count := 2,
        out := [.global "f", .label (.named "f"), .push (.reg .ebp), .mov (.reg .ebp) (.reg .esp),
          .push (.imm 1), .pop .eax, .leave, .ret,
          .global "main", .label (.named "main"), .push (.reg .ebp),
          .mov (.reg .ebp) (.reg .esp), .label (.L_cond 0), .push (.imm 1), .pop .eax,
          .cmp .eax (.imm 0), .je (.L_end 1), .jmp (.L_end 1), .jmp (.L_cond 0),
          .label (.L_end 1), .push (.imm 0), .pop .eax, .leave, .ret] }) :=
  FunctionDefinition.codegen_no_locals
    { type := "int", name := "main", params := [],
            body := [.WhileStatement (.Integer 1) .BreakStatement,
              .ReturnStatement (.Integer 0)] }
    { context := { function_table := [("f", 0), ("main", 0)], symbol_table_stack := [],
                     current_offset := 0, loop_labels := [] },
      label_count := 0,
      out := [.global "f", .label (.named "f"), .push (.reg .ebp), .mov (.reg .ebp) (.reg .esp),
          .push (.imm 1), .pop .eax, .leave, .ret] }
    { context := { function_table := [("f", 0), ("main", 0)], symbol_table_stack := [[]],
                     current_offset := 0, loop_labels := [] },
      label_count := 2,
      out := [.global "f", .label (.named "f"), .push (.reg .ebp), .mov (.reg .ebp) (.reg .esp),
          .push (.imm 1), .pop .eax, .leave, .ret,
          .global "main", .label (.named "main"), .push (.reg .ebp),
          .mov (.reg .ebp) (.reg .esp), .label (.L_cond 0), .push (.imm 1), .pop .eax,
          .cmp .eax (.imm 0), .je (.L_end 1), .jmp (.L_end 1), .jmp (.L_cond 0),
          .label (.L_end 1), .push (.imm 0), .pop .eax, .leave, .ret] }
    rfl (by decide) (gen_ok_of (by decide!))

theorem loop_program_run :
    Program.codegen
      { functions := [
        { type := "int", name := "f", params := [], body := [.ReturnStatement (.Integer 1)] },
        { type := "int", name := "main", params := [],
            body := [.WhileStatement (.Integer 1) .BreakStatement,
              .ReturnStatement (.Integer 0)] }] }
      { context := { function_table := [("f", 0), ("main", 0)], symbol_table_stack := [],
                     current_offset := 0, loop_labels := [] },
        label_count := 0, out := [] } =
    (.ok (),
      { context := { function_table := [("f", 0), ("main", 0)], symbol_table_stack := [],
                     current_offset := 0, loop_labels := [] },
        label_count := 2,
        out := [.global "f", .label (.named "f"), .push (.reg .ebp), .mov (.reg .ebp) (.reg .esp),
          .push (.imm 1), .pop .eax, .leave, .ret,
          .global "main", .label (.named "main"), .push (.reg .ebp),
          .mov (.reg .ebp) (.reg .esp), .label (.L_cond 0), .push (.imm 1), .pop .eax,
          .cmp .eax (.imm 0), .je (.L_end 1), .jmp (.L_end 1), .jmp (.L_cond 0),
          .label (.L_end 1), .push (.imm 0), .pop .eax, .leave, .ret] }) := by
  simp only [Program.codegen, codegen_functions]
  rw [bind_run, loop_program_f_run]
  simp only []
  rw [bind_run, loop_program_main_run]
  rfl

theorem loop_program_texts :
    function_texts
      [{ type := "int", name := "f", params := [], body := [.ReturnStatement (.Integer 1)] },
        { type := "int", name := "main", params := [],
            body := [.WhileStatement (.Integer 1) .BreakStatement,
              .ReturnStatement (.Integer 0)] }]
      { context := { function_table := [("f", 0), ("main", 0)], symbol_table_stack := [],
                     current_offset := 0, loop_labels := [] },
        label_count := 0, out := [] } =
    [[.global "f", .label (.named "f"), .push (.reg .ebp), .mov (.reg .ebp) (.reg .esp),
          .push (.imm 1), .pop .eax, .leave, .ret],
      [.global "main", .label (.named "main"), .push (.reg .ebp),
          .mov (.reg .ebp) (.reg .esp), .label (.L_cond 0), .push (.imm 1), .pop .eax,
          .cmp .eax (.imm 0), .je (.L_end 1), .jmp (.L_end 1), .jmp (.L_cond 0),
          .label (.L_end 1), .push (.imm 0), .pop .eax, .leave, .ret]] := by
  simp only [function_texts, loop_program_f_run, loop_program_main_run, List.length_nil,
    List.drop_zero]
  rfl

theorem jumps_target_placed_labels_witness :
    List.count (Instr.label (.L_end 1))
      [.global "main", .label (.named "main"), .push (.reg .ebp),
          .mov (.reg .ebp) (.reg .esp), .label (.L_cond 0), .push (.imm 1), .pop .eax,
          .cmp .eax (.imm 0), .je (.L_end 1), .jmp (.L_end 1), .jmp (.L_cond 0),
          .label (.L_end 1), .push (.imm 0), .pop .eax, .leave, .ret] = 1 ∧
    List.count (Instr.label (.L_end 1))
      [.global "f", .label (.named "f"), .push (.reg .ebp), .mov (.reg .ebp) (.reg .esp),
          .push (.imm 1), .pop .eax, .leave, .ret,
          .global "main", .label (.named "main"), .push (.reg .ebp),
          .mov (.reg .ebp) (.reg .esp), .label (.L_cond 0), .push (.imm 1), .pop .eax,
          .cmp .eax (.imm 0), .je (.L_end 1), .jmp (.L_end 1), .jmp (.L_cond 0),
          .label (.L_end 1), .push (.imm 0), .pop .eax, .leave, .ret] = 1 :=
  (jumps_target_placed_labels
    { functions := [
        { type := "int", name := "f", params := [], body := [.ReturnStatement (.Integer 1)] },
        { type := "int", name := "main", params := [],
            body := [.WhileStatement (.Integer 1) .BreakStatement,
              .ReturnStatement (.Integer 0)] }] }
    { context := { function_table := [("f", 0), ("main", 0)], symbol_table_stack := [],
                     current_offset := 0, loop_labels := [] },
      label_count := 0, out := [] }
    { context := { function_table := [("f", 0), ("main", 0)], symbol_table_stack := [],
                     current_offset := 0, loop_labels := [] },
      label_count := 2,
      out := [.global "f", .label (.named "f"), .push (.reg .ebp), .mov (.reg .ebp) (.reg .esp),
          .push (.imm 1), .pop .eax, .leave, .ret,
          .global "main", .label (.named "main"), .push (.reg .ebp),
          .mov (.reg .ebp) (.reg .esp), .label (.L_cond 0), .push (.imm 1), .pop .eax,
          .cmp .eax (.imm 0), .je (.L_end 1), .jmp (.L_end 1), .jmp (.L_cond 0),
          .label (.L_end 1), .push (.imm 0), .pop .eax, .leave, .ret] }
    rfl rfl loop_program_run).2.2
    [.global "main", .label (.named "main"), .push (.reg .ebp),
          .mov (.reg .ebp) (.reg .esp), .label (.L_cond 0), .push (.imm 1), .pop .eax,
          .cmp .eax (.imm 0), .je (.L_end 1), .jmp (.L_end 1), .jmp (.L_cond 0),
          .label (.L_end 1), .push (.imm 0), .pop .eax, .leave, .ret]
    (by rw [loop_program_texts]; decide) (.jmp (.L_end 1)) (by decide) (.L_end 1) rfl

/-! ## 32-bit arithmetic -/

theorem word_eq_emod (x : Int) : ((word x : Nat) : Int) = x % 4294967296 := by
  unfold word
  omega

theorem signed_word_of_range (a : Int) (h1 : -2147483648 ≤ a) (h2 : a < 2147483648) :
    signed (word a) = a := by
  have := word_eq_emod a
  unfold signed
  split_ifs <;> omega

theorem wrap_range (n : Int) : -2147483648 ≤ wrap n ∧ wrap n < 2147483648 := by
  have := word_eq_emod n
  unfold wrap signed
  split_ifs <;> omega

theorem word_wrap (n : Int) : word (wrap n) = word n := by
  have h1 := word_eq_emod n
  have h2 := word_eq_emod (wrap n)
  have : ((word (wrap n) : Nat) : Int) = ((word n : Nat) : Int) := by
    rw [h2]
    unfold wrap signed
    split_ifs <;> omega
  exact_mod_cast this

theorem word_add_words (a b : Int) : word (((word a + word b : Nat) : Int)) = word (a + b) := by
  have h1 := word_eq_emod a
  have h2 := word_eq_emod b
  have h3 := word_eq_emod (a + b)
  have h4 := word_eq_emod (((word a + word b : Nat) : Int))
  have : ((word (((word a + word b : Nat) : Int)) : Nat) : Int) = ((word (a + b) : Nat) : Int) := by
    rw [h4, h3]; push_cast; omega
  exact_mod_cast this

theorem word_sub_words (a b : Int) :
    word (((word a : Nat) : Int) - ((word b : Nat) : Int)) = word (a - b) := by
  have h1 := word_eq_emod a
  have h2 := word_eq_emod b
  have h3 := word_eq_emod (a - b)
  have h4 := word_eq_emod (((word a : Nat) : Int) - ((word b : Nat) : Int))
  have : ((word (((word a : Nat) : Int) - ((word b : Nat) : Int)) : Nat) : Int) =
      ((word (a - b) : Nat) : Int) := by
    rw [h4, h3]; omega
  exact_mod_cast this

theorem word_neg_word (a : Int) : word (-((word a : Nat) : Int)) = word (-a) := by
  have h1 := word_eq_emod a
  have h3 := word_eq_emod (-a)
  have h4 := word_eq_emod (-((word a : Nat) : Int))
  have : ((word (-((word a : Nat) : Int)) : Nat) : Int) = ((word (-a) : Nat) : Int) := by
    rw [h4, h3]; omega
  exact_mod_cast this

theorem word_not (a : Int) : 4294967295 - word a = word (Int.not a) := by
  have h1 := word_eq_emod a
  have h3 := word_eq_emod (Int.not a)
  have hnot : Int.not a = -a - 1 := by
    cases a with
    | ofNat n =>
      show Int.negSucc n = -(n : Int) - 1
      rw [Int.negSucc_eq]; omega
    | negSucc n =>
      show (n : Int) = -(Int.negSucc n) - 1
      rw [Int.negSucc_eq]; omega
  rw [hnot] at h3
  have : (((4294967295 - word a : Nat)) : Int) = ((word (Int.not a) : Nat) : Int) := by
    rw [hnot, h3]; omega
  exact_mod_cast this

theorem word_testBit (x : Int) (i : Nat) :
    (word x).testBit i = (decide (i < 32) && x.testBit i) := by
  cases x with
  | ofNat n =>
    have hw : word (Int.ofNat n) = n % 2 ^ 32 := by
      have := word_eq_emod (Int.ofNat n)
      simp only [Int.ofNat_eq_coe] at this ⊢
      omega
    rw [hw, Nat.testBit_mod_two_pow]
    rfl
  | negSucc n =>
    have hw : word (Int.negSucc n) = 2 ^ 32 - (n % 2 ^ 32 + 1) := by
      have := word_eq_emod (Int.negSucc n)
      rw [Int.negSucc_eq] at this ⊢
      omega
    rw [hw, Nat.testBit_two_pow_sub_succ (Nat.mod_lt _ (by norm_num)),
      Nat.testBit_mod_two_pow]
    show _ = (decide (i < 32) && !n.testBit i)
    cases decide (i < 32) <;> simp

theorem word_land (a b : Int) : word (Int.land a b) = word a &&& word b := by
  apply Nat.eq_of_testBit_eq
  intro i
  rw [Nat.testBit_and, word_testBit, word_testBit, word_testBit, Int.testBit_land]
  cases decide (i < 32) <;> simp

theorem word_lor (a b : Int) : word (Int.lor a b) = word a ||| word b := by
  apply Nat.eq_of_testBit_eq
  intro i
  rw [Nat.testBit_or, word_testBit, word_testBit, word_testBit, Int.testBit_lor]
  cases decide (i < 32) <;> simp

theorem word_xor (a b : Int) : word (Int.xor a b) = word a ^^^ word b := by
  apply Nat.eq_of_testBit_eq
  intro i
  rw [Nat.testBit_xor, word_testBit, word_testBit, word_testBit, Int.testBit_lxor]
  cases decide (i < 32) <;> simp

theorem range_cases (a : Int) (h1 : -2147483648 ≤ a) (h2 : a < 2147483648) :
    (∃ m : Nat, a = Int.ofNat m ∧ m < 2 ^ 31) ∨ (∃ m : Nat, a = Int.negSucc m ∧ m < 2 ^ 31) := by
  cases a with
  | ofNat m =>
    left
    refine ⟨m, rfl, ?_⟩
    simp only [Int.ofNat_eq_coe] at h2
    omega
  | negSucc m =>
    right
    refine ⟨m, rfl, ?_⟩
    rw [Int.negSucc_eq] at h1
    omega

theorem range_ofNat (m : Nat) (h : m < 2 ^ 31) :
    -2147483648 ≤ Int.ofNat m ∧ Int.ofNat m < 2147483648 := by
  simp only [Int.ofNat_eq_coe]
  omega

theorem range_negSucc (m : Nat) (h : m < 2 ^ 31) :
    -2147483648 ≤ Int.negSucc m ∧ Int.negSucc m < 2147483648 := by
  rw [Int.negSucc_eq]
  omega

theorem ldiff_lt (m n : Nat) (hm : m < 2 ^ 31) (hn : n < 2 ^ 31) : Nat.ldiff m n < 2 ^ 31 :=
  Nat.bitwise_lt_two_pow hm hn

theorem land_range (a b : Int) (ha1 : -2147483648 ≤ a) (ha2 : a < 2147483648)
    (hb1 : -2147483648 ≤ b) (hb2 : b < 2147483648) :
    -2147483648 ≤ Int.land a b ∧ Int.land a b < 2147483648 := by
  rcases range_cases a ha1 ha2 with ⟨m, rfl, hm⟩ | ⟨m, rfl, hm⟩ <;>
    rcases range_cases b hb1 hb2 with ⟨n, rfl, hn⟩ | ⟨n, rfl, hn⟩
  · exact range_ofNat _ (Nat.and_lt_two_pow _ hn)
  · exact range_ofNat _ (ldiff_lt _ _ hm hn)
  · exact range_ofNat _ (ldiff_lt _ _ hn hm)
  · exact range_negSucc _ (Nat.or_lt_two_pow hm hn)

theorem lor_range (a b : Int) (ha1 : -2147483648 ≤ a) (ha2 : a < 2147483648)
    (hb1 : -2147483648 ≤ b) (hb2 : b < 2147483648) :
    -2147483648 ≤ Int.lor a b ∧ Int.lor a b < 2147483648 := by
  rcases range_cases a ha1 ha2 with ⟨m, rfl, hm⟩ | ⟨m, rfl, hm⟩ <;>
    rcases range_cases b hb1 hb2 with ⟨n, rfl, hn⟩ | ⟨n, rfl, hn⟩
  · exact range_ofNat _ (Nat.or_lt_two_pow hm hn)
  · exact range_negSucc _ (ldiff_lt _ _ hn hm)
  · exact range_negSucc _ (ldiff_lt _ _ hm hn)
  · exact range_negSucc _ (Nat.and_lt_two_pow _ hn)

theorem xor_range (a b : Int) (ha1 : -2147483648 ≤ a) (ha2 : a < 2147483648)
    (hb1 : -2147483648 ≤ b) (hb2 : b < 2147483648) :
    -2147483648 ≤ Int.xor a b ∧ Int.xor a b < 2147483648 := by
  rcases range_cases a ha1 ha2 with ⟨m, rfl, hm⟩ | ⟨m, rfl, hm⟩ <;>
    rcases range_cases b hb1 hb2 with ⟨n, rfl, hn⟩ | ⟨n, rfl, hn⟩
  · exact range_ofNat _ (Nat.xor_lt_two_pow hm hn)
  · exact range_negSucc _ (Nat.xor_lt_two_pow hm hn)
  · exact range_negSucc _ (Nat.xor_lt_two_pow hm hn)
  · exact range_ofNat _ (Nat.xor_lt_two_pow hm hn)

theorem not_range (a : Int) (ha1 : -2147483648 ≤ a) (ha2 : a < 2147483648) :
    -2147483648 ≤ Int.not a ∧ Int.not a < 2147483648 := by
  rcases range_cases a ha1 ha2 with ⟨m, rfl, hm⟩ | ⟨m, rfl, hm⟩
  · exact range_negSucc _ hm
  · exact range_ofNat _ hm

theorem tdiv_range (a b : Int) (ha1 : -2147483648 ≤ a) (ha2 : a < 2147483648)
    (hb : b ≠ 0) (hov : ¬ (a = -2147483648 ∧ b = -1)) :
    -2147483648 ≤ Int.tdiv a b ∧ Int.tdiv a b < 2147483648 := by
  have habs : (Int.tdiv a b).natAbs = a.natAbs / b.natAbs := Int.natAbs_tdiv a b
  have hb1 : 1 ≤ b.natAbs := Int.natAbs_pos.mpr hb
  have hle : a.natAbs / b.natAbs ≤ a.natAbs := Nat.div_le_self _ _
  have ha : a.natAbs ≤ 2147483648 := by omega
  refine ⟨by omega, ?_⟩
  by_contra hcon
  have h1 : (Int.tdiv a b).natAbs = 2147483648 := by omega
  have h2 : a.natAbs = 2147483648 := by omega
  have ha3 : a = -2147483648 := by omega
  have h3 : b.natAbs = 1 := by
    by_contra hne
    have h2b : 2 ≤ b.natAbs := by omega
    have : a.natAbs / b.natAbs ≤ a.natAbs / 2 := Nat.div_le_div_left h2b (by norm_num)
    omega
  have hb2 : b = 1 ∨ b = -1 := by omega
  rcases hb2 with rfl | rfl
  · rw [Int.tdiv_one] at hcon
    omega
  · exact hov ⟨ha3, rfl⟩

theorem tmod_range (a b : Int) (ha1 : -2147483648 ≤ a) (ha2 : a < 2147483648) :
    -2147483648 ≤ Int.tmod a b ∧ Int.tmod a b < 2147483648 := by
  rcases a with m | m <;> rcases b with n | n
  · have h := Nat.mod_le m n
    show -2147483648 ≤ ((m % n : Nat) : Int) ∧ ((m % n : Nat) : Int) < 2147483648
    simp only [Int.ofNat_eq_coe] at ha2
    omega
  · have h := Nat.mod_le m (n + 1)
    show -2147483648 ≤ ((m % (n + 1) : Nat) : Int) ∧ ((m % (n + 1) : Nat) : Int) < 2147483648
    simp only [Int.ofNat_eq_coe] at ha2
    omega
  · have h := Nat.mod_le (m + 1) n
    show -2147483648 ≤ -(((m + 1) % n : Nat) : Int) ∧ -(((m + 1) % n : Nat) : Int) < 2147483648
    rw [Int.negSucc_eq] at ha1
    omega
  · have h := Nat.mod_le (m + 1) (n + 1)
    show -2147483648 ≤ -(((m + 1) % (n + 1) : Nat) : Int) ∧
      -(((m + 1) % (n + 1) : Nat) : Int) < 2147483648
    rw [Int.negSucc_eq] at ha1
    omega

/-! ## Expression code computes the value -/

theorem lines_append (a b : List Instr) (m : Machine) :
    Machine.lines (a ++ b) m = (Machine.lines a m).bind (Machine.lines b) := by
  induction a generalizing m with
  | nil => rfl
  | cons i rest ih =>
    simp only [List.cons_append, Machine.lines]
    cases m.line i with
    | none => rfl
    | some m1 => exact ih m1

theorem word_cast_of_lt (n : Nat) (h : n < 4294967296) : word (n : Int) = n := by
  have := word_eq_emod (n : Int)
  omega

theorem word_add_casts (a b : Int) :
    word (((word a : Nat) : Int) + ((word b : Nat) : Int)) = word (a + b) := by
  have h1 := word_eq_emod a
  have h2 := word_eq_emod b
  have h3 := word_eq_emod (a + b)
  have h4 := word_eq_emod (((word a : Nat) : Int) + ((word b : Nat) : Int))
  have : ((word (((word a : Nat) : Int) + ((word b : Nat) : Int)) : Nat) : Int) =
      ((word (a + b) : Nat) : Int) := by
    rw [h4, h3]; omega
  exact_mod_cast this

theorem word_inj_of_range {a b : Int} (ha1 : -2147483648 ≤ a) (ha2 : a < 2147483648)
    (hb1 : -2147483648 ≤ b) (hb2 : b < 2147483648) : word a = word b ↔ a = b := by
  constructor
  · intro h
    have h1 := signed_word_of_range a ha1 ha2
    have h2 := signed_word_of_range b hb1 hb2
    rw [← h1, ← h2, h]
  · intro h
    rw [h]

theorem setcc_movzx (x : Nat) (c : Bool) :
    (x - x % 256 + (if c = true then 1 else 0)) % 256 = if c = true then 1 else 0 := by
  cases c <;> simp <;> omega

theorem word_bit (c : Prop) [Decidable c] :
    word (if c then 1 else 0) = if c then 1 else 0 := by
  split_ifs <;> decide

theorem word_esp_pop (esp : Nat) (h4 : esp + 4 < 4294967296) :
    word ((esp : Int) + 4) = esp + 4 := by
  have := word_eq_emod ((esp : Int) + 4)
  omega

theorem unary_tail (code : List Instr) (a r : Int)
    (hcode : ∀ m : Machine, m.eax = word a →
      ∃ m1, Machine.lines code m = some m1 ∧ m1.eax = word r ∧ m1.esp = m.esp ∧
        m1.memory = m.memory)
    (m : Machine) (h1 : m.memory m.esp = word a) (hesp : m.esp + 4 < 4294967296) :
    ∃ m1, Machine.lines ([Instr.pop .eax] ++ code ++ [Instr.push (.reg .eax)]) m = some m1 ∧
      m1.esp = m.esp ∧ m1.memory m1.esp = word r ∧
      ∀ addr, addr ≠ m.esp → m1.memory addr = m.memory addr := by
  rw [lines_append, lines_append]
  simp only [Machine.lines, Machine.line, Machine.step, List.get?, Machine.advance, Machine.set,
    Option.some_bind]
  obtain ⟨m1, hm1, he, hs, hmem⟩ := hcode
    { m with esp := word (m.esp + 4), eax := m.memory m.esp, pc := m.pc + 1 } h1
  rw [hm1]
  simp only [Option.some_bind, Machine.lines, Machine.line, Machine.step, List.get?,
    Machine.advance, Machine.read, Machine.get, Machine.push, Machine.store]
  simp only at hs hmem
  have hw : word ((word ((m.esp : Int) + 4) : Nat) - 4) = m.esp := by
    rw [word_esp_pop m.esp hesp, ]
    have := word_eq_emod ((((m.esp + 4 : Nat) : Int)) - 4)
    omega
  refine ⟨_, rfl, ?_, ?_, ?_⟩
  · simp only [hs, hw]
  · simp only [hs, hw, if_true, he]
  · intro addr haddr
    simp only [hs, hw, if_neg haddr, hmem]

theorem binary_tail (code : List Instr) (a b r : Int)
    (hcode : ∀ m : Machine, m.eax = word a → m.ebx = word b →
      ∃ m1, Machine.lines code m = some m1 ∧ m1.eax = word r ∧ m1.esp = m.esp ∧
        m1.memory = m.memory)
    (m : Machine) (h1 : m.memory m.esp = word a) (h2 : m.memory (m.esp + 4) = word b)
    (hesp : m.esp + 8 < 4294967296) :
    ∃ m1, Machine.lines ([Instr.pop .eax, Instr.pop .ebx] ++ code ++
        [Instr.push (.reg .eax)]) m = some m1 ∧
      m1.esp = m.esp + 4 ∧ m1.memory m1.esp = word r ∧
      ∀ addr, addr ≠ m.esp + 4 → m1.memory addr = m.memory addr := by
  rw [lines_append, lines_append]
  simp only [Machine.lines, Machine.line, Machine.step, List.get?, Machine.advance, Machine.set,
    Option.some_bind]
  have hp1 : word ((m.esp : Int) + 4) = m.esp + 4 := word_esp_pop m.esp (by omega)
  have hp2 : word (((m.esp + 4 : Nat) : Int) + 4) = m.esp + 8 := by
    have := word_eq_emod (((m.esp + 4 : Nat) : Int) + 4)
    omega
  rw [hp1, hp2]
  obtain ⟨m1, hm1, he, hs, hmem⟩ := hcode
    { m with esp := m.esp + 8, eax := m.memory m.esp, ebx := m.memory (m.esp + 4),
             pc := m.pc + 1 + 1 } h1 h2
  rw [hm1]
  simp only [Option.some_bind, Machine.lines, Machine.line, Machine.step, List.get?,
    Machine.advance, Machine.read, Machine.get, Machine.push, Machine.store]
  simp only at hs hmem
  have hw : word (((m.esp + 8 : Nat) : Int) - 4) = m.esp + 4 := by
    have := word_eq_emod ((((m.esp + 8 : Nat) : Int)) - 4)
    omega
  refine ⟨_, rfl, ?_, ?_, ?_⟩
  · simp only [hs, hw]
  · simp only [hs, hw, if_true, he]
  · intro addr haddr
    simp only [hs, hw, if_neg haddr, hmem]

theorem unary_code_computes (op : String) (a r : Int) (h : unary_value op a = some r)
    (ha1 : -2147483648 ≤ a) (ha2 : a < 2147483648) (m : Machine) (he : m.eax = word a) :
    ∃ m1, Machine.lines (unary_operation op GenState.initial).2.out m = some m1 ∧
      m1.eax = word r ∧ m1.esp = m.esp ∧ m1.memory = m.memory := by
  unfold unary_value at h
  by_cases h1 : op = "-"
  · rw [if_pos h1] at h
    subst h1
    injection h with h
    subst h
    have hc : (unary_operation "-" GenState.initial).2.out = [.neg .eax] := by decide
    rw [hc]
    simp only [Machine.lines, Machine.line, Machine.step, List.get?, Machine.advance,
      Machine.set, Machine.get, Machine.arith]
    exact ⟨_, rfl, by simp only [he, word_wrap, word_neg_word], rfl, rfl⟩
  rw [if_neg h1] at h
  by_cases h2 : op = "~"
  · rw [if_pos h2] at h
    subst h2
    injection h with h
    subst h
    have hc : (unary_operation "~" GenState.initial).2.out = [.not_ .eax] := by decide
    rw [hc]
    simp only [Machine.lines, Machine.line, Machine.step, List.get?, Machine.advance,
      Machine.set, Machine.get]
    exact ⟨_, rfl, by simp only [he, word_not], rfl, rfl⟩
  rw [if_neg h2] at h
  by_cases h3 : op = "!"
  · rw [if_pos h3] at h
    subst h3
    injection h with h
    subst h
    have hc : (unary_operation "!" GenState.initial).2.out =
        [.cmp .eax (.imm 0), .setcc .e, .movzx_eax_al] := by decide
    rw [hc]
    simp only [Machine.lines, Machine.line, Machine.step, List.get?, Machine.advance,
      Machine.set, Machine.get, Machine.read, CC.holds]
    refine ⟨_, rfl, ?_, rfl, rfl⟩
    simp only [he]
    rw [setcc_movzx]
    have hiff := word_inj_of_range ha1 ha2 (b := 0) (by norm_num) (by norm_num)
    by_cases ha : a = 0
    · subst ha
      decide
    · have hne : ¬ word a = word 0 := fun h => ha (hiff.mp h)
      rw [if_neg ha]
      simp only [hne, decide_False, Bool.false_eq_true, if_false]
      decide
  · rw [if_neg h3] at h
    exact absurd h (Option.noConfusion)

theorem compare_code (c : CC) (a b : Int) (P : Prop) [Decidable P]
    (hiff : c.holds (word a) (word b) = decide P)
    (m : Machine) (he : m.eax = word a) (hb : m.ebx = word b) :
    ∃ m1, Machine.lines [.cmp .eax (.reg .ebx), .setcc c, .movzx_eax_al] m = some m1 ∧
      m1.eax = word (if P then 1 else 0) ∧ m1.esp = m.esp ∧ m1.memory = m.memory := by
  simp only [Machine.lines, Machine.line, Machine.step, List.get?, Machine.advance,
    Machine.set, Machine.get, Machine.read]
  refine ⟨_, rfl, ?_, rfl, rfl⟩
  simp only [he, hb, hiff]
  rw [setcc_movzx, word_bit]
  by_cases hp : P <;> simp [hp]

theorem bitwise_code (i : Instr) (a b r : Int) (f : Nat → Nat → Nat)
    (hstep : ∀ m : Machine, m.line i = some
      { m with eax := word ((f m.eax m.ebx : Nat) : Int), flags := none, pc := m.pc + 1 })
    (hf : f (word a) (word b) = word r)
    (m : Machine) (he : m.eax = word a) (hb : m.ebx = word b) :
    ∃ m1, Machine.lines [i] m = some m1 ∧
      m1.eax = word r ∧ m1.esp = m.esp ∧ m1.memory = m.memory := by
  simp only [Machine.lines, hstep]
  refine ⟨_, rfl, ?_, rfl, rfl⟩
  simp only [he, hb, hf]
  exact word_cast_of_lt _ (word_lt r)

theorem cdq_dividend (a : Int) (ha1 : -2147483648 ≤ a) (ha2 : a < 2147483648) :
    (if (if word a < 2147483648 then 0 else 4294967295) < 2147483648 then
        (((if word a < 2147483648 then 0 else 4294967295) * 4294967296 + word a : Nat) : Int)
      else
        (((if word a < 2147483648 then 0 else 4294967295) * 4294967296 + word a : Nat) : Int) -
          18446744073709551616) = a := by
  have h := word_eq_emod a
  by_cases hlt : word a < 2147483648
  · simp only [hlt, if_true]
    norm_num
    omega
  · simp only [hlt, if_false]
    norm_num
    omega

theorem divide_code (a b : Int) (ha1 : -2147483648 ≤ a) (ha2 : a < 2147483648)
    (hb1 : -2147483648 ≤ b) (hb2 : b < 2147483648)
    (hdef : ¬ (b = 0 ∨ (a = -2147483648 ∧ b = -1)))
    (m : Machine) (he : m.eax = word a) (hb : m.ebx = word b) :
    (∃ m1, Machine.lines [.cdq, .idiv .ebx] m = some m1 ∧
      m1.eax = word (Int.tdiv a b) ∧ m1.esp = m.esp ∧ m1.memory = m.memory) ∧
    (∃ m1, Machine.lines [.cdq, .idiv .ebx, .mov (.reg .eax) (.reg .edx)] m = some m1 ∧
      m1.eax = word (Int.tmod a b) ∧ m1.esp = m.esp ∧ m1.memory = m.memory) := by
  have hb0 : ¬ b = 0 := fun h => hdef (Or.inl h)
  have hov : ¬ (a = -2147483648 ∧ b = -1) := fun h => hdef (Or.inr h)
  have hr := tdiv_range a b ha1 ha2 hb0 hov
  have hfault : ¬ (Int.tdiv a b < -2147483648 ∨ 2147483647 < Int.tdiv a b) := by omega
  constructor
  · simp only [Machine.lines, Machine.line, Machine.step, List.get?, Machine.advance,
      Machine.set, Machine.get, Machine.read, he, hb, cdq_dividend a ha1 ha2,
      signed_word_of_range b hb1 hb2, if_neg hb0, if_neg hfault]
    exact ⟨_, rfl, rfl, rfl, rfl⟩
  · simp only [Machine.lines, Machine.line, Machine.step, List.get?, Machine.advance,
      Machine.set, Machine.get, Machine.read, Machine.write, he, hb, cdq_dividend a ha1 ha2,
      signed_word_of_range b hb1 hb2, if_neg hb0, if_neg hfault]
    exact ⟨_, rfl, rfl, rfl, rfl⟩

theorem holds_iff (c : CC) (a b : Int) (ha1 : -2147483648 ≤ a) (ha2 : a < 2147483648)
    (hb1 : -2147483648 ≤ b) (hb2 : b < 2147483648) :
    c.holds (word a) (word b) =
      match c with
      | .e => decide (a = b)
      | .ne => decide (a ≠ b)
      | .l => decide (a < b)
      | .le => decide (a ≤ b)
      | .g => decide (a > b)
      | .ge => decide (a ≥ b) := by
  have hiff := word_inj_of_range ha1 ha2 hb1 hb2
  cases c <;>
    simp only [CC.holds, signed_word_of_range a ha1 ha2, signed_word_of_range b hb1 hb2,
      decide_eq_decide, hiff, ne_eq, not_iff_not]

theorem binary_code_computes (op : String) (a b r : Int) (h : binary_value op a b = some r)
    (ha1 : -2147483648 ≤ a) (ha2 : a < 2147483648)
    (hb1 : -2147483648 ≤ b) (hb2 : b < 2147483648)
    (m : Machine) (he : m.eax = word a) (hb : m.ebx = word b) :
    ∃ m1, Machine.lines (binary_operation op GenState.initial).2.out m = some m1 ∧
      m1.eax = word r ∧ m1.esp = m.esp ∧ m1.memory = m.memory := by
  unfold binary_value at h
  by_cases h0 : op = "+"
  · rw [if_pos h0] at h
    subst h0
    have hc : (binary_operation "+" GenState.initial).2.out = [.add .eax (.reg .ebx)] := by decide
    rw [hc]
    injection h with h
    subst h
    simp only [Machine.lines, Machine.line, Machine.step, List.get?, Machine.advance,
      Machine.set, Machine.get, Machine.read, Machine.arith]
    exact ⟨_, rfl, by simp only [he, hb, word_wrap, word_add_casts], rfl, rfl⟩
  rw [if_neg h0] at h
  by_cases h1 : op = "-"
  · rw [if_pos h1] at h
    subst h1
    have hc : (binary_operation "-" GenState.initial).2.out = [.sub .eax (.reg .ebx)] := by decide
    rw [hc]
    injection h with h
    subst h
    simp only [Machine.lines, Machine.line, Machine.step, List.get?, Machine.advance,
      Machine.set, Machine.get, Machine.read, Machine.arith]
    exact ⟨_, rfl, by simp only [he, hb, word_wrap, word_sub_words], rfl, rfl⟩
  rw [if_neg h1] at h
  by_cases h2 : op = "*"
  · rw [if_pos h2] at h
    subst h2
    have hc : (binary_operation "*" GenState.initial).2.out = [.imul .eax (.reg .ebx)] := by decide
    rw [hc]
    injection h with h
    subst h
    simp only [Machine.lines, Machine.line, Machine.step, List.get?, Machine.advance,
      Machine.set, Machine.get, Machine.read, Machine.arith]
    exact ⟨_, rfl, by simp only [he, hb, word_wrap, signed_word_of_range a ha1 ha2,
      signed_word_of_range b hb1 hb2], rfl, rfl⟩
  rw [if_neg h2] at h
  by_cases h3 : op = "/"
  · rw [if_pos h3] at h
    subst h3
    have hc : (binary_operation "/" GenState.initial).2.out = [.cdq, .idiv .ebx] := by decide
    rw [hc]
    by_cases hg : b = 0 ∨ (a = -2147483648 ∧ b = -1)
    · rw [if_pos hg] at h
      exact absurd h Option.noConfusion
    · rw [if_neg hg] at h
      injection h with h
      subst h
      exact (divide_code a b ha1 ha2 hb1 hb2 hg m he hb).1
  rw [if_neg h3] at h
  by_cases h4 : op = "%"
  · rw [if_pos h4] at h
    subst h4
    have hc : (binary_operation "%" GenState.initial).2.out = [.cdq, .idiv .ebx, .mov (.reg .eax) (.reg .edx)] := by decide
    rw [hc]
    by_cases hg : b = 0 ∨ (a = -2147483648 ∧ b = -1)
    · rw [if_pos hg] at h
      exact absurd h Option.noConfusion
    · rw [if_neg hg] at h
      injection h with h
      subst h
      exact (divide_code a b ha1 ha2 hb1 hb2 hg m he hb).2
  rw [if_neg h4] at h
  by_cases h5 : op = "&"
  · rw [if_pos h5] at h
    subst h5
    have hc : (binary_operation "&" GenState.initial).2.out = [.and_ .eax (.reg .ebx)] := by decide
    rw [hc]
    injection h with h
    subst h
    exact bitwise_code (Instr.and_ .eax (.reg .ebx)) a b _ (fun x y => x &&& y) (fun _ => rfl) (word_land a b).symm m he hb
  rw [if_neg h5] at h
  by_cases h6 : op = "|"
  · rw [if_pos h6] at h
    subst h6
    have hc : (binary_operation "|" GenState.initial).2.out = [.or_ .eax (.reg .ebx)] := by decide
    rw [hc]
    injection h with h
    subst h
    exact bitwise_code (Instr.or_ .eax (.reg .ebx)) a b _ (fun x y => x ||| y) (fun _ => rfl) (word_lor a b).symm m he hb
  rw [if_neg h6] at h
  by_cases h7 : op = "^"
  · rw [if_pos h7] at h
    subst h7
    have hc : (binary_operation "^" GenState.initial).2.out = [.xor_ .eax (.reg .ebx)] := by decide
    rw [hc]
    injection h with h
    subst h
    exact bitwise_code (Instr.xor_ .eax (.reg .ebx)) a b _ (fun x y => x ^^^ y) (fun _ => rfl) (word_xor a b).symm m he hb
  rw [if_neg h7] at h
  by_cases h8 : op = "=="
  · rw [if_pos h8] at h
    subst h8
    have hc : (binary_operation "==" GenState.initial).2.out = [.cmp .eax (.reg .ebx), .setcc .e, .movzx_eax_al] := by decide
    rw [hc]
    injection h with h
    subst h
    exact compare_code CC.e a b (a = b) (holds_iff CC.e a b ha1 ha2 hb1 hb2) m he hb
  rw [if_neg h8] at h
  by_cases h9 : op = "!="
  · rw [if_pos h9] at h
    subst h9
    have hc : (binary_operation "!=" GenState.initial).2.out = [.cmp .eax (.reg .ebx), .setcc .ne, .movzx_eax_al] := by decide
    rw [hc]
    injection h with h
    subst h
    exact compare_code CC.ne a b (a ≠ b) (holds_iff CC.ne a b ha1 ha2 hb1 hb2) m he hb
  rw [if_neg h9] at h
  by_cases h10 : op = "<"
  · rw [if_pos h10] at h
    subst h10
    have hc : (binary_operation "<" GenState.initial).2.out = [.cmp .eax (.reg .ebx), .setcc .l, .movzx_eax_al] := by decide
    rw [hc]
    injection h with h
    subst h
    exact compare_code CC.l a b (a < b) (holds_iff CC.l a b ha1 ha2 hb1 hb2) m he hb
  rw [if_neg h10] at h
  by_cases h11 : op = "<="
  · rw [if_pos h11] at h
    subst h11
    have hc : (binary_operation "<=" GenState.initial).2.out = [.cmp .eax (.reg .ebx), .setcc .le, .movzx_eax_al] := by decide
    rw [hc]
    injection h with h
    subst h
    exact compare_code CC.le a b (a ≤ b) (holds_iff CC.le a b ha1 ha2 hb1 hb2) m he hb
  rw [if_neg h11] at h
  by_cases h12 : op = ">"
  · rw [if_pos h12] at h
    subst h12
    have hc : (binary_operation ">" GenState.initial).2.out = [.cmp .eax (.reg .ebx), .setcc .g, .movzx_eax_al] := by decide
    rw [hc]
    injection h with h
    subst h
    exact compare_code CC.g a b (a > b) (holds_iff CC.g a b ha1 ha2 hb1 hb2) m he hb
  rw [if_neg h12] at h
  by_cases h13 : op = ">="
  · rw [if_pos h13] at h
    subst h13
    have hc : (binary_operation ">=" GenState.initial).2.out = [.cmp .eax (.reg .ebx), .setcc .ge, .movzx_eax_al] := by decide
    rw [hc]
    injection h with h
    subst h
    exact compare_code CC.ge a b (a ≥ b) (holds_iff CC.ge a b ha1 ha2 hb1 hb2) m he hb
  rw [if_neg h13] at h
  exact absurd h Option.noConfusion

theorem unary_operation_run (op : String) (s : GenState) :
    unary_operation op s =
      (.ok (), { s with out := s.out ++ (unary_operation op GenState.initial).2.out }) := by
  unfold unary_operation
  split_ifs <;>
    simp only [bind_run, emit_run, pure_run, GenState.initial, List.nil_append, List.append_nil,
      List.append_assoc]

theorem binary_operation_run (op : String) (s : GenState) :
    binary_operation op s =
      (.ok (), { s with out := s.out ++ (binary_operation op GenState.initial).2.out }) := by
  unfold binary_operation
  by_cases c0 : op = "+"
  · simp only [if_pos c0]
    simp only [bind_run, emit_run, pure_run, GenState.initial, List.nil_append,
      List.append_nil, List.append_assoc]
  simp only [if_neg c0]
  by_cases c1 : op = "-"
  · simp only [if_pos c1]
    simp only [bind_run, emit_run, pure_run, GenState.initial, List.nil_append,
      List.append_nil, List.append_assoc]
  simp only [if_neg c1]
  by_cases c2 : op = "*"
  · simp only [if_pos c2]
    simp only [bind_run, emit_run, pure_run, GenState.initial, List.nil_append,
      List.append_nil, List.append_assoc]
  simp only [if_neg c2]
  by_cases c3 : op = "/" ∨ op = "%"
  · simp only [if_pos c3]
    by_cases d : op = "%"
    · simp only [if_pos d]
      simp only [bind_run, emit_run, pure_run, GenState.initial, List.nil_append,
      List.append_nil, List.append_assoc]
    · simp only [if_neg d]
      simp only [bind_run, emit_run, pure_run, GenState.initial, List.nil_append,
      List.append_nil, List.append_assoc]
  simp only [if_neg c3]
  by_cases c4 : op = "&&"
  · simp only [if_pos c4]
    simp only [bind_run, emit_run, pure_run, GenState.initial, List.nil_append,
      List.append_nil, List.append_assoc]
  simp only [if_neg c4]
  by_cases c5 : op = "||"
  · simp only [if_pos c5]
    simp only [bind_run, emit_run, pure_run, GenState.initial, List.nil_append,
      List.append_nil, List.append_assoc]
  simp only [if_neg c5]
  by_cases c6 : op = "&"
  · simp only [if_pos c6]
    simp only [bind_run, emit_run, pure_run, GenState.initial, List.nil_append,
      List.append_nil, List.append_assoc]
  simp only [if_neg c6]
  by_cases c7 : op = "|"
  · simp only [if_pos c7]
    simp only [bind_run, emit_run, pure_run, GenState.initial, List.nil_append,
      List.append_nil, List.append_assoc]
  simp only [if_neg c7]
  by_cases c8 : op = "^"
  · simp only [if_pos c8]
    simp only [bind_run, emit_run, pure_run, GenState.initial, List.nil_append,
      List.append_nil, List.append_assoc]
  simp only [if_neg c8]
  by_cases c9 : op = "=="
  · simp only [if_pos c9]
    simp only [bind_run, emit_run, pure_run, GenState.initial, List.nil_append,
      List.append_nil, List.append_assoc]
  simp only [if_neg c9]
  by_cases c10 : op = "!="
  · simp only [if_pos c10]
    simp only [bind_run, emit_run, pure_run, GenState.initial, List.nil_append,
      List.append_nil, List.append_assoc]
  simp only [if_neg c10]
  by_cases c11 : op = "<"
  · simp only [if_pos c11]
    simp only [bind_run, emit_run, pure_run, GenState.initial, List.nil_append,
      List.append_nil, List.append_assoc]
  simp only [if_neg c11]
  by_cases c12 : op = "<="
  · simp only [if_pos c12]
    simp only [bind_run, emit_run, pure_run, GenState.initial, List.nil_append,
      List.append_nil, List.append_assoc]
  simp only [if_neg c12]
  by_cases c13 : op = ">"
  · simp only [if_pos c13]
    simp only [bind_run, emit_run, pure_run, GenState.initial, List.nil_append,
      List.append_nil, List.append_assoc]
  simp only [if_neg c13]
  by_cases c14 : op = ">="
  · simp only [if_pos c14]
    simp only [bind_run, emit_run, pure_run, GenState.initial, List.nil_append,
      List.append_nil, List.append_assoc]
  simp only [if_neg c14]
  simp only [bind_run, emit_run, pure_run, GenState.initial, List.nil_append,
      List.append_nil, List.append_assoc]

theorem unary_value_range (op : String) (a r : Int) (h : unary_value op a = some r)
    (ha1 : -2147483648 ≤ a) (ha2 : a < 2147483648) :
    -2147483648 ≤ r ∧ r < 2147483648 := by
  unfold unary_value at h
  by_cases h1 : op = "-"
  · rw [if_pos h1] at h
    injection h with h
    subst h
    exact wrap_range _
  rw [if_neg h1] at h
  by_cases h2 : op = "~"
  · rw [if_pos h2] at h
    injection h with h
    subst h
    exact not_range a ha1 ha2
  rw [if_neg h2] at h
  by_cases h3 : op = "!"
  · rw [if_pos h3] at h
    injection h with h
    subst h
    split_ifs <;> norm_num
  · rw [if_neg h3] at h
    exact absurd h Option.noConfusion

theorem bit_range (c : Prop) [Decidable c] :
    -2147483648 ≤ (if c then (1 : Int) else 0) ∧ (if c then (1 : Int) else 0) < 2147483648 := by
  split_ifs <;> norm_num

theorem binary_value_range (op : String) (a b r : Int) (h : binary_value op a b = some r)
    (ha1 : -2147483648 ≤ a) (ha2 : a < 2147483648)
    (hb1 : -2147483648 ≤ b) (hb2 : b < 2147483648) :
    -2147483648 ≤ r ∧ r < 2147483648 := by
  unfold binary_value at h
  by_cases h0 : op = "+"
  · rw [if_pos h0] at h; injection h with h; subst h; exact wrap_range _
  rw [if_neg h0] at h
  by_cases h1 : op = "-"
  · rw [if_pos h1] at h; injection h with h; subst h; exact wrap_range _
  rw [if_neg h1] at h
  by_cases h2 : op = "*"
  · rw [if_pos h2] at h; injection h with h; subst h; exact wrap_range _
  rw [if_neg h2] at h
  by_cases h3 : op = "/"
  · rw [if_pos h3] at h
    by_cases hg : b = 0 ∨ (a = -2147483648 ∧ b = -1)
    · rw [if_pos hg] at h; exact absurd h Option.noConfusion
    · rw [if_neg hg] at h; injection h with h; subst h
      exact tdiv_range a b ha1 ha2 (fun hb => hg (Or.inl hb)) (fun ho => hg (Or.inr ho))
  rw [if_neg h3] at h
  by_cases h4 : op = "%"
  · rw [if_pos h4] at h
    by_cases hg : b = 0 ∨ (a = -2147483648 ∧ b = -1)
    · rw [if_pos hg] at h; exact absurd h Option.noConfusion
    · rw [if_neg hg] at h; injection h with h; subst h
      exact tmod_range a b ha1 ha2
  rw [if_neg h4] at h
  by_cases h5 : op = "&"
  · rw [if_pos h5] at h; injection h with h; subst h; exact land_range a b ha1 ha2 hb1 hb2
  rw [if_neg h5] at h
  by_cases h6 : op = "|"
  · rw [if_pos h6] at h; injection h with h; subst h; exact lor_range a b ha1 ha2 hb1 hb2
  rw [if_neg h6] at h
  by_cases h7 : op = "^"
  · rw [if_pos h7] at h; injection h with h; subst h; exact xor_range a b ha1 ha2 hb1 hb2
  rw [if_neg h7] at h
  by_cases h8 : op = "=="
  · rw [if_pos h8] at h; injection h with h; subst h; exact bit_range _
  rw [if_neg h8] at h
  by_cases h9 : op = "!="
  · rw [if_pos h9] at h; injection h with h; subst h; exact bit_range _
  rw [if_neg h9] at h
  by_cases h10 : op = "<"
  · rw [if_pos h10] at h; injection h with h; subst h; exact bit_range _
  rw [if_neg h10] at h
  by_cases h11 : op = "<="
  · rw [if_pos h11] at h; injection h with h; subst h; exact bit_range _
  rw [if_neg h11] at h
  by_cases h12 : op = ">"
  · rw [if_pos h12] at h; injection h with h; subst h; exact bit_range _
  rw [if_neg h12] at h
  by_cases h13 : op = ">="
  · rw [if_pos h13] at h; injection h with h; subst h; exact bit_range _
  rw [if_neg h13] at h
  exact absurd h Option.noConfusion

theorem binary_value_not_assign (a b : Int) : binary_value "=" a b = none := by
  unfold binary_value
  simp

theorem word_esp_push (esp : Nat) (h : 4 ≤ esp) (h4 : esp < 4294967296) :
    word ((esp : Int) - 4) = esp - 4 := by
  have := word_eq_emod ((esp : Int) - 4)
  omega

theorem computes_integer (value : Int) : Computes [.push (.imm value)] (wrap value) 1 := by
  intro m hesp hroom
  simp only [Machine.lines, Machine.line, Machine.step, List.get?, Machine.advance,
    Machine.read, Machine.push, Machine.store]
  have hw := word_esp_push m.esp (by omega) hesp
  refine ⟨_, rfl, ?_, ?_, ?_⟩
  · simp only [hw]; omega
  · simp only [hw, if_true, word_wrap]
  · intro a ha
    have : ¬ a = m.esp - 4 := by omega
    simp only [hw, if_neg this]

theorem Expression.computes : ∀ (e : Expression) (v : Int), e.value = some v →
    (-2147483648 ≤ v ∧ v < 2147483648) ∧
    ∃ code : List Instr,
      (∀ s : GenState, e.codegen s = (.ok (), { s with out := s.out ++ code })) ∧
      Computes code v e.stack_need
  | .Integer value, v, h => by
    simp only [Expression.value, Option.some.injEq] at h
    subst h
    exact ⟨wrap_range _, [.push (.imm value)], fun s => rfl, computes_integer value⟩
  | .Identifier name, v, h => by
    simp only [Expression.value] at h
    exact absurd h Option.noConfusion
  | .FunctionCall name arguments, v, h => by
    simp only [Expression.value] at h
    exact absurd h Option.noConfusion
  | .UnaryOperator op rhs, v, h => by
    simp only [Expression.value] at h
    cases hr : rhs.value with
    | none => rw [hr] at h; exact absurd h Option.noConfusion
    | some a =>
      rw [hr] at h
      simp only at h
      obtain ⟨⟨ha1, ha2⟩, code, hcode, hcomp⟩ := Expression.computes rhs a hr
      refine ⟨unary_value_range op a v h ha1 ha2,
        code ++ ([Instr.pop .eax] ++ (unary_operation op GenState.initial).2.out ++
          [Instr.push (.reg .eax)]), ?_, ?_⟩
      · intro s
        simp only [Expression.codegen, bind_run, hcode, emit_run]
        rw [unary_operation_run]
        simp only [List.append_assoc, List.singleton_append, List.cons_append, List.nil_append]
      · intro m hesp hroom
        simp only [Expression.stack_need] at hroom
        obtain ⟨m1, hm1, he1, ht1, hf1⟩ := hcomp m hesp hroom
        obtain ⟨m2, hm2, he2, ht2, hf2⟩ := unary_tail
          (unary_operation op GenState.initial).2.out a v
          (fun m0 h0 => unary_code_computes op a v h ha1 ha2 m0 h0) m1 ht1 (by omega)
        refine ⟨m2, ?_, by omega, ht2, ?_⟩
        · rw [lines_append, hm1]
          exact hm2
        · intro x hx
          rw [hf2 x (by omega), hf1 x hx]
  | .BinaryOperator op lhs rhs, v, h => by
    simp only [Expression.value] at h
    cases hl : lhs.value with
    | none => rw [hl] at h; exact absurd h Option.noConfusion
    | some a =>
      cases hr : rhs.value with
      | none => rw [hl, hr] at h; exact absurd h Option.noConfusion
      | some b =>
        rw [hl, hr] at h
        simp only at h
        have hop : ¬ op = "=" := by
          intro heq
          rw [heq, binary_value_not_assign] at h
          exact absurd h Option.noConfusion
        obtain ⟨⟨ha1, ha2⟩, lcode, hlcode, hlcomp⟩ := Expression.computes lhs a hl
        obtain ⟨⟨hb1, hb2⟩, rcode, hrcode, hrcomp⟩ := Expression.computes rhs b hr
        refine ⟨binary_value_range op a b v h ha1 ha2 hb1 hb2,
          rcode ++ (lcode ++ ([Instr.pop .eax, Instr.pop .ebx] ++
            (binary_operation op GenState.initial).2.out ++ [Instr.push (.reg .eax)])), ?_, ?_⟩
        · intro s
          simp only [Expression.codegen, if_neg hop, bind_run, hlcode, hrcode, emit_run]
          rw [binary_operation_run]
          simp only [List.append_assoc, List.singleton_append, List.cons_append,
            List.nil_append]
        · intro m hesp hroom
          simp only [Expression.stack_need] at hroom
          obtain ⟨m1, hm1, he1, ht1, hf1⟩ := hrcomp m hesp (by omega)
          obtain ⟨m2, hm2, he2, ht2, hf2⟩ := hlcomp m1 (by omega) (by omega)
          have hsecond : m2.memory (m2.esp + 4) = word b := by
            rw [hf2 (m2.esp + 4) (by omega)]
            have : m2.esp + 4 = m1.esp := he2
            rw [this, ht1]
          obtain ⟨m3, hm3, he3, ht3, hf3⟩ := binary_tail
            (binary_operation op GenState.initial).2.out a b v
            (fun m0 h0 h1 => binary_code_computes op a b v h ha1 ha2 hb1 hb2 m0 h0 h1)
            m2 ht2 hsecond (by omega)
          refine ⟨m3, ?_, by omega, ht3, ?_⟩
          · rw [lines_append, hm1]
            simp only [Option.some_bind]
            rw [lines_append, hm2]
            exact hm3
          · intro x hx
            rw [hf3 x (by omega), hf2 x (by omega), hf1 x hx]

theorem line_pc {m m1 : Machine} {i : Instr} (h : m.line i = some m1) : m1.pc = m.pc + 1 := by
  unfold Machine.line at h
  split at h
  · injection h with h
    rw [← h]
  · exact absurd h Option.noConfusion
  · exact absurd h Option.noConfusion

theorem lines_pc : ∀ (code : List Instr) (m m1 : Machine),
    Machine.lines code m = some m1 → m1.pc = m.pc + code.length
  | [], m, m1, h => by
    simp only [Machine.lines, Option.some.injEq] at h
    rw [← h]; rfl
  | i :: rest, m, m1, h => by
    simp only [Machine.lines] at h
    cases hl : m.line i with
    | none => rw [hl] at h; exact absurd h Option.noConfusion
    | some m2 =>
      rw [hl] at h
      have h1 := line_pc hl
      have h2 := lines_pc rest m2 m1 h
      rw [h2, h1, List.length_cons]
      omega

theorem get_pc (m : Machine) (k : Nat) (r : Reg) :
    ({ m with pc := k } : Machine).get r = m.get r := by
  cases r <;> rfl

theorem read_pc (m : Machine) (k : Nat) (src : Operand) :
    ({ m with pc := k } : Machine).read src = m.read src := by
  cases src <;> rfl

theorem step_of_line {program : List Instr} {m : Machine} {i : Instr}
    (hget : program.get? m.pc = some i) (hjump : i.jump_target = none) :
    (match m.step program with
      | .next m1 => some m1
      | .halt _ => none
      | .fault => none) = m.line i := by
  unfold Machine.line
  cases i with
  | jmp l => simp [Instr.jump_target] at hjump
  | je l => simp [Instr.jump_target] at hjump
  | push src =>
    simp only [Machine.step, hget, List.get?, read_pc]
    rfl
  | pop dst =>
    simp only [Machine.step, hget, List.get?]
    cases dst <;> rfl
  | mov dst src =>
    simp only [Machine.step, hget, List.get?, read_pc]
    cases dst <;> first | rfl | (rename_i r; cases r <;> rfl)
  | add dst src =>
    simp only [Machine.step, hget, List.get?, read_pc, get_pc]
    cases dst <;> rfl
  | sub dst src =>
    simp only [Machine.step, hget, List.get?, read_pc, get_pc]
    cases dst <;> rfl
  | imul dst src =>
    simp only [Machine.step, hget, List.get?, read_pc, get_pc]
    cases dst <;> rfl
  | and_ dst src =>
    simp only [Machine.step, hget, List.get?, read_pc, get_pc]
    cases dst <;> rfl
  | or_ dst src =>
    simp only [Machine.step, hget, List.get?, read_pc, get_pc]
    cases dst <;> rfl
  | xor_ dst src =>
    simp only [Machine.step, hget, List.get?, read_pc, get_pc]
    cases dst <;> rfl
  | cmp dst src =>
    simp only [Machine.step, hget, List.get?, read_pc, get_pc]
    rfl
  | neg dst =>
    simp only [Machine.step, hget, List.get?, get_pc]
    cases dst <;> rfl
  | not_ dst =>
    simp only [Machine.step, hget, List.get?, get_pc]
    cases dst <;> rfl
  | cdq =>
    simp only [Machine.step, hget, List.get?]
    rfl
  | idiv src =>
    simp only [Machine.step, hget, List.get?, get_pc]
    split_ifs <;> rfl
  | setcc c =>
    simp only [Machine.step, hget, List.get?]
    cases m.flags with
    | none => rfl
    | some p => rfl
  | movzx_eax_al =>
    simp only [Machine.step, hget, List.get?]
    rfl
  | call name =>
    simp only [Machine.step, hget, List.get?]
    split_ifs <;> rfl
  | leave =>
    simp only [Machine.step, hget, List.get?]
    rfl
  | ret =>
    simp only [Machine.step, hget, List.get?]
  | label l =>
    simp only [Machine.step, hget, List.get?]
    rfl
  | global name =>
    simp only [Machine.step, hget, List.get?]
    rfl

theorem exec_eq_lines : ∀ (code pre post : List Instr) (m : Machine),
    (∀ i ∈ code, i.jump_target = none) → m.pc = pre.length →
    Machine.exec (pre ++ code ++ post) code.length m = Machine.lines code m
  | [], pre, post, m, _, _ => rfl
  | i :: rest, pre, post, m, hjump, hpc => by
    have hget : (pre ++ (i :: rest) ++ post).get? m.pc = some i := by
      rw [hpc, List.append_assoc, List.cons_append]
      exact get?_at pre (rest ++ post) i
    have hline := step_of_line hget (hjump i (List.mem_cons_self _ _))
    simp only [List.length_cons, exec_succ, Machine.lines]
    cases hstep : m.step (pre ++ (i :: rest) ++ post) with
    | next m1 =>
      rw [hstep] at hline
      simp only at hline
      rw [← hline]
      simp only []
      have hpc1 : m1.pc = (pre ++ [i]).length := by
        rw [line_pc hline.symm, hpc, List.length_append, List.length_singleton]
      have ih := exec_eq_lines rest (pre ++ [i]) post m1
        (fun j hj => hjump j (List.mem_cons_of_mem _ hj)) hpc1
      have hprog : pre ++ [i] ++ rest ++ post = pre ++ (i :: rest) ++ post := by simp
      rw [hprog] at ih
      exact ih
    | halt m1 =>
      rw [hstep] at hline
      simp only at hline
      rw [← hline]
    | fault =>
      rw [hstep] at hline
      simp only at hline
      rw [← hline]

theorem stack_push (m m1 : Machine) (w : Nat) (hesp : m1.esp + 4 = m.esp)
    (htop : m1.memory m1.esp = w) (hframe : ∀ a : Nat, m.esp ≤ a → m1.memory a = m.memory a)
    (n : Nat) : m1.stack (n + 1) = w :: m.stack n := by
  unfold Machine.stack
  rw [List.range_succ_eq_map, List.map_cons, List.map_map]
  simp only [Nat.mul_zero, Nat.add_zero, htop, List.cons.injEq, true_and]
  apply List.map_congr_left
  intro i _
  simp only [Function.comp]
  rw [← hesp, hframe (m1.esp + 4 * (i + 1)) (by omega)]
  congr 1
  omega

/-- C21: let `e` be an expression to which the evaluator of the
specification gives the value `v`: a tree of `Integer`, unary `-` `~` `!` and
binary `+ - * / % & | ^ == != < <= > >=` nodes, every division with a
non-zero divisor and none `INT_MIN / -1`.  Then `codegen` of `e` returns
normally whatever the state, and the lines it prints, placed anywhere in a
program and run on the 32-bit machine from their first line with room on the
stack, take one step per line, fault nowhere and end behind their last line
with the stack `v :: S`, where `S` is the stack they started with: `v` is a
32-bit value, the new top word is `v` in two's complement, and the `n` words
below it are the `n` words that were on top before, for every `n`. -/
theorem expression_code_computes_value (e : Expression) (v : Int) (hv : e.value = some v)
    (s : GenState) :
    e.codegen s = (.ok (), { s with out := s.out ++ e.code s.context }) ∧
    ∀ (pre post : List Instr) (m : Machine), m.pc = pre.length → m.esp < 4294967296 →
      4 * e.stack_need ≤ m.esp →
      ∃ m1 : Machine,
        Machine.exec (pre ++ e.code s.context ++ post) (e.code s.context).length m = some m1 ∧
        m1.pc = pre.length + (e.code s.context).length ∧
        signed (m1.memory m1.esp) = v ∧
        ∀ n : Nat, m1.stack (n + 1) = word v :: m.stack n := by
  obtain ⟨⟨hv1, hv2⟩, code, hcode, hcomp⟩ := Expression.computes e v hv
  have hc : e.code s.context = code := by
    unfold Expression.code
    rw [hcode]
    exact List.nil_append code
  rw [hc]
  refine ⟨hcode s, ?_⟩
  intro pre post m hpc hesp hroom
  obtain ⟨m1, hm1, he1, ht1, hf1⟩ := hcomp m hesp hroom
  have hplain : ∀ i ∈ code, i.jump_target = none := by
    obtain ⟨_, _, c1, ho1, hp1⟩ := expr_code_plain (hcode s)
    simp only at ho1
    have : c1 = code := (List.append_cancel_left ho1).symm
    subst this
    intro i hi
    have := hp1 i hi
    cases i <;> simp [Instr.is_control, Instr.jump_target] at this ⊢
  refine ⟨m1, ?_, ?_, ?_, ?_⟩
  · rw [exec_eq_lines code pre post m hplain hpc, hm1]
  · rw [lines_pc code m m1 hm1, hpc]
  · rw [ht1, signed_word_of_range v hv1 hv2]
  · exact stack_push m m1 (word v) he1 ht1 hf1

theorem expression_code_computes_value_witness :
    ∃ m1 : Machine,
      Machine.exec
          ([] ++ (Expression.BinaryOperator "/"
            (.BinaryOperator "-" (.Integer 7) (.Integer 10)) (.Integer 2)).code
              GenState.initial.context ++ [])
          ((Expression.BinaryOperator "/"
            (.BinaryOperator "-" (.Integer 7) (.Integer 10)) (.Integer 2)).code
              GenState.initial.context).length
          (Machine.start 1000) = some m1 ∧
        m1.pc = ([] : List Instr).length + ((Expression.BinaryOperator "/"
            (.BinaryOperator "-" (.Integer 7) (.Integer 10)) (.Integer 2)).code
              GenState.initial.context).length ∧
        signed (m1.memory m1.esp) = -1 ∧
        ∀ n : Nat, m1.stack (n + 1) = word (-1) :: (Machine.start 1000).stack n :=
  (expression_code_computes_value
    (.BinaryOperator "/" (.BinaryOperator "-" (.Integer 7) (.Integer 10)) (.Integer 2)) (-1)
    (by decide!) GenState.initial).2 [] [] (Machine.start 1000) rfl (by decide) (by decide)

/-! ## The token values spell the text -/

theorem Lexer.reads_new (src : List Char) : (Lexer.new src).Reads src := by
  intro i
  unfold Lexer.new
  rw [Lexer.stream_advance]
  simp only [Lexer.stream, zero_add]

theorem Lexer.reads_current (lx : Lexer) (c : Char) (cs : List Char) (h : lx.Reads (c :: cs)) :
    lx.currentChar = c := h 0

theorem Lexer.reads_nil_current (lx : Lexer) (h : lx.Reads []) : lx.currentChar = '\x00' := h 0

theorem Lexer.reads_advance (lx : Lexer) (c : Char) (cs : List Char) (h : lx.Reads (c :: cs)) :
    lx.advance.Reads cs := by
  intro i
  rw [Lexer.stream_advance, h (i + 1)]
  rfl

theorem Lexer.peek_eq_stream (lx : Lexer) : lx.peek = lx.stream 1 := by
  unfold Lexer.peek
  simp only [Lexer.stream, add_zero]
  split_ifs with h
  · rfl
  · exact (List.getD_eq_default _ _ (by omega)).symm

theorem Lexer.reads_peek (lx : Lexer) (c : Char) (cs : List Char) (h : lx.Reads (c :: cs)) :
    lx.peek = cs.getD 0 '\x00' := by
  rw [Lexer.peek_eq_stream, h 1]
  rfl

/-- A text without `'\0'` that is still to be read fits the budget of the
lexer loops. -/
theorem Lexer.reads_length (lx : Lexer) (cs : List Char) (h : lx.Reads cs)
    (hnul : ∀ c ∈ cs, c ≠ '\x00') : cs.length ≤ lx.source.length + 1 := by
  by_contra hlen
  have h1 := h (lx.source.length + 1)
  rw [Lexer.stream_beyond lx _ (by omega), List.getD_eq_getElem _ _ (by omega)] at h1
  exact hnul _ (List.getElem_mem _) h1.symm

theorem Lexer.skip_spaces_reads (cs : List Char) (lx : Lexer) (budget : Nat)
    (h : lx.Reads cs) (hb : cs.length ≤ budget) :
    (Lexer.skip_spaces budget lx).Reads (cs.dropWhile isspace) ∧
      (Lexer.skip_spaces budget lx).source = lx.source := by
  induction cs generalizing lx budget with
  | nil =>
    rw [Lexer.skip_spaces_at_nul lx budget (Lexer.reads_nil_current lx h)]
    exact ⟨h, rfl⟩
  | cons c rest ih =>
    have hc := Lexer.reads_current lx c rest h
    cases budget with
    | zero => simp at hb
    | succ b =>
      by_cases hs : isspace c = true
      · have h1 := ih lx.advance b (Lexer.reads_advance lx c rest h)
          (by simpa using hb)
        simp only [Lexer.skip_spaces, hc, hs, if_true, List.dropWhile_cons_of_pos hs]
        exact ⟨h1.1, h1.2.trans (Lexer.advance_source lx)⟩
      · simp only [Lexer.skip_spaces, hc, hs, List.dropWhile_cons_of_neg hs]
        exact ⟨h, rfl⟩

theorem Lexer.read_while_reads (p : Char → Bool) (hp : p '\x00' = false) (cs : List Char)
    (lx : Lexer) (budget : Nat) (text : String)
    (h : lx.Reads cs) (hb : cs.length ≤ budget) :
    (Lexer.read_while p budget lx text).1 = String.mk (text.data ++ cs.takeWhile p) ∧
      (Lexer.read_while p budget lx text).2.Reads (cs.dropWhile p) := by
  induction cs generalizing lx budget text with
  | nil =>
    have hc := Lexer.reads_nil_current lx h
    cases budget with
    | zero => simpa [Lexer.read_while] using h
    | succ b => simpa [Lexer.read_while, hc, hp] using h
  | cons c rest ih =>
    have hc := Lexer.reads_current lx c rest h
    cases budget with
    | zero => simp at hb
    | succ b =>
      by_cases hs : p c = true
      · have h1 := ih lx.advance b (text.push c) (Lexer.reads_advance lx c rest h)
          (by simpa using hb)
        simp only [Lexer.read_while, hc, hs, if_true, List.dropWhile_cons_of_pos hs,
          List.takeWhile_cons_of_pos hs]
        refine ⟨?_, h1.2⟩
        rw [h1.1]
        simp [String.data_push]
      · simp only [Lexer.read_while, hc, hs, List.dropWhile_cons_of_neg hs,
          List.takeWhile_cons_of_neg hs]
        simpa using h

theorem Lexer.takes_one (l1 : Lexer) (c : Char) (rest : List Char) (tok : Token)
    (h : l1.Reads (c :: rest)) (hs : isspace c = false) (hv : tok.value = String.mk [c])
    (h1 : tok.type ≠ .T_EOF) (h2 : tok.type ≠ .T_ILLEGAL) :
    Lexer.Takes (tok, l1.advance) (c :: rest) := by
  refine ⟨rest, ?_, ?_, ?_, Lexer.reads_advance l1 c rest h, h1, h2⟩
  · simp [hv]
  · simp [hv]
  · intro ch hch
    simp only [hv, List.mem_singleton] at hch
    rw [hch]
    exact hs

theorem Lexer.takes_two (l1 : Lexer) (c d : Char) (rest : List Char) (tok : Token)
    (h : l1.Reads (c :: d :: rest)) (hs : isspace c = false) (hs2 : isspace d = false)
    (hv : tok.value = String.mk [c, d])
    (h1 : tok.type ≠ .T_EOF) (h2 : tok.type ≠ .T_ILLEGAL) :
    Lexer.Takes (tok, l1.advance.advance) (c :: d :: rest) := by
  refine ⟨rest, ?_, ?_, ?_,
    Lexer.reads_advance _ d rest (Lexer.reads_advance l1 c (d :: rest) h), h1, h2⟩
  · simp [hv]
  · simp [hv]
  · intro ch hch
    simp only [hv, List.mem_cons, List.mem_singleton, List.not_mem_nil, or_false] at hch
    rcases hch with hch | hch
    · rw [hch]; exact hs
    · rw [hch]; exact hs2

/-- What `peek()` sees decides between no second character equal to `d` and a
text that goes on with `d`. -/
theorem Lexer.peek_cases (l1 : Lexer) (c d : Char) (rest : List Char) (hd : d ≠ '\x00')
    (h : l1.Reads (c :: rest)) :
    (¬ l1.peek = d) ∨ (l1.peek = d ∧ ∃ rest2, rest = d :: rest2) := by
  by_cases hp : l1.peek = d
  · right
    refine ⟨hp, ?_⟩
    rw [Lexer.reads_peek l1 c rest h] at hp
    cases rest with
    | nil => exact absurd hp.symm hd
    | cons e rest2 => exact ⟨rest2, by rw [show e = d from hp]⟩
  · exact Or.inl hp

theorem Lexer.symbol_takes (l1 : Lexer) (c : Char) (rest : List Char)
    (h : l1.Reads (c :: rest))
    (hc : c = '=' ∨ c = ';' ∨ c = ',' ∨ c = '(' ∨ c = ')' ∨ c = '\x7b' ∨ c = '\x7d' ∨
      c = '+' ∨ c = '-' ∨ c = '*' ∨ c = '/' ∨ c = '%' ∨ c = '<' ∨ c = '>' ∨ c = '&' ∨
      c = '|' ∨ c = '^' ∨ (c = '!' ∧ rest.head? = some '=')) :
    Lexer.Takes l1.symbol (c :: rest) := by
  have hcur := Lexer.reads_current l1 c rest h
  rcases hc with rfl | rfl | rfl | rfl | rfl | rfl | rfl | rfl | rfl | rfl | rfl | rfl | rfl |
    rfl | rfl | rfl | rfl | ⟨rfl, hnext⟩
  · rcases Lexer.peek_cases l1 '=' '=' rest (by decide) h with hp | ⟨hp, rest2, rfl⟩
    · simp only [Lexer.symbol, hcur, hp]
      simp only [Char.reduceEq, if_false, if_true]
      exact Lexer.takes_one l1 _ _ _ h (by decide) rfl (by decide) (by decide)
    · simp only [Lexer.symbol, hcur, hp]
      simp only [Char.reduceEq, if_false, if_true]
      exact Lexer.takes_two l1 _ _ _ _ h (by decide) (by decide) rfl (by decide) (by decide)
  · simp only [Lexer.symbol, hcur]
    simp only [Char.reduceEq, if_false, if_true]
    exact Lexer.takes_one l1 _ _ _ h (by decide) rfl (by decide) (by decide)
  · simp only [Lexer.symbol, hcur]
    simp only [Char.reduceEq, if_false, if_true]
    exact Lexer.takes_one l1 _ _ _ h (by decide) rfl (by decide) (by decide)
  · simp only [Lexer.symbol, hcur]
    simp only [Char.reduceEq, if_false, if_true]
    exact Lexer.takes_one l1 _ _ _ h (by decide) rfl (by decide) (by decide)
  · simp only [Lexer.symbol, hcur]
    simp only [Char.reduceEq, if_false, if_true]
    exact Lexer.takes_one l1 _ _ _ h (by decide) rfl (by decide) (by decide)
  · simp only [Lexer.symbol, hcur]
    simp only [Char.reduceEq, if_false, if_true]
    exact Lexer.takes_one l1 _ _ _ h (by decide) rfl (by decide) (by decide)
  · simp only [Lexer.symbol, hcur]
    simp only [Char.reduceEq, if_false, if_true]
    exact Lexer.takes_one l1 _ _ _ h (by decide) rfl (by decide) (by decide)
  · simp only [Lexer.symbol, hcur]
    simp only [Char.reduceEq, if_false, if_true]
    exact Lexer.takes_one l1 _ _ _ h (by decide) rfl (by decide) (by decide)
  · simp only [Lexer.symbol, hcur]
    simp only [Char.reduceEq, if_false, if_true]
    exact Lexer.takes_one l1 _ _ _ h (by decide) rfl (by decide) (by decide)
  · simp only [Lexer.symbol, hcur]
    simp only [Char.reduceEq, if_false, if_true]
    exact Lexer.takes_one l1 _ _ _ h (by decide) rfl (by decide) (by decide)
  · simp only [Lexer.symbol, hcur]
    simp only [Char.reduceEq, if_false, if_true]
    exact Lexer.takes_one l1 _ _ _ h (by decide) rfl (by decide) (by decide)
  · simp only [Lexer.symbol, hcur]
    simp only [Char.reduceEq, if_false, if_true]
    exact Lexer.takes_one l1 _ _ _ h (by decide) rfl (by decide) (by decide)
  · rcases Lexer.peek_cases l1 '<' '=' rest (by decide) h with hp | ⟨hp, rest2, rfl⟩
    · simp only [Lexer.symbol, hcur, hp]
      simp only [Char.reduceEq, if_false, if_true]
      exact Lexer.takes_one l1 _ _ _ h (by decide) rfl (by decide) (by decide)
    · simp only [Lexer.symbol, hcur, hp]
      simp only [Char.reduceEq, if_false, if_true]
      exact Lexer.takes_two l1 _ _ _ _ h (by decide) (by decide) rfl (by decide) (by decide)
  · rcases Lexer.peek_cases l1 '>' '=' rest (by decide) h with hp | ⟨hp, rest2, rfl⟩
    · simp only [Lexer.symbol, hcur, hp]
      simp only [Char.reduceEq, if_false, if_true]
      exact Lexer.takes_one l1 _ _ _ h (by decide) rfl (by decide) (by decide)
    · simp only [Lexer.symbol, hcur, hp]
      simp only [Char.reduceEq, if_false, if_true]
      exact Lexer.takes_two l1 _ _ _ _ h (by decide) (by decide) rfl (by decide) (by decide)
  · rcases Lexer.peek_cases l1 '&' '&' rest (by decide) h with hp | ⟨hp, rest2, rfl⟩
    · simp only [Lexer.symbol, hcur, hp]
      simp only [Char.reduceEq, if_false, if_true]
      exact Lexer.takes_one l1 _ _ _ h (by decide) rfl (by decide) (by decide)
    · simp only [Lexer.symbol, hcur, hp]
      simp only [Char.reduceEq, if_false, if_true]
      exact Lexer.takes_two l1 _ _ _ _ h (by decide) (by decide) rfl (by decide) (by decide)
  · simp only [Lexer.symbol, hcur]
    simp only [Char.reduceEq, if_false, if_true]
    exact Lexer.takes_one l1 _ _ _ h (by decide) rfl (by decide) (by decide)
  · simp only [Lexer.symbol, hcur]
    simp only [Char.reduceEq, if_false, if_true]
    exact Lexer.takes_one l1 _ _ _ h (by decide) rfl (by decide) (by decide)
  · cases rest with
    | nil => simp at hnext
    | cons d rest2 =>
      have hd : d = '=' := by simpa using hnext
      subst hd
      have hp : l1.peek = '=' := Lexer.reads_peek l1 _ _ h
      simp only [Lexer.symbol, hcur, hp]
      simp only [Char.reduceEq, if_false, if_true, and_self]
      exact Lexer.takes_two l1 _ _ _ _ h (by decide) (by decide) rfl (by decide) (by decide)

theorem not_space_of_ident (c : Char) (h : (isalnum c || decide (c = '_')) = true) :
    isspace c = false := by
  by_contra hs
  have hs' : isspace c = true := by simpa using hs
  simp only [isspace, Bool.or_eq_true, decide_eq_true_eq] at hs'
  rcases hs' with ((((hc | hc) | hc) | hc) | hc) | hc <;> subst hc <;> revert h <;> decide

theorem not_space_of_digit (c : Char) (h : isdigit c = true) : isspace c = false :=
  not_space_of_ident c (by simp [isalnum, h])

/-- A loop of `makeIdentifier` or `makeNumber` that starts on a character it
accepts takes the whole run of accepted characters. -/
theorem Lexer.takes_run (p : Char → Bool) (hp0 : p '\x00' = false)
    (hps : ∀ ch, p ch = true → isspace ch = false) (l1 : Lexer) (c : Char) (rest : List Char)
    (h : l1.Reads (c :: rest)) (hn : (c :: rest).length ≤ l1.source.length + 1)
    (hstart : p c = true) (tok : Token)
    (hv : tok.value = (Lexer.read_while p (l1.source.length + 1) l1 "").1)
    (h1 : tok.type ≠ .T_EOF) (h2 : tok.type ≠ .T_ILLEGAL) :
    Lexer.Takes (tok, (Lexer.read_while p (l1.source.length + 1) l1 "").2) (c :: rest) := by
  have hr := Lexer.read_while_reads p hp0 (c :: rest) l1 (l1.source.length + 1) "" h hn
  have hdata : tok.value.data = (c :: rest).takeWhile p := by
    rw [hv, hr.1]
    rfl
  refine ⟨(c :: rest).dropWhile p, ?_, ?_, ?_, hr.2, h1, h2⟩
  · show c :: rest = tok.value.data ++ _
    rw [hdata, List.takeWhile_append_dropWhile]
  · show tok.value.data ≠ []
    rw [hdata, List.takeWhile_cons_of_pos hstart]
    exact List.cons_ne_nil _ _
  · intro ch hch
    have hch' : ch ∈ (c :: rest).takeWhile p := by
      have : ch ∈ tok.value.data := hch
      rwa [hdata] at this
    exact hps ch (List.mem_takeWhile_imp hch')

theorem Lexer.makeIdentifier_takes (l1 : Lexer) (c : Char) (rest : List Char)
    (h : l1.Reads (c :: rest)) (hn : (c :: rest).length ≤ l1.source.length + 1)
    (hstart : (isalpha c || decide (c = '_')) = true) :
    Lexer.Takes l1.makeIdentifier (c :: rest) := by
  have hp : (fun c => isalnum c || decide (c = '_')) c = true := by
    simp only [isalnum]
    simp only [Bool.or_eq_true, decide_eq_true_eq] at hstart ⊢
    rcases hstart with hs | hs
    · exact Or.inl (Or.inl hs)
    · exact Or.inr hs
  have key := fun (tok : Token) hv h1 h2 =>
    Lexer.takes_run (fun c => isalnum c || decide (c = '_')) (by decide) not_space_of_ident
      l1 c rest h hn hp tok hv h1 h2
  unfold Lexer.makeIdentifier
  simp only
  split_ifs with h1 h2 h3 h4
  · exact key _ h1.symm (by decide) (by decide)
  · exact key _ h2.symm (by decide) (by decide)
  · exact key _ h3.symm (by decide) (by decide)
  · exact key _ h4.symm (by decide) (by decide)
  · exact key _ rfl (fun h => TokenType.noConfusion h) (fun h => TokenType.noConfusion h)

theorem Lexer.makeNumber_takes (l1 : Lexer) (c : Char) (rest : List Char)
    (h : l1.Reads (c :: rest)) (hn : (c :: rest).length ≤ l1.source.length + 1)
    (hstart : isdigit c = true) :
    Lexer.Takes l1.makeNumber (c :: rest) := by
  unfold Lexer.makeNumber
  exact Lexer.takes_run isdigit (by decide) not_space_of_digit l1 c rest h hn hstart _ rfl
    (fun h => TokenType.noConfusion h) (fun h => TokenType.noConfusion h)

theorem lexable_suffix (a b : List Char) (h : lexable (a ++ b) = true) : lexable b = true := by
  induction a with
  | nil => exact h
  | cons c a ih =>
    simp only [List.cons_append, lexable, Bool.and_eq_true] at h
    exact ih h.2

theorem lexable_ne_nul (cs : List Char) (h : lexable cs = true) : ∀ c ∈ cs, c ≠ '\x00' := by
  induction cs with
  | nil => simp
  | cons d rest ih =>
    simp only [lexable, Bool.and_eq_true, Bool.or_eq_true, decide_eq_true_eq] at h
    intro c hc
    rcases List.mem_cons.mp hc with rfl | hc
    · rcases h.1 with hl | ⟨hb, _⟩
      · intro h0
        rw [h0] at hl
        revert hl
        decide
      · rw [hb]
        decide
    · exact ih h.2 c hc

/-- One `getNextToken()` call on a lexable text that does not start with
whitespace. -/
theorem Lexer.token_takes (l1 : Lexer) (c : Char) (rest : List Char)
    (h : l1.Reads (c :: rest)) (hl : lexable (c :: rest) = true) (hs : isspace c = false) :
    Lexer.Takes
      (if isalpha l1.currentChar || decide (l1.currentChar = '_') then l1.makeIdentifier
        else if isdigit l1.currentChar then l1.makeNumber else l1.symbol) (c :: rest) := by
  have hn := Lexer.reads_length l1 _ h (lexable_ne_nul _ hl)
  rw [Lexer.reads_current l1 c rest h]
  by_cases ha : (isalpha c || decide (c = '_')) = true
  · rw [if_pos ha]
    exact Lexer.makeIdentifier_takes l1 c rest h hn ha
  · rw [if_neg ha]
    by_cases hd : isdigit c = true
    · rw [if_pos hd]
      exact Lexer.makeNumber_takes l1 c rest h hn hd
    · rw [if_neg hd]
      apply Lexer.symbol_takes l1 c rest h
      simp only [Bool.or_eq_true, decide_eq_true_eq, not_or] at ha
      simp only [lexable, Bool.and_eq_true, Bool.or_eq_true, decide_eq_true_eq] at hl
      rcases hl.1 with hleg | hbang
      · simp [legal_char, hs, ha.1, ha.2, hd, isalnum] at hleg
        rcases hleg with h | h | h | h | h | h | h | h | h | h | h | h | h | h | h | h | h <;>
          simp [h]
      · simp [hbang.1, hbang.2]

theorem filter_dropWhile_space (cs : List Char) :
    (cs.dropWhile isspace).filter (fun c => !isspace c) = cs.filter (fun c => !isspace c) := by
  induction cs with
  | nil => rfl
  | cons c rest ih =>
    by_cases hs : isspace c = true
    · rw [List.dropWhile_cons_of_pos hs, ih, List.filter_cons_of_neg (by simp [hs])]
    · rw [List.dropWhile_cons_of_neg hs]

theorem filter_no_space (v : List Char) (h : ∀ ch ∈ v, isspace ch = false) :
    v.filter (fun c => !isspace c) = v := by
  rw [List.filter_eq_self]
  intro ch hch
  simp [h ch hch]

/-- One `getNextToken()` call on a lexable text: end-of-file when nothing but
whitespace is left, otherwise a token whose value is the next piece of the
text without its leading whitespace. -/
theorem Lexer.getNextToken_reads (lx : Lexer) (cs : List Char) (h : lx.Reads cs)
    (hl : lexable cs = true) :
    (cs.filter (fun c => !isspace c) = [] ∧
      lx.getNextToken.1 = { type := .T_EOF, value := "" }) ∨
    (∃ rest : List Char,
      cs.filter (fun c => !isspace c) =
        lx.getNextToken.1.value.data ++ rest.filter (fun c => !isspace c) ∧
      rest.length < cs.length ∧ lx.getNextToken.2.Reads rest ∧ lexable rest = true ∧
      lx.getNextToken.1.type ≠ .T_EOF ∧ lx.getNextToken.1.type ≠ .T_ILLEGAL) := by
  have hb := Lexer.reads_length lx cs h (lexable_ne_nul cs hl)
  have hskip := (Lexer.skip_spaces_reads cs lx (lx.source.length + 1) h hb).1
  have hsuf : lexable (cs.dropWhile isspace) = true := by
    apply lexable_suffix (cs.takeWhile isspace)
    rw [List.takeWhile_append_dropWhile]
    exact hl
  have hlen : (cs.dropWhile isspace).length ≤ cs.length :=
    (List.dropWhile_suffix isspace).length_le
  rw [← filter_dropWhile_space cs]
  unfold Lexer.getNextToken
  simp only
  generalize Lexer.skip_spaces (lx.source.length + 1) lx = l1 at hskip ⊢
  cases hcs : cs.dropWhile isspace with
  | nil =>
    left
    rw [hcs] at hskip
    have hc := Lexer.reads_nil_current l1 hskip
    refine ⟨rfl, ?_⟩
    simp [hc, Lexer.symbol, isalpha, isdigit]
  | cons c rest =>
    right
    rw [hcs] at hskip hsuf hlen
    have hs : isspace c = false := by
      have := List.head_dropWhile_not isspace cs (by rw [hcs]; exact List.cons_ne_nil _ _)
      simpa [hcs] using this
    obtain ⟨rest2, hsplit, hne, hvs, hreads, h1, h2⟩ := Lexer.token_takes l1 c rest hskip hsuf hs
    refine ⟨rest2, ?_, ?_, hreads, ?_, h1, h2⟩
    · rw [hsplit, List.filter_append, filter_no_space _ hvs]
    · have hl2 := congrArg List.length hsplit
      rw [List.length_append] at hl2
      have hpos : 0 < List.length
          (if isalpha l1.currentChar || decide (l1.currentChar = '_') then l1.makeIdentifier
            else if isdigit l1.currentChar then l1.makeNumber else l1.symbol).1.value.data :=
        List.length_pos.mpr hne
      omega
    · apply lexable_suffix _ rest2
      rw [← hsplit]
      exact hsuf

/-- The tokens of a lexable text, by induction on the number of calls. -/
theorem Lexer.tokens_spell (n : Nat) (lx : Lexer) (cs : List Char) (h : lx.Reads cs)
    (hl : lexable cs = true) (hn : cs.length < n) :
    ((Lexer.tokens n lx).map (fun t => t.value.data)).flatten =
        cs.filter (fun c => !isspace c) ∧
      (∀ t ∈ Lexer.tokens n lx, t.type ≠ .T_ILLEGAL) ∧
      (Lexer.tokens n lx).getLast? = some { type := .T_EOF, value := "" } := by
  induction n generalizing lx cs with
  | zero => omega
  | succ m ih =>
    rcases Lexer.getNextToken_reads lx cs h hl with ⟨hnil, htok⟩ |
      ⟨rest, hsplit, hlen, hreads, hlex, h1, h2⟩
    · simp only [Lexer.tokens, htok, if_true, hnil]
      refine ⟨by simp, ?_, by simp⟩
      intro t ht
      rw [List.mem_singleton.mp ht]
      decide
    · obtain ⟨i1, i2, i3⟩ := ih lx.getNextToken.2 rest hreads hlex (by omega)
      simp only [Lexer.tokens, if_neg h1]
      refine ⟨?_, ?_, ?_⟩
      · rw [List.map_cons, List.flatten_cons, i1, hsplit]
      · intro t ht
        rcases List.mem_cons.mp ht with rfl | ht
        · exact h2
        · exact i2 t ht
      · cases hts : Lexer.tokens m lx.getNextToken.2 with
        | nil => rw [hts] at i3; simp at i3
        | cons a l =>
          rw [hts] at i3
          rw [List.getLast?_cons_cons]
          exact i3

/-- C27: for every text made only of ASCII whitespace, letters, digits, the
underscore and the characters `= ; , ( ) { } + - * / % < > & | ^`, with `!`
only right before `=`, the values of the tokens that repeated `getNextToken`
calls answer, up to the first end-of-file token, concatenate to the text with
its whitespace removed; none of the tokens is `T_ILLEGAL`, and the
end-of-file token is reached within `source.length + 1` calls. -/
theorem token_values_spell_source (source : List Char) (n : Nat)
    (hlex : lexable source = true) (hn : source.length < n) :
    String.join ((Lexer.tokens n (Lexer.new source)).map Token.value) =
        String.mk (source.filter (fun c => !isspace c)) ∧
      (∀ t ∈ Lexer.tokens n (Lexer.new source), t.type ≠ .T_ILLEGAL) ∧
      (Lexer.tokens n (Lexer.new source)).getLast? = some { type := .T_EOF, value := "" } := by
  obtain ⟨h1, h2, h3⟩ :=
    Lexer.tokens_spell n (Lexer.new source) source (Lexer.reads_new source) hlex hn
  refine ⟨?_, h2, h3⟩
  rw [String.join_eq, List.map_map]
  exact congrArg String.mk h1

theorem token_values_spell_source_witness :
    lexable "int a_1 = b!=3 ;\n\tx <= y&&z == 0".toList = true ∧
    "int a_1 = b!=3 ;\n\tx <= y&&z == 0".toList.length < 40 ∧
    String.join ((Lexer.tokens 40 (Lexer.new "int a_1 = b!=3 ;\n\tx <= y&&z == 0".toList)).map
        Token.value) = "inta_1=b!=3;x<=y&&z==0" ∧
      (∀ t ∈ Lexer.tokens 40 (Lexer.new "int a_1 = b!=3 ;\n\tx <= y&&z == 0".toList),
        t.type ≠ .T_ILLEGAL) ∧
      (Lexer.tokens 40 (Lexer.new "int a_1 = b!=3 ;\n\tx <= y&&z == 0".toList)).getLast? =
        some { type := .T_EOF, value := "" } :=
  ⟨by decide, by decide,
    token_values_spell_source "int a_1 = b!=3 ;\n\tx <= y&&z == 0".toList 40 (by decide)
      (by decide)⟩

/-! ## compile() comes to an end -/

theorem Lexer.advance_chars_left_le (lx : Lexer) : lx.advance.chars_left ≤ lx.chars_left := by
  by_cases hpos : lx.pos ≥ lx.source.length
  · simp only [Lexer.advance, Lexer.chars_left, if_pos hpos, if_true]
    split_ifs <;> omega
  · simp only [Lexer.advance, Lexer.chars_left, if_neg hpos]
    split_ifs <;> omega

theorem Lexer.advance_chars_left_lt (lx : Lexer) (h : lx.currentChar ≠ '\x00') :
    lx.advance.chars_left < lx.chars_left := by
  by_cases hpos : lx.pos ≥ lx.source.length
  · simp only [Lexer.advance, Lexer.chars_left, if_pos hpos, if_true, if_neg h]
    omega
  · simp only [Lexer.advance, Lexer.chars_left, if_neg hpos, if_neg h]
    split_ifs <;> omega

theorem Lexer.skip_spaces_chars_left (budget : Nat) (lx : Lexer) :
    (Lexer.skip_spaces budget lx).chars_left ≤ lx.chars_left := by
  induction budget generalizing lx with
  | zero => exact le_refl _
  | succ b ih =>
    simp only [Lexer.skip_spaces]
    split_ifs
    · exact (ih lx.advance).trans (Lexer.advance_chars_left_le lx)
    · exact le_refl _

theorem Lexer.read_while_chars_left (p : Char → Bool) (budget : Nat) (lx : Lexer)
    (text : String) : (Lexer.read_while p budget lx text).2.chars_left ≤ lx.chars_left := by
  induction budget generalizing lx text with
  | zero => exact le_refl _
  | succ b ih =>
    simp only [Lexer.read_while]
    split_ifs
    · exact (ih lx.advance _).trans (Lexer.advance_chars_left_le lx)
    · exact le_refl _

theorem Lexer.read_while_chars_left_lt (p : Char → Bool) (budget : Nat) (lx : Lexer)
    (text : String) (hp : p lx.currentChar = true) (h0 : lx.currentChar ≠ '\x00') :
    (Lexer.read_while p (budget + 1) lx text).2.chars_left < lx.chars_left := by
  simp only [Lexer.read_while, hp, if_true]
  exact lt_of_le_of_lt (Lexer.read_while_chars_left p budget lx.advance _)
    (Lexer.advance_chars_left_lt lx h0)

/-- The loop `while (isspace(currentChar)) advance();` leaves by its own test
within the budget. -/
theorem Lexer.skip_spaces_stops (budget : Nat) (lx : Lexer)
    (hb : lx.source.length - lx.pos + 1 ≤ budget) :
    isspace (Lexer.skip_spaces budget lx).currentChar = false := by
  induction budget generalizing lx with
  | zero => omega
  | succ b ih =>
    simp only [Lexer.skip_spaces]
    by_cases hs : isspace lx.currentChar = true
    · rw [if_pos hs]
      by_cases hpos : lx.pos ≥ lx.source.length
      · have hnul : lx.advance.currentChar = '\x00' := by simp [Lexer.advance, hpos]
        rw [Lexer.skip_spaces_at_nul _ _ hnul, hnul]
        rfl
      · apply ih
        have : lx.advance.pos = lx.pos + 1 := by simp [Lexer.advance, hpos]
        rw [Lexer.advance_source, this]
        omega
    · rw [if_neg hs]
      simpa using hs

/-- The loops of `makeIdentifier` and `makeNumber` leave by their own test
within the budget. -/
theorem Lexer.read_while_stops (p : Char → Bool) (hp : p '\x00' = false) (budget : Nat)
    (lx : Lexer) (text : String) (hb : lx.source.length - lx.pos + 1 ≤ budget) :
    p (Lexer.read_while p budget lx text).2.currentChar = false := by
  induction budget generalizing lx text with
  | zero => omega
  | succ b ih =>
    simp only [Lexer.read_while]
    by_cases hs : p lx.currentChar = true
    · rw [if_pos hs]
      by_cases hpos : lx.pos ≥ lx.source.length
      · have hnul : lx.advance.currentChar = '\x00' := by simp [Lexer.advance, hpos]
        cases b with
        | zero => simp only [Lexer.read_while]; rw [hnul]; exact hp
        | succ b =>
          simp only [Lexer.read_while]
          rw [hnul, hp]
          simp only [Bool.false_eq_true, if_false]
          rw [hnul]
          exact hp
      · apply ih
        have : lx.advance.pos = lx.pos + 1 := by simp [Lexer.advance, hpos]
        rw [Lexer.advance_source, this]
        omega
    · rw [if_neg hs]
      simpa using hs

theorem pair_ite {c : Prop} [Decidable c] {a b : Token × Lexer} {P : Token × Lexer → Prop}
    (ha : P a) (hb : P b) : P (if c then a else b) := by
  split_ifs
  · exact ha
  · exact hb

/-- The ways the `switch` of `getNextToken` can leave at a character other
than `'\0'`: after one `advance()`, after two, or with the illegal token and
no `advance()` at all. -/
theorem Lexer.symbol_cases (l1 : Lexer) (h0 : ¬ l1.currentChar = '\x00')
    (Q : Token × Lexer → Prop) (h1 : ∀ tok : Token, Q (tok, l1.advance))
    (h2 : ∀ tok : Token, Q (tok, l1.advance.advance))
    (h3 : ∀ v : String, Q ({ type := .T_ILLEGAL, value := v }, l1)) : Q l1.symbol := by
  unfold Lexer.symbol
  dsimp only
  rw [if_neg h0]
  repeat (first
    | exact h1 _
    | exact h2 _
    | exact h3 _
    | apply pair_ite (P := Q))

theorem Lexer.symbol_chars_left (l1 : Lexer) :
    l1.symbol.2.chars_left ≤ l1.chars_left ∧
      (l1.symbol.1.type ≠ .T_EOF → l1.symbol.1.type ≠ .T_ILLEGAL →
        l1.symbol.2.chars_left < l1.chars_left) := by
  by_cases h0 : l1.currentChar = '\x00'
  · have : l1.symbol = ({ type := .T_EOF, value := "" }, l1) := by simp [Lexer.symbol, h0]
    rw [this]
    exact ⟨le_refl _, fun h => absurd rfl h⟩
  · have h1 : l1.advance.chars_left < l1.chars_left := Lexer.advance_chars_left_lt l1 h0
    have h2 : l1.advance.advance.chars_left < l1.chars_left :=
      lt_of_le_of_lt (Lexer.advance_chars_left_le _) h1
    exact Lexer.symbol_cases l1 h0
      (fun r => r.2.chars_left ≤ l1.chars_left ∧
        (r.1.type ≠ .T_EOF → r.1.type ≠ .T_ILLEGAL → r.2.chars_left < l1.chars_left))
      (fun _ => ⟨le_of_lt h1, fun _ _ => h1⟩) (fun _ => ⟨le_of_lt h2, fun _ _ => h2⟩)
      (fun _ => ⟨le_refl _, fun _ h => absurd rfl h⟩)

theorem Lexer.makeIdentifier_snd (l1 : Lexer) :
    l1.makeIdentifier.2 =
      (Lexer.read_while (fun c => isalnum c || decide (c = '_')) (l1.source.length + 1) l1 "").2 := by
  unfold Lexer.makeIdentifier
  simp only
  split_ifs <;> rfl

/-- A call of `getNextToken()` never moves the lexer backwards, and a token
other than end-of-file and the illegal one costs at least one character. -/
theorem Lexer.getNextToken_chars_left (lx : Lexer) :
    lx.getNextToken.2.chars_left ≤ lx.chars_left ∧
      (lx.getNextToken.1.type ≠ .T_EOF → lx.getNextToken.1.type ≠ .T_ILLEGAL →
        lx.getNextToken.2.chars_left < lx.chars_left) := by
  have hskip := Lexer.skip_spaces_chars_left (lx.source.length + 1) lx
  unfold Lexer.getNextToken
  simp only
  generalize Lexer.skip_spaces (lx.source.length + 1) lx = l1 at hskip ⊢
  by_cases ha : (isalpha l1.currentChar || decide (l1.currentChar = '_')) = true
  · rw [if_pos ha, Lexer.makeIdentifier_snd]
    have h0 : l1.currentChar ≠ '\x00' := by
      intro h0
      rw [h0] at ha
      revert ha
      decide
    have hp : (fun c => isalnum c || decide (c = '_')) l1.currentChar = true := by
      simp only [isalnum]
      simp only [Bool.or_eq_true, decide_eq_true_eq] at ha ⊢
      rcases ha with hs | hs
      · exact Or.inl (Or.inl hs)
      · exact Or.inr hs
    have hlt := Lexer.read_while_chars_left_lt (fun c => isalnum c || decide (c = '_'))
      l1.source.length l1 "" hp h0
    exact ⟨le_of_lt (lt_of_lt_of_le hlt hskip), fun _ _ => lt_of_lt_of_le hlt hskip⟩
  · rw [if_neg ha]
    by_cases hd : isdigit l1.currentChar = true
    · rw [if_pos hd]
      have h0 : l1.currentChar ≠ '\x00' := by
        intro h0
        rw [h0] at hd
        revert hd
        decide
      have hlt := Lexer.read_while_chars_left_lt isdigit l1.source.length l1 "" hd h0
      unfold Lexer.makeNumber
      exact ⟨le_of_lt (lt_of_lt_of_le hlt hskip), fun _ _ => lt_of_lt_of_le hlt hskip⟩
    · rw [if_neg hd]
      obtain ⟨h1, h2⟩ := Lexer.symbol_chars_left l1
      exact ⟨h1.trans hskip, fun e1 e2 => lt_of_lt_of_le (h2 e1 e2) hskip⟩

theorem Compiler.next_work_left (c : Compiler) (h1 : c.currentToken.type ≠ .T_EOF)
    (h2 : c.currentToken.type ≠ .T_ILLEGAL) : c.next.work_left < c.work_left := by
  obtain ⟨hle, hlt⟩ := Lexer.getNextToken_chars_left c.lexer
  have hc : c.work_left = c.lexer.chars_left + 1 := by
    simp [Compiler.work_left, h1, h2]
  rw [hc]
  unfold Compiler.work_left Compiler.next
  simp only
  by_cases hp : c.lexer.getNextToken.1.type = .T_EOF ∨ c.lexer.getNextToken.1.type = .T_ILLEGAL
  · rw [if_pos hp]
    omega
  · rw [if_neg hp]
    have := hlt (fun h => hp (Or.inl h)) (fun h => hp (Or.inr h))
    omega

/-- A successful `eat` of a token type other than end-of-file and the illegal
one leaves less work. -/
theorem Compiler.eat_work_left (c c' : Compiler) (type : TokenType)
    (h : c.eat type = .ok c') (h1 : type ≠ .T_EOF) (h2 : type ≠ .T_ILLEGAL) :
    c'.work_left < c.work_left := by
  obtain ⟨ht, rfl⟩ := Compiler.eat_eq_ok c c' type h
  exact Compiler.next_work_left c (ht ▸ h1) (ht ▸ h2)

theorem Compiler.eat_ne_out_of_fuel (c : Compiler) (type : TokenType) :
    c.eat type ≠ .error .out_of_fuel := by
  unfold Compiler.eat
  split_ifs <;> simp

/-! ### Settled runs -/

theorem settled_eat (c : Compiler) (type : TokenType) (h1 : type ≠ .T_EOF)
    (h2 : type ≠ .T_ILLEGAL) : Compiler.Settled 1 (c.eat type) (c.eat type) c.work_left :=
  ⟨Compiler.eat_ne_out_of_fuel c type,
    fun c' h => Compiler.eat_work_left c c' type h h1 h2, rfl⟩

theorem settled_pure (c : Compiler) (w : Nat) (h : c.work_left ≤ w) :
    Compiler.Settled 0 (pure c) (pure c) w := by
  refine ⟨by simp [pure, Except.pure], ?_, rfl⟩
  intro c' hc
  rw [except_pure_ok] at hc
  subst hc
  exact h

theorem settled_error (d : Nat) (e : ParseError) (he : e ≠ .out_of_fuel) (w : Nat) :
    Compiler.Settled d (.error e) (.error e) w :=
  ⟨by simpa using he, by simp, rfl⟩

theorem settled_weaken (d d' : Nat) {x x' : Except ParseError Compiler} {w w' : Nat}
    (h : Compiler.Settled d x x' w) (hd : d' ≤ d) (hw : w ≤ w') :
    Compiler.Settled d' x x' w' :=
  ⟨h.1, fun c' hc => by have := h.2.1 c' hc; omega, h.2.2⟩

/-- Two steps in a row: the second runs on what the first returns. -/
theorem settled_bind (d d1 d2 : Nat) (hd : d ≤ d1 + d2) {x x' : Except ParseError Compiler}
    {f f' : Compiler → Except ParseError Compiler} {w : Nat}
    (hx : Compiler.Settled d1 x x' w)
    (hf : ∀ c1 : Compiler, x = .ok c1 → c1.work_left + d1 ≤ w →
      Compiler.Settled d2 (f c1) (f' c1) c1.work_left) :
    Compiler.Settled d (x >>= f) (x' >>= f') w := by
  obtain ⟨h1, h2, h3⟩ := hx
  rw [h3]
  cases x with
  | error e =>
    refine ⟨?_, ?_, rfl⟩
    · simpa [bind, Except.bind] using h1
    · intro c' hc
      simp [bind, Except.bind] at hc
  | ok c1 =>
    have hw := h2 c1 rfl
    obtain ⟨g1, g2, g3⟩ := hf c1 rfl hw
    refine ⟨?_, ?_, ?_⟩
    · simpa [bind, Except.bind] using g1
    · intro c' hc
      have := g2 c' (by simpa [bind, Except.bind] using hc)
      omega
    · simpa [bind, Except.bind] using g3

theorem Compiler.work_left_congr {a b : Compiler} (h1 : a.lexer = b.lexer)
    (h2 : a.currentToken = b.currentToken) : a.work_left = b.work_left := by
  unfold Compiler.work_left
  rw [h1, h2]

theorem Compiler.emit_lexer (c : Compiler) (i : Instr) : (c.emit i).lexer = c.lexer := rfl

theorem Compiler.emit_currentToken (c : Compiler) (i : Instr) :
    (c.emit i).currentToken = c.currentToken := rfl

theorem Compiler.emitLogicalAndTail_lexer (c : Compiler) (label : Int) :
    (c.emitLogicalAndTail label).lexer = c.lexer := by
  simp only [Compiler.emitLogicalAndTail, Compiler.emit_lexer]

theorem Compiler.emitLogicalAndTail_currentToken (c : Compiler) (label : Int) :
    (c.emitLogicalAndTail label).currentToken = c.currentToken := by
  simp only [Compiler.emitLogicalAndTail, Compiler.emit_currentToken]

theorem Compiler.ite_lexer (p : Prop) [Decidable p] (a b : Compiler) :
    (if p then a else b).lexer = if p then a.lexer else b.lexer := by
  split_ifs <;> rfl

theorem Compiler.ite_currentToken (p : Prop) [Decidable p] (a b : Compiler) :
    (if p then a else b).currentToken = if p then a.currentToken else b.currentToken := by
  split_ifs <;> rfl

/-- A call on a compiler object that differs from `c0` in the emitted code
and the counters only. -/
theorem settled_call (d r : Nat) (p : Nat → Compiler → Except ParseError Compiler) (fuel : Nat)
    (c c0 : Compiler)
    (hp : r + 12 * c.work_left ≤ fuel →
      Compiler.Settled d (p fuel c) (p (fuel + 1) c) c.work_left)
    (h1 : c.lexer = c0.lexer) (h2 : c.currentToken = c0.currentToken)
    (hfuel : r + 12 * c0.work_left ≤ fuel) :
    Compiler.Settled d (p fuel c) (p (fuel + 1) c) c0.work_left := by
  have e := Compiler.work_left_congr h1 h2
  rw [← e]
  exact hp (by rw [e]; exact hfuel)

theorem settled_eat_at (c c0 : Compiler) (type : TokenType) (h1 : type ≠ .T_EOF)
    (h2 : type ≠ .T_ILLEGAL) (e1 : c.lexer = c0.lexer) (e2 : c.currentToken = c0.currentToken) :
    Compiler.Settled 1 (c.eat type) (c.eat type) c0.work_left := by
  rw [← Compiler.work_left_congr e1 e2]
  exact settled_eat c type h1 h2

theorem settled_pure_at (c c0 : Compiler) (e1 : c.lexer = c0.lexer)
    (e2 : c.currentToken = c0.currentToken) :
    Compiler.Settled 0 (pure c) (pure c) c0.work_left :=
  settled_pure c _ (le_of_eq (Compiler.work_left_congr e1 e2))

mutual
theorem Compiler.parseExpression_settles : ∀ (fuel : Nat) (c : Compiler),
    11 + 12 * c.work_left ≤ fuel →
      Compiler.Settled 1 (Compiler.parseExpression fuel c) (Compiler.parseExpression (fuel + 1) c) c.work_left
  | 0, c, h => by omega
  | fuel + 1, c, h => by
    generalize hx : Compiler.parseExpression (fuel + 1 + 1) c = x'
    simp only [Compiler.parseExpression]
    subst hx
    rw [Compiler.parseExpression]
    exact Compiler.parseLogicalAndExpr_settles fuel c (by omega)
theorem Compiler.parseLogicalAndExpr_settles : ∀ (fuel : Nat) (c : Compiler),
    10 + 12 * c.work_left ≤ fuel →
      Compiler.Settled 1 (Compiler.parseLogicalAndExpr fuel c) (Compiler.parseLogicalAndExpr (fuel + 1) c) c.work_left
  | 0, c, h => by omega
  | fuel + 1, c, h => by
    generalize hx : Compiler.parseLogicalAndExpr (fuel + 1 + 1) c = x'
    simp only [Compiler.parseLogicalAndExpr]
    subst hx
    rw [Compiler.parseLogicalAndExpr]
    exact settled_bind 1 1 0 (le_refl _) (Compiler.parseBitwiseOrExpr_settles fuel c (by omega))
      (fun c1 _ hw => Compiler.parseLogicalAndLoop_settles fuel c1 (by omega))
theorem Compiler.parseLogicalAndLoop_settles : ∀ (fuel : Nat) (c : Compiler),
    1 + 12 * c.work_left ≤ fuel →
      Compiler.Settled 0 (Compiler.parseLogicalAndLoop fuel c) (Compiler.parseLogicalAndLoop (fuel + 1) c) c.work_left
  | 0, c, h => by omega
  | fuel + 1, c, h => by
    generalize hx : Compiler.parseLogicalAndLoop (fuel + 1 + 1) c = x'
    simp only [Compiler.parseLogicalAndLoop]
    subst hx
    rw [Compiler.parseLogicalAndLoop]
    by_cases ht : c.currentToken.type = .T_LOGICAL_AND
    · simp only [if_pos ht]
      refine settled_bind 0 1 1 (by decide) (settled_eat c _ (by decide) (by decide)) ?_
      intro c1 _ hw1
      refine settled_bind 1 1 0 (le_refl _)
        (settled_call 1 9 Compiler.parseBitwiseOrExpr fuel _ c1
          (Compiler.parseBitwiseOrExpr_settles fuel _)
        (by simp only [Compiler.emit_lexer, Compiler.emitLogicalAndTail_lexer, Compiler.ite_lexer,
          ite_self])
        (by simp only [Compiler.emit_currentToken, Compiler.emitLogicalAndTail_currentToken,
          Compiler.ite_currentToken, ite_self]) (by omega)) ?_
      intro c2 _ hw2
      exact settled_call 0 1 Compiler.parseLogicalAndLoop fuel _ c2
        (Compiler.parseLogicalAndLoop_settles fuel _)
        (by simp only [Compiler.emit_lexer, Compiler.emitLogicalAndTail_lexer, Compiler.ite_lexer,
          ite_self])
        (by simp only [Compiler.emit_currentToken, Compiler.emitLogicalAndTail_currentToken,
          Compiler.ite_currentToken, ite_self]) (by omega)
    · simp only [if_neg ht]
      exact settled_pure c _ (le_refl _)
theorem Compiler.parseBitwiseOrExpr_settles : ∀ (fuel : Nat) (c : Compiler),
    9 + 12 * c.work_left ≤ fuel →
      Compiler.Settled 1 (Compiler.parseBitwiseOrExpr fuel c) (Compiler.parseBitwiseOrExpr (fuel + 1) c) c.work_left
  | 0, c, h => by omega
  | fuel + 1, c, h => by
    generalize hx : Compiler.parseBitwiseOrExpr (fuel + 1 + 1) c = x'
    simp only [Compiler.parseBitwiseOrExpr]
    subst hx
    rw [Compiler.parseBitwiseOrExpr]
    exact settled_bind 1 1 0 (le_refl _) (Compiler.parseBitwiseXorExpr_settles fuel c (by omega))
      (fun c1 _ hw => Compiler.parseBitwiseOrLoop_settles fuel c1 (by omega))
theorem Compiler.parseBitwiseOrLoop_settles : ∀ (fuel : Nat) (c : Compiler),
    1 + 12 * c.work_left ≤ fuel →
      Compiler.Settled 0 (Compiler.parseBitwiseOrLoop fuel c) (Compiler.parseBitwiseOrLoop (fuel + 1) c) c.work_left
  | 0, c, h => by omega
  | fuel + 1, c, h => by
    generalize hx : Compiler.parseBitwiseOrLoop (fuel + 1 + 1) c = x'
    simp only [Compiler.parseBitwiseOrLoop]
    subst hx
    rw [Compiler.parseBitwiseOrLoop]
    by_cases ht : c.currentToken.type = .T_BIT_OR
    · simp only [if_pos ht]
      refine settled_bind 0 1 1 (by decide) (settled_eat c _ (by decide) (by decide)) ?_
      intro c1 _ hw1
      refine settled_bind 1 1 0 (le_refl _)
        (settled_call 1 8 Compiler.parseBitwiseXorExpr fuel _ c1
          (Compiler.parseBitwiseXorExpr_settles fuel _)
        (by simp only [Compiler.emit_lexer, Compiler.emitLogicalAndTail_lexer, Compiler.ite_lexer,
          ite_self])
        (by simp only [Compiler.emit_currentToken, Compiler.emitLogicalAndTail_currentToken,
          Compiler.ite_currentToken, ite_self]) (by omega)) ?_
      intro c2 _ hw2
      exact settled_call 0 1 Compiler.parseBitwiseOrLoop fuel _ c2
        (Compiler.parseBitwiseOrLoop_settles fuel _)
        (by simp only [Compiler.emit_lexer, Compiler.emitLogicalAndTail_lexer, Compiler.ite_lexer,
          ite_self])
        (by simp only [Compiler.emit_currentToken, Compiler.emitLogicalAndTail_currentToken,
          Compiler.ite_currentToken, ite_self]) (by omega)
    · simp only [if_neg ht]
      exact settled_pure c _ (le_refl _)
theorem Compiler.parseBitwiseXorExpr_settles : ∀ (fuel : Nat) (c : Compiler),
    8 + 12 * c.work_left ≤ fuel →
      Compiler.Settled 1 (Compiler.parseBitwiseXorExpr fuel c) (Compiler.parseBitwiseXorExpr (fuel + 1) c) c.work_left
  | 0, c, h => by omega
  | fuel + 1, c, h => by
    generalize hx : Compiler.parseBitwiseXorExpr (fuel + 1 + 1) c = x'
    simp only [Compiler.parseBitwiseXorExpr]
    subst hx
    rw [Compiler.parseBitwiseXorExpr]
    exact settled_bind 1 1 0 (le_refl _) (Compiler.parseBitwiseAndExpr_settles fuel c (by omega))
      (fun c1 _ hw => Compiler.parseBitwiseXorLoop_settles fuel c1 (by omega))
theorem Compiler.parseBitwiseXorLoop_settles : ∀ (fuel : Nat) (c : Compiler),
    1 + 12 * c.work_left ≤ fuel →
      Compiler.Settled 0 (Compiler.parseBitwiseXorLoop fuel c) (Compiler.parseBitwiseXorLoop (fuel + 1) c) c.work_left
  | 0, c, h => by omega
  | fuel + 1, c, h => by
    generalize hx : Compiler.parseBitwiseXorLoop (fuel + 1 + 1) c = x'
    simp only [Compiler.parseBitwiseXorLoop]
    subst hx
    rw [Compiler.parseBitwiseXorLoop]
    by_cases ht : c.currentToken.type = .T_BIT_XOR
    · simp only [if_pos ht]
      refine settled_bind 0 1 1 (by decide) (settled_eat c _ (by decide) (by decide)) ?_
      intro c1 _ hw1
      refine settled_bind 1 1 0 (le_refl _)
        (settled_call 1 7 Compiler.parseBitwiseAndExpr fuel _ c1
          (Compiler.parseBitwiseAndExpr_settles fuel _)
        (by simp only [Compiler.emit_lexer, Compiler.emitLogicalAndTail_lexer, Compiler.ite_lexer,
          ite_self])
        (by simp only [Compiler.emit_currentToken, Compiler.emitLogicalAndTail_currentToken,
          Compiler.ite_currentToken, ite_self]) (by omega)) ?_
      intro c2 _ hw2
      exact settled_call 0 1 Compiler.parseBitwiseXorLoop fuel _ c2
        (Compiler.parseBitwiseXorLoop_settles fuel _)
        (by simp only [Compiler.emit_lexer, Compiler.emitLogicalAndTail_lexer, Compiler.ite_lexer,
          ite_self])
        (by simp only [Compiler.emit_currentToken, Compiler.emitLogicalAndTail_currentToken,
          Compiler.ite_currentToken, ite_self]) (by omega)
    · simp only [if_neg ht]
      exact settled_pure c _ (le_refl _)
theorem Compiler.parseBitwiseAndExpr_settles : ∀ (fuel : Nat) (c : Compiler),
    7 + 12 * c.work_left ≤ fuel →
      Compiler.Settled 1 (Compiler.parseBitwiseAndExpr fuel c) (Compiler.parseBitwiseAndExpr (fuel + 1) c) c.work_left
  | 0, c, h => by omega
  | fuel + 1, c, h => by
    generalize hx : Compiler.parseBitwiseAndExpr (fuel + 1 + 1) c = x'
    simp only [Compiler.parseBitwiseAndExpr]
    subst hx
    rw [Compiler.parseBitwiseAndExpr]
    exact settled_bind 1 1 0 (le_refl _) (Compiler.parseEqualityExpr_settles fuel c (by omega))
      (fun c1 _ hw => Compiler.parseBitwiseAndLoop_settles fuel c1 (by omega))
theorem Compiler.parseBitwiseAndLoop_settles : ∀ (fuel : Nat) (c : Compiler),
    1 + 12 * c.work_left ≤ fuel →
      Compiler.Settled 0 (Compiler.parseBitwiseAndLoop fuel c) (Compiler.parseBitwiseAndLoop (fuel + 1) c) c.work_left
  | 0, c, h => by omega
  | fuel + 1, c, h => by
    generalize hx : Compiler.parseBitwiseAndLoop (fuel + 1 + 1) c = x'
    simp only [Compiler.parseBitwiseAndLoop]
    subst hx
    rw [Compiler.parseBitwiseAndLoop]
    by_cases ht : c.currentToken.type = .T_BIT_AND
    · simp only [if_pos ht]
      refine settled_bind 0 1 1 (by decide) (settled_eat c _ (by decide) (by decide)) ?_
      intro c1 _ hw1
      refine settled_bind 1 1 0 (le_refl _)
        (settled_call 1 6 Compiler.parseEqualityExpr fuel _ c1
          (Compiler.parseEqualityExpr_settles fuel _)
        (by simp only [Compiler.emit_lexer, Compiler.emitLogicalAndTail_lexer, Compiler.ite_lexer,
          ite_self])
        (by simp only [Compiler.emit_currentToken, Compiler.emitLogicalAndTail_currentToken,
          Compiler.ite_currentToken, ite_self]) (by omega)) ?_
      intro c2 _ hw2
      exact settled_call 0 1 Compiler.parseBitwiseAndLoop fuel _ c2
        (Compiler.parseBitwiseAndLoop_settles fuel _)
        (by simp only [Compiler.emit_lexer, Compiler.emitLogicalAndTail_lexer, Compiler.ite_lexer,
          ite_self])
        (by simp only [Compiler.emit_currentToken, Compiler.emitLogicalAndTail_currentToken,
          Compiler.ite_currentToken, ite_self]) (by omega)
    · simp only [if_neg ht]
      exact settled_pure c _ (le_refl _)
theorem Compiler.parseEqualityExpr_settles : ∀ (fuel : Nat) (c : Compiler),
    6 + 12 * c.work_left ≤ fuel →
      Compiler.Settled 1 (Compiler.parseEqualityExpr fuel c) (Compiler.parseEqualityExpr (fuel + 1) c) c.work_left
  | 0, c, h => by omega
  | fuel + 1, c, h => by
    generalize hx : Compiler.parseEqualityExpr (fuel + 1 + 1) c = x'
    simp only [Compiler.parseEqualityExpr]
    subst hx
    rw [Compiler.parseEqualityExpr]
    exact settled_bind 1 1 0 (le_refl _) (Compiler.parseRelationalExpr_settles fuel c (by omega))
      (fun c1 _ hw => Compiler.parseEqualityLoop_settles fuel c1 (by omega))
theorem Compiler.parseEqualityLoop_settles : ∀ (fuel : Nat) (c : Compiler),
    1 + 12 * c.work_left ≤ fuel →
      Compiler.Settled 0 (Compiler.parseEqualityLoop fuel c) (Compiler.parseEqualityLoop (fuel + 1) c) c.work_left
  | 0, c, h => by omega
  | fuel + 1, c, h => by
    generalize hx : Compiler.parseEqualityLoop (fuel + 1 + 1) c = x'
    simp only [Compiler.parseEqualityLoop]
    subst hx
    rw [Compiler.parseEqualityLoop]
    by_cases ht : c.currentToken.type = .T_EQ ∨ c.currentToken.type = .T_NE
    · simp only [if_pos ht]
      refine settled_bind 0 1 1 (by decide) (settled_eat c _ (fun e => absurd (e ▸ ht) (by decide))
          (fun e => absurd (e ▸ ht) (by decide))) ?_
      intro c1 _ hw1
      refine settled_bind 1 1 0 (le_refl _)
        (settled_call 1 5 Compiler.parseRelationalExpr fuel _ c1
          (Compiler.parseRelationalExpr_settles fuel _)
        (by simp only [Compiler.emit_lexer, Compiler.emitLogicalAndTail_lexer, Compiler.ite_lexer,
          ite_self])
        (by simp only [Compiler.emit_currentToken, Compiler.emitLogicalAndTail_currentToken,
          Compiler.ite_currentToken, ite_self]) (by omega)) ?_
      intro c2 _ hw2
      exact settled_call 0 1 Compiler.parseEqualityLoop fuel _ c2
        (Compiler.parseEqualityLoop_settles fuel _)
        (by simp only [Compiler.emit_lexer, Compiler.emitLogicalAndTail_lexer, Compiler.ite_lexer,
          ite_self])
        (by simp only [Compiler.emit_currentToken, Compiler.emitLogicalAndTail_currentToken,
          Compiler.ite_currentToken, ite_self]) (by omega)
    · simp only [if_neg ht]
      exact settled_pure c _ (le_refl _)
theorem Compiler.parseRelationalExpr_settles : ∀ (fuel : Nat) (c : Compiler),
    5 + 12 * c.work_left ≤ fuel →
      Compiler.Settled 1 (Compiler.parseRelationalExpr fuel c) (Compiler.parseRelationalExpr (fuel + 1) c) c.work_left
  | 0, c, h => by omega
  | fuel + 1, c, h => by
    generalize hx : Compiler.parseRelationalExpr (fuel + 1 + 1) c = x'
    simp only [Compiler.parseRelationalExpr]
    subst hx
    rw [Compiler.parseRelationalExpr]
    exact settled_bind 1 1 0 (le_refl _) (Compiler.parseAdditiveExpr_settles fuel c (by omega))
      (fun c1 _ hw => Compiler.parseRelationalLoop_settles fuel c1 (by omega))
theorem Compiler.parseRelationalLoop_settles : ∀ (fuel : Nat) (c : Compiler),
    1 + 12 * c.work_left ≤ fuel →
      Compiler.Settled 0 (Compiler.parseRelationalLoop fuel c) (Compiler.parseRelationalLoop (fuel + 1) c) c.work_left
  | 0, c, h => by omega
  | fuel + 1, c, h => by
    generalize hx : Compiler.parseRelationalLoop (fuel + 1 + 1) c = x'
    simp only [Compiler.parseRelationalLoop]
    subst hx
    rw [Compiler.parseRelationalLoop]
    by_cases ht : c.currentToken.type = .T_LT ∨ c.currentToken.type = .T_LE ∨
        c.currentToken.type = .T_GT ∨ c.currentToken.type = .T_GE
    · simp only [if_pos ht]
      refine settled_bind 0 1 1 (by decide) (settled_eat c _ (fun e => absurd (e ▸ ht) (by decide))
          (fun e => absurd (e ▸ ht) (by decide))) ?_
      intro c1 _ hw1
      refine settled_bind 1 1 0 (le_refl _)
        (settled_call 1 4 Compiler.parseAdditiveExpr fuel _ c1
          (Compiler.parseAdditiveExpr_settles fuel _)
        (by simp only [Compiler.emit_lexer, Compiler.emitLogicalAndTail_lexer, Compiler.ite_lexer,
          ite_self])
        (by simp only [Compiler.emit_currentToken, Compiler.emitLogicalAndTail_currentToken,
          Compiler.ite_currentToken, ite_self]) (by omega)) ?_
      intro c2 _ hw2
      exact settled_call 0 1 Compiler.parseRelationalLoop fuel _ c2
        (Compiler.parseRelationalLoop_settles fuel _)
        (by simp only [Compiler.emit_lexer, Compiler.emitLogicalAndTail_lexer, Compiler.ite_lexer,
          ite_self])
        (by simp only [Compiler.emit_currentToken, Compiler.emitLogicalAndTail_currentToken,
          Compiler.ite_currentToken, ite_self]) (by omega)
    · simp only [if_neg ht]
      exact settled_pure c _ (le_refl _)
theorem Compiler.parseAdditiveExpr_settles : ∀ (fuel : Nat) (c : Compiler),
    4 + 12 * c.work_left ≤ fuel →
      Compiler.Settled 1 (Compiler.parseAdditiveExpr fuel c) (Compiler.parseAdditiveExpr (fuel + 1) c) c.work_left
  | 0, c, h => by omega
  | fuel + 1, c, h => by
    generalize hx : Compiler.parseAdditiveExpr (fuel + 1 + 1) c = x'
    simp only [Compiler.parseAdditiveExpr]
    subst hx
    rw [Compiler.parseAdditiveExpr]
    exact settled_bind 1 1 0 (le_refl _) (Compiler.parseMultiplicativeExpr_settles fuel c (by omega))
      (fun c1 _ hw => Compiler.parseAdditiveLoop_settles fuel c1 (by omega))
theorem Compiler.parseAdditiveLoop_settles : ∀ (fuel : Nat) (c : Compiler),
    1 + 12 * c.work_left ≤ fuel →
      Compiler.Settled 0 (Compiler.parseAdditiveLoop fuel c) (Compiler.parseAdditiveLoop (fuel + 1) c) c.work_left
  | 0, c, h => by omega
  | fuel + 1, c, h => by
    generalize hx : Compiler.parseAdditiveLoop (fuel + 1 + 1) c = x'
    simp only [Compiler.parseAdditiveLoop]
    subst hx
    rw [Compiler.parseAdditiveLoop]
    by_cases ht : c.currentToken.type = .T_PLUS ∨ c.currentToken.type = .T_MINUS
    · simp only [if_pos ht]
      refine settled_bind 0 1 1 (by decide) (settled_eat c _ (fun e => absurd (e ▸ ht) (by decide))
          (fun e => absurd (e ▸ ht) (by decide))) ?_
      intro c1 _ hw1
      refine settled_bind 1 1 0 (le_refl _)
        (settled_call 1 3 Compiler.parseMultiplicativeExpr fuel _ c1
          (Compiler.parseMultiplicativeExpr_settles fuel _)
        (by simp only [Compiler.emit_lexer, Compiler.emitLogicalAndTail_lexer, Compiler.ite_lexer,
          ite_self])
        (by simp only [Compiler.emit_currentToken, Compiler.emitLogicalAndTail_currentToken,
          Compiler.ite_currentToken, ite_self]) (by omega)) ?_
      intro c2 _ hw2
      exact settled_call 0 1 Compiler.parseAdditiveLoop fuel _ c2
        (Compiler.parseAdditiveLoop_settles fuel _)
        (by simp only [Compiler.emit_lexer, Compiler.emitLogicalAndTail_lexer, Compiler.ite_lexer,
          ite_self])
        (by simp only [Compiler.emit_currentToken, Compiler.emitLogicalAndTail_currentToken,
          Compiler.ite_currentToken, ite_self]) (by omega)
    · simp only [if_neg ht]
      exact settled_pure c _ (le_refl _)
theorem Compiler.parseMultiplicativeExpr_settles : ∀ (fuel : Nat) (c : Compiler),
    3 + 12 * c.work_left ≤ fuel →
      Compiler.Settled 1 (Compiler.parseMultiplicativeExpr fuel c) (Compiler.parseMultiplicativeExpr (fuel + 1) c) c.work_left
  | 0, c, h => by omega
  | fuel + 1, c, h => by
    generalize hx : Compiler.parseMultiplicativeExpr (fuel + 1 + 1) c = x'
    simp only [Compiler.parseMultiplicativeExpr]
    subst hx
    rw [Compiler.parseMultiplicativeExpr]
    exact settled_bind 1 1 0 (le_refl _) (Compiler.parseUnaryExpr_settles fuel c (by omega))
      (fun c1 _ hw => Compiler.parseMultiplicativeLoop_settles fuel c1 (by omega))
theorem Compiler.parseMultiplicativeLoop_settles : ∀ (fuel : Nat) (c : Compiler),
    1 + 12 * c.work_left ≤ fuel →
      Compiler.Settled 0 (Compiler.parseMultiplicativeLoop fuel c) (Compiler.parseMultiplicativeLoop (fuel + 1) c) c.work_left
  | 0, c, h => by omega
  | fuel + 1, c, h => by
    generalize hx : Compiler.parseMultiplicativeLoop (fuel + 1 + 1) c = x'
    simp only [Compiler.parseMultiplicativeLoop]
    subst hx
    rw [Compiler.parseMultiplicativeLoop]
    by_cases ht : c.currentToken.type = .T_STAR ∨ c.currentToken.type = .T_SLASH ∨
        c.currentToken.type = .T_PERCENT
    · simp only [if_pos ht]
      refine settled_bind 0 1 1 (by decide) (settled_eat c _ (fun e => absurd (e ▸ ht) (by decide))
          (fun e => absurd (e ▸ ht) (by decide))) ?_
      intro c1 _ hw1
      refine settled_bind 1 1 0 (le_refl _)
        (settled_call 1 2 Compiler.parseUnaryExpr fuel _ c1
          (Compiler.parseUnaryExpr_settles fuel _)
        (by simp only [Compiler.emit_lexer, Compiler.emitLogicalAndTail_lexer, Compiler.ite_lexer,
          ite_self])
        (by simp only [Compiler.emit_currentToken, Compiler.emitLogicalAndTail_currentToken,
          Compiler.ite_currentToken, ite_self]) (by omega)) ?_
      intro c2 _ hw2
      exact settled_call 0 1 Compiler.parseMultiplicativeLoop fuel _ c2
        (Compiler.parseMultiplicativeLoop_settles fuel _)
        (by simp only [Compiler.emit_lexer, Compiler.emitLogicalAndTail_lexer, Compiler.ite_lexer,
          ite_self])
        (by simp only [Compiler.emit_currentToken, Compiler.emitLogicalAndTail_currentToken,
          Compiler.ite_currentToken, ite_self]) (by omega)
    · simp only [if_neg ht]
      exact settled_pure c _ (le_refl _)
theorem Compiler.parseUnaryExpr_settles : ∀ (fuel : Nat) (c : Compiler),
    2 + 12 * c.work_left ≤ fuel →
      Compiler.Settled 1 (Compiler.parseUnaryExpr fuel c) (Compiler.parseUnaryExpr (fuel + 1) c) c.work_left
  | 0, c, h => by omega
  | fuel + 1, c, h => by
    generalize hx : Compiler.parseUnaryExpr (fuel + 1 + 1) c = x'
    simp only [Compiler.parseUnaryExpr]
    subst hx
    rw [Compiler.parseUnaryExpr]
    by_cases ht : c.currentToken.type = .T_MINUS
    · simp only [if_pos ht]
      refine settled_bind 1 1 1 (by decide) (settled_eat c _ (by decide) (by decide)) ?_
      intro c1 _ hw1
      refine settled_bind 1 1 0 (le_refl _) (Compiler.parseUnaryExpr_settles fuel c1 (by omega)) ?_
      intro c2 _ hw2
      exact settled_pure_at _ c2 (by simp only [Compiler.emit_lexer, Compiler.emitLogicalAndTail_lexer, Compiler.ite_lexer,
          ite_self])
        (by simp only [Compiler.emit_currentToken, Compiler.emitLogicalAndTail_currentToken,
          Compiler.ite_currentToken, ite_self])
    · simp only [if_neg ht]
      exact Compiler.parsePrimaryExpr_settles fuel c (by omega)
theorem Compiler.parsePrimaryExpr_settles : ∀ (fuel : Nat) (c : Compiler),
    1 + 12 * c.work_left ≤ fuel →
      Compiler.Settled 1 (Compiler.parsePrimaryExpr fuel c) (Compiler.parsePrimaryExpr (fuel + 1) c) c.work_left
  | 0, c, h => by omega
  | fuel + 1, c, h => by
    generalize hx : Compiler.parsePrimaryExpr (fuel + 1 + 1) c = x'
    simp only [Compiler.parsePrimaryExpr]
    subst hx
    rw [Compiler.parsePrimaryExpr]
    dsimp only
    split_ifs with h1 h2 h3 h4 h5
    · exact settled_eat_at (c.emit (.push (.lit c.currentToken.value))) c .T_LITERAL
        (by decide) (by decide) rfl rfl
    · exact settled_eat_at
        (c.emit (.push (.ebp_rel ((c.localVars.find c.currentToken.value).getD 0)))) c .T_IDENT
        (by decide) (by decide) rfl rfl
    · exact settled_eat_at (c.emit (.push (.global c.currentToken.value))) c .T_IDENT
        (by decide) (by decide) rfl rfl
    · exact settled_error 1 (.undeclared_variable c.currentToken.value)
        (fun e => ParseError.noConfusion e) _
    · refine settled_bind 1 1 1 (by decide) (settled_eat c _ (by decide) (by decide)) ?_
      intro c1 _ hw1
      refine settled_bind 1 1 0 (by decide) (Compiler.parseExpression_settles fuel c1 (by omega)) ?_
      intro c2 _ hw2
      exact settled_weaken 1 0 (settled_eat c2 _ (by decide) (by decide)) (Nat.zero_le _)
        (le_refl _)
    · exact settled_error 1 (.invalid_primary c.currentToken.value)
        (fun e => ParseError.noConfusion e) _
end

theorem Compiler.parseDeclaration_settles (c : Compiler) :
    Compiler.Settled 1 c.parseDeclaration c.parseDeclaration c.work_left := by
  simp only [Compiler.parseDeclaration]
  refine settled_bind 1 1 0 (le_refl _) (settled_eat c _ (by decide) (by decide)) ?_
  intro c1 _ hw1
  refine settled_bind 0 1 0 (by decide)
    (settled_eat_at _ c1 _ (by decide) (by decide) rfl rfl) ?_
  intro c2 _ hw2
  exact settled_weaken 1 0 (settled_eat c2 _ (by decide) (by decide)) (Nat.zero_le _) (le_refl _)

theorem Compiler.parseReturn_settles (fuel : Nat) (c : Compiler) (h : 12 * c.work_left ≤ fuel) :
    Compiler.Settled 1 (Compiler.parseReturn fuel c) (Compiler.parseReturn (fuel + 1) c)
      c.work_left := by
  simp only [Compiler.parseReturn]
  refine settled_bind 1 1 0 (le_refl _) (settled_eat c _ (by decide) (by decide)) ?_
  intro c1 _ hw1
  refine settled_bind 0 1 0 (by decide) (Compiler.parseExpression_settles fuel c1 (by omega)) ?_
  intro c2 _ hw2
  refine settled_bind 0 1 0 (by decide) (settled_eat c2 _ (by decide) (by decide)) ?_
  intro c3 _ hw3
  exact settled_pure_at _ c3
      (by simp only [Compiler.emit_lexer]) (by simp only [Compiler.emit_currentToken])

theorem Compiler.parseAssignment_settles (fuel : Nat) (c : Compiler)
    (h : 12 * c.work_left ≤ fuel) :
    Compiler.Settled 1 (Compiler.parseAssignment fuel c) (Compiler.parseAssignment (fuel + 1) c)
      c.work_left := by
  simp only [Compiler.parseAssignment]
  refine settled_bind 1 1 0 (le_refl _) (settled_eat c _ (by decide) (by decide)) ?_
  intro c1 _ hw1
  refine settled_bind 0 1 0 (by decide) (settled_eat c1 _ (by decide) (by decide)) ?_
  intro c2 _ hw2
  refine settled_bind 0 1 0 (by decide) (Compiler.parseExpression_settles fuel c2 (by omega)) ?_
  intro c3 _ hw3
  refine settled_bind 0 1 0 (by decide) (settled_eat c3 _ (by decide) (by decide)) ?_
  intro c4 _ hw4
  split_ifs
  · exact settled_pure_at _ c4
      (by simp only [Compiler.emit_lexer]) (by simp only [Compiler.emit_currentToken])
  · exact settled_pure_at _ c4
      (by simp only [Compiler.emit_lexer]) (by simp only [Compiler.emit_currentToken])
  · exact settled_error 0 (.undeclared_variable c.currentToken.value)
      (fun e => ParseError.noConfusion e) _

theorem Compiler.parsePrintln_settles (fuel : Nat) (c : Compiler) (h : 12 * c.work_left ≤ fuel) :
    Compiler.Settled 1 (Compiler.parsePrintln fuel c) (Compiler.parsePrintln (fuel + 1) c)
      c.work_left := by
  simp only [Compiler.parsePrintln]
  refine settled_bind 1 1 0 (le_refl _) (settled_eat c _ (by decide) (by decide)) ?_
  intro c1 _ hw1
  refine settled_bind 0 1 0 (by decide) (settled_eat c1 _ (by decide) (by decide)) ?_
  intro c2 _ hw2
  refine settled_bind 0 1 0 (by decide) (Compiler.parseExpression_settles fuel c2 (by omega)) ?_
  intro c3 _ hw3
  refine settled_bind 0 1 0 (by decide) (settled_eat c3 _ (by decide) (by decide)) ?_
  intro c4 _ hw4
  refine settled_bind 0 1 0 (by decide) (settled_eat c4 _ (by decide) (by decide)) ?_
  intro c5 _ hw5
  exact settled_pure_at _ c5
      (by simp only [Compiler.emit_lexer]) (by simp only [Compiler.emit_currentToken])

theorem Compiler.parseStatement_settles (fuel : Nat) (c : Compiler)
    (h : 12 * c.work_left ≤ fuel) :
    Compiler.Settled 1 (Compiler.parseStatement fuel c) (Compiler.parseStatement (fuel + 1) c)
      c.work_left := by
  simp only [Compiler.parseStatement]
  split_ifs
  · exact Compiler.parseDeclaration_settles c
  · refine settled_bind 1 1 0 (le_refl _) (Compiler.parseReturn_settles fuel c h) ?_
    intro c1 _ hw1
    exact settled_pure_at _ c1 rfl rfl
  · exact Compiler.parsePrintln_settles fuel c h
  · exact Compiler.parseAssignment_settles fuel c h
  · exact settled_error 1 (.invalid_statement c.currentToken.value)
      (fun e => ParseError.noConfusion e) _

theorem Compiler.parseBlockLoop_settles : ∀ (fuel : Nat) (c : Compiler),
    1 + 12 * c.work_left ≤ fuel →
      Compiler.Settled 0 (Compiler.parseBlockLoop fuel c) (Compiler.parseBlockLoop (fuel + 1) c)
        c.work_left
  | 0, c, h => by omega
  | fuel + 1, c, h => by
    generalize hx : Compiler.parseBlockLoop (fuel + 1 + 1) c = x'
    simp only [Compiler.parseBlockLoop]
    subst hx
    rw [Compiler.parseBlockLoop]
    by_cases ht : c.currentToken.type ≠ .T_RBRACE ∧ c.currentToken.type ≠ .T_EOF
    · simp only [if_pos ht]
      refine settled_bind 0 1 0 (by decide) (Compiler.parseStatement_settles fuel c (by omega)) ?_
      intro c1 _ hw1
      exact Compiler.parseBlockLoop_settles fuel c1 (by omega)
    · simp only [if_neg ht]
      exact settled_pure c _ (le_refl _)

theorem Compiler.parseBlock_settles (fuel : Nat) (c : Compiler) (h : 12 * c.work_left ≤ fuel) :
    Compiler.Settled 1 (Compiler.parseBlock fuel c) (Compiler.parseBlock (fuel + 1) c)
      c.work_left := by
  simp only [Compiler.parseBlock]
  refine settled_bind 1 1 0 (le_refl _) (settled_eat c _ (by decide) (by decide)) ?_
  intro c1 _ hw1
  refine settled_bind 0 0 0 (by decide) (Compiler.parseBlockLoop_settles fuel c1 (by omega)) ?_
  intro c2 _ hw2
  exact settled_weaken 1 0 (settled_eat c2 _ (by decide) (by decide)) (Nat.zero_le _) (le_refl _)

theorem Compiler.parseMainParams_settles (c : Compiler) :
    Compiler.Settled 0 c.parseMainParams c.parseMainParams c.work_left := by
  simp only [Compiler.parseMainParams]
  by_cases ht : c.currentToken.type = .T_INT
  · simp only [if_pos ht]
    refine settled_bind 0 1 0 (by decide) (settled_eat c _ (by decide) (by decide)) ?_
    intro c1 _ hw1
    refine settled_bind 0 1 0 (by decide) (settled_eat c1 _ (by decide) (by decide)) ?_
    intro c2 _ hw2
    by_cases hc : c2.currentToken.type = .T_COMMA
    · simp only [if_pos hc]
      refine settled_bind 0 1 0 (by decide) (settled_eat c2 _ (by decide) (by decide)) ?_
      intro c3 _ hw3
      refine settled_bind 0 1 0 (by decide) (settled_eat c3 _ (by decide) (by decide)) ?_
      intro c4 _ hw4
      exact settled_weaken 1 0 (settled_eat c4 _ (by decide) (by decide)) (Nat.zero_le _)
        (le_refl _)
    · simp only [if_neg hc]
      exact settled_pure c2 _ (le_refl _)
  · simp only [if_neg ht]
    exact settled_pure c _ (le_refl _)

theorem Compiler.parseMain_settles (fuel : Nat) (c : Compiler) (h : 12 * c.work_left ≤ fuel) :
    Compiler.Settled 1 (Compiler.parseMain fuel c) (Compiler.parseMain (fuel + 1) c)
      c.work_left := by
  simp only [Compiler.parseMain]
  refine settled_bind 1 1 0 (le_refl _) (settled_eat c _ (by decide) (by decide)) ?_
  intro c1 _ hw1
  refine settled_bind 0 1 0 (by decide)
    (settled_eat_at _ c1 _ (by decide) (by decide)
      (by simp only [Compiler.emit_lexer]) (by simp only [Compiler.emit_currentToken])) ?_
  intro c2 _ hw2
  refine settled_bind 0 0 0 (by decide) (Compiler.parseMainParams_settles c2) ?_
  intro c3 _ hw3
  refine settled_bind 0 1 0 (by decide) (settled_eat c3 _ (by decide) (by decide)) ?_
  intro c4 _ hw4
  refine settled_bind 0 1 0 (by decide) (Compiler.parseBlock_settles fuel c4 (by omega)) ?_
  intro c5 _ hw5
  split_ifs
  · exact settled_pure_at _ c5
      (by simp only [Compiler.emit_lexer]) (by simp only [Compiler.emit_currentToken])
  · exact settled_pure c5 _ (le_refl _)

theorem Compiler.parseTopLevelStatement_settles (fuel : Nat) (c : Compiler)
    (h : 12 * c.work_left ≤ fuel) :
    Compiler.Settled 1 (Compiler.parseTopLevelStatement fuel c)
      (Compiler.parseTopLevelStatement (fuel + 1) c) c.work_left := by
  simp only [Compiler.parseTopLevelStatement]
  refine settled_bind 1 1 0 (le_refl _) (settled_eat c _ (by decide) (by decide)) ?_
  intro c1 _ hw1
  by_cases ht : c1.currentToken.type = .T_MAIN
  · simp only [if_pos ht]
    exact settled_weaken 1 0 (Compiler.parseMain_settles fuel c1 (by omega)) (Nat.zero_le _)
      (le_refl _)
  · simp only [if_neg ht]
    refine settled_bind 0 1 0 (by decide)
      (settled_eat_at _ c1 _ (by decide) (by decide) rfl rfl) ?_
    intro c2 _ hw2
    exact settled_weaken 1 0 (settled_eat c2 _ (by decide) (by decide)) (Nat.zero_le _)
      (le_refl _)

theorem Compiler.parseProgram_settles : ∀ (fuel : Nat) (c : Compiler),
    1 + 12 * c.work_left ≤ fuel →
      Compiler.Settled 0 (Compiler.parseProgram fuel c) (Compiler.parseProgram (fuel + 1) c)
        c.work_left
  | 0, c, h => by omega
  | fuel + 1, c, h => by
    generalize hx : Compiler.parseProgram (fuel + 1 + 1) c = x'
    simp only [Compiler.parseProgram]
    subst hx
    rw [Compiler.parseProgram]
    by_cases ht : c.currentToken.type ≠ .T_EOF
    · simp only [if_pos ht]
      refine settled_bind 0 1 0 (by decide)
        (Compiler.parseTopLevelStatement_settles fuel c (by omega)) ?_
      intro c1 _ hw1
      exact Compiler.parseProgram_settles fuel c1 (by omega)
    · simp only [if_neg ht]
      exact settled_pure c _ (le_refl _)

theorem Lexer.new_chars_left (source : List Char) :
    (Lexer.new source).chars_left ≤ source.length := by
  unfold Lexer.new
  refine (Lexer.advance_chars_left_le _).trans ?_
  simp [Lexer.chars_left]

theorem Compiler.new_work_left (source : List Char) :
    (Compiler.new source).work_left ≤ source.length + 1 := by
  have h1 := (Lexer.getNextToken_chars_left (Lexer.new source)).1
  have h2 := Lexer.new_chars_left source
  unfold Compiler.work_left Compiler.new
  simp only
  split_ifs <;> omega

/-- Past the budget that settles it, `parseProgram` gives one and the same
result. -/
theorem Compiler.parseProgram_stable (c : Compiler) (fuel : Nat)
    (h : 1 + 12 * c.work_left ≤ fuel) :
    Compiler.parseProgram fuel c = Compiler.parseProgram (1 + 12 * c.work_left) c := by
  induction fuel, h using Nat.le_induction with
  | base => rfl
  | succ n hn ih => rw [(Compiler.parseProgram_settles n c hn).2.2, ih]

/-- With a call stack that holds them, the nested calls of a run are finite
for every source text.  With a budget of `12 * source.length + 13` nested
calls and loop iterations or more, construction of the compiler followed by
`compile()` never exhausts the budget, and its result, output or error, is
the same for every such budget.  The loops of the lexer leave by their own
test within `source.length + 1` iterations.  Every successful `eat` of a
token other than end-of-file and the illegal one lowers the work left, and so
does every call of `parseTopLevelStatement`, `parseStatement` and of each
expression function that returns: each iteration of a parser loop and each
recursive call consumes at least one token or raises an error. -/
theorem compile_terminates (source : List Char) (fuel : Nat)
    (hfuel : 12 * source.length + 13 ≤ fuel) :
    (Compiler.compile fuel source ≠ .error .out_of_fuel ∧
      Compiler.compile fuel source = Compiler.compile (12 * source.length + 13) source) ∧
    (∀ (lx : Lexer) (text : String),
      isspace (Lexer.skip_spaces (lx.source.length + 1) lx).currentChar = false ∧
      (fun ch => isalnum ch || decide (ch = '_'))
        (Lexer.read_while (fun ch => isalnum ch || decide (ch = '_')) (lx.source.length + 1)
          lx text).2.currentChar = false ∧
      isdigit (Lexer.read_while isdigit (lx.source.length + 1) lx text).2.currentChar = false) ∧
    (∀ (c : Compiler) (type : TokenType), type ≠ .T_EOF → type ≠ .T_ILLEGAL →
      Compiler.Settled 1 (c.eat type) (c.eat type) c.work_left) ∧
    (∀ (n : Nat) (c : Compiler), 12 * c.work_left ≤ n →
      Compiler.Settled 1 (Compiler.parseTopLevelStatement n c)
        (Compiler.parseTopLevelStatement (n + 1) c) c.work_left ∧
      Compiler.Settled 1 (Compiler.parseStatement n c) (Compiler.parseStatement (n + 1) c)
        c.work_left) ∧
    (∀ p ∈ [(Compiler.parseExpression, 11), (Compiler.parseLogicalAndExpr, 10),
        (Compiler.parseBitwiseOrExpr, 9), (Compiler.parseBitwiseXorExpr, 8),
        (Compiler.parseBitwiseAndExpr, 7), (Compiler.parseEqualityExpr, 6),
        (Compiler.parseRelationalExpr, 5), (Compiler.parseAdditiveExpr, 4),
        (Compiler.parseMultiplicativeExpr, 3), (Compiler.parseUnaryExpr, 2),
        (Compiler.parsePrimaryExpr, 1)],
      ∀ (n : Nat) (c : Compiler), p.2 + 12 * c.work_left ≤ n →
        Compiler.Settled 1 (p.1 n c) (p.1 (n + 1) c) c.work_left) := by
  have hw := Compiler.new_work_left source
  refine ⟨⟨?_, ?_⟩, ?_, ?_, ?_, ?_⟩
  · unfold Compiler.compile
    rw [Compiler.parseProgram_stable _ fuel (by omega)]
    exact (Compiler.parseProgram_settles _ _ (le_refl _)).1
  · unfold Compiler.compile
    rw [Compiler.parseProgram_stable _ fuel (by omega),
      Compiler.parseProgram_stable _ (12 * source.length + 13) (by omega)]
  · intro lx text
    exact ⟨Lexer.skip_spaces_stops (lx.source.length + 1) lx (by omega),
      Lexer.read_while_stops (fun ch => isalnum ch || decide (ch = '_')) (by decide)
        (lx.source.length + 1) lx text (by omega),
      Lexer.read_while_stops isdigit (by decide) (lx.source.length + 1) lx text (by omega)⟩
  · intro c type h1 h2
    exact settled_eat c type h1 h2
  · intro n c h
    exact ⟨Compiler.parseTopLevelStatement_settles n c h, Compiler.parseStatement_settles n c h⟩
  · intro p hp n c h
    simp only [List.mem_cons, List.mem_singleton, List.not_mem_nil, or_false] at hp
    rcases hp with rfl | rfl | rfl | rfl | rfl | rfl | rfl | rfl | rfl | rfl | rfl
    · exact Compiler.parseExpression_settles n c h
    · exact Compiler.parseLogicalAndExpr_settles n c h
    · exact Compiler.parseBitwiseOrExpr_settles n c h
    · exact Compiler.parseBitwiseXorExpr_settles n c h
    · exact Compiler.parseBitwiseAndExpr_settles n c h
    · exact Compiler.parseEqualityExpr_settles n c h
    · exact Compiler.parseRelationalExpr_settles n c h
    · exact Compiler.parseAdditiveExpr_settles n c h
    · exact Compiler.parseMultiplicativeExpr_settles n c h
    · exact Compiler.parseUnaryExpr_settles n c h
    · exact Compiler.parsePrimaryExpr_settles n c h

theorem compile_terminates_witness :
    12 * "int main() \x7b return ---@; ".toList.length + 13 ≤ 400 ∧
    Compiler.compile 400 "int main() \x7b return ---@; ".toList ≠ .error .out_of_fuel ∧
    Compiler.compile 400 "int main() \x7b return ---@; ".toList =
      Compiler.compile (12 * "int main() \x7b return ---@; ".toList.length + 13)
        "int main() \x7b return ---@; ".toList :=
  ⟨by decide, (compile_terminates "int main() \x7b return ---@; ".toList 400 (by decide)).1⟩

/-! ## A run of unary minus outgrows every stack -/

theorem takeWhile_run (p : Char → Bool) (w : List Char) (c : Char) (tail : List Char)
    (hw : ∀ x ∈ w, p x = true) (hc : p c = false) :
    (w ++ c :: tail).takeWhile p = w ∧ (w ++ c :: tail).dropWhile p = c :: tail := by
  induction w with
  | nil => simp [List.takeWhile, List.dropWhile, hc]
  | cons a w ih =>
    have ha : p a = true := hw a (List.mem_cons_self _ _)
    obtain ⟨h1, h2⟩ := ih (fun x hx => hw x (List.mem_cons_of_mem _ hx))
    simp only [List.cons_append, List.takeWhile_cons_of_pos ha, List.dropWhile_cons_of_pos ha,
      h1, h2, and_self]

theorem Lexer.makeIdentifier_type (l1 : Lexer) :
    l1.makeIdentifier.1.type =
      if (Lexer.read_while (fun c => isalnum c || decide (c = '_'))
          (l1.source.length + 1) l1 "").1 = "int" then .T_INT
      else if (Lexer.read_while (fun c => isalnum c || decide (c = '_'))
          (l1.source.length + 1) l1 "").1 = "return" then .T_RETURN
      else if (Lexer.read_while (fun c => isalnum c || decide (c = '_'))
          (l1.source.length + 1) l1 "").1 = "main" then .T_MAIN
      else .T_IDENT := by
  unfold Lexer.makeIdentifier
  simp only
  split_ifs <;> rfl

/-- The token `getNextToken()` makes of a word `w` that stands behind the
whitespace `sp` and before a character `c` no word goes on with. -/
theorem Lexer.next_word (lx : Lexer) (sp w : List Char) (a c : Char) (tail : List Char)
    (h : lx.Reads (sp ++ a :: (w ++ c :: tail)))
    (hnul : ∀ x ∈ sp ++ a :: (w ++ c :: tail), x ≠ '\x00')
    (hsp : ∀ x ∈ sp, isspace x = true)
    (ha : (isalpha a || decide (a = '_')) = true)
    (hw : ∀ x ∈ a :: w, (fun ch => isalnum ch || decide (ch = '_')) x = true)
    (hc : (fun ch => isalnum ch || decide (ch = '_')) c = false) :
    lx.getNextToken.1.type =
        (if String.mk (a :: w) = "int" then .T_INT
          else if String.mk (a :: w) = "return" then .T_RETURN
          else if String.mk (a :: w) = "main" then .T_MAIN
          else .T_IDENT) ∧
      lx.getNextToken.2.Reads (c :: tail) := by
  have hb := Lexer.reads_length lx _ h hnul
  obtain ⟨hskip, hsrc⟩ := Lexer.skip_spaces_reads _ lx (lx.source.length + 1) h hb
  have hsa : isspace a = false := isspace_of_isalpha a (by simpa using ha)
  rw [(takeWhile_run isspace sp a (w ++ c :: tail) hsp hsa).2] at hskip
  unfold Lexer.getNextToken
  simp only
  generalize Lexer.skip_spaces (lx.source.length + 1) lx = l1 at hskip hsrc ⊢
  have hcur : l1.currentChar = a := Lexer.reads_current l1 a _ hskip
  have hlen : (a :: (w ++ c :: tail)).length ≤ l1.source.length + 1 := by
    rw [hsrc]
    refine le_trans ?_ hb
    simp only [List.length_append, List.length_cons]
    omega
  obtain ⟨hr1, hr2⟩ := Lexer.read_while_reads (fun ch => isalnum ch || decide (ch = '_'))
    (by decide) (a :: (w ++ c :: tail)) l1 (l1.source.length + 1) "" hskip hlen
  have hrun := takeWhile_run (fun ch => isalnum ch || decide (ch = '_')) (a :: w) c tail hw hc
  rw [List.cons_append] at hrun
  rw [hrun.1] at hr1
  rw [hrun.2] at hr2
  have hr1' : (Lexer.read_while (fun ch => isalnum ch || decide (ch = '_'))
      (l1.source.length + 1) l1 "").1 = String.mk (a :: w) := by
    rw [hr1]
    rfl
  rw [hcur, if_pos ha, Lexer.makeIdentifier_type, Lexer.makeIdentifier_snd, hr1']
  exact ⟨rfl, hr2⟩

/-- The token `getNextToken()` makes of a one-character symbol `c` that
stands behind the whitespace `sp`. -/
theorem Lexer.next_one (lx : Lexer) (sp : List Char) (c : Char) (tail : List Char) (tok : Token)
    (h : lx.Reads (sp ++ c :: tail))
    (hnul : ∀ x ∈ sp ++ c :: tail, x ≠ '\x00')
    (hsp : ∀ x ∈ sp, isspace x = true) (hcs : isspace c = false)
    (ha : (isalpha c || decide (c = '_')) = false) (hd : isdigit c = false)
    (hsym : ∀ l1 : Lexer, l1.currentChar = c → l1.symbol = (tok, l1.advance)) :
    lx.getNextToken.1 = tok ∧ lx.getNextToken.2.Reads tail := by
  have hb := Lexer.reads_length lx _ h hnul
  obtain ⟨hskip, hsrc⟩ := Lexer.skip_spaces_reads _ lx (lx.source.length + 1) h hb
  rw [(takeWhile_run isspace sp c tail hsp hcs).2] at hskip
  unfold Lexer.getNextToken
  simp only
  generalize Lexer.skip_spaces (lx.source.length + 1) lx = l1 at hskip hsrc ⊢
  have hcur : l1.currentChar = c := Lexer.reads_current l1 c _ hskip
  rw [hcur, ha, hd, hsym l1 hcur]
  simp only [Bool.false_eq_true, if_false]
  exact ⟨trivial, Lexer.reads_advance l1 c tail hskip⟩

theorem minus_tail_no_nul (n : Nat) (pre : List Char) (hpre : ∀ x ∈ pre, x ≠ '\x00') :
    ∀ x ∈ pre ++ (List.replicate n '-' ++ ['1', ';', '\x7d']), x ≠ '\x00' := by
  have htail : ∀ y ∈ ['1', ';', '\x7d'], y ≠ '\x00' := by decide
  intro x hx
  rcases List.mem_append.1 hx with hx | hx
  · exact hpre x hx
  · rcases List.mem_append.1 hx with hx | hx
    · rw [List.eq_of_mem_replicate hx]
      decide
    · exact htail x hx

theorem Compiler.next_lexer (c : Compiler) : c.next.lexer = c.lexer.getNextToken.2 := rfl

theorem Compiler.next_currentToken (c : Compiler) :
    c.next.currentToken = c.lexer.getNextToken.1 := rfl

theorem Compiler.next_is_word (c : Compiler) (sp w : List Char) (a b : Char) (tail : List Char)
    (h : c.lexer.Reads (sp ++ a :: (w ++ b :: tail)))
    (hnul : ∀ x ∈ sp ++ a :: (w ++ b :: tail), x ≠ '\x00')
    (hsp : ∀ x ∈ sp, isspace x = true)
    (ha : (isalpha a || decide (a = '_')) = true)
    (hw : ∀ x ∈ a :: w, (fun ch => isalnum ch || decide (ch = '_')) x = true)
    (hb : (fun ch => isalnum ch || decide (ch = '_')) b = false) :
    c.next.currentToken.type =
        (if String.mk (a :: w) = "int" then .T_INT
          else if String.mk (a :: w) = "return" then .T_RETURN
          else if String.mk (a :: w) = "main" then .T_MAIN
          else .T_IDENT) ∧
      c.next.lexer.Reads (b :: tail) := by
  rw [Compiler.next_lexer, Compiler.next_currentToken]
  exact Lexer.next_word c.lexer sp w a b tail h hnul hsp ha hw hb

theorem Compiler.next_is_symbol (c : Compiler) (sp : List Char) (b : Char) (tail : List Char)
    (tok : Token) (h : c.lexer.Reads (sp ++ b :: tail))
    (hnul : ∀ x ∈ sp ++ b :: tail, x ≠ '\x00')
    (hsp : ∀ x ∈ sp, isspace x = true) (hcs : isspace b = false)
    (ha : (isalpha b || decide (b = '_')) = false) (hd : isdigit b = false)
    (hsym : ∀ l1 : Lexer, l1.currentChar = b → l1.symbol = (tok, l1.advance)) :
    c.next.currentToken = tok ∧ c.next.lexer.Reads tail := by
  rw [Compiler.next_lexer, Compiler.next_currentToken]
  exact Lexer.next_one c.lexer sp b tail tok h hnul hsp hcs ha hd hsym

/-- The tokens behind a lexer that is about to read a run of `m` minus
signs. -/
theorem Compiler.minus_run_ahead (tail : List Char) (htail : ∀ x ∈ tail, x ≠ '\x00') :
    ∀ (m : Nat) (c : Compiler) (sp : List Char), (∀ x ∈ sp, isspace x = true) →
      c.lexer.Reads (sp ++ (List.replicate m '-' ++ tail)) →
      ∀ i : Nat, i < m → (c.lookahead (i + 1)).type = .T_MINUS
  | 0, _, _, _, _, i, hi => by omega
  | m + 1, c, sp, hsp, h, i, hi => by
    have hnul : ∀ x ∈ sp ++ '-' :: (List.replicate m '-' ++ tail), x ≠ '\x00' := by
      intro x hx
      rcases List.mem_append.1 hx with hx | hx
      · intro h0
        have := hsp x hx
        rw [h0] at this
        revert this
        decide
      · rcases List.mem_cons.1 hx with hx | hx
        · rw [hx]
          decide
        · rcases List.mem_append.1 hx with hx | hx
          · rw [List.eq_of_mem_replicate hx]
            decide
          · exact htail x hx
    obtain ⟨h1, h2⟩ := Compiler.next_is_symbol c sp '-' (List.replicate m '-' ++ tail)
      { type := .T_MINUS, value := "-" } h hnul hsp (by decide) (by decide) (by decide)
      (fun l1 hc => by simp [Lexer.symbol, hc])
    cases i with
    | zero =>
      rw [show (0 + 1 : Nat) = 0 + 1 from rfl, Compiler.lookahead_succ, Compiler.lookahead_zero, h1]
    | succ j =>
      rw [Compiler.lookahead_succ]
      exact Compiler.minus_run_ahead tail htail m c.next [] (by simp) h2 j (by omega)

theorem minus_run_source_eq (n : Nat) :
    minus_run_source n =
      'i' :: 'n' :: 't' :: ' ' :: 'm' :: 'a' :: 'i' :: 'n' :: '(' :: ')' :: '\x7b' :: 'r' :: 'e' :: 't' :: 'u' :: 'r' :: 'n' :: ' ' :: (List.replicate n '-' ++ ['1', ';', '\x7d']) := by
  simp only [minus_run_source, List.cons_append, List.nil_append,
    show "int main()\x7breturn ".toList = ['i', 'n', 't', ' ', 'm', 'a', 'i', 'n', '(', ')', '\x7b', 'r', 'e', 't', 'u', 'r', 'n', ' '] from by decide,
    show "1;\x7d".toList = ['1', ';', '\x7d'] from by decide]

/-- The tokens of `minus_run_source n`: `int`, `main`, `(`, `)`, `{`,
`return`, then `n` times `-`. -/
theorem minus_run_tokens (n : Nat) :
    (Compiler.new (minus_run_source n)).currentToken.type = .T_INT ∧
    ((Compiler.new (minus_run_source n)).lookahead 1).type = .T_MAIN ∧
    ((Compiler.new (minus_run_source n)).lookahead 2).type = .T_LPAREN ∧
    ((Compiler.new (minus_run_source n)).lookahead 3).type = .T_RPAREN ∧
    ((Compiler.new (minus_run_source n)).lookahead 4).type = .T_LBRACE ∧
    ((Compiler.new (minus_run_source n)).lookahead 5).type = .T_RETURN ∧
    ∀ i : Nat, i < n → ((Compiler.new (minus_run_source n)).lookahead (6 + i)).type = .T_MINUS := by
  rw [minus_run_source_eq]
  have hnf : ∀ pre : List Char, (∀ x ∈ pre, x ≠ '\x00') →
      ∀ x ∈ pre ++ (List.replicate n '-' ++ ['1', ';', '\x7d']), x ≠ '\x00' :=
    minus_tail_no_nul n
  generalize hR : List.replicate n '-' ++ ['1', ';', '\x7d'] = R at hnf ⊢
  generalize hc0 : Compiler.new ('i' :: 'n' :: 't' :: ' ' :: 'm' :: 'a' :: 'i' :: 'n' :: '(' :: ')' :: '\x7b' :: 'r' :: 'e' :: 't' :: 'u' :: 'r' :: 'n' :: ' ' :: R) = c0
  have e0 : c0.currentToken = (Lexer.new ('i' :: 'n' :: 't' :: ' ' :: 'm' :: 'a' :: 'i' :: 'n' :: '(' :: ')' :: '\x7b' :: 'r' :: 'e' :: 't' :: 'u' :: 'r' :: 'n' :: ' ' :: R)).getNextToken.1 := by
    rw [← hc0]
    simp only [Compiler.new]
  have l0 : c0.lexer = (Lexer.new ('i' :: 'n' :: 't' :: ' ' :: 'm' :: 'a' :: 'i' :: 'n' :: '(' :: ')' :: '\x7b' :: 'r' :: 'e' :: 't' :: 'u' :: 'r' :: 'n' :: ' ' :: R)).getNextToken.2 := by
    rw [← hc0]
    simp only [Compiler.new]
  obtain ⟨t0, r0⟩ := Lexer.next_word (Lexer.new ('i' :: 'n' :: 't' :: ' ' :: 'm' :: 'a' :: 'i' :: 'n' :: '(' :: ')' :: '\x7b' :: 'r' :: 'e' :: 't' :: 'u' :: 'r' :: 'n' :: ' ' :: R))
    [] ['n', 't'] 'i' ' ' ('m' :: 'a' :: 'i' :: 'n' :: '(' :: ')' :: '\x7b' :: 'r' :: 'e' :: 't' :: 'u' :: 'r' :: 'n' :: ' ' :: R)
    (Lexer.reads_new _) (hnf ['i', 'n', 't', ' ', 'm', 'a', 'i', 'n', '(', ')', '\x7b', 'r', 'e', 't', 'u', 'r', 'n', ' '] (by decide)) (by simp) (by decide)
    (by decide) (by decide)
  have r0' : c0.lexer.Reads (' ' :: 'm' :: 'a' :: 'i' :: 'n' :: '(' :: ')' :: '\x7b' :: 'r' :: 'e' :: 't' :: 'u' :: 'r' :: 'n' :: ' ' :: R) := by
    rw [l0]
    exact r0
  have t0' : c0.currentToken.type = .T_INT := by
    rw [e0, t0]
    rfl
  obtain ⟨t1, r1⟩ := Compiler.next_is_word c0 [' '] ['a', 'i', 'n'] 'm' '('
    (')' :: '\x7b' :: 'r' :: 'e' :: 't' :: 'u' :: 'r' :: 'n' :: ' ' :: R) r0' (hnf [' ', 'm', 'a', 'i', 'n', '(', ')', '\x7b', 'r', 'e', 't', 'u', 'r', 'n', ' '] (by decide)) (by decide)
    (by decide) (by decide) (by decide)
  obtain ⟨t2, r2⟩ := Compiler.next_is_symbol c0.next [] '(' (')' :: '\x7b' :: 'r' :: 'e' :: 't' :: 'u' :: 'r' :: 'n' :: ' ' :: R)
    { type := .T_LPAREN, value := "(" } r1 (hnf ['(', ')', '\x7b', 'r', 'e', 't', 'u', 'r', 'n', ' '] (by decide)) (by simp)
    (by decide) (by decide) (by decide) (fun l1 hc => by simp [Lexer.symbol, hc])
  obtain ⟨t3, r3⟩ := Compiler.next_is_symbol c0.next.next [] ')' ('\x7b' :: 'r' :: 'e' :: 't' :: 'u' :: 'r' :: 'n' :: ' ' :: R)
    { type := .T_RPAREN, value := ")" } r2 (hnf [')', '\x7b', 'r', 'e', 't', 'u', 'r', 'n', ' '] (by decide)) (by simp)
    (by decide) (by decide) (by decide) (fun l1 hc => by simp [Lexer.symbol, hc])
  obtain ⟨t4, r4⟩ := Compiler.next_is_symbol c0.next.next.next [] '\x7b' ('r' :: 'e' :: 't' :: 'u' :: 'r' :: 'n' :: ' ' :: R)
    { type := .T_LBRACE, value := "\x7b" } r3 (hnf ['\x7b', 'r', 'e', 't', 'u', 'r', 'n', ' '] (by decide)) (by simp)
    (by decide) (by decide) (by decide) (fun l1 hc => by simp [Lexer.symbol, hc])
  obtain ⟨t5, r5⟩ := Compiler.next_is_word c0.next.next.next.next [] ['e', 't', 'u', 'r', 'n']
    'r' ' ' R r4 (hnf ['r', 'e', 't', 'u', 'r', 'n', ' '] (by decide)) (by simp) (by decide) (by decide)
    (by decide)
  have hrun := Compiler.minus_run_ahead ['1', ';', '\x7d'] (by decide) n
    c0.next.next.next.next.next [' '] (by decide) (by rw [hR]; exact r5)
  refine ⟨t0', ?_, ?_, ?_, ?_, ?_, ?_⟩
  · rw [show (1 : Nat) = 0 + 1 from rfl]
    simp only [Compiler.lookahead_succ, Compiler.lookahead_zero]
    rw [t1]
    rfl
  · rw [show (2 : Nat) = 0 + 1 + 1 from rfl]
    simp only [Compiler.lookahead_succ, Compiler.lookahead_zero]
    rw [t2]
  · rw [show (3 : Nat) = 0 + 1 + 1 + 1 from rfl]
    simp only [Compiler.lookahead_succ, Compiler.lookahead_zero]
    rw [t3]
  · rw [show (4 : Nat) = 0 + 1 + 1 + 1 + 1 from rfl]
    simp only [Compiler.lookahead_succ, Compiler.lookahead_zero]
    rw [t4]
  · rw [show (5 : Nat) = 0 + 1 + 1 + 1 + 1 + 1 from rfl]
    simp only [Compiler.lookahead_succ, Compiler.lookahead_zero]
    rw [t5]
    rfl
  · intro i hi
    rw [show 6 + i = i + 1 + 1 + 1 + 1 + 1 + 1 from by omega]
    simp only [Compiler.lookahead_succ]
    have h := hrun i hi
    rw [Compiler.lookahead_succ] at h
    exact h

theorem except_error_bind {ε α β : Type} (e : ε) (f : α → Except ε β) :
    ((Except.error e : Except ε α) >>= f) = .error e := rfl

theorem except_pure_bind {ε α β : Type} (a : α) (f : α → Except ε β) :
    ((pure a : Except ε α) >>= f) = f a := rfl

/-- A run of `n` unary minus signs takes `n` nested calls of
`parseUnaryExpr` before the operand is reached: no budget up to `n` is
enough. -/
theorem Compiler.parseUnaryExpr_exhausts (n : Nat) : ∀ (fuel : Nat) (c : Compiler),
    fuel ≤ n → (∀ i : Nat, i < n → (c.lookahead i).type = .T_MINUS) →
    Compiler.parseUnaryExpr fuel c = .error .out_of_fuel := by
  induction n with
  | zero =>
    intro fuel c hf _
    have : fuel = 0 := by omega
    subst this
    simp only [Compiler.parseUnaryExpr]
  | succ n ih =>
    intro fuel c hf h
    cases fuel with
    | zero => simp only [Compiler.parseUnaryExpr]
    | succ fuel =>
      have h0 : c.currentToken.type = .T_MINUS := h 0 (by omega)
      simp only [Compiler.parseUnaryExpr, if_pos h0]
      rw [Compiler.eat_ok c _ h0, except_ok_bind,
        ih fuel c.next (by omega) (fun i hi => by
          rw [← Compiler.lookahead_succ]
          exact h (i + 1) (by omega))]
      rfl

theorem Compiler.parseMultiplicativeExpr_exhausts (n fuel : Nat) (c : Compiler) (hf : fuel ≤ n + 1)
    (h : ∀ i : Nat, i < n → (c.lookahead i).type = .T_MINUS) :
    Compiler.parseMultiplicativeExpr fuel c = .error .out_of_fuel := by
  cases fuel with
  | zero => simp only [Compiler.parseMultiplicativeExpr]
  | succ fuel =>
    simp only [Compiler.parseMultiplicativeExpr]
    rw [Compiler.parseUnaryExpr_exhausts n fuel c (by omega) h]
    rfl

theorem Compiler.parseAdditiveExpr_exhausts (n fuel : Nat) (c : Compiler) (hf : fuel ≤ n + 2)
    (h : ∀ i : Nat, i < n → (c.lookahead i).type = .T_MINUS) :
    Compiler.parseAdditiveExpr fuel c = .error .out_of_fuel := by
  cases fuel with
  | zero => simp only [Compiler.parseAdditiveExpr]
  | succ fuel =>
    simp only [Compiler.parseAdditiveExpr]
    rw [Compiler.parseMultiplicativeExpr_exhausts n fuel c (by omega) h]
    rfl

theorem Compiler.parseRelationalExpr_exhausts (n fuel : Nat) (c : Compiler) (hf : fuel ≤ n + 3)
    (h : ∀ i : Nat, i < n → (c.lookahead i).type = .T_MINUS) :
    Compiler.parseRelationalExpr fuel c = .error .out_of_fuel := by
  cases fuel with
  | zero => simp only [Compiler.parseRelationalExpr]
  | succ fuel =>
    simp only [Compiler.parseRelationalExpr]
    rw [Compiler.parseAdditiveExpr_exhausts n fuel c (by omega) h]
    rfl

theorem Compiler.parseEqualityExpr_exhausts (n fuel : Nat) (c : Compiler) (hf : fuel ≤ n + 4)
    (h : ∀ i : Nat, i < n → (c.lookahead i).type = .T_MINUS) :
    Compiler.parseEqualityExpr fuel c = .error .out_of_fuel := by
  cases fuel with
  | zero => simp only [Compiler.parseEqualityExpr]
  | succ fuel =>
    simp only [Compiler.parseEqualityExpr]
    rw [Compiler.parseRelationalExpr_exhausts n fuel c (by omega) h]
    rfl

theorem Compiler.parseBitwiseAndExpr_exhausts (n fuel : Nat) (c : Compiler) (hf : fuel ≤ n + 5)
    (h : ∀ i : Nat, i < n → (c.lookahead i).type = .T_MINUS) :
    Compiler.parseBitwiseAndExpr fuel c = .error .out_of_fuel := by
  cases fuel with
  | zero => simp only [Compiler.parseBitwiseAndExpr]
  | succ fuel =>
    simp only [Compiler.parseBitwiseAndExpr]
    rw [Compiler.parseEqualityExpr_exhausts n fuel c (by omega) h]
    rfl

theorem Compiler.parseBitwiseXorExpr_exhausts (n fuel : Nat) (c : Compiler) (hf : fuel ≤ n + 6)
    (h : ∀ i : Nat, i < n → (c.lookahead i).type = .T_MINUS) :
    Compiler.parseBitwiseXorExpr fuel c = .error .out_of_fuel := by
  cases fuel with
  | zero => simp only [Compiler.parseBitwiseXorExpr]
  | succ fuel =>
    simp only [Compiler.parseBitwiseXorExpr]
    rw [Compiler.parseBitwiseAndExpr_exhausts n fuel c (by omega) h]
    rfl

theorem Compiler.parseBitwiseOrExpr_exhausts (n fuel : Nat) (c : Compiler) (hf : fuel ≤ n + 7)
    (h : ∀ i : Nat, i < n → (c.lookahead i).type = .T_MINUS) :
    Compiler.parseBitwiseOrExpr fuel c = .error .out_of_fuel := by
  cases fuel with
  | zero => simp only [Compiler.parseBitwiseOrExpr]
  | succ fuel =>
    simp only [Compiler.parseBitwiseOrExpr]
    rw [Compiler.parseBitwiseXorExpr_exhausts n fuel c (by omega) h]
    rfl

theorem Compiler.parseLogicalAndExpr_exhausts (n fuel : Nat) (c : Compiler) (hf : fuel ≤ n + 8)
    (h : ∀ i : Nat, i < n → (c.lookahead i).type = .T_MINUS) :
    Compiler.parseLogicalAndExpr fuel c = .error .out_of_fuel := by
  cases fuel with
  | zero => simp only [Compiler.parseLogicalAndExpr]
  | succ fuel =>
    simp only [Compiler.parseLogicalAndExpr]
    rw [Compiler.parseBitwiseOrExpr_exhausts n fuel c (by omega) h]
    rfl

theorem Compiler.parseExpression_exhausts (n fuel : Nat) (c : Compiler) (hf : fuel ≤ n + 9)
    (h : ∀ i : Nat, i < n → (c.lookahead i).type = .T_MINUS) :
    Compiler.parseExpression fuel c = .error .out_of_fuel := by
  cases fuel with
  | zero => simp only [Compiler.parseExpression]
  | succ fuel =>
    simp only [Compiler.parseExpression]
    exact Compiler.parseLogicalAndExpr_exhausts n fuel c (by omega) h

theorem Compiler.parseReturn_exhausts (n fuel : Nat) (c : Compiler) (hf : fuel ≤ n + 9)
    (h0 : c.currentToken.type = .T_RETURN)
    (h : ∀ i : Nat, i < n → (c.lookahead (i + 1)).type = .T_MINUS) :
    Compiler.parseReturn fuel c = .error .out_of_fuel := by
  simp only [Compiler.parseReturn]
  rw [Compiler.eat_ok c _ h0, except_ok_bind,
    Compiler.parseExpression_exhausts n fuel c.next hf (fun i hi => by
      rw [← Compiler.lookahead_succ]
      exact h i hi)]
  rfl

theorem Compiler.parseStatement_exhausts (n fuel : Nat) (c : Compiler) (hf : fuel ≤ n + 9)
    (h0 : c.currentToken.type = .T_RETURN)
    (h : ∀ i : Nat, i < n → (c.lookahead (i + 1)).type = .T_MINUS) :
    Compiler.parseStatement fuel c = .error .out_of_fuel := by
  have e1 : ¬ c.currentToken.type = .T_INT := by rw [h0]; decide
  simp only [Compiler.parseStatement, if_neg e1, if_pos h0]
  rw [Compiler.parseReturn_exhausts n fuel c hf h0 h]
  rfl

theorem Compiler.parseBlockLoop_exhausts (n fuel : Nat) (c : Compiler) (hf : fuel ≤ n + 10)
    (h0 : c.currentToken.type = .T_RETURN)
    (h : ∀ i : Nat, i < n → (c.lookahead (i + 1)).type = .T_MINUS) :
    Compiler.parseBlockLoop fuel c = .error .out_of_fuel := by
  cases fuel with
  | zero => simp only [Compiler.parseBlockLoop]
  | succ fuel =>
    have e1 : c.currentToken.type ≠ .T_RBRACE ∧ c.currentToken.type ≠ .T_EOF := by
      rw [h0]; decide
    rw [Compiler.parseBlockLoop, if_pos e1,
      Compiler.parseStatement_exhausts n fuel c (by omega) h0 h]
    rfl

theorem Compiler.parseBlock_exhausts (n fuel : Nat) (c : Compiler) (hf : fuel ≤ n + 10)
    (h0 : c.currentToken.type = .T_LBRACE)
    (h1 : (c.lookahead 1).type = .T_RETURN)
    (h : ∀ i : Nat, i < n → (c.lookahead (i + 2)).type = .T_MINUS) :
    Compiler.parseBlock fuel c = .error .out_of_fuel := by
  simp only [Compiler.parseBlock]
  rw [Compiler.eat_ok c _ h0, except_ok_bind,
    Compiler.parseBlockLoop_exhausts n fuel c.next hf
      (by rw [← Compiler.lookahead_zero, ← Compiler.lookahead_succ]; exact h1)
      (fun i hi => by
        rw [← Compiler.lookahead_succ]
        exact h i hi)]
  rfl

theorem Compiler.parseMain_exhausts (n fuel : Nat) (c : Compiler) (hf : fuel ≤ n + 10)
    (h0 : c.currentToken.type = .T_MAIN)
    (h1 : (c.lookahead 1).type = .T_LPAREN)
    (h2 : (c.lookahead 2).type = .T_RPAREN)
    (h3 : (c.lookahead 3).type = .T_LBRACE)
    (h4 : (c.lookahead 4).type = .T_RETURN)
    (h : ∀ i : Nat, i < n → (c.lookahead (i + 5)).type = .T_MINUS) :
    Compiler.parseMain fuel c = .error .out_of_fuel := by
  simp only [Compiler.parseMain]
  rw [Compiler.eat_ok c _ h0, except_ok_bind]
  rw [← Compiler.after_zero c.next]
  simp only [Compiler.after_emit, List.nil_append, List.append_assoc, List.singleton_append,
    List.cons_append]
  have e1 : (c.next.after 0 [.label (.named "main"), .push (.reg .ebp),
      .mov (.reg .ebp) (.reg .esp), .sub .esp (.imm 256)]).currentToken.type = .T_LPAREN := by
    rw [Compiler.after_currentToken, Compiler.lookahead_zero, ← Compiler.lookahead_zero c.next,
      ← Compiler.lookahead_succ]
    exact h1
  rw [Compiler.eat_ok _ _ e1, except_ok_bind, Compiler.after_next]
  have e2 : (c.next.after (0 + 1) [.label (.named "main"), .push (.reg .ebp),
      .mov (.reg .ebp) (.reg .esp), .sub .esp (.imm 256)]).currentToken.type = .T_RPAREN := by
    rw [Compiler.after_currentToken, ← Compiler.lookahead_succ]
    exact h2
  have e2' : ¬ (c.next.after (0 + 1) [.label (.named "main"), .push (.reg .ebp),
      .mov (.reg .ebp) (.reg .esp), .sub .esp (.imm 256)]).currentToken.type = .T_INT := by
    rw [e2]; decide
  simp only [Compiler.parseMainParams, if_neg e2']
  rw [except_pure_bind, Compiler.eat_ok _ _ e2, except_ok_bind, Compiler.after_next]
  rw [Compiler.parseBlock_exhausts n fuel _ hf
    (by rw [Compiler.after_currentToken, ← Compiler.lookahead_succ]; exact h3)
    (by rw [Compiler.after_lookahead, ← Compiler.lookahead_succ]; exact h4)
    (fun i hi => by
      rw [Compiler.after_lookahead, ← Compiler.lookahead_succ,
        show 0 + 1 + 1 + (i + 2) + 1 = i + 5 from by omega]
      exact h i hi)]
  rfl

theorem Compiler.parseTopLevelStatement_exhausts (n fuel : Nat) (c : Compiler)
    (hf : fuel ≤ n + 10)
    (h0 : c.currentToken.type = .T_INT)
    (h1 : (c.lookahead 1).type = .T_MAIN)
    (h2 : (c.lookahead 2).type = .T_LPAREN)
    (h3 : (c.lookahead 3).type = .T_RPAREN)
    (h4 : (c.lookahead 4).type = .T_LBRACE)
    (h5 : (c.lookahead 5).type = .T_RETURN)
    (h : ∀ i : Nat, i < n → (c.lookahead (i + 6)).type = .T_MINUS) :
    Compiler.parseTopLevelStatement fuel c = .error .out_of_fuel := by
  have e1 : c.next.currentToken.type = .T_MAIN := by
    rw [← Compiler.lookahead_zero, ← Compiler.lookahead_succ]; exact h1
  simp only [Compiler.parseTopLevelStatement]
  rw [Compiler.eat_ok c _ h0, except_ok_bind]
  simp only [if_pos e1]
  exact Compiler.parseMain_exhausts n fuel c.next hf e1
    (by rw [← Compiler.lookahead_succ]; exact h2)
    (by rw [← Compiler.lookahead_succ]; exact h3)
    (by rw [← Compiler.lookahead_succ]; exact h4)
    (by rw [← Compiler.lookahead_succ]; exact h5)
    (fun i hi => by rw [← Compiler.lookahead_succ]; exact h i hi)

theorem Compiler.parseProgram_exhausts (n fuel : Nat) (c : Compiler)
    (hf : fuel ≤ n + 11)
    (h0 : c.currentToken.type = .T_INT)
    (h1 : (c.lookahead 1).type = .T_MAIN)
    (h2 : (c.lookahead 2).type = .T_LPAREN)
    (h3 : (c.lookahead 3).type = .T_RPAREN)
    (h4 : (c.lookahead 4).type = .T_LBRACE)
    (h5 : (c.lookahead 5).type = .T_RETURN)
    (h : ∀ i : Nat, i < n → (c.lookahead (i + 6)).type = .T_MINUS) :
    Compiler.parseProgram fuel c = .error .out_of_fuel := by
  cases fuel with
  | zero => simp only [Compiler.parseProgram]
  | succ fuel =>
    have e1 : c.currentToken.type ≠ .T_EOF := by rw [h0]; decide
    rw [Compiler.parseProgram, if_pos e1,
      Compiler.parseTopLevelStatement_exhausts n fuel c (by omega) h0 h1 h2 h3 h4 h5 h]
    rfl

/-- Whatever the budget `fuel` of nested calls, up to `n + 11`, the run on
`minus_run_source n` exhausts it. -/
theorem minus_run_exhausts (n fuel : Nat) (hf : fuel ≤ n + 11) :
    Compiler.compile fuel (minus_run_source n) = .error .out_of_fuel := by
  obtain ⟨h0, h1, h2, h3, h4, h5, h⟩ := minus_run_tokens n
  exact Compiler.parseProgram_exhausts n fuel _ hf h0 h1 h2 h3 h4 h5
    (fun i hi => by rw [show i + 6 = 6 + i from by omega]; exact h i hi)

/-- C25 fails on the code for long runs of unary minus.  `parseUnaryExpr`
calls itself once for every minus sign before any operand is parsed, so a
state with `n` minus signs ahead exhausts every budget of nested calls up to
`n`, and on the text `int main(){return -…-1;}` with `n` minus signs
`compile()` exhausts every budget up to `n + 11`: however many nested calls
the call stack holds, a long enough run of unary minus overflows it, which is
neither output nor an error.  The run as such is finite: a budget of
`12 * length + 13` is never exhausted. -/
theorem unary_minus_run_exhausts_every_stack (n : Nat) :
    (∀ fuel : Nat, fuel ≤ n + 11 →
      Compiler.compile fuel (minus_run_source n) = .error .out_of_fuel) ∧
    (∀ (fuel : Nat) (c : Compiler), fuel ≤ n →
      (∀ i : Nat, i < n → (c.lookahead i).type = .T_MINUS) →
      Compiler.parseUnaryExpr fuel c = .error .out_of_fuel) ∧
    (∀ fuel : Nat, 12 * (minus_run_source n).length + 13 ≤ fuel →
      Compiler.compile fuel (minus_run_source n) ≠ .error .out_of_fuel) := by
  refine ⟨fun fuel hf => minus_run_exhausts n fuel hf,
    fun fuel c hf h => Compiler.parseUnaryExpr_exhausts n fuel c hf h, ?_⟩
  intro fuel hf
  have hw := Compiler.new_work_left (minus_run_source n)
  exact (Compiler.parseProgram_settles fuel _ (by omega)).1

theorem unary_minus_run_exhausts_every_stack_witness :
    Compiler.compile 14 (minus_run_source 3) = .error .out_of_fuel ∧
    (Compiler.compile 16 (minus_run_source 3)).toOption.map (fun c => c.code) = some
      [.label (.named "main"), .push (.reg .ebp), .mov (.reg .ebp) (.reg .esp),
        .sub .esp (.imm 256), .push (.lit "1"), .pop .eax, .neg .eax, .push (.reg .eax),
        .pop .eax, .neg .eax, .push (.reg .eax), .pop .eax, .neg .eax, .push (.reg .eax),
        .pop .eax, .leave, .ret] :=
  ⟨(unary_minus_run_exhausts_every_stack 3).1 14 (by decide), by decide!⟩

/-! ## A local below the reserved frame -/

theorem word_frame_slot (A : Nat) :
    word ((A : Int) + -260) = word ((word ((A : Int) - (word 256 : Nat)) : Nat) - 4) := by
  have h : word 256 = 256 := by decide
  rw [h]
  unfold word
  omega

theorem word_frame_bottom (A : Nat) :
    word ((A : Int) + -256) = word ((A : Int) - (word 256 : Nat)) := by
  have h : word 256 = 256 := by decide
  rw [h]
  unfold word
  omega

/-- The lines emitted for 65 locals return 2 from every machine state: the
last local is at `[ebp-260]`, the word the next `push` writes. -/
theorem overflowing_code_returns_2 (m : Machine) (hpc : m.pc = 0) :
    (Machine.run
      [.label (.named "main"), .push (.reg .ebp), .mov (.reg .ebp) (.reg .esp),
        .sub .esp (.imm 256), .push (.lit "5"), .pop .eax,
        .mov (.ebp_rel (-260)) (.reg .eax), .push (.lit "1"), .push (.ebp_rel (-260)),
        .pop .edx, .pop .eax, .add .eax (.reg .edx), .push (.reg .eax), .pop .eax,
        .leave, .ret]
      16 m).result = some 2 := by
  obtain ⟨eax, ebx, ecx, edx, ebp, esp, memory, globals, fs, flags, output, pc⟩ := m
  simp only at hpc
  subst hpc
  have l5 : literal_value "5" % 4294967296 = 5 := by decide
  have l1 : literal_value "1" % 4294967296 = 1 := by decide
  have a2 : word ((1 : Nat) + (1 : Nat)) = 2 := by decide
  have s2 : signed 2 = 2 := by decide
  rw [run_succ]
  simp only [Machine.step, List.get?, Machine.advance, Machine.push, Machine.read, Machine.get,
    Machine.store, Machine.write, Machine.set, Machine.arith]
  rw [run_succ]
  simp only [Machine.step, List.get?, Machine.advance, Machine.push, Machine.read, Machine.get,
    Machine.store, Machine.write, Machine.set, Machine.arith]
  generalize hA : word (↑esp - 4) = A
  rw [run_succ]
  simp only [Machine.step, List.get?, Machine.advance, Machine.push, Machine.read, Machine.get,
    Machine.store, Machine.write, Machine.set, Machine.arith]
  rw [run_succ]
  simp only [Machine.step, List.get?, Machine.advance, Machine.push, Machine.read, Machine.get,
    Machine.store, Machine.write, Machine.set, Machine.arith]
  have hX := word_frame_slot A
  generalize hB : word (↑A - ↑(word 256)) = B at hX
  have hBlt : B < 4294967296 := hB ▸ word_lt _
  rw [run_succ]
  simp only [Machine.step, List.get?, Machine.advance, Machine.push, Machine.read, Machine.get,
    Machine.store, Machine.write, Machine.set, Machine.arith]
  generalize hC1 : word (↑B - 4) = C1 at hX
  have hC1lt : C1 < 4294967296 := hC1 ▸ word_lt _
  have e1B : word (↑C1 + 4) = B := by rw [← hC1]; exact word_pop_push B hBlt
  simp only [l5]
  rw [run_succ]
  simp only [Machine.step, List.get?, Machine.advance, Machine.push, Machine.read, Machine.get,
    Machine.store, Machine.write, Machine.set, Machine.arith]
  simp only [e1B, if_true]
  rw [run_succ]
  simp only [Machine.step, List.get?, Machine.advance, Machine.push, Machine.read, Machine.get,
    Machine.store, Machine.write, Machine.set, Machine.arith]
  simp only [hX]
  rw [run_succ]
  simp only [Machine.step, List.get?, Machine.advance, Machine.push, Machine.read, Machine.get,
    Machine.store, Machine.write, Machine.set, Machine.arith]
  simp only [hC1, l1]
  rw [run_succ]
  simp only [Machine.step, List.get?, Machine.advance, Machine.push, Machine.read, Machine.get,
    Machine.store, Machine.write, Machine.set, Machine.arith]
  simp only [hX, if_true]
  generalize hC2 : word (↑C1 - 4) = C2
  have e21 : word (↑C2 + 4) = C1 := by rw [← hC2]; exact word_pop_push C1 hC1lt
  have n12 : ¬ C1 = C2 := by rw [← hC2]; exact word_push_ne C1
  rw [run_succ]
  simp only [Machine.step, List.get?, Machine.advance, Machine.push, Machine.read, Machine.get,
    Machine.store, Machine.write, Machine.set, Machine.arith]
  simp only [e21, if_true]
  rw [run_succ]
  simp only [Machine.step, List.get?, Machine.advance, Machine.push, Machine.read, Machine.get,
    Machine.store, Machine.write, Machine.set, Machine.arith]
  simp only [e1B, n12, if_true, if_false]
  rw [run_succ]
  simp only [Machine.step, List.get?, Machine.advance, Machine.push, Machine.read, Machine.get,
    Machine.store, Machine.write, Machine.set, Machine.arith]
  simp only [a2]
  rw [run_succ]
  simp only [Machine.step, List.get?, Machine.advance, Machine.push, Machine.read, Machine.get,
    Machine.store, Machine.write, Machine.set, Machine.arith]
  simp only [hC1]
  rw [run_succ]
  simp only [Machine.step, List.get?, Machine.advance, Machine.push, Machine.read, Machine.get,
    Machine.store, Machine.write, Machine.set, Machine.arith]
  simp only [e1B, if_true]
  rw [run_succ]
  simp only [Machine.step, List.get?, Machine.advance, Machine.push, Machine.read, Machine.get,
    Machine.store, Machine.write, Machine.set, Machine.arith]
  rw [run_succ]
  simp only [Machine.step, List.get?, Machine.advance, Machine.push, Machine.read, Machine.get,
    Machine.store, Machine.write, Machine.set, Machine.arith]
  simp only [Run.result, s2]

/-- The lines emitted for 64 locals return 6 from every machine state. -/
theorem fitting_code_returns_6 (m : Machine) (hpc : m.pc = 0) :
    (Machine.run
      [.label (.named "main"), .push (.reg .ebp), .mov (.reg .ebp) (.reg .esp),
        .sub .esp (.imm 256), .push (.lit "5"), .pop .eax,
        .mov (.ebp_rel (-256)) (.reg .eax), .push (.lit "1"), .push (.ebp_rel (-256)),
        .pop .edx, .pop .eax, .add .eax (.reg .edx), .push (.reg .eax), .pop .eax,
        .leave, .ret]
      16 m).result = some 6 := by
  obtain ⟨eax, ebx, ecx, edx, ebp, esp, memory, globals, fs, flags, output, pc⟩ := m
  simp only at hpc
  subst hpc
  have l5 : literal_value "5" % 4294967296 = 5 := by decide
  have l1 : literal_value "1" % 4294967296 = 1 := by decide
  have a6 : word ((1 : Nat) + (5 : Nat)) = 6 := by decide
  have s6 : signed 6 = 6 := by decide
  rw [run_succ]
  simp only [Machine.step, List.get?, Machine.advance, Machine.push, Machine.read, Machine.get,
    Machine.store, Machine.write, Machine.set, Machine.arith]
  rw [run_succ]
  simp only [Machine.step, List.get?, Machine.advance, Machine.push, Machine.read, Machine.get,
    Machine.store, Machine.write, Machine.set, Machine.arith]
  generalize hA : word (↑esp - 4) = A
  rw [run_succ]
  simp only [Machine.step, List.get?, Machine.advance, Machine.push, Machine.read, Machine.get,
    Machine.store, Machine.write, Machine.set, Machine.arith]
  rw [run_succ]
  simp only [Machine.step, List.get?, Machine.advance, Machine.push, Machine.read, Machine.get,
    Machine.store, Machine.write, Machine.set, Machine.arith]
  have hX := word_frame_bottom A
  generalize hB : word (↑A - ↑(word 256)) = B at hX
  have hBlt : B < 4294967296 := hB ▸ word_lt _
  rw [run_succ]
  simp only [Machine.step, List.get?, Machine.advance, Machine.push, Machine.read, Machine.get,
    Machine.store, Machine.write, Machine.set, Machine.arith]
  generalize hC1 : word (↑B - 4) = C1
  have nB1 : ¬ B = C1 := by rw [← hC1]; exact word_push_ne B
  have hC1lt : C1 < 4294967296 := hC1 ▸ word_lt _
  have e1B : word (↑C1 + 4) = B := by rw [← hC1]; exact word_pop_push B hBlt
  simp only [l5]
  rw [run_succ]
  simp only [Machine.step, List.get?, Machine.advance, Machine.push, Machine.read, Machine.get,
    Machine.store, Machine.write, Machine.set, Machine.arith]
  simp only [e1B, if_true]
  rw [run_succ]
  simp only [Machine.step, List.get?, Machine.advance, Machine.push, Machine.read, Machine.get,
    Machine.store, Machine.write, Machine.set, Machine.arith]
  simp only [hX]
  rw [run_succ]
  simp only [Machine.step, List.get?, Machine.advance, Machine.push, Machine.read, Machine.get,
    Machine.store, Machine.write, Machine.set, Machine.arith]
  simp only [hC1, l1]
  rw [run_succ]
  simp only [Machine.step, List.get?, Machine.advance, Machine.push, Machine.read, Machine.get,
    Machine.store, Machine.write, Machine.set, Machine.arith]
  simp only [hX, nB1, if_true, if_false]
  generalize hC2 : word (↑C1 - 4) = C2
  have e21 : word (↑C2 + 4) = C1 := by rw [← hC2]; exact word_pop_push C1 hC1lt
  have n12 : ¬ C1 = C2 := by rw [← hC2]; exact word_push_ne C1
  rw [run_succ]
  simp only [Machine.step, List.get?, Machine.advance, Machine.push, Machine.read, Machine.get,
    Machine.store, Machine.write, Machine.set, Machine.arith]
  simp only [e21, if_true]
  rw [run_succ]
  simp only [Machine.step, List.get?, Machine.advance, Machine.push, Machine.read, Machine.get,
    Machine.store, Machine.write, Machine.set, Machine.arith]
  simp only [e1B, n12, if_true, if_false]
  rw [run_succ]
  simp only [Machine.step, List.get?, Machine.advance, Machine.push, Machine.read, Machine.get,
    Machine.store, Machine.write, Machine.set, Machine.arith]
  simp only [a6]
  rw [run_succ]
  simp only [Machine.step, List.get?, Machine.advance, Machine.push, Machine.read, Machine.get,
    Machine.store, Machine.write, Machine.set, Machine.arith]
  simp only [hC1]
  rw [run_succ]
  simp only [Machine.step, List.get?, Machine.advance, Machine.push, Machine.read, Machine.get,
    Machine.store, Machine.write, Machine.set, Machine.arith]
  simp only [e1B, if_true]
  rw [run_succ]
  simp only [Machine.step, List.get?, Machine.advance, Machine.push, Machine.read, Machine.get,
    Machine.store, Machine.write, Machine.set, Machine.arith]
  rw [run_succ]
  simp only [Machine.step, List.get?, Machine.advance, Machine.push, Machine.read, Machine.get,
    Machine.store, Machine.write, Machine.set, Machine.arith]
  simp only [Run.result, s6]

theorem sixty_five_locals_code :
    (Compiler.compile 100 (many_locals_source 65).toList).toOption.map
      (fun c => (c.localVars.find "v64", c.localVars.length, c.stackIndex, c.code)) = some
      (some (-260), 65, -260,
       [.label (.named "main"), .push (.reg .ebp), .mov (.reg .ebp) (.reg .esp),
        .sub .esp (.imm 256), .push (.lit "5"), .pop .eax,
        .mov (.ebp_rel (-260)) (.reg .eax), .push (.lit "1"), .push (.ebp_rel (-260)),
        .pop .edx, .pop .eax, .add .eax (.reg .edx), .push (.reg .eax), .pop .eax,
        .leave, .ret]) := by
  decide!

theorem sixty_four_locals_code :
    (Compiler.compile 100 (many_locals_source 64).toList).toOption.map
      (fun c => (c.localVars.find "v63", c.localVars.length, c.stackIndex, c.code)) = some
      (some (-256), 64, -256,
       [.label (.named "main"), .push (.reg .ebp), .mov (.reg .ebp) (.reg .esp),
        .sub .esp (.imm 256), .push (.lit "5"), .pop .eax,
        .mov (.ebp_rel (-256)) (.reg .eax), .push (.lit "1"), .push (.ebp_rel (-256)),
        .pop .edx, .pop .eax, .add .eax (.reg .edx), .push (.reg .eax), .pop .eax,
        .leave, .ret]) := by
  decide!

/-- C19 fails on the code for a `main` with 65 locals `v0` … `v64` followed
by `v64=5;return 1+v64;`: compilation succeeds, the prologue reserves 256
bytes and `v64` is bound to `[ebp-260]`, four bytes below the reserved frame,
which is the word the next `push` writes.  Run from any machine state the
emitted lines return 2, not 6: `push 1` overwrites `v64`.  The same program
with 64 locals, whose last slot `[ebp-256]` is the lowest word of the frame,
returns 6. -/
theorem local_below_frame_is_overwritten :
    ((Compiler.compile 100 (many_locals_source 65).toList).toOption.map
      (fun c => (c.localVars.find "v64", c.localVars.length, c.stackIndex, c.code)) = some
      (some (-260), 65, -260,
       [.label (.named "main"), .push (.reg .ebp), .mov (.reg .ebp) (.reg .esp),
        .sub .esp (.imm 256), .push (.lit "5"), .pop .eax,
        .mov (.ebp_rel (-260)) (.reg .eax), .push (.lit "1"), .push (.ebp_rel (-260)),
        .pop .edx, .pop .eax, .add .eax (.reg .edx), .push (.reg .eax), .pop .eax,
        .leave, .ret])) ∧
    (∀ m : Machine, (Machine.run
      [.label (.named "main"), .push (.reg .ebp), .mov (.reg .ebp) (.reg .esp),
        .sub .esp (.imm 256), .push (.lit "5"), .pop .eax,
        .mov (.ebp_rel (-260)) (.reg .eax), .push (.lit "1"), .push (.ebp_rel (-260)),
        .pop .edx, .pop .eax, .add .eax (.reg .edx), .push (.reg .eax), .pop .eax,
        .leave, .ret]
      16 { m with pc := 0 }).result = some 2) ∧
    ((Compiler.compile 100 (many_locals_source 64).toList).toOption.map
      (fun c => (c.localVars.find "v63", c.localVars.length, c.stackIndex, c.code)) = some
      (some (-256), 64, -256,
       [.label (.named "main"), .push (.reg .ebp), .mov (.reg .ebp) (.reg .esp),
        .sub .esp (.imm 256), .push (.lit "5"), .pop .eax,
        .mov (.ebp_rel (-256)) (.reg .eax), .push (.lit "1"), .push (.ebp_rel (-256)),
        .pop .edx, .pop .eax, .add .eax (.reg .edx), .push (.reg .eax), .pop .eax,
        .leave, .ret])) ∧
    (∀ m : Machine, (Machine.run
      [.label (.named "main"), .push (.reg .ebp), .mov (.reg .ebp) (.reg .esp),
        .sub .esp (.imm 256), .push (.lit "5"), .pop .eax,
        .mov (.ebp_rel (-256)) (.reg .eax), .push (.lit "1"), .push (.ebp_rel (-256)),
        .pop .edx, .pop .eax, .add .eax (.reg .edx), .push (.reg .eax), .pop .eax,
        .leave, .ret]
      16 { m with pc := 0 }).result = some 6) :=
  ⟨sixty_five_locals_code, fun _ => overflowing_code_returns_2 _ rfl, sixty_four_locals_code,
    fun _ => fitting_code_returns_6 _ rfl⟩

end CompilerDesign
